import Mathlib

/-!
Scallop transcript assembler: hits, CIGAR interpretation and bundle seeding.

A shallow embedding of `hit.cc` and of the first steps of `bundle::build`
(`bundle.cc`), followed by theorems about them.

Conventions of the embedding.

* `int32_t` values are integers; every 32-bit addition or subtraction of the
  source is followed by `wrap32`, the reduction to the signed 32-bit range.
* `uint32_t` CIGAR words and the `uint16_t` flag are natural numbers; the htslib
  macros `bam_cigar_op`, `bam_cigar_oplen`, `bam_cigar_type` are written out.
* `char` fields (`strand`, `xs`, `ts`) are `Char`.
* The configuration values `min_flank_length`, `max_num_cigar`,
  `min_splice_boundary_hits` and `library_type` are declared in `config.h`, which is
  not among the sources; they are parameters of the functions that read them.
-/

namespace Scallop

/-! ## Machine integers -/

/-- Reduction of an integer to the signed 32-bit range `[-2^31, 2^31)`. -/
def wrap32 (x : Int) : Int := (x + 2147483648) % 4294967296 - 2147483648

/-! ## Packed positions (`util.h`) -/

/-- Modelled from the spec: the macros `pack`, `high32` and `low32` of `util.h` are
not among the sources. The spec calls a splice position a "64-bit packed (left, right)
pair"; a packed value is represented by the pair of 32-bit coordinates it encodes. -/
abbrev Packed := Int × Int

/-- Modelled from the spec: `pack(x, y)` of `util.h` (absent), the packed pair with
high word `x` and low word `y`. -/
def pack (x y : Int) : Packed := (x, y)

/-- Modelled from the spec: `high32(p)` of `util.h` (absent), the left coordinate. -/
def high32 (p : Packed) : Int := p.1

/-- Modelled from the spec: `low32(p)` of `util.h` (absent), the right coordinate. -/
def low32 (p : Packed) : Int := p.2

/-- Numeric order of packed values with non-negative coordinates: the key order of a
`std::map<int64_t, int>`. -/
def packed_lt (a b : Packed) : Bool :=
  decide (a.1 < b.1) || (decide (a.1 = b.1) && decide (a.2 < b.2))

/-! ## CIGAR words (htslib `sam.h`) -/

def BAM_CMATCH : Nat := 0
def BAM_CINS : Nat := 1
def BAM_CDEL : Nat := 2
def BAM_CREF_SKIP : Nat := 3
def BAM_CIGAR_TYPE : Nat := 0x3C1A7

/-- The macro `bam_cigar_op(c)`, that is `c & 0xf`. -/
def bam_cigar_op (c : Nat) : Nat := c &&& 0xf

/-- The macro `bam_cigar_oplen(c)`, that is `c >> 4`. -/
def bam_cigar_oplen (c : Nat) : Nat := c >>> 4

/-- The macro `bam_cigar_type(o)`, that is `BAM_CIGAR_TYPE >> (o << 1) & 3`:
bit 1 is set when the operation consumes the query, bit 2 when it consumes the
reference. -/
def bam_cigar_type (o : Nat) : Nat := (BAM_CIGAR_TYPE >>> (o <<< 1)) &&& 3

/-- The function `bam_cigar2rlen`: total length of the reference-consuming operations. -/
def bam_cigar2rlen (cigar : List Nat) : Nat :=
  cigar.foldl (fun l c =>
    if bam_cigar_type (bam_cigar_op c) &&& 2 ≠ 0 then l + bam_cigar_oplen c else l) 0

/-- The function `bam_cigar2qlen`: total length of the query-consuming operations. -/
def bam_cigar2qlen (cigar : List Nat) : Nat :=
  cigar.foldl (fun l c =>
    if bam_cigar_type (bam_cigar_op c) &&& 1 ≠ 0 then l + bam_cigar_oplen c else l) 0

/-! ## Alignment records (htslib `bam1_t`) -/

/-- One auxiliary field of a record: its two-letter tag, its type byte and the value
that follows the type byte (the character code for type `A`, the byte for type `C`). -/
structure aux_field where
  tag : String
  type : Char
  value : Nat
deriving DecidableEq

/-- The part of `bam1_t` that `hit` reads: the core fields, the query name, the CIGAR
array (`n_cigar` is its length) and the auxiliary fields in record order. -/
structure bam1_t where
  tid : Int
  pos : Int
  qual : Nat
  flag : Nat
  mtid : Int
  mpos : Int
  isize : Int
  qname : String
  cigar : List Nat
  aux : List aux_field
deriving DecidableEq

/-- The function `bam_aux_get(b, tag)`: the first auxiliary field carrying the tag. -/
def bam_aux_get (b : bam1_t) (tag : String) : Option aux_field :=
  b.aux.find? (fun f => f.tag == tag)

/-- The function `bam_aux2A(p)`: the character of a field of type `A`, else `0`. -/
def bam_aux2A (f : aux_field) : Char :=
  if f.type = 'A' then Char.ofNat f.value else Char.ofNat 0

/-- The function `bam_aux2i(p)` on a field of type `C` (an unsigned byte). -/
def bam_aux2i (f : aux_field) : Int :=
  if f.type = 'C' then (f.value % 256 : Nat) else 0

/-! ## Configuration (`config.h`) -/

/-- Modelled from the spec: the library-type constants of `config.h` (absent);
`library_type ∈ {unstranded, FR-first, FR-second}`. -/
inductive library_type_t where
  | UNSTRANDED
  | FR_FIRST
  | FR_SECOND
deriving DecidableEq

open library_type_t

/-! ## Hits (`hit.cc`) -/

/-- The class `hit`: the `bam1_core_t` fields it inherits and its own members. The
CIGAR array has `n_cigar` entries, so `n_cigar` is the length of `cigar`. -/
structure hit where
  tid : Int
  pos : Int
  qual : Nat
  flag : Nat
  mtid : Int
  mpos : Int
  isize : Int
  rpos : Int
  qlen : Int
  qname : String
  strand : Char
  spos : List Packed
  xs : Char
  ts : Char
  hi : Int
  nh : Int
  nm : Int
  cigar : List Nat
deriving DecidableEq

/-- The constructor `hit::hit(bam1_t *b)`. The two assertions on `n_cigar` make the
construction fail (`none`). Members that the constructor leaves unset (`strand`,
`xs`, `ts`, `hi`, `nh`, `nm`) get the values of the commented-out default constructor;
`set_tags` and `set_strand` assign them before they are read. -/
def hit.ofRecord (max_num_cigar : Nat) (b : bam1_t) : Option hit :=
  let n_cigar := b.cigar.length
  let rpos := wrap32 (b.pos + wrap32 (bam_cigar2rlen b.cigar))
  let qlen := wrap32 (bam_cigar2qlen b.cigar)
  if ¬ (n_cigar ≤ max_num_cigar) then none
  else if ¬ (n_cigar ≥ 1) then none
  else some
    { tid := b.tid, pos := b.pos, qual := b.qual, flag := b.flag, mtid := b.mtid,
      mpos := b.mpos, isize := b.isize, rpos := rpos, qlen := qlen, qname := b.qname,
      strand := '.', spos := [], xs := '.', ts := '.', hi := -1, nh := -1, nm := 0,
      cigar := b.cigar.take n_cigar }

/-- The method `hit::set_tags(bam1_t *b)`. -/
def hit.set_tags (h : hit) (b : bam1_t) : hit :=
  let ts := '.'
  let p0 := bam_aux_get b "ts"
  let ts := match p0 with
    | some f => if f.type = 'A' then bam_aux2A f else ts
    | none => ts
  let xs := '.'
  let p1 := bam_aux_get b "XS"
  let xs := match p1 with
    | some f => if f.type = 'A' then bam_aux2A f else xs
    | none => xs
  let xs :=
    if xs = '.' ∧ ts ≠ '.' then
      let xs := if (h.flag &&& 0x10) ≥ 1 ∧ ts = '+' then '-' else xs
      let xs := if (h.flag &&& 0x10) ≥ 1 ∧ ts = '-' then '+' else xs
      let xs := if (h.flag &&& 0x10) ≤ 0 ∧ ts = '+' then '+' else xs
      let xs := if (h.flag &&& 0x10) ≤ 0 ∧ ts = '-' then '-' else xs
      xs
    else xs
  let hi : Int := -1
  let hi := match bam_aux_get b "HI" with
    | some f => if f.type = 'C' then bam_aux2i f else hi
    | none => hi
  let nh : Int := -1
  let nh := match bam_aux_get b "NH" with
    | some f => if f.type = 'C' then bam_aux2i f else nh
    | none => nh
  let nm : Int := 0
  let nm := match bam_aux_get b "nM" with
    | some f => if f.type = 'C' then bam_aux2i f else nm
    | none => nm
  let nm := match bam_aux_get b "NM" with
    | some f => if f.type = 'C' then bam_aux2i f else nm
    | none => nm
  { h with ts := ts, xs := xs, hi := hi, nh := nh, nm := nm }

/-- The method `hit::set_strand()`, reading the global `library_type`. -/
def hit.set_strand (library_type : library_type_t) (h : hit) : hit :=
  let flag := h.flag
  let strand := '.'
  let strand :=
    if library_type = FR_FIRST ∧ (flag &&& 0x1) ≥ 1 then
      let strand := if (flag &&& 0x10) ≤ 0 ∧ (flag &&& 0x40) ≥ 1 ∧ (flag &&& 0x80) ≤ 0 then '-' else strand
      let strand := if (flag &&& 0x10) ≥ 1 ∧ (flag &&& 0x40) ≥ 1 ∧ (flag &&& 0x80) ≤ 0 then '+' else strand
      let strand := if (flag &&& 0x10) ≤ 0 ∧ (flag &&& 0x40) ≤ 0 ∧ (flag &&& 0x80) ≥ 1 then '+' else strand
      let strand := if (flag &&& 0x10) ≥ 1 ∧ (flag &&& 0x40) ≤ 0 ∧ (flag &&& 0x80) ≥ 1 then '-' else strand
      strand
    else strand
  let strand :=
    if library_type = FR_SECOND ∧ (flag &&& 0x1) ≥ 1 then
      let strand := if (flag &&& 0x10) ≤ 0 ∧ (flag &&& 0x40) ≥ 1 ∧ (flag &&& 0x80) ≤ 0 then '+' else strand
      let strand := if (flag &&& 0x10) ≥ 1 ∧ (flag &&& 0x40) ≥ 1 ∧ (flag &&& 0x80) ≤ 0 then '-' else strand
      let strand := if (flag &&& 0x10) ≤ 0 ∧ (flag &&& 0x40) ≤ 0 ∧ (flag &&& 0x80) ≥ 1 then '-' else strand
      let strand := if (flag &&& 0x10) ≥ 1 ∧ (flag &&& 0x40) ≤ 0 ∧ (flag &&& 0x80) ≥ 1 then '+' else strand
      strand
    else strand
  let strand :=
    if library_type = FR_FIRST ∧ (flag &&& 0x1) ≤ 0 then
      let strand := if (flag &&& 0x10) ≤ 0 then '-' else strand
      let strand := if (flag &&& 0x10) ≥ 1 then '+' else strand
      strand
    else strand
  let strand :=
    if library_type = FR_SECOND ∧ (flag &&& 0x1) ≤ 0 then
      let strand := if (flag &&& 0x10) ≤ 0 then '+' else strand
      let strand := if (flag &&& 0x10) ≥ 1 then '-' else strand
      strand
    else strand
  { h with strand := strand }

/-- One iteration of the loop of `hit::build_splice_positions`, at index `k`, on the
loop state `(p, q, spos)`. -/
def build_splice_positions_step (min_flank_length : Nat) (cigar : List Nat)
    (st : Int × Int × List Packed) (k : Nat) : Int × Int × List Packed :=
  let n_cigar := cigar.length
  let p := st.1
  let q := st.2.1
  let spos := st.2.2
  let p := if bam_cigar_type (bam_cigar_op (cigar.getD k 0)) &&& 2 ≠ 0
    then wrap32 (p + bam_cigar_oplen (cigar.getD k 0)) else p
  let q := if bam_cigar_type (bam_cigar_op (cigar.getD k 0)) &&& 1 ≠ 0
    then wrap32 (q + bam_cigar_oplen (cigar.getD k 0)) else q
  if k = 0 ∨ k = n_cigar - 1 then (p, q, spos)
  else if bam_cigar_op (cigar.getD k 0) ≠ BAM_CREF_SKIP then (p, q, spos)
  else if bam_cigar_op (cigar.getD (k - 1) 0) ≠ BAM_CMATCH then (p, q, spos)
  else if bam_cigar_op (cigar.getD (k + 1) 0) ≠ BAM_CMATCH then (p, q, spos)
  else if bam_cigar_oplen (cigar.getD (k - 1) 0) < min_flank_length then (p, q, spos)
  else if bam_cigar_oplen (cigar.getD (k + 1) 0) < min_flank_length then (p, q, spos)
  else
    let s := wrap32 (p - bam_cigar_oplen (cigar.getD k 0))
    (p, q, spos ++ [pack s p])

/-- The method `hit::build_splice_positions()`, reading the global `min_flank_length`. -/
def hit.build_splice_positions (min_flank_length : Nat) (h : hit) : hit :=
  let st := (List.range h.cigar.length).foldl
    (build_splice_positions_step min_flank_length h.cigar) (h.pos, 0, [])
  { h with spos := st.2.2 }

/-- Modelled from the spec: `hit::get_splice_positions` is defined in `hit.h`, which is
not among the sources; it hands out "the list of splice positions" of the hit. -/
def hit.get_splice_positions (h : hit) : List Packed := h.spos

/-- The three output vectors of `hit::get_mid_intervals`, with the running reference
position `p` of its loop. -/
structure mid_intervals where
  p : Int
  vm : List Packed
  vi : List Packed
  vd : List Packed
deriving DecidableEq

/-- One iteration of the loop of `hit::get_mid_intervals`, at index `k`. -/
def get_mid_intervals_step (cigar : List Nat) (st : mid_intervals) (k : Nat) :
    mid_intervals :=
  let p := st.p
  let p := if bam_cigar_type (bam_cigar_op (cigar.getD k 0)) &&& 2 ≠ 0
    then wrap32 (p + bam_cigar_oplen (cigar.getD k 0)) else p
  let vm := if bam_cigar_op (cigar.getD k 0) = BAM_CMATCH
    then st.vm ++ [pack (wrap32 (p - bam_cigar_oplen (cigar.getD k 0))) p] else st.vm
  let vi := if bam_cigar_op (cigar.getD k 0) = BAM_CINS
    then st.vi ++ [pack (wrap32 (p - 1)) (wrap32 (p + 1))] else st.vi
  let vd := if bam_cigar_op (cigar.getD k 0) = BAM_CDEL
    then st.vd ++ [pack (wrap32 (p - bam_cigar_oplen (cigar.getD k 0))) p] else st.vd
  { p := p, vm := vm, vi := vi, vd := vd }

/-- The method `hit::get_mid_intervals(vm, vi, vd)`: the three vectors are cleared and
the CIGAR is walked from index `0` to `n_cigar - 1`. -/
def hit.get_mid_intervals (h : hit) : mid_intervals :=
  (List.range h.cigar.length).foldl (get_mid_intervals_step h.cigar)
    { p := h.pos, vm := [], vi := [], vd := [] }

/-- The method `hit::get_matched_intervals(v)`. -/
def hit.get_matched_intervals (h : hit) : List Packed := h.get_mid_intervals.vm

/-! ## Junctions and bundles (`bundle.cc`) -/

/-- Modelled from the spec: the class `junction` (`junction.h`, absent) is the triple
"(lpos, rpos, count)" together with the partial-exon indices `lexon`, `rexon` that
`bundle::link_partial_exons` fills in. -/
structure junction where
  lpos : Int
  rpos : Int
  count : Nat
  lexon : Int
  rexon : Int
deriving DecidableEq

/-- Modelled from the spec: the constructor `junction(int64_t p, int c)` (absent)
unpacks the left and right intron endpoints of `p`. -/
def junction.ofPacked (p : Packed) (c : Nat) : junction :=
  { lpos := high32 p, rpos := low32 p, count := c, lexon := -1, rexon := -1 }

/-- The packed position a junction was built from. -/
def junction.packed (j : junction) : Packed := pack j.lpos j.rpos

/-- Modelled from the spec: the boundary-type constants (their header is absent), the
"types (START_BOUNDARY, END_BOUNDARY, LEFT_SPLICE, RIGHT_SPLICE, LEFT_RIGHT_SPLICE)" of
boundary points. -/
inductive boundary_type where
  | START_BOUNDARY
  | END_BOUNDARY
  | LEFT_SPLICE
  | RIGHT_SPLICE
  | LEFT_RIGHT_SPLICE
deriving DecidableEq

open boundary_type

/-- Modelled from the spec: the class `partial_exon` (`partial_exon.h`, absent), an
interval `[lpos, rpos)` with "boundary types, average coverage `ave`, coverage standard
deviation `dev`". The two `double` members are rational numbers. -/
structure partial_exon where
  lpos : Int
  rpos : Int
  ltype : boundary_type
  rtype : boundary_type
  ave : ℚ
  dev : ℚ
deriving DecidableEq

/-- Modelled from the spec: the class `region` (`region.h`, absent): the interval between
two consecutive boundary points, with their types, and the partial exons it emits. -/
structure region where
  lpos : Int
  rpos : Int
  ltype : boundary_type
  rtype : boundary_type
  pexons : List partial_exon
deriving DecidableEq

/-- The collaborators of `bundle` that read the coverage map `mmap` and the indel map
`imap` and whose code is not among the sources: `evaluate_rectangle(mmap, l, r, ave, dev)`
yields the pair `(ave, dev)`, and the constructor `region(l, r, ltype, rtype, &mmap, &imap)`
computes the partial exons of the region. -/
structure coverage_env where
  evaluate_rectangle : Int → Int → ℚ × ℚ
  region_pexons : Int → Int → boundary_type → boundary_type → List partial_exon

/-- The constructor `region(l, r, ltype, rtype, &mmap, &imap)`. -/
def region.make (env : coverage_env) (l r : Int) (ltype rtype : boundary_type) : region :=
  { lpos := l, rpos := r, ltype := ltype, rtype := rtype,
    pexons := env.region_pexons l r ltype rtype }

/-! ## Splice graph -/

/-- Modelled from the spec: the struct `vertex_info` (absent), "(lpos, rpos, length,
stddev) info" of a vertex; a default-constructed value has all members `0`. -/
structure vertex_info where
  lpos : Int := 0
  rpos : Int := 0
  length : Int := 0
  stddev : ℚ := 0
deriving DecidableEq

/-- Modelled from the spec: the struct `edge_info` (absent); `bundle.cc` writes its member
`weight`, and a default-constructed value has weight `0`. -/
structure edge_info where
  weight : ℚ := 0
deriving DecidableEq

/-- A vertex of the splice graph: its coverage weight and its info. -/
structure graph_vertex where
  weight : ℚ := 0
  info : vertex_info := {}
deriving DecidableEq

/-- An edge of the splice graph. The edge descriptor of the source is the identifier `id`;
`s` and `t` are the source and target vertices; `weight`, `stddev` and `info` are the
values attached to the edge. -/
structure graph_edge where
  id : Nat
  s : Nat
  t : Nat
  weight : ℚ := 0
  stddev : ℚ := 0
  info : edge_info := {}
deriving DecidableEq

/-- Modelled from the spec: the class `splice_graph` (absent), a "directed multigraph"
whose "vertex carries (lpos, rpos, length, stddev) info and a coverage weight" and whose
"edge carries a weight ... and info". Vertices are numbered `0, 1, ...` in the order of
`add_vertex`; the live edges are kept in the order of `add_edge`; `next` is the
identifier that the next new edge receives, so descriptors are never reused. -/
structure splice_graph where
  vertices : List graph_vertex := []
  edges : List graph_edge := []
  next : Nat := 0
deriving DecidableEq

/-- Modelled from the spec: `gr.clear()`. -/
def splice_graph.clear (_g : splice_graph) : splice_graph := {}

/-- Modelled from the spec: `gr.num_vertices()`. -/
def splice_graph.num_vertices (g : splice_graph) : Nat := g.vertices.length

/-- Modelled from the spec: `gr.add_vertex()`. -/
def splice_graph.add_vertex (g : splice_graph) : splice_graph :=
  { g with vertices := g.vertices ++ [{}] }

/-- Modelled from the spec: `gr.set_vertex_weight(v, w)`. -/
def splice_graph.set_vertex_weight (g : splice_graph) (v : Nat) (w : ℚ) : splice_graph :=
  { g with vertices := g.vertices.modify (fun x => { x with weight := w }) v }

/-- Modelled from the spec: `gr.set_vertex_info(v, vi)`. -/
def splice_graph.set_vertex_info (g : splice_graph) (v : Nat) (vi : vertex_info) :
    splice_graph :=
  { g with vertices := g.vertices.modify (fun x => { x with info := vi }) v }

/-- Modelled from the spec: `gr.get_vertex_weight(v)`. -/
def splice_graph.get_vertex_weight (g : splice_graph) (v : Nat) : ℚ :=
  (g.vertices.getD v {}).weight

/-- Modelled from the spec: `gr.get_vertex_info(v)`. -/
def splice_graph.get_vertex_info (g : splice_graph) (v : Nat) : vertex_info :=
  (g.vertices.getD v {}).info

/-- Modelled from the spec: `gr.add_edge(s, t)`: a new edge from `s` to `t` is appended
(parallel edges are allowed); the result is the graph and the descriptor of the edge. -/
def splice_graph.add_edge (g : splice_graph) (s t : Nat) : splice_graph × Nat :=
  ({ g with edges := g.edges ++ [{ id := g.next, s := s, t := t }], next := g.next + 1 },
    g.next)

/-- Modelled from the spec: `gr.set_edge_weight(e, w)`. -/
def splice_graph.set_edge_weight (g : splice_graph) (e : Nat) (w : ℚ) : splice_graph :=
  { g with edges := g.edges.map (fun x => if x.id = e then { x with weight := w } else x) }

/-- Modelled from the spec: `set_edge_stddev(e, a, gr)`. -/
def splice_graph.set_edge_stddev (g : splice_graph) (e : Nat) (a : ℚ) : splice_graph :=
  { g with edges := g.edges.map (fun x => if x.id = e then { x with stddev := a } else x) }

/-- Modelled from the spec: `gr.set_edge_info(e, ei)`. -/
def splice_graph.set_edge_info (g : splice_graph) (e : Nat) (ei : edge_info) :
    splice_graph :=
  { g with edges := g.edges.map (fun x => if x.id = e then { x with info := ei } else x) }

/-- The edge object behind a descriptor, if the edge is in the graph. -/
def splice_graph.find_edge (g : splice_graph) (e : Nat) : Option graph_edge :=
  g.edges.find? (fun x => x.id = e)

/-- Modelled from the spec: `gr.in_edges(v)`, the edges into `v` in insertion order. -/
def splice_graph.in_edges (g : splice_graph) (v : Nat) : List graph_edge :=
  g.edges.filter (fun x => x.t = v)

/-- Modelled from the spec: `gr.out_edges(v)`, the edges out of `v` in insertion order. -/
def splice_graph.out_edges (g : splice_graph) (v : Nat) : List graph_edge :=
  g.edges.filter (fun x => x.s = v)

/-- Modelled from the spec: `gr.in_degree(v)`. -/
def splice_graph.in_degree (g : splice_graph) (v : Nat) : Nat := (g.in_edges v).length

/-- Modelled from the spec: `gr.out_degree(v)`. -/
def splice_graph.out_degree (g : splice_graph) (v : Nat) : Nat := (g.out_edges v).length

/-- Modelled from the spec: `gr.edge(s, t)`, an edge from `s` to `t` if there is one (the
second component of the pair returned by the source says whether there is). -/
def splice_graph.edge (g : splice_graph) (s t : Nat) : Option graph_edge :=
  g.edges.find? (fun x => x.s = s ∧ x.t = t)

/-- Modelled from the spec: `clear_vertex(v, gr)`, which removes every edge into or out
of `v`. -/
def splice_graph.clear_vertex (g : splice_graph) (v : Nat) : splice_graph :=
  { g with edges := g.edges.filter (fun x => ¬ (x.s = v ∨ x.t = v)) }

/-- Modelled from the spec: `remove_edge(e, gr)`. -/
def splice_graph.remove_edge (g : splice_graph) (e : Nat) : splice_graph :=
  { g with edges := g.edges.filter (fun x => x.id ≠ e) }

/-! ## Interval maps (`boost::icl`) -/

/-- A segment of an interval map: the right-open interval `[lo, hi)` and the value
associated with it. An interval map is a list of pairwise disjoint, non-empty segments
in ascending order. -/
structure segment where
  lo : Int
  hi : Int
  val : Int
deriving DecidableEq

/-- Addition of the pair `([l, r), c)` to a splitting interval map (`m += make_pair(ROI(l,
r), c)`): an empty interval adds nothing; on the parts where `[l, r)` overlaps existing
segments the values are added, and the segments are split at the borders of the
overlap; the uncovered parts of `[l, r)` become new segments. -/
def icl_add (l r c : Int) : List segment → List segment
  | [] => if l < r then [{ lo := l, hi := r, val := c }] else []
  | x :: rest =>
    if r ≤ l then x :: rest
    else if r ≤ x.lo then { lo := l, hi := r, val := c } :: x :: rest
    else if x.hi ≤ l then x :: icl_add l r c rest
    else
      let pre : List segment :=
        if l < x.lo then [{ lo := l, hi := x.lo, val := c }]
        else if x.lo < l then [{ lo := x.lo, hi := l, val := x.val }]
        else []
      let mid : segment := { lo := max l x.lo, hi := min r x.hi, val := c + x.val }
      if r < x.hi then pre ++ [mid, { lo := r, hi := x.hi, val := x.val }] ++ rest
      else if r = x.hi then pre ++ [mid] ++ rest
      else pre ++ [mid] ++ icl_add x.hi r c rest

/-- Joining of an interval map: neighbouring segments that touch and carry the same value
are merged into one segment. -/
def icl_join : List segment → List segment
  | [] => []
  | [x] => [x]
  | x :: y :: rest =>
    if x.hi = y.lo ∧ x.val = y.val then icl_join ({ lo := x.lo, hi := y.hi, val := x.val } :: rest)
    else x :: icl_join (y :: rest)
termination_by l => l.length

/-- Addition to a `join_interval_map`: the pair is added and the map is kept joined. -/
def join_interval_map_add (m : List segment) (l r c : Int) : List segment :=
  icl_join (icl_add l r c m)

/-- The lookup `m.find(ROI(l, r))` of an interval map: the first segment that overlaps
`[l, r)`. -/
def icl_find (m : List segment) (l r : Int) : Option segment :=
  m.find? (fun x => x.lo < r ∧ l < x.hi)

/-- Modelled from the spec: the class `hyper_set` (absent), "a multiset of read-derived
node chains"; it is kept as the list of the node lists passed to `add_node_list`, each
an ascending duplicate-free list (a `std::set<int>`). -/
abbrev hyper_set := List (List Int)

/-- The members of `bundle` (inherited from `bundle_base`) used by `bundle::build` and
`bundle::output_transcript`. -/
structure bundle where
  tid : Int
  lpos : Int
  rpos : Int
  strand : Char
  hits : List hit
  junctions : List junction
  chrm : String := ""
  regions : List region := []
  pexons : List partial_exon := []
  pmap : List segment := []
  gr : splice_graph := {}
  hs : hyper_set := []
deriving DecidableEq

/-- One iteration of the counting loop of `bundle::compute_strand` on the counters
`(n0, np, nq)`. -/
def compute_strand_step (st : Nat × Nat × Nat) (h : hit) : Nat × Nat × Nat :=
  let n0 := if h.xs = '.' then st.1 + 1 else st.1
  let np := if h.xs = '+' then st.2.1 + 1 else st.2.1
  let nq := if h.xs = '-' then st.2.2 + 1 else st.2.2
  (n0, np, nq)

/-- The method `bundle::compute_strand()`. -/
def bundle.compute_strand (b : bundle) : bundle :=
  let st := b.hits.foldl compute_strand_step (0, 0, 0)
  let np := st.2.1
  let nq := st.2.2
  let strand := b.strand
  let strand := if np > nq then '+' else strand
  let strand := if np < nq then '-' else strand
  { b with strand := strand }

/-- The lookup `m.find(p)` of a `std::map<int64_t, int>` kept as an association list
in ascending key order. -/
def map_find : List (Packed × Nat) → Packed → Option Nat
  | [], _ => none
  | (k, c) :: m, p => if k = p then some c else map_find m p

/-- Placement of a new pair at its position in ascending key order. -/
def map_place : List (Packed × Nat) → Packed → Nat → List (Packed × Nat)
  | [], p, c => [(p, c)]
  | (k, d) :: m, p, c =>
    if packed_lt p k then (p, c) :: (k, d) :: m else (k, d) :: map_place m p c

/-- The call `m.insert(pair(p, c))`: a map that already holds the key is left as it is,
otherwise the pair is placed at its position in key order. -/
def map_insert (m : List (Packed × Nat)) (p : Packed) (c : Nat) : List (Packed × Nat) :=
  if (map_find m p).isSome then m else map_place m p c

/-- Increment of the value stored under the key `p`. -/
def map_succ : List (Packed × Nat) → Packed → List (Packed × Nat)
  | [], _ => []
  | (k, d) :: m, p => if k = p then (k, d + 1) :: m else (k, d) :: map_succ m p

/-- The statement `m[p]++`: `operator[]` inserts the value `0` under an absent key and
yields a reference to the stored value, which is then incremented. -/
def map_incr (m : List (Packed × Nat)) (p : Packed) : List (Packed × Nat) :=
  map_succ (map_insert m p 0) p

/-- The body of the inner loop of `bundle::build_junctions` for one splice position. -/
def build_junctions_count (m : List (Packed × Nat)) (p : Packed) : List (Packed × Nat) :=
  if map_find m p = none then map_insert m p 1 else map_incr m p

/-- The body of the outer loop of `bundle::build_junctions` for one hit. -/
def build_junctions_hit (m : List (Packed × Nat)) (h : hit) : List (Packed × Nat) :=
  let v := h.get_splice_positions
  if v.length = 0 then m else v.foldl build_junctions_count m

/-- The method `bundle::build_junctions()`, reading the global
`min_splice_boundary_hits`: the map is filled from all hits, then walked in key order,
and the entries that reach the threshold are appended to `junctions`. -/
def bundle.build_junctions (min_splice_boundary_hits : Nat) (b : bundle) : bundle :=
  let m := b.hits.foldl build_junctions_hit []
  let js := m.foldl (fun (js : List junction) (it : Packed × Nat) =>
    if it.2 < min_splice_boundary_hits then js
    else js ++ [junction.ofPacked it.1 it.2]) b.junctions
  { b with junctions := js }

/-- The method `bundle::check_left_ascending()`: whether all its assertions
`hits[i - 1].pos <= hits[i].pos` hold. -/
def bundle.check_left_ascending (b : bundle) : Bool :=
  (List.range (b.hits.length - 1)).all (fun k =>
    match b.hits.get? k, b.hits.get? (k + 1) with
    | some h1, some h2 => decide (h1.pos ≤ h2.pos)
    | _, _ => true)

/-! ### Maps with integer keys (`std::map<int32_t, int>`) -/

/-- The lookup `m.find(k)` of a `std::map` with integer keys, kept as an association
list in ascending key order. -/
def mpi_find {α : Type} (m : List (Int × α)) (k : Int) : Option α :=
  (m.find? (fun x => x.1 = k)).map Prod.snd

/-- Placement of a new pair at its position in ascending key order. -/
def mpi_place {α : Type} : List (Int × α) → Int → α → List (Int × α)
  | [], k, v => [(k, v)]
  | x :: m, k, v => if k < x.1 then (k, v) :: x :: m else x :: mpi_place m k v

/-- The call `m.insert(pair(k, v))`: a map that already holds the key is left as it is. -/
def mpi_insert {α : Type} (m : List (Int × α)) (k : Int) (v : α) : List (Int × α) :=
  if (mpi_find m k).isSome then m else mpi_place m k v

/-- The assignment `m[k] = v`. -/
def mpi_assign {α : Type} (m : List (Int × α)) (k : Int) (v : α) : List (Int × α) :=
  if (mpi_find m k).isSome then m.map (fun x => if x.1 = k then (k, v) else x)
  else mpi_place m k v

/-! ### Regions and partial exons -/

/-- The body of the junction loop of `bundle::build_regions(count)` on the boundary map
`s`. -/
def build_regions_junction (env : coverage_env) (count : Int)
    (s : List (Int × boundary_type)) (jc : junction) : List (Int × boundary_type) :=
  let ave := (env.evaluate_rectangle jc.lpos jc.rpos).1
  if (jc.count : Int) < count ∧ ave ≥ (count : ℚ) then s
  else
    let l := jc.lpos
    let r := jc.rpos
    let s :=
      if mpi_find s l = none then mpi_insert s l LEFT_SPLICE
      else if mpi_find s l = some RIGHT_SPLICE then mpi_assign s l LEFT_RIGHT_SPLICE
      else s
    let s :=
      if mpi_find s r = none then mpi_insert s r RIGHT_SPLICE
      else if mpi_find s r = some LEFT_SPLICE then mpi_assign s r LEFT_RIGHT_SPLICE
      else s
    s

/-- The body of the partial-exon loop of `bundle::build_regions` on the boundary map. -/
def build_regions_pexon (s : List (Int × boundary_type)) (p : partial_exon) :
    List (Int × boundary_type) :=
  let s := if mpi_find s p.lpos ≠ none then mpi_insert s p.lpos p.ltype else s
  let s := if mpi_find s p.rpos ≠ none then mpi_insert s p.rpos p.rtype else s
  s

/-- The boundary map `s` that `bundle::build_regions(count)` has built when it copies it
into the vector `v`. -/
def bundle.build_regions_boundaries (env : coverage_env) (count : Int) (b : bundle) :
    List (Int × boundary_type) :=
  let s : List (Int × boundary_type) := []
  let s := mpi_insert s b.lpos START_BOUNDARY
  let s := mpi_insert s b.rpos END_BOUNDARY
  let s := b.junctions.foldl (build_regions_junction env count) s
  let s := b.pexons.foldl build_regions_pexon s
  s

/-- The region that `bundle::build_regions` builds from two consecutive boundary points. -/
def build_regions_region (env : coverage_env) (x y : Int × boundary_type) : region :=
  let l := x.1
  let r := y.1
  let ltype := x.2
  let rtype := y.2
  let ltype := if ltype = LEFT_RIGHT_SPLICE then RIGHT_SPLICE else ltype
  let rtype := if rtype = LEFT_RIGHT_SPLICE then LEFT_SPLICE else rtype
  region.make env l r ltype rtype

/-- The method `bundle::build_regions(count)`. The vector `v` is the content of the map
in key order; its keys are pairwise distinct, so `sort(v.begin(), v.end())` leaves it as
it is. One region is built for each pair `v[k]`, `v[k + 1]`. -/
def bundle.build_regions (env : coverage_env) (count : Int) (b : bundle) : bundle :=
  let v := b.build_regions_boundaries env count
  { b with regions := (List.zip v v.tail).map (fun xy => build_regions_region env xy.1 xy.2) }

/-- The method `bundle::build_partial_exons()`. -/
def bundle.build_partial_exons (b : bundle) : bundle :=
  { b with pexons := (b.regions.map region.pexons).flatten }

/-! ### Linking junctions to partial exons -/

/-- One iteration of the first loop of `bundle::link_partial_exons` on the index `i` and
the maps `lm`, `rm`; an assertion failure is `none`. -/
def link_partial_exons_pexon
    (st : Option (Nat × List (Int × Nat) × List (Int × Nat))) (p : partial_exon) :
    Option (Nat × List (Int × Nat) × List (Int × Nat)) :=
  match st with
  | none => none
  | some (i, lm, rm) =>
    let l := p.lpos
    let r := p.rpos
    if ¬ (mpi_find lm l = none) then none
    else if ¬ (mpi_find rm r = none) then none
    else some (i + 1, mpi_insert lm l i, mpi_insert rm r i)

/-- One iteration of the second loop of `bundle::link_partial_exons` on a junction; an
assertion failure is `none`. -/
def link_partial_exons_junction (lm rm : List (Int × Nat)) (b : junction) :
    Option junction :=
  let li := mpi_find rm b.lpos
  let ri := mpi_find lm b.rpos
  if ¬ (li ≠ none) then none
  else if ¬ (ri ≠ none) then none
  else
    match li, ri with
    | some x, some y => some { b with lexon := (x : Int), rexon := (y : Int) }
    | _, _ => some { b with lexon := -1, rexon := -1 }

/-- The second loop of `bundle::link_partial_exons` over the junctions, from the first
to the last; it stops at the first assertion failure. -/
def link_partial_exons_junctions (lm rm : List (Int × Nat)) :
    List junction → Option (List junction)
  | [] => some []
  | b :: rest =>
    match link_partial_exons_junction lm rm b with
    | none => none
    | some b1 =>
      match link_partial_exons_junctions lm rm rest with
      | none => none
      | some js => some (b1 :: js)

/-- The method `bundle::link_partial_exons()`; an assertion failure is `none`. -/
def bundle.link_partial_exons (b : bundle) : Option bundle :=
  if b.pexons.length = 0 then some b
  else
    match b.pexons.foldl link_partial_exons_pexon (some (0, [], [])) with
    | none => none
    | some (_, lm, rm) =>
      match link_partial_exons_junctions lm rm b.junctions with
      | none => none
      | some js => some { b with junctions := js }

/-! ### Construction of the splice graph -/

/-- One iteration of the vertex loop of `bundle::build_splice_graph` on the index `i`
and the graph; an assertion failure is `none`. -/
def build_splice_graph_vertex (st : Option (Nat × splice_graph)) (r : partial_exon) :
    Option (Nat × splice_graph) :=
  match st with
  | none => none
  | some (i, gr) =>
    let length := wrap32 (r.rpos - r.lpos)
    if ¬ (length ≥ 1) then none
    else
      let gr := gr.add_vertex
      let gr := gr.set_vertex_weight (i + 1) (if r.ave < 1.0 then 1.0 else r.ave)
      let vi : vertex_info :=
        { lpos := r.lpos, rpos := r.rpos, length := length,
          stddev := if r.dev < 1.0 then 1.0 else r.dev }
      let gr := gr.set_vertex_info (i + 1) vi
      some (i + 1, gr)

/-- One iteration of the junction loop of `bundle::build_splice_graph`. The references
`pexons[b.lexon]` and `pexons[b.rexon]` must denote elements of `pexons`; an index out
of range or an assertion failure is `none`. -/
def build_splice_graph_junction (pexons : List partial_exon) (st : Option splice_graph)
    (b : junction) : Option splice_graph :=
  match st with
  | none => none
  | some gr =>
    if b.lexon < 0 ∨ b.rexon < 0 then some gr
    else
      match pexons.get? b.lexon.toNat, pexons.get? b.rexon.toNat with
      | some _, some _ =>
        let (gr, p) := gr.add_edge (b.lexon + 1).toNat (b.rexon + 1).toNat
        if ¬ (b.count ≥ 1) then none
        else
          let ei : edge_info := { weight := b.count }
          let gr := gr.set_edge_info p ei
          let gr := gr.set_edge_weight p b.count
          some gr
      | _, _ => none

/-- One iteration of the loop of `bundle::build_splice_graph` that connects the source
and the sink to the partial exons, at index `i`. -/
def build_splice_graph_boundary (pexons : List partial_exon) (st : Option splice_graph)
    (i : Nat) : Option splice_graph :=
  match st, pexons.get? i with
  | some gr, some r =>
    let ss := 0
    let tt := pexons.length + 1
    let gr :=
      if r.ltype = START_BOUNDARY then
        let (gr, p) := gr.add_edge ss (i + 1)
        let w := r.ave
        let w := if i ≥ 1 ∧ (pexons.get? (i - 1)).map partial_exon.rpos = some r.lpos
          then w - ((pexons.get? (i - 1)).map partial_exon.ave).getD 0 else w
        let w := if w < 1.0 then 1.0 else w
        let gr := gr.set_edge_weight p w
        let ei : edge_info := { weight := w }
        gr.set_edge_info p ei
      else gr
    let gr :=
      if r.rtype = END_BOUNDARY then
        let (gr, p) := gr.add_edge (i + 1) tt
        let w := r.ave
        let w := if i < pexons.length - 1 ∧
            (pexons.get? (i + 1)).map partial_exon.lpos = some r.rpos
          then w - ((pexons.get? (i + 1)).map partial_exon.ave).getD 0 else w
        let w := if w < 1.0 then 1.0 else w
        let gr := gr.set_edge_weight p w
        let ei : edge_info := { weight := w }
        gr.set_edge_info p ei
      else gr
    some gr
  | _, _ => none

/-- One iteration of the loop of `bundle::build_splice_graph` that connects adjacent
partial exons, at index `i`. -/
def build_splice_graph_adjacent (pexons : List partial_exon) (st : Option splice_graph)
    (i : Nat) : Option splice_graph :=
  match st, pexons.get? i, pexons.get? (i + 1) with
  | some gr, some x, some y =>
    if x.rpos ≠ y.lpos then some gr
    else
      let xd := gr.out_degree (i + 1)
      let yd := gr.in_degree (i + 2)
      let wt := if xd < yd then x.ave else y.ave
      let (gr, p) := gr.add_edge (i + 1) (i + 2)
      let w := if wt < 1.0 then 1.0 else wt
      let gr := gr.set_edge_weight p w
      let ei : edge_info := { weight := w }
      some (gr.set_edge_info p ei)
  | _, _, _ => none

/-- The method `bundle::build_splice_graph()`; an assertion failure is `none`. -/
def bundle.build_splice_graph (b : bundle) : Option bundle :=
  let gr := b.gr.clear
  let gr := gr.add_vertex
  let vi0 : vertex_info := { lpos := b.lpos, rpos := b.lpos }
  let gr := gr.set_vertex_weight 0 0
  let gr := gr.set_vertex_info 0 vi0
  match b.pexons.foldl build_splice_graph_vertex (some (0, gr)) with
  | none => none
  | some (_, gr) =>
    let gr := gr.add_vertex
    let vin : vertex_info := { lpos := b.rpos, rpos := b.rpos }
    let gr := gr.set_vertex_weight (b.pexons.length + 1) 0
    let gr := gr.set_vertex_info (b.pexons.length + 1) vin
    let st := b.junctions.foldl (build_splice_graph_junction b.pexons) (some gr)
    let st := (List.range b.pexons.length).foldl (build_splice_graph_boundary b.pexons) st
    let st := (List.range (b.pexons.length - 1)).foldl
      (build_splice_graph_adjacent b.pexons) st
    match st with
    | none => none
    | some gr => some { b with gr := gr }

/-- One iteration of the loop of `bundle::extend_isolated_end_boundaries`, at vertex
`i`. The descriptors `e1` and `e2` are the first edge into and the first edge out of
`i`; the graph does not change between the moment they are taken and the moment their
weight is read, so the weight is that of the edge object. -/
def extend_isolated_end_boundaries_step (gr : splice_graph) (i : Nat) : splice_graph :=
  if gr.in_degree i ≠ 1 then gr
  else if gr.out_degree i ≠ 1 then gr
  else
    match (gr.in_edges i).head?, (gr.out_edges i).head? with
    | some e1, some e2 =>
      let s := e1.s
      let t := e2.t
      if gr.out_degree s ≠ 1 then gr
      else if t ≠ gr.num_vertices - 1 then gr
      else if e1.weight ≥ 1.5 then gr
      else if gr.get_vertex_weight s ≤ 5.0 then gr
      else if (gr.get_vertex_info s).rpos = (gr.get_vertex_info i).lpos then gr
      else
        let w := gr.get_vertex_weight s - e1.weight
        let (gr, e) := gr.add_edge s t
        let gr := gr.set_edge_weight e w
        gr.set_edge_info e {}
    | _, _ => gr

/-- The method `bundle::extend_isolated_end_boundaries()`. -/
def bundle.extend_isolated_end_boundaries (b : bundle) : bundle :=
  let gr := (List.range b.gr.num_vertices).tail.foldl
    extend_isolated_end_boundaries_step b.gr
  { b with gr := gr }

/-- One iteration of the loop of `bundle::extend_isolated_start_boundaries`, at vertex
`i`. -/
def extend_isolated_start_boundaries_step (gr : splice_graph) (i : Nat) : splice_graph :=
  if gr.in_degree i ≠ 1 then gr
  else if gr.out_degree i ≠ 1 then gr
  else
    match (gr.in_edges i).head?, (gr.out_edges i).head? with
    | some e1, some e2 =>
      let s := e1.s
      let t := e2.t
      if s ≠ 0 then gr
      else if gr.in_degree t ≠ 1 then gr
      else if e2.weight ≥ 1.5 then gr
      else if gr.get_vertex_weight t ≤ 5.0 then gr
      else if (gr.get_vertex_info i).rpos = (gr.get_vertex_info t).lpos then gr
      else
        let w := gr.get_vertex_weight t - e2.weight
        let (gr, e) := gr.add_edge s t
        let gr := gr.set_edge_weight e w
        gr.set_edge_info e {}
    | _, _ => gr

/-- The method `bundle::extend_isolated_start_boundaries()`. -/
def bundle.extend_isolated_start_boundaries (b : bundle) : bundle :=
  let gr := (List.range b.gr.num_vertices).tail.foldl
    extend_isolated_start_boundaries_step b.gr
  { b with gr := gr }

/-! ### Partial-exon map and read bridging -/

/-- The method `bundle::build_partial_exon_map()`: `pmap` is a splitting interval map
from `[lpos, rpos)` to the index of the partial exon plus one. -/
def bundle.build_partial_exon_map (b : bundle) : bundle :=
  let st := b.pexons.foldl
    (fun (st : Nat × List segment) (p : partial_exon) =>
      (st.1 + 1, icl_add p.lpos p.rpos ((st.1 : Int) + 1) st.2)) (0, [])
  { b with pmap := st.2 }

/-- The method `bundle::locate_left_partial_exon(x)`; an assertion failure is `none`. -/
def bundle.locate_left_partial_exon (min_flank_length : Nat) (b : bundle) (x : Int) :
    Option Int :=
  match icl_find b.pmap x (wrap32 (x + 1)) with
  | none => some (-1)
  | some it =>
    if ¬ (it.val ≥ 1) then none
    else if ¬ (it.val ≤ b.pexons.length) then none
    else
      let k := it.val - 1
      let p1 := it.lo
      let p2 := it.hi
      if ¬ (p2 ≥ x) then none
      else if ¬ (p1 ≤ x) then none
      else
        let k := if wrap32 (x - p1) > min_flank_length ∧ wrap32 (p2 - x) < min_flank_length
          then k + 1 else k
        if k ≥ b.pexons.length then some (-1) else some k

/-- The method `bundle::locate_right_partial_exon(x)`; an assertion failure is `none`. -/
def bundle.locate_right_partial_exon (min_flank_length : Nat) (b : bundle) (x : Int) :
    Option Int :=
  match icl_find b.pmap (wrap32 (x - 1)) x with
  | none => some (-1)
  | some it =>
    if ¬ (it.val ≥ 1) then none
    else if ¬ (it.val ≤ b.pexons.length) then none
    else
      let k := it.val - 1
      let p1 := it.lo
      let p2 := it.hi
      if ¬ (p1 < x) then none
      else if ¬ (p2 ≥ x) then none
      else
        let k := if wrap32 (p2 - x) > min_flank_length ∧ wrap32 (x - p1) ≤ min_flank_length
          then k - 1 else k
        some k

/-- A read `v[i]` of a `std::vector`; an index outside the vector is `none`. -/
def vec_get {α : Type} (v : List α) (i : Int) : Option α :=
  if 0 ≤ i then v.get? i.toNat else none

/-- A write `v[i] = a` to a `std::vector`; an index outside the vector is `none`. -/
def vec_set {α : Type} (v : List α) (i : Int) (a : α) : Option (List α) :=
  if 0 ≤ i ∧ i.toNat < v.length then some (v.set i.toNat a) else none

/-- The local state of `bundle::bridge_read`: the vectors `table` and `trace`, and the
value returned from inside the loop, if any. -/
structure bridge_state where
  table : List Int
  trace : List Int
  ret : Option Bool
deriving DecidableEq

/-- The body of the inner loop of `bundle::bridge_read` for the edge `e` into the vertex
`i`; an assertion failure or an access outside a vector is `none`. -/
def bridge_read_edge (x i : Int) (st : Option bridge_state) (e : graph_edge) :
    Option bridge_state :=
  match st with
  | none => none
  | some st =>
    if st.ret ≠ none then some st
    else
      let max : Int := 9999999999
      let s : Int := e.s
      let t : Int := e.t
      if ¬ (t = i) then none
      else if s < x then some st
      else
        match vec_get st.table (s - x) with
        | none => none
        | some ts =>
          if ts ≤ 0 then some st
          else
            match vec_get st.table (t - x) with
            | none => none
            | some tt =>
              match vec_set st.table (t - x) (tt + ts), vec_set st.trace (t - x) (s - x) with
              | some table, some trace =>
                if tt + ts ≥ max then some { table := table, trace := trace, ret := some false }
                else some { table := table, trace := trace, ret := none }
              | _, _ => none

/-- The final loop of `bundle::bridge_read`, which walks `trace` back from `p`; the
number of iterations is bounded by `fuel`, and running out of it is `none`. -/
def bridge_read_trace (x : Int) (trace : List Int) : Nat → Int → List Int → Option (List Int)
  | 0, _, _ => none
  | fuel + 1, p, v =>
    if ¬ (p ≥ 0) then some v
    else
      match vec_get trace p with
      | none => none
      | some p =>
        if p ≤ 0 then some v
        else bridge_read_trace x trace fuel p (v ++ [wrap32 (p + x)])

/-- The method `bundle::bridge_read(x, y, v)`: the result is the returned Boolean and the
vector `v`; an assertion failure or an access outside a vector is `none`. The vector
`trace` is declared empty and never resized. -/
def bundle.bridge_read (b : bundle) (x y : Int) : Option (Bool × List Int) :=
  let v : List Int := []
  if x ≥ y then some (true, v)
  else
    let e := if 0 ≤ x + 1 ∧ 0 ≤ y + 1 then b.gr.edge (x + 1).toNat (y + 1).toNat else none
    if e ≠ none then some (true, v)
    else
      let table : List Int := []
      let trace : List Int := []
      let n := wrap32 (wrap32 (y - x) + 1)
      let table := table ++ List.replicate n.toNat 0
      match vec_set table 0 1 with
      | none => none
      | some table =>
        match vec_set trace 0 (-1) with
        | none => none
        | some trace =>
          let st := (List.range (y - x).toNat).foldl
            (fun (st : Option bridge_state) (k : Nat) =>
              let i := x + 1 + k
              (if 0 ≤ i then b.gr.in_edges i.toNat else []).foldl (bridge_read_edge x i) st)
            (some { table := table, trace := trace, ret := none })
          match st with
          | none => none
          | some st =>
            match st.ret with
            | some r => some (r, v)
            | none =>
              match vec_get st.table (n - 1) with
              | none => none
              | some last =>
                if last ≠ 1 then some (false, v)
                else
                  match bridge_read_trace x st.trace (st.trace.length + 1) (n - 1) [] with
                  | none => none
                  | some v => some (true, v)

/-- Modelled from the spec: the class `hyper_set` is absent; `hs.add_node_list(s)` records
the node set `s`. -/
def hyper_set.add_node_list (hs : hyper_set) (s : List Int) : hyper_set := hs ++ [s]

/-- The content of a `std::set<int>` built from a vector: its distinct values in
ascending order. -/
def int_set (v : List Int) : List Int := (v.dedup).insertionSort (· ≤ ·)

/-- Modelled from the spec: the comparison `hit_compare_by_name` lies in `hit.h`, which is
absent (`hit.cc` keeps a copy of it in a comment): by query name, then by position. -/
def hit_compare_by_name (x y : hit) : Bool :=
  if x.qname < y.qname then true
  else if x.qname > y.qname then false
  else decide (x.pos < y.pos)

/-- The body of the inner loop of `bundle::build_hyper_edges2` for one matched interval
of a hit, on the vector `sp2`; an assertion failure is `none`. -/
def build_hyper_edges2_interval (min_flank_length : Nat) (b : bundle)
    (sp2 : Option (List Int)) (iv : Packed) : Option (List Int) :=
  match sp2 with
  | none => none
  | some sp2 =>
    let p1 := high32 iv
    let p2 := low32 iv
    match b.locate_left_partial_exon min_flank_length p1,
        b.locate_right_partial_exon min_flank_length p2 with
    | some k1, some k2 =>
      if k1 < 0 ∨ k2 < 0 then some sp2
      else some (sp2 ++ (List.range (k2 + 1 - k1).toNat).map (fun j => k1 + (j : Int)))
    | _, _ => none

/-- The local state of the loop of `bundle::build_hyper_edges2`: `qname`, `sp1` and the
hyper-set. -/
structure hyper_state where
  qname : String
  sp1 : List Int
  hs : hyper_set
deriving DecidableEq

/-- One iteration of the loop of `bundle::build_hyper_edges2` for the hit `h`. The
helpers `max_element` and `min_element` of `util.h` (absent) yield the positions of the
largest and of the smallest entry, so the entries read are the maximum and the minimum. -/
def build_hyper_edges2_hit (min_flank_length : Nat) (b : bundle)
    (st : Option hyper_state) (h : hit) : Option hyper_state :=
  match st with
  | none => none
  | some st =>
    let st :=
      if h.qname ≠ st.qname then
        let s := int_set st.sp1
        let hs := if s.length ≥ 2 then st.hs.add_node_list s else st.hs
        { st with hs := hs, sp1 := [] }
      else st
    let st := { st with qname := h.qname }
    if (h.flag &&& 0x4) ≥ 1 then some st
    else
      let v := h.get_matched_intervals
      match v.foldl (build_hyper_edges2_interval min_flank_length b) (some []) with
      | none => none
      | some sp2 =>
        if st.sp1.length ≤ 0 ∨ sp2.length ≤ 0 then some { st with sp1 := st.sp1 ++ sp2 }
        else
          let x1 := if h.isize < 0 then st.sp1.foldl max (st.sp1.headD 0)
            else sp2.foldl max (sp2.headD 0)
          let x2 := if h.isize < 0 then sp2.foldl min (sp2.headD 0)
            else st.sp1.foldl min (st.sp1.headD 0)
          match b.bridge_read x1 x2 with
          | none => none
          | some (c, sp3) =>
            if c = false then
              let s := int_set st.sp1
              let hs := if s.length ≥ 2 then st.hs.add_node_list s else st.hs
              some { st with hs := hs, sp1 := sp2 }
            else some { st with sp1 := st.sp1 ++ sp2 ++ sp3 }

/-- The method `bundle::build_hyper_edges2()`; an assertion failure or an access outside
a vector is `none`. The hits are sorted by `hit_compare_by_name` (the order of hits that
compare equal is not fixed by `std::sort`; the sort used here keeps their order). -/
def bundle.build_hyper_edges2 (min_flank_length : Nat) (b : bundle) : Option bundle :=
  let hits := b.hits.insertionSort (fun x y => ¬ hit_compare_by_name y x)
  let b := { b with hits := hits, hs := [] }
  match b.hits.foldl (build_hyper_edges2_hit min_flank_length b)
      (some { qname := "", sp1 := [], hs := [] }) with
  | none => none
  | some st => some { b with hs := st.hs }

/-! ### Building a bundle -/

/-- The configuration values read by `bundle::build` (`config.h`, absent). -/
structure config where
  min_flank_length : Nat
  min_splice_boundary_hits : Nat
  ignore_single_exon_transcripts : Bool

/-- The method `bundle::build()`; an assertion failure or an access outside a vector in
one of its steps is `none`. -/
def bundle.build (env : coverage_env) (cfg : config) (b : bundle) : Option bundle :=
  let b := b.compute_strand
  if ¬ b.check_left_ascending then none
  else
    let b := b.build_junctions cfg.min_splice_boundary_hits
    if b.junctions.length ≤ 0 ∧ cfg.ignore_single_exon_transcripts = true then some b
    else
      let b := b.build_regions env 5
      let b := b.build_partial_exons
      let b := b.build_regions env 0
      let b := b.build_partial_exons
      let b := b.build_partial_exon_map
      match b.link_partial_exons with
      | none => none
      | some b =>
        match b.build_splice_graph with
        | none => none
        | some b =>
          let b := b.extend_isolated_start_boundaries
          let b := b.extend_isolated_end_boundaries
          b.build_hyper_edges2 cfg.min_flank_length

/-! ### Transcript output -/

/-- Modelled from the spec: the class `path` (`path.h`, absent), "a source-to-sink vertex
sequence, an abundance `abd`, and a read count". -/
structure path where
  v : List Int
  abd : ℚ
  reads : ℚ
deriving DecidableEq

/-- One line written by `bundle::output_transcript`: the nine columns of the record, the
attributes being kept apart (`exon_number` is absent from a transcript line). -/
structure gtf_record where
  chrm : String
  source : String
  feature : String
  start : Int
  stop : Int
  score : Nat
  strand : Char
  gene_id : String
  transcript_id : String
  exon_number : Option Nat
  coverage : ℚ
  expression : ℚ
deriving DecidableEq

/-- The body of the first loop of `bundle::output_transcript`, which adds the partial
exon of the vertex `vk` to the joining interval map; an index outside `pexons` is
`none`. -/
def output_transcript_add (pexons : List partial_exon) (jmap : Option (List segment))
    (vk : Int) : Option (List segment) :=
  match jmap, vec_get pexons (vk - 1) with
  | some jmap, some r => some (join_interval_map_add jmap r.lpos r.rpos 1)
  | _, _ => none

/-- The method `bundle::output_transcript(fout, p, gid, tid)`: the lines written to
`fout`; an assertion failure or an access outside a vector is `none`. -/
def bundle.output_transcript (algo : String) (average_read_length : Int) (b : bundle)
    (p : path) (gid tid : String) : Option (List gtf_record) :=
  let v := p.v
  let abd := p.abd
  let cov := p.reads / (average_read_length : ℚ)
  match vec_get v 0, vec_get v ((v.length : Int) - 1) with
  | some v0, some vl =>
    if ¬ (v0 = 0) then none
    else if ¬ (vl = (b.pexons.length : Int) + 1) then none
    else if v.length < 2 then some []
    else
      match vec_get v 1, vec_get v ((v.length : Int) - 2) with
      | some ss, some tt =>
        match vec_get b.pexons (ss - 1), vec_get b.pexons (tt - 1) with
        | some pl, some pr =>
          let ll := pl.lpos
          let rr := pr.rpos
          let head : gtf_record :=
            { chrm := b.chrm, source := algo, feature := "transcript",
              start := wrap32 (ll + 1), stop := rr, score := 1000, strand := b.strand,
              gene_id := gid, transcript_id := tid, exon_number := none,
              coverage := cov, expression := abd }
          match ((v.drop 1).take (v.length - 2)).foldl (output_transcript_add b.pexons)
              (some []) with
          | none => none
          | some jmap =>
            some (head :: (jmap.enum.map (fun it =>
              { chrm := b.chrm, source := algo, feature := "exon",
                start := wrap32 (it.2.lo + 1), stop := it.2.hi, score := 1000,
                strand := b.strand, gene_id := gid, transcript_id := tid,
                exon_number := some (it.1 + 1), coverage := cov, expression := abd })))
        | _, _ => none
      | _, _ => none
  | _, _ => none

/-! ## The decomposition driver (`scallop3.cc`) -/

/-- The lookup `m.find(e)` of a `std::map` keyed by edge descriptors, kept as an
association list in insertion order (the order of descriptors is not observable). -/
def mev_find {α : Type} (m : List (Nat × α)) (e : Nat) : Option α :=
  (m.find? (fun x => x.1 = e)).map Prod.snd

/-- The call `m.insert(pair(e, v))` on a map keyed by edge descriptors: a map that
already holds the key is left as it is. -/
def mev_insert {α : Type} (m : List (Nat × α)) (e : Nat) (v : α) : List (Nat × α) :=
  if (mev_find m e).isSome then m else m ++ [(e, v)]

/-- Modelled from the spec: the type `disjoint_sets_t` (`disjoint_sets.h`, absent), "a
union-find over edge identities": every element made by `make_set` carries the label of
its class. -/
abbrev disjoint_sets := List (Nat × Nat)

/-- Modelled from the spec: `ds.find_set(x)`, the label of the class of `x` (an element
that was never made is alone in its class). -/
def disjoint_sets.find_set (ds : disjoint_sets) (x : Nat) : Nat :=
  (mev_find ds x).getD x

/-- Modelled from the spec: `ds.make_set(x)`, which puts `x` in a class of its own. -/
def disjoint_sets.make_set (ds : disjoint_sets) (x : Nat) : disjoint_sets :=
  ds.filter (fun p => p.1 ≠ x) ++ [(x, x)]

/-- Modelled from the spec: `ds.union_set(x, y)`, which merges the classes of `x` and
`y`. -/
def disjoint_sets.union_set (ds : disjoint_sets) (x y : Nat) : disjoint_sets :=
  let ds := if (mev_find ds x).isSome then ds else ds ++ [(x, x)]
  let ds := if (mev_find ds y).isSome then ds else ds ++ [(y, y)]
  let lx := disjoint_sets.find_set ds x
  let ly := disjoint_sets.find_set ds y
  ds.map (fun p => if p.2 = ly then (p.1, lx) else p)

/-- The members of `scallop3` (declared in `scallop.h`) that the modelled methods use:
the graph, the maps between edges and indices (`null_edge` is `none`), the super-edges
and the disjoint sets. -/
structure scallop3 where
  gr : splice_graph
  e2i : List (Nat × Nat) := []
  i2e : List (Option Nat) := []
  mev : List (Nat × List Int) := []
  ds : disjoint_sets := []
  round : Nat := 0
deriving DecidableEq

/-- The method `scallop3::init_super_edges()`. -/
def scallop3.init_super_edges (sc : scallop3) : scallop3 :=
  { sc with mev := sc.gr.edges.foldl (fun m e => mev_insert m e.id []) [] }

/-- The body of the inner loop of `scallop3::init_trivial_vertex(x)` for the edge `e1`
into `x` and the edge `e2` out of `x`; an assertion failure is `none`. -/
def init_trivial_vertex_pair (x : Nat) (e1 : graph_edge) (st : Option scallop3)
    (e2 : graph_edge) : Option scallop3 :=
  match st with
  | none => none
  | some sc =>
    let s := e1.s
    let t := e2.t
    let w1 := e1.weight
    let a1 := e1.stddev
    let w2 := e2.weight
    let a2 := e2.stddev
    let w := if w1 < w2 then w1 else w2
    let a := if w1 < w2 then a1 else a2
    let (gr, p) := sc.gr.add_edge s t
    let gr := gr.set_edge_weight p w
    let gr := gr.set_edge_stddev p a
    match mev_find sc.mev e1.id, mev_find sc.mev e2.id with
    | some c1, some c2 =>
      let v := c1 ++ [(x : Int)] ++ c2
      some { sc with gr := gr, mev := mev_insert sc.mev p v }
    | _, _ => none

/-- The method `scallop3::init_trivial_vertex(x)`: the new state and the returned
Boolean; an assertion failure and a loop that does not end are `none`. The two loops
iterate the ranges `in_edges(x, gr)` and `out_edges(x, gr)` while `add_edge` adds edges
to the graph. The edge added for `e1` into `x` and `e2` out of `x` goes from the source
of `e1` to the target of `e2`, so it is an edge at `x` only when `e1` or `e2` is an edge
from `x` to `x`. Without such an edge the two ranges stay as they are on entry, and the
loops are the two folds below. With an edge `e` from `x` to `x` the outer loop reaches
`e`, and then every iteration of the inner loop adds an edge out of `x` to the range
that the inner loop iterates: the loop does not end, and the result is `none`
(`init_trivial_vertex_live` is the iteration over the growing ranges, and
`init_trivial_vertex_live_eq` and `init_trivial_vertex_live_loop` relate it to this
definition). -/
def scallop3.init_trivial_vertex (sc : scallop3) (x : Nat) : Option (scallop3 × Bool) :=
  let id := sc.gr.in_degree x
  let od := sc.gr.out_degree x
  if id ≤ 0 ∨ od ≤ 0 then some (sc, false)
  else if id ≥ 2 ∧ od ≥ 2 then some (sc, false)
  else if ∃ e ∈ sc.gr.edges, e.s = x ∧ e.t = x then none
  else
    let st := (sc.gr.in_edges x).foldl
      (fun st e1 => (sc.gr.out_edges x).foldl (init_trivial_vertex_pair x e1) st) (some sc)
    match st with
    | none => none
    | some sc => some ({ sc with gr := sc.gr.clear_vertex x }, true)

/-- The inner loop of `scallop3::init_trivial_vertex(x)` for the edge `e1`, as an
iteration over the range `out_edges(x, gr)` of the graph as it is at each step: `j` is
the position of `ot1` in the range, and the loop ends when `ot1` is at the end of the
range. At most `fuel` iterations are made; running out of them is `none`. -/
def init_trivial_vertex_inner_live (x : Nat) (e1 : graph_edge) :
    Nat → Nat → scallop3 → Option scallop3
  | 0, _, _ => none
  | fuel + 1, j, sc =>
    match (sc.gr.out_edges x).get? j with
    | none => some sc
    | some e2 =>
      match init_trivial_vertex_pair x e1 (some sc) e2 with
      | none => none
      | some sc1 => init_trivial_vertex_inner_live x e1 fuel (j + 1) sc1

/-- The outer loop of `scallop3::init_trivial_vertex(x)`, as an iteration over the range
`in_edges(x, gr)` of the graph as it is at each step: `i` is the position of `it1`. -/
def init_trivial_vertex_outer_live (x : Nat) : Nat → Nat → scallop3 → Option scallop3
  | 0, _, _ => none
  | fuel + 1, i, sc =>
    match (sc.gr.in_edges x).get? i with
    | none => some sc
    | some e1 =>
      match init_trivial_vertex_inner_live x e1 fuel 0 sc with
      | none => none
      | some sc1 => init_trivial_vertex_outer_live x fuel (i + 1) sc1

/-- The method `scallop3::init_trivial_vertex(x)` with its two loops as iterations over
the ranges of the graph as it is at each step, bounded by `fuel`. -/
def scallop3.init_trivial_vertex_live (fuel : Nat) (sc : scallop3) (x : Nat) :
    Option (scallop3 × Bool) :=
  let id := sc.gr.in_degree x
  let od := sc.gr.out_degree x
  if id ≤ 0 ∨ od ≤ 0 then some (sc, false)
  else if id ≥ 2 ∧ od ≥ 2 then some (sc, false)
  else
    match init_trivial_vertex_outer_live x fuel 0 sc with
    | none => none
    | some sc => some ({ sc with gr := sc.gr.clear_vertex x }, true)

/-- One pass of the `for` loop of `scallop3::reconstruct_splice_graph` over all
vertices: the new state and the value of `flag`. -/
def scallop3.reconstruct_pass (sc : scallop3) : Option (scallop3 × Bool) :=
  (List.range sc.gr.num_vertices).foldl
    (fun (st : Option (scallop3 × Bool)) (i : Nat) =>
      match st with
      | none => none
      | some (sc, flag) =>
        match sc.init_trivial_vertex i with
        | none => none
        | some (sc, b) => some (sc, if b = true then true else flag))
    (some (sc, false))

/-- The method `scallop3::reconstruct_splice_graph()`: its `while(true)` loop runs at
most `fuel` passes; running out of fuel or an assertion failure is `none`. -/
def scallop3.reconstruct_splice_graph : Nat → scallop3 → Option scallop3
  | 0, _ => none
  | fuel + 1, sc =>
    match sc.reconstruct_pass with
    | none => none
    | some (sc, flag) =>
      if flag = false then some sc else scallop3.reconstruct_splice_graph fuel sc

/-- The weight `get_edge_weight(e, gr)` of the edge with descriptor `e`; a descriptor
of no edge of the graph is `none`. -/
def splice_graph.get_edge_weight (g : splice_graph) (e : Nat) : Option ℚ :=
  (g.find_edge e).map graph_edge.weight

/-- The value `get_edge_stddev(e, gr)` of the edge with descriptor `e`. -/
def splice_graph.get_edge_stddev (g : splice_graph) (e : Nat) : Option ℚ :=
  (g.find_edge e).map graph_edge.stddev

/-- The live edge `i2e[i]`: `none` when the index lies outside the vector or the entry is
`null_edge` (the assertion `i2e[i] != null_edge` fails). -/
def scallop3.live_edge (sc : scallop3) (i : Nat) : Option Nat :=
  (sc.i2e.get? i).join

/-- The first loop of `scallop3::split_edge`, which subtracts from `w` the weights of
the edges of `sub`. -/
def split_edge_residual (sc : scallop3) (w : Option ℚ) (k : Nat) : Option ℚ :=
  match w, sc.live_edge k with
  | some w, some e =>
    match sc.gr.get_edge_weight e with
    | some we => some (w - we)
    | none => none
  | _, _ => none

/-- The body of the second loop of `scallop3::split_edge` for the entry `k = sub[i]`,
`i >= 1`, on the state and the vector `v`; `ex` is the descriptor `i2e[ei]` and `s`,
`t` are its ends. An assertion failure is `none`. -/
def split_edge_copy (ex s t : Nat) (st : Option (scallop3 × List Nat)) (k : Nat) :
    Option (scallop3 × List Nat) :=
  match st with
  | none => none
  | some (sc, v) =>
    let (gr, p) := sc.gr.add_edge s t
    let n := sc.i2e.length
    let i2e := sc.i2e ++ [some p]
    if ¬ (mev_find sc.e2i p = none) then none
    else
      let e2i := mev_insert sc.e2i p n
      match (i2e.get? k).join with
      | none => none
      | some ey =>
        match gr.get_edge_weight ey, gr.get_edge_stddev ey with
        | some w0, some w1 =>
          let gr := gr.set_edge_weight p w0
          let gr := gr.set_edge_stddev p w1
          let mev := mev_insert sc.mev ex []
          let mev := mev_insert mev p ((mev_find mev ex).getD [])
          let ds := sc.ds.make_set n
          let ds := ds.union_set n k
          some ({ sc with gr := gr, i2e := i2e, e2i := e2i, mev := mev, ds := ds }, v ++ [n])
        | _, _ => none

/-- The method `scallop3::split_edge(ei, sub)`: the new state and the returned vector;
an assertion failure or an access outside a vector is `none`. `SMIN` is a constant of
`config.h`, which is absent. -/
def scallop3.split_edge (SMIN : ℚ) (sc : scallop3) (ei : Nat) (sub : List Nat) :
    Option (scallop3 × List Nat) :=
  let v : List Nat := []
  match sc.live_edge ei with
  | none => none
  | some ex =>
    if ¬ (sub.length ≥ 1) then none
    else if ¬ (sub.all (fun k => (sc.live_edge k).isSome)) then none
    else
      match sub.foldl (split_edge_residual sc) (sc.gr.get_edge_weight ex), sub.head? with
      | some w, some k0 =>
        if ¬ (|w| ≤ SMIN) then none
        else
          match sc.live_edge k0 with
          | none => none
          | some ey =>
            match sc.gr.get_edge_weight ey, sc.gr.get_edge_stddev ey,
                sc.gr.find_edge ex with
            | some w0, some w1, some exo =>
              let gr := sc.gr.set_edge_weight ex w0
              let gr := gr.set_edge_stddev ex w1
              let ds := sc.ds.union_set ei k0
              let v := v ++ [ei]
              let s := exo.s
              let t := exo.t
              sub.tail.foldl (split_edge_copy ex s t)
                (some ({ sc with gr := gr, ds := ds }, v))
            | _, _, _ => none
      | _, _ => none

/-! ## Notions used in the statements -/

/-- An operation consumes the reference when bit 2 of its `bam_cigar_type` is set. -/
def consumes_ref (c : Nat) : Bool := bam_cigar_type (bam_cigar_op c) &&& 2 != 0

/-- Total length of the reference-consuming operations among the first `k` CIGAR words. -/
def ref_before (cigar : List Nat) (k : Nat) : Nat :=
  (((cigar.take k).filter consumes_ref).map bam_cigar_oplen).sum

/-- Reference position at which the `k`-th CIGAR operation starts: `pos` plus the
lengths of the reference-consuming operations before index `k`. -/
def cigar_start (pos : Int) (cigar : List Nat) (k : Nat) : Int :=
  pos + (ref_before cigar k : Nat)

/-- The intervals `[s, s + len)` of the CIGAR operations with code `op`, in CIGAR
order, where `s` is the reference position at which the operation starts. -/
def op_intervals (op : Nat) (pos : Int) (cigar : List Nat) : List Packed :=
  ((List.range cigar.length).filter
      (fun k => bam_cigar_op (cigar.getD k 0) = op)).map
    (fun k => (cigar_start pos cigar k,
      cigar_start pos cigar k + (bam_cigar_oplen (cigar.getD k 0) : Nat)))

/-- The reference positions of the insertion operations, in CIGAR order. -/
def insertion_positions (pos : Int) (cigar : List Nat) : List Int :=
  ((List.range cigar.length).filter
      (fun k => bam_cigar_op (cigar.getD k 0) = BAM_CINS)).map
    (fun k => cigar_start pos cigar k)

/-- The condition of claim C2 on an index `k` of a CIGAR of `n` operations:
`0 < k < n - 1`, operation `k` is a reference skip, its two neighbours are matches,
and both neighbours have length at least `min_flank_length`. -/
def is_splice (min_flank_length : Nat) (cigar : List Nat) (k : Nat) : Prop :=
  0 < k ∧ k + 1 < cigar.length ∧
  bam_cigar_op (cigar.getD k 0) = BAM_CREF_SKIP ∧
  bam_cigar_op (cigar.getD (k - 1) 0) = BAM_CMATCH ∧
  bam_cigar_op (cigar.getD (k + 1) 0) = BAM_CMATCH ∧
  min_flank_length ≤ bam_cigar_oplen (cigar.getD (k - 1) 0) ∧
  min_flank_length ≤ bam_cigar_oplen (cigar.getD (k + 1) 0)

instance (min_flank_length : Nat) (cigar : List Nat) (k : Nat) :
    Decidable (is_splice min_flank_length cigar k) := by
  unfold is_splice; infer_instance

/-- The pairs `(s, e)` of claim C2, in CIGAR order: one per index satisfying
`is_splice`, with `s` the reference position at which the skip starts and
`e = s + len`. -/
def splice_pairs (min_flank_length : Nat) (pos : Int) (cigar : List Nat) : List Packed :=
  ((List.range cigar.length).filter
      (fun k => decide (is_splice min_flank_length cigar k))).map
    (fun k => (cigar_start pos cigar k,
      cigar_start pos cigar k + (bam_cigar_oplen (cigar.getD k 0) : Nat)))

/-- The coordinates of a hit stay inside the signed 32-bit range: the start is
representable and so is the end `pos + (reference length)`. -/
def coords_in_range (pos : Int) (cigar : List Nat) : Prop :=
  -2147483648 ≤ pos ∧ pos + (ref_before cigar cigar.length : Nat) < 2147483648

instance (pos : Int) (cigar : List Nat) : Decidable (coords_in_range pos cigar) := by
  unfold coords_in_range; infer_instance

/-- A flag bit (given by its mask) is set. -/
def flag_set (flag mask : Nat) : Prop := flag &&& mask ≠ 0

instance (flag mask : Nat) : Decidable (flag_set flag mask) := by
  unfold flag_set; infer_instance

/-- The opposite strand: `+` and `-` are exchanged, every other character is kept. -/
def mirror (c : Char) : Char := if c = '+' then '-' else if c = '-' then '+' else c

/-- Number of occurrences of the packed position `p` over the splice-position lists of
all hits. -/
def occurrences (hits : List hit) (p : Packed) : Nat :=
  ((hits.map hit.get_splice_positions).flatten).count p

/-- Test data: a hit at position `pos` with CIGAR `cigar` and flag `flag`. -/
def mk_hit (pos : Int) (flag : Nat) (cigar : List Nat) : hit :=
  { tid := 0, pos := pos, qual := 255, flag := flag, mtid := 0, mpos := 0, isize := 0,
    rpos := wrap32 (pos + wrap32 (bam_cigar2rlen cigar)),
    qlen := wrap32 (bam_cigar2qlen cigar), qname := "r", strand := '.', spos := [],
    xs := '.', ts := '.', hi := -1, nh := -1, nm := 0, cigar := cigar }

/-- Test data: a bundle holding the given hits, with strand `.` and no junction. -/
def mk_bundle (hits : List hit) : bundle :=
  { tid := 0, lpos := 0, rpos := 0, strand := '.', hits := hits, junctions := [] }

/-- Test data: the CIGAR word of operation `op` with length `len`
(`bam_cigar_gen(len, op)`, that is `len << 4 | op`). -/
def cig (len op : Nat) : Nat := len <<< 4 ||| op

/-- Test data: a record at position `pos` with the given flag, CIGAR and tags. -/
def mk_record (pos : Int) (flag : Nat) (cigar : List Nat) (aux : List aux_field) : bam1_t :=
  { tid := 0, pos := pos, qual := 255, flag := flag, mtid := 0, mpos := 0, isize := 0,
    qname := "r", cigar := cigar, aux := aux }

/-- Test data: an environment in which the coverage is zero everywhere and regions emit
no partial exon. -/
def env_zero : coverage_env :=
  { evaluate_rectangle := fun _ _ => (0, 0), region_pexons := fun _ _ _ _ => [] }

/-- Test data: a partial exon `[l, r)` with the given boundary types and coverage. -/
def mk_pexon (l r : Int) (ltype rtype : boundary_type) (ave : ℚ) : partial_exon :=
  { lpos := l, rpos := r, ltype := ltype, rtype := rtype, ave := ave, dev := 1 }

/-- Test data: the bundle `[lpos, rpos)` with the given junctions and partial exons, and
no hit. -/
def mk_locus (lpos rpos : Int) (junctions : List junction) (pexons : List partial_exon) :
    bundle :=
  { tid := 0, lpos := lpos, rpos := rpos, strand := '.', hits := [],
    junctions := junctions, pexons := pexons }

/-- The predicate that holds of the result of the first loop of `link_partial_exons` on
the partial exons `P`: it fails exactly when two partial exons share a left or a right
position, and otherwise the maps `lm` and `rm` send every left (right) position to the
index of its partial exon. -/
def link_maps_ok (P : List partial_exon) :
    Option (Nat × List (Int × Nat) × List (Int × Nat)) → Prop
  | none => ¬ (P.map partial_exon.lpos).Nodup ∨ ¬ (P.map partial_exon.rpos).Nodup
  | some (n, lm, rm) =>
    n = P.length ∧ (P.map partial_exon.lpos).Nodup ∧ (P.map partial_exon.rpos).Nodup ∧
    (∀ x i, mpi_find lm x = some i ↔ (P.map partial_exon.lpos)[i]? = some x) ∧
    (∀ x i, mpi_find rm x = some i ↔ (P.map partial_exon.rpos)[i]? = some x)

/-- The junction `j1` is the junction `j` linked to partial exons of `P`: same
positions and count, and indices `lexon`, `rexon` of partial exons whose right and left
positions are the left and right positions of the junction. -/
def linked_to (P : List partial_exon) (j j1 : junction) : Prop :=
  j1.lpos = j.lpos ∧ j1.rpos = j.rpos ∧ j1.count = j.count ∧
  ∃ (x y : Nat) (px py : partial_exon), j1.lexon = (x : Int) ∧ j1.rexon = (y : Int) ∧
    P[x]? = some px ∧ P[y]? = some py ∧ px.rpos = j1.lpos ∧ py.lpos = j1.rpos

/-- Number of directed paths (sequences of edges) of at most `fuel` edges from the vertex
`a` to the vertex `c`; in an acyclic graph with `n` vertices, `fuel = n` counts them
all. -/
def splice_graph.num_paths (g : splice_graph) : Nat → Nat → Nat → Nat
  | 0, a, c => if a = c then 1 else 0
  | fuel + 1, a, c =>
    if a = c then 1
    else ((g.out_edges a).map (fun e => splice_graph.num_paths g fuel e.t c)).sum

/-- Test data: the graph with `n` vertices of weight `0` and the given edges
`(source, target, weight)`, numbered in order. -/
def mk_graph (n : Nat) (es : List (Nat × Nat × ℚ)) : splice_graph :=
  { vertices := List.replicate n {},
    edges := es.enum.map (fun x => { id := x.1, s := x.2.1, t := x.2.2.1, weight := x.2.2.2 }),
    next := es.length }

/-- The descriptors of the edges of the graph are older than the next descriptor: no edge
of the graph carries the identifier that `add_edge` hands out next. -/
def splice_graph.fresh (g : splice_graph) : Prop := ∀ e ∈ g.edges, e.id < g.next

/-- The graph `g` with one more edge from `s` to `t` of weight `w` (default standard
deviation and info), all other edges and all vertices being left as they are. -/
def splice_graph.append_edge (g : splice_graph) (s t : Nat) (w : ℚ) : splice_graph :=
  { g with edges := g.edges ++ [{ id := g.next, s := s, t := t, weight := w }],
           next := g.next + 1 }

/-- The edge `(s, t, w)` that claim C20 lets `extend_isolated_end_boundaries` add for the
vertex `i` of the graph `g`, if any: `i` has in-degree 1 and out-degree 1, its out-edge
goes to the last vertex `t` (the sink), its in-edge `e1` comes from a vertex `s` of
out-degree 1, `w(e1) < 1.5`, the weight of `s` exceeds `5.0`, `s` is not genomically
adjacent to `i`, and `w` is the weight of `s` minus `w(e1)`. -/
def end_candidate (g : splice_graph) (i : Nat) : Option (Nat × Nat × ℚ) :=
  match g.in_edges i, g.out_edges i with
  | [e1], [e2] =>
    if g.out_degree e1.s = 1 ∧ e2.t = g.num_vertices - 1 ∧ e1.weight < 1.5 ∧
        g.get_vertex_weight e1.s > 5.0 ∧
        (g.get_vertex_info e1.s).rpos ≠ (g.get_vertex_info i).lpos
    then some (e1.s, e2.t, g.get_vertex_weight e1.s - e1.weight)
    else none
  | _, _ => none

/-- The edge `(s, t, w)` that claim C20 lets `extend_isolated_start_boundaries` add for
the vertex `i` of the graph `g`, if any: `i` has in-degree 1 and out-degree 1, its
in-edge comes from the vertex `0` (the source), its out-edge `e2` goes to a vertex `t`
of in-degree 1, `w(e2) < 1.5`, the weight of `t` exceeds `5.0`, `i` is not genomically
adjacent to `t`, and `w` is the weight of `t` minus `w(e2)`. -/
def start_candidate (g : splice_graph) (i : Nat) : Option (Nat × Nat × ℚ) :=
  match g.in_edges i, g.out_edges i with
  | [e1], [e2] =>
    if e1.s = 0 ∧ g.in_degree e2.t = 1 ∧ e2.weight < 1.5 ∧
        g.get_vertex_weight e2.t > 5.0 ∧
        (g.get_vertex_info i).rpos ≠ (g.get_vertex_info e2.t).lpos
    then some (e1.s, e2.t, g.get_vertex_weight e2.t - e2.weight)
    else none
  | _, _ => none

/-- The graph `g` with the edge of a candidate added, if there is one. -/
def splice_graph.append_candidate (g : splice_graph) : Option (Nat × Nat × ℚ) → splice_graph
  | none => g
  | some c => g.append_edge c.1 c.2.1 c.2.2

/-- Test data: the graph `0 -> 1 -> 2 -> 3` with vertex weights `0, 10, 3, 0`, edge weights
`10, 1, 1`, where vertex `1` ends at position `100` and vertex `2` starts at `200`. -/
def isolated_end_graph : splice_graph :=
  { vertices :=
      [{}, { weight := 10, info := { lpos := 0, rpos := 100, length := 100 } },
       { weight := 3, info := { lpos := 200, rpos := 300, length := 100 } }, {}],
    edges :=
      [{ id := 0, s := 0, t := 1, weight := 10 }, { id := 1, s := 1, t := 2, weight := 1 },
       { id := 2, s := 2, t := 3, weight := 1 }],
    next := 3 }

/-- The pairs `(source, target)` of the edges of a graph, in insertion order. -/
def splice_graph.edge_pairs (g : splice_graph) : List (Nat × Nat) :=
  g.edges.map (fun e => (e.s, e.t))

/-- The graph `g1` is the graph `g` with new edges between the pairs `ps`, in this order,
after the edges of `g`: same vertices, and fresh descriptors if `g` has them. -/
def splice_graph.grows (g g1 : splice_graph) (ps : List (Nat × Nat)) : Prop :=
  g1.vertices = g.vertices ∧ g1.edge_pairs = g.edge_pairs ++ ps ∧ (g.fresh → g1.fresh)

/-- The vertex that `build_splice_graph` makes of a partial exon whose length fits. -/
def pexon_vertex (r : partial_exon) : graph_vertex :=
  { weight := if r.ave < 1.0 then 1.0 else r.ave,
    info := { lpos := r.lpos, rpos := r.rpos, length := wrap32 (r.rpos - r.lpos),
              stddev := if r.dev < 1.0 then 1.0 else r.dev } }

/-- The edge that the junction loop of `build_splice_graph` is to add for a junction:
none for a junction without partial exons, `lexon + 1 -> rexon + 1` otherwise. -/
def junction_edges (j : junction) : List (Nat × Nat) :=
  if j.lexon < 0 ∨ j.rexon < 0 then [] else [((j.lexon + 1).toNat, (j.rexon + 1).toNat)]

/-- The edges that the boundary loop of `build_splice_graph` is to add for the partial
exon `i`: `source -> i + 1` if it starts at a start boundary, `i + 1 -> sink` if it ends
at an end boundary. -/
def boundary_edges (P : List partial_exon) (i : Nat) : List (Nat × Nat) :=
  match P[i]? with
  | none => []
  | some r =>
    (if r.ltype = START_BOUNDARY then [(0, i + 1)] else []) ++
    (if r.rtype = END_BOUNDARY then [(i + 1, P.length + 1)] else [])

/-- The edge that the adjacency loop of `build_splice_graph` is to add for the partial
exons `i` and `i + 1`: `i + 1 -> i + 2` if they share a genomic boundary. -/
def adjacent_edges (P : List partial_exon) (i : Nat) : List (Nat × Nat) :=
  match P[i]?, P[i + 1]? with
  | some x, some y => if x.rpos = y.lpos then [(i + 1, i + 2)] else []
  | _, _ => []

/-- A junction that `build_splice_graph` can process: either it has no partial exons
(a negative index) or its indices denote partial exons and its count is at least 1. -/
def junction_ok (P : List partial_exon) (j : junction) : Prop :=
  (j.lexon < 0 ∨ j.rexon < 0) ∨
  (j.lexon.toNat < P.length ∧ j.rexon.toNat < P.length ∧ 1 ≤ j.count)

/-- A junction linked to the partial exons `P`: `lexon` and `rexon` are indices of
partial exons whose right and left positions are the left and right positions of the
junction (the state in which `link_partial_exons` leaves a junction). -/
def junction_linked (P : List partial_exon) (j : junction) : Prop :=
  ∃ (x y : Nat) (px py : partial_exon), j.lexon = (x : Int) ∧ j.rexon = (y : Int) ∧
    P[x]? = some px ∧ P[y]? = some py ∧ px.rpos = j.lpos ∧ py.lpos = j.rpos

/-- There is a path of at least one edge from the first vertex to the second. -/
inductive splice_graph.reaches (g : splice_graph) : Nat → Nat → Prop
  | edge (e : graph_edge) : e ∈ g.edges → splice_graph.reaches g e.s e.t
  | step (e : graph_edge) (c : Nat) :
      e ∈ g.edges → splice_graph.reaches g e.t c → splice_graph.reaches g e.s c

/-- The four kinds of edge `s -> t` of the splice graph of the partial exons `P` and the
junctions `J`: from the source `0` to the vertex of a partial exon; from the vertex of
a partial exon to the sink `N + 1`; between the vertices `i + 1` and `i + 2` of partial
exons `i` and `i + 1` with `pexons[i].rpos == pexons[i + 1].lpos`; from `lexon + 1` to
`rexon + 1` for a junction. -/
def splice_edge_kind (P : List partial_exon) (J : List junction) (s t : Nat) : Prop :=
  (s = 0 ∧ 1 ≤ t ∧ t ≤ P.length) ∨
  (1 ≤ s ∧ s ≤ P.length ∧ t = P.length + 1) ∨
  (∃ i x y, s = i + 1 ∧ t = i + 2 ∧ P[i]? = some x ∧ P[i + 1]? = some y ∧
    x.rpos = y.lpos) ∨
  (∃ j ∈ J, (s : Int) = j.lexon + 1 ∧ (t : Int) = j.rexon + 1)

/-- Test data: three partial exons `[100, 200)`, `[300, 400)`, `[400, 500)`, the last two
adjacent, and the junction `(200, 300)` linked to the first two. -/
def three_exon_locus : bundle :=
  mk_locus 0 600 [{ lpos := 200, rpos := 300, count := 3, lexon := 0, rexon := 1 }]
    [mk_pexon 100 200 START_BOUNDARY LEFT_SPLICE 10,
     mk_pexon 300 400 RIGHT_SPLICE END_BOUNDARY 10,
     mk_pexon 400 500 START_BOUNDARY END_BOUNDARY 4]

/-- The exons of a chain of intervals, as the spec describes them: neighbouring
intervals that share a boundary (the first ends where the second starts) are coalesced
into one interval, so that each maximal run of such intervals gives one exon. -/
def coalesce : List (Int × Int) → List (Int × Int)
  | [] => []
  | [x] => [x]
  | x :: y :: rest =>
    if x.2 = y.1 then coalesce ((x.1, y.2) :: rest) else x :: coalesce (y :: rest)
termination_by l => l.length

/-- A chain of intervals in ascending order: every interval is non-empty and ends at or
before the start of every later one. -/
def ascending_intervals (X : List (Int × Int)) : Prop :=
  (∀ x ∈ X, x.1 < x.2) ∧ X.Pairwise (fun x y => x.2 ≤ y.1)

/-- The segments of value 1 over a list of intervals. -/
def unit_segments (X : List (Int × Int)) : List segment :=
  X.map (fun x => { lo := x.1, hi := x.2, val := 1 })

/-- Test data: the path through the three partial exons of `three_exon_locus`. -/
def three_exon_path : path := { v := [0, 1, 2, 3, 4], abd := 10, reads := 100 }

/-- The state `sc1` is the state `sc` with new edges between the pairs `ps` and their
super-edges: same vertices, the edges of `sc` followed by the new ones, every key of
`mev` kept, and every edge with an entry in `mev` if that held before. -/
def scallop3.grows (sc sc1 : scallop3) (ps : List (Nat × Nat)) : Prop :=
  sc1.gr.vertices = sc.gr.vertices ∧ sc1.gr.edge_pairs = sc.gr.edge_pairs ++ ps ∧
  (∀ k, (mev_find sc.mev k).isSome → (mev_find sc1.mev k).isSome) ∧
  ((∀ e ∈ sc.gr.edges, (mev_find sc.mev e.id).isSome) →
    ∀ e ∈ sc1.gr.edges, (mev_find sc1.mev e.id).isSome)

/-- The vertex `x` is trivial in the sense of `init_trivial_vertex`: it has an edge in
and an edge out, and in-degree 1 or out-degree 1. -/
def scallop3.trivial_vertex (sc : scallop3) (x : Nat) : Prop :=
  1 ≤ sc.gr.in_degree x ∧ 1 ≤ sc.gr.out_degree x ∧
  (sc.gr.in_degree x = 1 ∨ sc.gr.out_degree x = 1)

/-- The state of the decomposition is well formed for `reconstruct_splice_graph` with
respect to the ranking `r` of the vertices: every edge goes from a lower to a higher
rank (the graph is acyclic) and every edge has a super-edge entry in `mev`. -/
def scallop3.ranked (sc : scallop3) (r : Nat → Nat) : Prop :=
  (∀ e ∈ sc.gr.edges, r e.s < r e.t) ∧ (∀ e ∈ sc.gr.edges, (mev_find sc.mev e.id).isSome)

/-- Test data: the decomposition state of the chain `0 -> 1 -> 2 -> 3` with one more edge
`0 -> 2`, after `init_super_edges`. -/
def chain_state : scallop3 :=
  scallop3.init_super_edges
    { gr := mk_graph 4 [(0, 1, 10), (1, 2, 10), (2, 3, 12), (0, 2, 2)] }

/-- The weight of the edge with index `i`, `get_edge_weight(i2e[i], gr)`; `none` when
`i2e[i]` is no edge of the graph. -/
def scallop3.edge_weight (sc : scallop3) (i : Nat) : Option ℚ :=
  (sc.live_edge i).bind sc.gr.get_edge_weight

/-- Test data: two parallel edges `0 -> 1`, the edge with index `0` of weight `5` and the
edge with index `1` of weight `0`. -/
def parallel_state : scallop3 :=
  { gr := mk_graph 2 [(0, 1, 5), (0, 1, 0)], e2i := [(0, 0), (1, 1)],
    i2e := [some 0, some 1], mev := [(0, []), (1, [])] }

/-- Test data: three parallel edges `0 -> 1` with indices `0`, `1`, `2` and weights `5`,
`2`, `1`. -/
def three_edge_state : scallop3 :=
  { gr := mk_graph 2 [(0, 1, 5), (0, 1, 2), (0, 1, 1)], e2i := [(0, 0), (1, 1), (2, 2)],
    i2e := [some 0, some 1, some 2], mev := [(0, []), (1, []), (2, [])] }

/-- Test data: the bundle `[0, 300)` with the partial exons `[100, 150)` and `[150, 200)`,
their partial-exon map, and the given hits. -/
def two_exon_reads (hits : List hit) : bundle :=
  bundle.build_partial_exon_map
    { mk_locus 0 300 []
        [mk_pexon 100 150 START_BOUNDARY END_BOUNDARY 10,
         mk_pexon 150 200 START_BOUNDARY END_BOUNDARY 10] with hits := hits }

/-- Test data: a mapped read named `name` at position `pos` that matches `len` bases. -/
def named_read (name : String) (pos : Int) (len : Nat) : hit :=
  { mk_hit pos 0 [cig len 0] with qname := name }

/-! ## Closest subset (`scallop3::compute_closest_subset`) -/

/-- The `while(s < t)` loop of `scallop3::compute_closest_subset`: the value of `m` when
the loop ends. The loop runs at most `fuel` iterations, running out of them is `none`,
and so is a read outside `xxp`. -/
def compute_closest_subset_search (w : Int) (xxp : List (Int × Int)) :
    Nat → Int → Int → Int → Option Int
  | 0, _, _, _ => none
  | fuel + 1, s, t, m =>
    if ¬ (s < t) then some m
    else
      let m := Int.tdiv (wrap32 (s + t)) 2
      match vec_get xxp m with
      | none => none
      | some x =>
        if w = x.1 then some m
        else if w > x.1 then compute_closest_subset_search w xxp fuel m t m
        else compute_closest_subset_search w xxp fuel s m m

/-- The loop `for(si = m; si >= 0; si--)` of `compute_closest_subset`, on the `n + 1`
values `si = n, n - 1, ..., 0`: the value of `si` when the loop ends (`-1` when no entry
has a second component other than `xi`). -/
def compute_closest_subset_left (xi : Int) (xxp : List (Int × Int)) : Nat → Option Int
  | 0 =>
    match vec_get xxp 0 with
    | none => none
    | some x => if x.2 ≠ xi then some 0 else some (-1)
  | n + 1 =>
    match vec_get xxp ((n : Int) + 1) with
    | none => none
    | some x => if x.2 ≠ xi then some ((n : Int) + 1) else compute_closest_subset_left xi xxp n

/-- The loop `for(ti = m + 1; ti < xxp.size(); ti++)` of `compute_closest_subset` on the
entries from index `ti` on: the value of `ti` when the loop ends (`xxp.size()` when no
entry has a second component other than `xi`). -/
def compute_closest_subset_right (xi : Int) : List (Int × Int) → Int → Int
  | [], ti => ti
  | x :: rest, ti => if x.2 ≠ xi then ti else compute_closest_subset_right xi rest (ti + 1)

/-- The method `scallop3::compute_closest_subset(xi, w, xxp)`; `none` when the binary
search has not ended after `fuel` iterations, on a read outside `xxp` and on an
assertion failure. -/
def compute_closest_subset (fuel : Nat) (xi w : Int) (xxp : List (Int × Int)) :
    Option Int :=
  if xxp.length = 0 then some (-1)
  else
    match compute_closest_subset_search w xxp fuel 0 ((xxp.length : Int) - 1) (-1) with
    | none => none
    | some m =>
      match (if m ≥ 0 then compute_closest_subset_left xi xxp m.toNat else some (-1)) with
      | none => none
      | some si =>
        let ti := compute_closest_subset_right xi (xxp.drop (m + 1).toNat) (m + 1)
        if ¬ (si ≠ -1 ∨ ti ≠ -1) then none
        else if si = -1 then some ti
        else if ti = -1 then some si
        else
          match vec_get xxp si, vec_get xxp ti with
          | some a, some c =>
            let sw := |wrap32 (a.1 - w)|
            let tw := |wrap32 (c.1 - w)|
            if sw ≤ tw then some si else some ti
          | _, _ => none

/-! ## Linking and decomposition (`scallop3.cc`) -/

/-- The call `m.erase(e)` on a map keyed by edge descriptors. -/
def mev_erase {α : Type} (m : List (Nat × α)) (e : Nat) : List (Nat × α) :=
  m.filter (fun x => x.1 ≠ e)

/-- Modelled from the spec: `gr.degree(v)` of the class `splice_graph` (absent), the
number of edges into `v` plus the number of edges out of `v`. -/
def splice_graph.degree (g : splice_graph) (v : Nat) : Nat := g.in_degree v + g.out_degree v

/-- The method `scallop3::connect_adjacent_edges(x, y)`: the new state and the returned
Boolean (the method ends with `return 0`, so it returns `false` after a merge too). The
recursive call with swapped arguments is bounded by `fuel`; running out of it, an
assertion failure and an access outside `i2e` are `none`. `SMIN` is a constant of
`config.h`, which is absent. -/
def scallop3.connect_adjacent_edges (SMIN : ℚ) :
    Nat → scallop3 → Nat → Nat → Option (scallop3 × Bool)
  | 0, _, _, _ => none
  | fuel + 1, sc, x, y =>
    match sc.i2e.get? x with
    | none => none
    | some none => some (sc, false)
    | some (some xx) =>
      match sc.i2e.get? y with
      | none => none
      | some none => some (sc, false)
      | some (some yy) =>
        match sc.gr.find_edge xx, sc.gr.find_edge yy with
        | some ex, some ey =>
          let xs := ex.s
          let xt := ex.t
          let ys := ey.s
          let yt := ey.t
          if xt ≠ ys ∧ yt ≠ xs then some (sc, false)
          else if yt = xs then scallop3.connect_adjacent_edges SMIN fuel sc y x
          else
            let (gr, p) := sc.gr.add_edge xs yt
            let n := sc.i2e.length
            let i2e := sc.i2e ++ [some p]
            if ¬ (mev_find sc.e2i p = none) then none
            else
              let e2i := mev_insert sc.e2i p n
              match gr.get_edge_weight xx, gr.get_edge_weight yy,
                  gr.get_edge_stddev xx, gr.get_edge_stddev yy with
              | some wx0, some wy0, some wx1, some _ =>
                if ¬ (|wx0 - wy0| ≤ SMIN) then none
                else
                  let gr := gr.set_edge_weight p wx0
                  let gr := gr.set_edge_stddev p wx1
                  let mev := mev_insert sc.mev xx []
                  let v := (mev_find mev xx).getD [] ++ [(xt : Int)]
                  let mev := mev_insert mev yy []
                  let v := v ++ (mev_find mev yy).getD []
                  let mev := mev_insert mev p v
                  let ds := sc.ds.make_set n
                  let ds := ds.union_set n x
                  let ds := ds.union_set n y
                  let e2i := mev_erase e2i xx
                  let e2i := mev_erase e2i yy
                  let i2e := i2e.set x none
                  let i2e := i2e.set y none
                  let gr := gr.remove_edge xx
                  let gr := gr.remove_edge yy
                  some ({ sc with gr := gr, e2i := e2i, i2e := i2e, mev := mev, ds := ds },
                    false)
              | _, _, _, _ => none
        | _, _ => none

/-- The read `e2i[e]` of the map from edges to indices (`operator[]` of `std::map`): the
index, and the map, in which a missing key has been entered with the value `0`. -/
def e2i_at (e2i : List (Nat × Nat)) (e : Nat) : List (Nat × Nat) × Nat :=
  (mev_insert e2i e 0, (mev_find e2i e).getD 0)

/-- The reads `e2i[e]` for the edges of a list, in order: the map and the indices. -/
def e2i_all (e2i : List (Nat × Nat)) (es : List graph_edge) : List (Nat × Nat) × List Nat :=
  es.foldl (fun st e => ((e2i_at st.1 e.id).1, st.2 ++ [(e2i_at st.1 e.id).2])) (e2i, [])

/-- The loop `for(int k = 0; k < v.size(); k++)` of `decompose_trivial_vertices` over
the pairs `(v[k], sub[k])`; `swap` tells that the call is
`connect_adjacent_edges(sub[k], v[k])`. -/
def decompose_trivial_vertices_connect (SMIN : ℚ) (fuel : Nat) (swap : Bool)
    (st : Option scallop3) (vk : Nat × Nat) : Option scallop3 :=
  match st with
  | none => none
  | some sc =>
    if ¬ (sc.live_edge vk.1).isSome then none
    else
      match (if swap then scallop3.connect_adjacent_edges SMIN fuel sc vk.2 vk.1
        else scallop3.connect_adjacent_edges SMIN fuel sc vk.1 vk.2) with
      | none => none
      | some res => some res.1

/-- One iteration of the loop of `scallop3::decompose_trivial_vertices`, at the vertex
`i`; an assertion failure is `none`. -/
def decompose_trivial_vertices_step (SMIN : ℚ) (fuel : Nat)
    (st : Option (scallop3 × Bool)) (i : Nat) : Option (scallop3 × Bool) :=
  match st with
  | none => none
  | some (sc, flag) =>
    if sc.gr.degree i = 0 then some (sc, flag)
    else if sc.gr.in_degree i = 1 then
      match (sc.gr.in_edges i).head? with
      | none => none
      | some e1 =>
        let (e2i, ei) := e2i_at sc.e2i e1.id
        let (e2i, sub) := e2i_all e2i (sc.gr.out_edges i)
        match scallop3.split_edge SMIN { sc with e2i := e2i } ei sub with
        | none => none
        | some (sc, v) =>
          if ¬ (v.length = sub.length) then none
          else
            match (v.zip sub).foldl (decompose_trivial_vertices_connect SMIN fuel false)
                (some sc) with
            | none => none
            | some sc => some (sc, true)
    else if sc.gr.out_degree i = 1 then
      match (sc.gr.out_edges i).head? with
      | none => none
      | some e1 =>
        let (e2i, ei) := e2i_at sc.e2i e1.id
        let (e2i, sub) := e2i_all e2i (sc.gr.in_edges i)
        match scallop3.split_edge SMIN { sc with e2i := e2i } ei sub with
        | none => none
        | some (sc, v) =>
          if ¬ (v.length = sub.length) then none
          else
            match (v.zip sub).foldl (decompose_trivial_vertices_connect SMIN fuel true)
                (some sc) with
            | none => none
            | some sc => some (sc, true)
    else some (sc, flag)

/-- The method `scallop3::decompose_trivial_vertices()`: the new state and the returned
Boolean; an assertion failure is `none`. `fuel` bounds the recursion of each call of
`connect_adjacent_edges`. -/
def scallop3.decompose_trivial_vertices (SMIN : ℚ) (fuel : Nat) (sc : scallop3) :
    Option (scallop3 × Bool) :=
  (List.range sc.gr.num_vertices).foldl (decompose_trivial_vertices_step SMIN fuel)
    (some (sc, false))

/-- The method `scallop3::init_disjoint_sets()`: a new structure in which the indices
`0, ..., num_edges - 1` are sets of their own. -/
def scallop3.init_disjoint_sets (sc : scallop3) : scallop3 :=
  { sc with ds := (List.range sc.gr.edges.length).foldl disjoint_sets.make_set [] }

/-- Modelled from the spec: `get_disjoint_sets(ds, n)` of `disjoint_sets.h` (absent), the
classes of the "union-find over edge identities" among `0, ..., n - 1`: the entry `r` of
the result lists, in ascending order, the elements whose class has the label `r`, and is
empty when `r` labels no class. -/
def get_disjoint_sets (ds : disjoint_sets) (n : Nat) : List (List Nat) :=
  (List.range n).map (fun r => (List.range n).filter (fun i => ds.find_set i = r))

/-- The inner loop of `scallop3::compute_representatives` over the class `c`: the first
element with a live edge, `-1` (here `none` inside) when there is none; a read outside
`i2e` is the outer `none`. -/
def compute_representatives_first (sc : scallop3) : List Nat → Option (Option Nat)
  | [] => some none
  | e :: rest =>
    match sc.i2e.get? e with
    | none => none
    | some none => compute_representatives_first sc rest
    | some (some _) => some (some e)

/-- The method `scallop3::compute_representatives()`; an assertion failure or a read
outside `i2e` is `none`. -/
def scallop3.compute_representatives (sc : scallop3) : Option (List Nat) :=
  (get_disjoint_sets sc.ds sc.i2e.length).foldl
    (fun (st : Option (List Nat)) (c : List Nat) =>
      match st with
      | none => none
      | some v =>
        if c.length = 0 then some v
        else
          match compute_representatives_first sc c with
          | some (some k) => some (v ++ [k])
          | _ => none)
    (some [])

/-- The inner loop of `scallop3::compute_disjoint_sets` over the class `c`: its elements
with a live edge; a read outside `i2e` is `none`. -/
def compute_disjoint_sets_live (sc : scallop3) : List Nat → Option (List Nat)
  | [] => some []
  | e :: rest =>
    match sc.i2e.get? e, compute_disjoint_sets_live sc rest with
    | some none, some v => some v
    | some (some _), some v => some (e :: v)
    | _, _ => none

/-- The method `scallop3::compute_disjoint_sets()`; an assertion failure or a read
outside `i2e` is `none`. -/
def scallop3.compute_disjoint_sets (sc : scallop3) : Option (List (List Nat)) :=
  (get_disjoint_sets sc.ds sc.i2e.length).foldl
    (fun (st : Option (List (List Nat))) (c : List Nat) =>
      match st with
      | none => none
      | some xx =>
        if c.length = 0 then some xx
        else
          match compute_disjoint_sets_live sc c with
          | none => none
          | some v => if ¬ (v.length ≥ 1) then none else some (xx ++ [v]))
    (some [])

/-- Test data: the decomposition state of the graph with the single edge `0 -> 1` of
weight `10`, after `init_super_edges` and `init_disjoint_sets`. -/
def single_edge_state : scallop3 :=
  scallop3.init_disjoint_sets (scallop3.init_super_edges
    { gr := mk_graph 2 [(0, 1, 10)], e2i := [(0, 0)], i2e := [some 0] })

/-- Test data: the decomposition state of the graph with the edges `0 -> 1` (weights `10`
and `5`), `1 -> 2` (weight `15`) and `2 -> 3` (weights `7` and `8`), in which the flow is
conserved at the vertices `1` and `2`, after `init_super_edges` and
`init_disjoint_sets`. -/
def fan_state : scallop3 :=
  scallop3.init_disjoint_sets (scallop3.init_super_edges
    { gr := mk_graph 4 [(0, 1, 10), (0, 1, 5), (1, 2, 15), (2, 3, 7), (2, 3, 8)],
      e2i := [(0, 0), (1, 1), (2, 2), (3, 3), (4, 4)],
      i2e := [some 0, some 1, some 2, some 3, some 4] })

/-! ## The router (`router.cc`) -/

/-- The values of a `double` that the divisions and comparisons of `router.cc` tell
apart: a finite value, taken as a rational number, the two infinities, and NaN. -/
inductive fdouble where
  | fin (q : ℚ)
  | pinf
  | ninf
  | nan
deriving DecidableEq

/-- The comparison `a < b` of two `double` values; it is false when one of them is
NaN. -/
def fdouble.lt : fdouble → fdouble → Bool
  | fdouble.fin a, fdouble.fin b => decide (a < b)
  | fdouble.fin _, fdouble.pinf => true
  | fdouble.ninf, fdouble.fin _ => true
  | fdouble.ninf, fdouble.pinf => true
  | _, _ => false

/-- The comparison `a <= b` of two `double` values; it is false when one of them is
NaN. -/
def fdouble.le : fdouble → fdouble → Bool
  | fdouble.fin a, fdouble.fin b => decide (a ≤ b)
  | fdouble.fin _, fdouble.pinf => true
  | fdouble.ninf, fdouble.fin _ => true
  | fdouble.ninf, fdouble.pinf => true
  | fdouble.pinf, fdouble.pinf => true
  | fdouble.ninf, fdouble.ninf => true
  | _, _ => false

/-- The comparison `a > b` of two `double` values. -/
def fdouble.gt (a b : fdouble) : Bool := fdouble.lt b a

/-- The comparison `a >= b` of two `double` values. -/
def fdouble.ge (a b : fdouble) : Bool := fdouble.le b a

/-- Modelled from the spec: the class `equation` (`equation.h`, absent), a pair of lists
of edge indices, "(S ⊆ I, T ⊆ O) with Σw(S) ≈ Σw(T)", and its error `e`, a `double`. -/
structure equation where
  s : List Nat := []
  t : List Nat := []
  e : fdouble := fdouble.fin 0
deriving DecidableEq

/-- Modelled from the spec: the class `undirected_graph` (absent): the "undirected
bipartite graph on `I ∪ O`", with vertices `0, ..., n - 1` and a list of edges. -/
structure undirected_graph where
  n : Nat := 0
  edges : List (Nat × Nat) := []
deriving DecidableEq

/-- Modelled from the spec: the labels of the vertices of an undirected graph after its
edges have been merged one by one: vertex `v` starts with the label `v`, and an edge
`(s, t)` gives the label of `s` to every vertex that carries the label of `t`. Two
vertices have the same label exactly when a path joins them. -/
def undirected_graph.labels (ug : undirected_graph) : List Nat :=
  ug.edges.foldl
    (fun lab e => lab.map (fun l => if l = lab.getD e.2 e.2 then lab.getD e.1 e.1 else l))
    (List.range ug.n)

/-- Modelled from the spec: `ug.compute_connected_components()` of the class
`undirected_graph` (absent), the "connected components of the bipartite graph": one set
of vertices, in ascending order, per label. -/
def undirected_graph.compute_connected_components (ug : undirected_graph) :
    List (List Nat) :=
  ug.labels.dedup.map (fun l => (List.range ug.n).filter (fun v => ug.labels.getD v v = l))

/-- The members of the class `router` (`router.h`, absent) that `router.cc` uses. The
members `gr`, `e2i` and `i2e` are references to the graph and the edge maps of the
caller. -/
structure router where
  root : Nat
  gr : splice_graph
  e2i : List (Nat × Nat)
  i2e : List (Option Nat)
  routes : List (Nat × Nat) := []
  e2u : List (Nat × Nat) := []
  u2e : List Nat := []
  ratio : fdouble := fdouble.fin 0
  eqns : List equation := []
  status : Int := 0
  ug : undirected_graph := {}
deriving DecidableEq

/-- The division `a / b` of two finite `double` values. A zero divisor yields NaN when
the dividend is zero too, and otherwise an infinity with the sign of the dividend: the
divisors of `router.cc` are sums that start at `+0.0`, so a zero divisor is `+0.0`. -/
def fdiv (a b : ℚ) : fdouble :=
  if b = 0 then (if a = 0 then fdouble.nan else if 0 < a then fdouble.pinf else fdouble.ninf)
  else fdouble.fin (a / b)

/-- The conversion `(int)(x)` of a `double` to `int`: the fractional part is discarded;
a value outside the range of `int` has no defined result (`none`). -/
def double_to_int (x : ℚ) : Option Int :=
  let z := if 0 ≤ x then ⌊x⌋ else ⌈x⌉
  if -2147483648 ≤ z ∧ z < 2147483648 then some z else none

/-- One iteration of the loops of `router::build_indices` for the edge `e`, on the
members `e2i`, `e2u` and `u2e`. -/
def build_indices_edge (st : List (Nat × Nat) × List (Nat × Nat) × List Nat)
    (e : graph_edge) : List (Nat × Nat) × List (Nat × Nat) × List Nat :=
  let r := e2i_at st.1 e.id
  (r.1, mev_insert st.2.1 r.2 st.2.1.length, st.2.2 ++ [r.2])

/-- The method `router::build_indices()`. -/
def router.build_indices (rt : router) : router :=
  let st := (rt.gr.in_edges rt.root).foldl build_indices_edge (rt.e2i, [], [])
  let st := (rt.gr.out_edges rt.root).foldl build_indices_edge st
  { rt with e2i := st.1, e2u := st.2.1, u2e := st.2.2 }

/-- The weight `gr.get_edge_weight(i2e[u2e[i]])` of the edge at position `i` of `u2e`;
`none` on a read outside a vector and when the entry of `i2e` is no edge of the graph. -/
def router.edge_weight (rt : router) (i : Nat) : Option ℚ :=
  match rt.u2e.get? i with
  | none => none
  | some k =>
    match (rt.i2e.get? k).join with
    | none => none
    | some e => rt.gr.get_edge_weight e

/-- One iteration of a loop of `router::add_single_equation` at position `i` of `u2e`, on
the side of the equation filled so far and the sum of the weights. -/
def add_single_equation_edge (rt : router) (st : Option (List Nat × ℚ)) (i : Nat) :
    Option (List Nat × ℚ) :=
  match st, rt.u2e.get? i, rt.edge_weight i with
  | some (l, sum), some k, some w => some (l ++ [k], sum + w)
  | _, _, _ => none

/-- The method `router::add_single_equation()`; an assertion failure or a read outside a
vector is `none`. The quotient is not tested: when the total weight is zero the method
returns with the error NaN (or an infinity). -/
def router.add_single_equation (rt : router) : Option router :=
  let a := rt.gr.in_degree rt.root
  let d := rt.gr.degree rt.root
  match (List.range a).foldl (add_single_equation_edge rt) (some ([], 0)),
      ((List.range d).drop a).foldl (add_single_equation_edge rt) (some ([], 0)) with
  | some (s, sum1), some (t, sum2) =>
    if ¬ (s.length ≥ 1) then none
    else if ¬ (t.length ≥ 1) then none
    else
      let ratio := fdiv |sum1 - sum2| (sum1 + sum2)
      some { rt with ratio := ratio,
                     eqns := rt.eqns ++ [{ s := s, t := t, e := ratio }] }
  | _, _ => none

/-- One iteration of the loop of `router::build_bipartite_graph` over the routes; an
assertion failure is `none`. -/
def build_bipartite_graph_route (rt : router) (st : Option undirected_graph)
    (r : Nat × Nat) : Option undirected_graph :=
  match st, mev_find rt.e2u r.1, mev_find rt.e2u r.2 with
  | some ug, some s, some t =>
    if ¬ (s < rt.gr.in_degree rt.root) then none
    else if ¬ (t ≥ rt.gr.in_degree rt.root ∧ t < rt.gr.degree rt.root) then none
    else some { ug with edges := ug.edges ++ [(s, t)] }
  | _, _, _ => none

/-- The method `router::build_bipartite_graph()`; an assertion failure is `none`. -/
def router.build_bipartite_graph (rt : router) : Option router :=
  match rt.routes.foldl (build_bipartite_graph_route rt)
      (some { n := rt.u2e.length, edges := [] }) with
  | none => none
  | some ug => some { rt with ug := ug }

/-- The first loop of `router::split`, over the positions of `u2e`: the vector `vw` and
the sums `sum1`, `sum2`; an assertion failure or a read outside a vector is `none`. -/
def router.split_weights (rt : router) : Option (List ℚ × ℚ × ℚ) :=
  (List.range rt.u2e.length).foldl
    (fun (st : Option (List ℚ × ℚ × ℚ)) (i : Nat) =>
      match st, rt.edge_weight i with
      | some (vw, sum1, sum2), some w =>
        if i < rt.gr.in_degree rt.root then some (vw ++ [w], sum1 + w, sum2)
        else some (vw ++ [w], sum1, sum2 + w)
      | _, _ => none)
    (some ([], 0, 0))

/-- The statement `vw[i] *= r` of `router::split`; a write outside `vw` is `none`. -/
def split_scale (r : ℚ) (st : Option (List ℚ)) (i : Nat) : Option (List ℚ) :=
  match st with
  | none => none
  | some vw => if i < vw.length then some (vw.modify (fun w => w * r) i) else none

/-- The inner loop of `router::split` that sums the scaled weights of a component, those
of the out-edges negated; a read outside `vw` is `none`. -/
def split_excess (in_degree : Nat) (vw : List ℚ) (c : List Nat) : Option ℚ :=
  c.foldl
    (fun (st : Option ℚ) (u : Nat) =>
      match st, vw.get? u with
      | some ww, some w => some (ww + (if u ≥ in_degree then 0 - w else w))
      | _, _ => none)
    (some 0)

/-- The loop of `router::split` that fills `ss` and `tt`: the component `i` goes to `ss`
with the integer part of its excess when the excess is not negative, and to `tt` with
the integer part of the negated excess otherwise. -/
def split_sides (in_degree : Nat) (vw : List ℚ) (vv : List (List Nat)) :
    Option (List (Int × Nat) × List (Int × Nat)) :=
  vv.enum.foldl
    (fun (st : Option (List (Int × Nat) × List (Int × Nat))) (ic : Nat × List Nat) =>
      match st, split_excess in_degree vw ic.2 with
      | some (ss, tt), some ww =>
        if ww ≥ 0 then
          match double_to_int ww with
          | none => none
          | some z => some (ss ++ [(z, ic.1)], tt)
        else
          match double_to_int (0 - ww) with
          | none => none
          | some z => some (ss, tt ++ [(z, ic.1)])
      | _, _ => none)
    (some ([], []))

/-- The statement `if(e < gr.in_degree(root)) eqn.s.push_back(u2e[e]); else
eqn.t.push_back(u2e[e]);` of `router::split`; a read outside `u2e` is `none`. -/
def split_push (in_degree : Nat) (u2e : List Nat) (st : Option equation) (e : Nat) :
    Option equation :=
  match st, u2e.get? e with
  | some eqn, some x =>
    if e < in_degree then some { eqn with s := eqn.s ++ [x] }
    else some { eqn with t := eqn.t ++ [x] }
  | _, _ => none

/-- One iteration of the two loops of `router::split` that evaluate the single
components: `p` is the entry of `ss` or of `tt`, `den` is `sum1 * r1`, and the state is
`eqn0`. `eqn0.clear()` empties its two sides. -/
def split_single (in_degree : Nat) (u2e : List Nat) (vv : List (List Nat)) (den : ℚ)
    (st : Option equation) (p : Int × Nat) : Option equation :=
  match st, vv.get? p.2 with
  | some eqn0, some s =>
    if s.length ≤ 1 then some eqn0
    else
      let r := fdiv ((p.1 : ℚ) * 1) den
      if eqn0.e.ge (fdouble.fin 0) = true ∧ r.ge eqn0.e = true then some eqn0
      else if ¬ (r.ge (fdouble.fin 0) = true) then none
      else
        match s.foldl (split_push in_degree u2e) (some { s := [], t := [], e := r }) with
        | none => none
        | some eqn =>
          if ¬ (eqn.s.length ≥ 1) then none
          else if ¬ (eqn.t.length ≥ 1) then none
          else some eqn
  | _, _ => none

/-- One iteration of the loops of `router::split` over the components chosen by
`subsetsum4`, on `eqn1`; a read outside `vv` is `none`. -/
def split_chosen (in_degree : Nat) (u2e : List Nat) (vv : List (List Nat))
    (st : Option equation) (k : Nat) : Option equation :=
  match st, vv.get? k with
  | some eqn1, some c => c.foldl (split_push in_degree u2e) (some eqn1)
  | _, _ => none

/-- The part of `router::split` that computes the two candidates `eqn0` and `eqn1`.
The class `subsetsum4` is absent; `solve ss tt` stands for the member `eqn` of
`subsetsum4 sss(ss, tt)` after `sss.solve()`. When `r1` or `r2` is not finite (`sum1`
or `sum2` is zero), the scaled weights `vw[i]` are infinite or NaN, and so is the excess
`ww` of the components they belong to, whose conversion `(int)(ww)` has no defined
result: `none`. -/
def router.split_candidates (solve : List (Int × Nat) → List (Int × Nat) → equation)
    (rt : router) : Option (equation × equation) :=
  let vv := rt.ug.compute_connected_components
  let a := rt.gr.in_degree rt.root
  let d := rt.gr.degree rt.root
  match rt.split_weights with
  | none => none
  | some (vw, sum1, sum2) =>
    match (if sum1 > sum2 then fdouble.fin 1 else fdiv sum2 sum1),
        (if sum1 < sum2 then fdouble.fin 1 else fdiv sum1 sum2) with
    | fdouble.fin r1, fdouble.fin r2 =>
      match ((List.range d).drop a).foldl (split_scale r2)
          ((List.range a).foldl (split_scale r1) (some vw)) with
      | none => none
      | some vw =>
        match split_sides a vw vv with
        | none => none
        | some (ss, tt) =>
          match tt.foldl (split_single a rt.u2e vv (sum1 * r1))
              (ss.foldl (split_single a rt.u2e vv (sum1 * r1))
                (some { s := [], t := [], e := fdouble.fin (-1) })) with
          | none => none
          | some eqn0 =>
            if ss.length ≥ 2 ∧ tt.length ≥ 2 then
              let sss := solve ss tt
              if ¬ (sss.e.ge (fdouble.fin 0) = true) then none
              else
                match sss.t.foldl (split_chosen a rt.u2e vv)
                    (sss.s.foldl (split_chosen a rt.u2e vv)
                      (some { s := [], t := [], e := sss.e })) with
                | none => none
                | some eqn1 => some (eqn0, eqn1)
            else some (eqn0, { s := [], t := [], e := fdouble.fin (-1) })
    | _, _ => none

/-- The loops of `router::split` that fill a side of the complement `eqn3`: the entries
of `u2e` at the given positions that are not in the set `s1`; a read outside `u2e` is
`none`. -/
def split_complement (u2e : List Nat) (s1 : List Nat) (positions : List Nat) :
    Option (List Nat) :=
  positions.foldl
    (fun (st : Option (List Nat)) (i : Nat) =>
      match st, u2e.get? i with
      | some l, some e => if e ∈ s1 then some l else some (l ++ [e])
      | _, _ => none)
    (some [])

/-- The last part of `router::split`, from `equation eqn2;` on: the choice between the
candidates and the emission of the chosen equation and its complement. -/
def router.split_emit (rt : router) (eqn0 eqn1 : equation) : Option router :=
  let a := rt.gr.in_degree rt.root
  let d := rt.gr.degree rt.root
  if eqn0.e.lt (fdouble.fin (-0.5)) = true ∧ eqn1.e.lt (fdouble.fin (-0.5)) = true then
    some rt
  else if ¬ (eqn0.e.ge (fdouble.fin 0) = true ∨ eqn1.e.ge (fdouble.fin 0) = true) then none
  else
    let eqn2 :=
      if eqn1.e.lt (fdouble.fin (-0.5)) = true then eqn0
      else if eqn0.e.lt (fdouble.fin (-0.5)) = true then eqn1
      else if eqn0.e.gt eqn1.e = true then eqn1
      else eqn0
    if ¬ (eqn2.s.length ≥ 1) then none
    else if ¬ (eqn2.t.length ≥ 1) then none
    else
      match split_complement rt.u2e eqn2.s (List.range a),
          split_complement rt.u2e eqn2.t ((List.range d).drop a) with
      | some s3, some t3 =>
        if s3.length ≤ 0 ∨ t3.length ≤ 0 then some rt
        else
          some { rt with ratio := eqn2.e,
                         eqns := rt.eqns ++ [eqn2, { s := s3, t := t3, e := eqn2.e }] }
      | _, _ => none

/-- The method `router::split()`; an assertion failure or a read outside a vector is
`none`. -/
def router.split (solve : List (Int × Nat) → List (Int × Nat) → equation) (rt : router) :
    Option router :=
  match rt.split_candidates solve with
  | none => none
  | some (eqn0, eqn1) => rt.split_emit eqn0 eqn1

/-- The method `router::build()`; an assertion failure or a read outside a vector is
`none`. The test `routes.size() == u2e.size() - 1` on unsigned sizes is the test
`routes.size() + 1 == u2e.size()`. -/
def router.build (solve : List (Int × Nat) → List (Int × Nat) → equation) (rt : router) :
    Option router :=
  if ¬ (rt.gr.in_degree rt.root ≥ 1) then none
  else if ¬ (rt.gr.out_degree rt.root ≥ 1) then none
  else
    let rt := { rt with eqns := [], ratio := fdouble.fin (-1), status := -1 }
    let rt := rt.build_indices
    if rt.gr.in_degree rt.root = 1 ∨ rt.gr.out_degree rt.root = 1 then
      match rt.add_single_equation with
      | none => none
      | some rt => some { rt with status := 0 }
    else
      match rt.build_bipartite_graph with
      | none => none
      | some rt =>
        let vv := rt.ug.compute_connected_components
        if vv.length = 1 then
          if rt.routes.length + 1 = rt.u2e.length then some { rt with status := 1 }
          else if rt.routes.length ≥ rt.u2e.length then some { rt with status := 2 }
          else none
        else
          match rt.split solve with
          | none => none
          | some rt => if rt.eqns.length = 2 then some { rt with status := 4 } else some rt

/-- Test data: the router of the vertex `root` of the graph `mk_graph n es` with the given
routes, where the edge with descriptor `k` has the index `k`. -/
def mk_router (n : Nat) (es : List (Nat × Nat × ℚ)) (root : Nat)
    (routes : List (Nat × Nat)) : router :=
  { root := root, gr := mk_graph n es,
    e2i := (List.range es.length).map (fun k => (k, k)),
    i2e := (List.range es.length).map some,
    routes := routes }

/-- Test data: a stand-in for `subsetsum4` that chooses the first entry of each list. -/
def solve_first (ss tt : List (Int × Nat)) : equation :=
  { s := (ss.take 1).map Prod.snd, t := (tt.take 1).map Prod.snd, e := fdouble.fin 0 }

/-- Test data: the router of the vertex `1` with the in-edges `0`, `1` and the out-edges
`2`, `3`, all of weight `10`. -/
def cross_router (routes : List (Nat × Nat)) : router :=
  mk_router 3 [(0, 1, 10), (0, 1, 10), (1, 2, 10), (1, 2, 10)] 1 routes

/-- The bipartite route graph of the vertex of a router, as `router::build` constructs
it with `build_indices` and `build_bipartite_graph`; `none` when an assertion of
`build_bipartite_graph` fails. -/
def router.route_graph (rt : router) : Option undirected_graph :=
  ((router.build_indices
    { rt with eqns := [], ratio := fdouble.fin (-1), status := -1 }).build_bipartite_graph).map router.ug

/-- Test data: the router of the vertex `1` with the in-edge `0` of weight `10` and the
out-edges `1` and `2` of weights `4` and `5`. -/
def fork_router : router := mk_router 3 [(0, 1, 10), (1, 2, 4), (1, 2, 5)] 1 []

/-- Test data: the router of the vertex `1` with the in-edge `0` and the out-edges `1` and
`2`, all of weight `0`. -/
def zero_fork_router : router := mk_router 3 [(0, 1, 0), (1, 2, 0), (1, 2, 0)] 1 []

/-- The sides of an equation lie within the entries of `u2e`: the `s` side among the
first `a` entries (the in-edges) and the `t` side among the others (the out-edges). -/
def equation.within (a : Nat) (u2e : List Nat) (eqn : equation) : Prop :=
  (∀ x ∈ eqn.s, x ∈ u2e.take a) ∧ (∀ x ∈ eqn.t, x ∈ u2e.drop a)

/-- Test data: the router `cross_router routes` after `build_indices` and
`build_bipartite_graph`, the state in which `router::build` calls `split`. -/
def cross_router_built (routes : List (Nat × Nat)) : router :=
  ((router.build_indices (cross_router routes)).build_bipartite_graph).getD
    (cross_router routes)

/-- Test data: the router `cross_router_built [(0, 2), (1, 3)]` after `split`. -/
def cross_router_split : router :=
  ((cross_router_built [(0, 2), (1, 3)]).split solve_first).getD (cross_router [])

/-- The parallel copies that the second loop of `split_edge` adds for the edges `xs`
denoted by the entries of `sub` after the first: edges from `s` to `t` with the
descriptors `next`, `next + 1`, ... and the weights and standard deviations of `xs`. -/
def split_edge_copies (next s t : Nat) : List graph_edge → List graph_edge
  | [] => []
  | x :: xs =>
    { id := next, s := s, t := t, weight := x.weight, stddev := x.stddev } ::
      split_edge_copies (next + 1) s t xs

/-- The disjoint sets after the second loop of `split_edge` over the entries `ks`: the
new indices `n`, `n + 1`, ... are made and merged with the entries one by one. -/
def split_edge_classes (ds : disjoint_sets) (n : Nat) : List Nat → disjoint_sets
  | [] => ds
  | k :: ks => split_edge_classes ((ds.make_set n).union_set n k) (n + 1) ks

/-- The state after the second loop of `split_edge` over the entries `ks`, which denote
the edges `xs`, in closed form; `c` is the super-edge chain of the split edge and `s`,
`t` are its ends. -/
def split_edge_after (sc : scallop3) (c : List Int) (s t : Nat) (ks : List Nat)
    (xs : List graph_edge) : scallop3 :=
  scallop3.mk
    (splice_graph.mk sc.gr.vertices (sc.gr.edges ++ split_edge_copies sc.gr.next s t xs)
      (sc.gr.next + xs.length))
    (sc.e2i ++ List.zip (List.range' sc.gr.next xs.length) (List.range' sc.i2e.length xs.length))
    (sc.i2e ++ (List.range' sc.gr.next xs.length).map some)
    (sc.mev ++ (List.range' sc.gr.next xs.length).map (fun p => (p, c)))
    (split_edge_classes sc.ds sc.i2e.length ks)
    sc.round

/-- The edge that an index denotes: the entry of `i2e`, looked up in the graph. -/
def scallop3.edge_at (sc : scallop3) (i : Nat) : Option graph_edge :=
  (sc.live_edge i).bind sc.gr.find_edge

/-- The element `z` has been made in the disjoint sets (by `make_set` or by a union). -/
def disjoint_sets.known (ds : disjoint_sets) (z : Nat) : Prop := (mev_find ds z).isSome

/-- The state of `split_edge(ei, sub)` before its second loop: the edge `ex` of `ei` has
the weight `w0` and the standard deviation `w1` of the first entry `k0` of `sub`, and
the classes of `ei` and `k0` are merged. -/
def split_edge_first (sc : scallop3) (ei ex k0 : Nat) (w0 w1 : ℚ) : scallop3 :=
  scallop3.mk ((sc.gr.set_edge_weight ex w0).set_edge_stddev ex w1) sc.e2i sc.i2e sc.mev
    (sc.ds.union_set ei k0) sc.round

/-- The disjoint sets cover the indices `0, ..., n - 1`: each of them has been made, and
no other element or label occurs. -/
def ds_covers (ds : disjoint_sets) (n : Nat) : Prop :=
  (∀ i, i < n → ds.known i) ∧ (∀ p ∈ ds, p.1 < n ∧ p.2 < n)

/-- Every disjoint-set class over the indices of `i2e` contains a live (non-null)
edge. -/
def ds_live (ds : disjoint_sets) (i2e : List (Option Nat)) : Prop :=
  ∀ i, i < i2e.length →
    ∃ j, j < i2e.length ∧ ds.find_set j = ds.find_set i ∧ ((i2e.get? j).join).isSome

/-- The invariant of the disjoint sets of `scallop3`: they are disjoint sets over the
indices `0, ..., i2e.size() - 1`, and every class contains a live edge. -/
def scallop3.ds_invariant (sc : scallop3) : Prop :=
  ds_covers sc.ds sc.i2e.length ∧ ds_live sc.ds sc.i2e

/-- The state after `connect_adjacent_edges(x, y)` has merged the edge `ex` of `x` and
the edge `ey` of `y`, in closed form. The new edge has the descriptor `gr.next` and the
index `i2e.size()`. -/
def connect_adjacent_edges_state (sc : scallop3) (x y : Nat) (ex ey : graph_edge) :
    scallop3 :=
  scallop3.mk
    (((((sc.gr.add_edge ex.s ey.t).1.set_edge_weight sc.gr.next ex.weight).set_edge_stddev
      sc.gr.next ex.stddev).remove_edge ex.id).remove_edge ey.id)
    (mev_erase (mev_erase (mev_insert sc.e2i sc.gr.next sc.i2e.length) ex.id) ey.id)
    (((sc.i2e ++ [some sc.gr.next]).set x none).set y none)
    (mev_insert (mev_insert (mev_insert sc.mev ex.id []) ey.id []) sc.gr.next
      ((mev_find (mev_insert sc.mev ex.id []) ex.id).getD [] ++ [(ex.t : Int)] ++
        (mev_find (mev_insert (mev_insert sc.mev ex.id []) ey.id []) ey.id).getD []))
    (((sc.ds.make_set sc.i2e.length).union_set sc.i2e.length x).union_set sc.i2e.length y)
    sc.round

/-- The live edges of the class with the label `r`: the indices of `i2e` whose entry is
not `null_edge` and whose class carries the label. -/
def class_live (ds : disjoint_sets) (i2e : List (Option Nat)) (r : Nat) : List Nat :=
  (List.range i2e.length).filter
    (fun i => ((i2e.get? i).join).isSome ∧ ds.find_set i = r)

/-- Test data: the path `0 -> 1 -> 2` of two edges of weight `5` with the indices `0`
and `1`, in one disjoint-set class. -/
def adjacent_pair_state : scallop3 :=
  { gr := mk_graph 3 [(0, 1, 5), (1, 2, 5)], e2i := [(0, 0), (1, 1)],
    i2e := [some 0, some 1], mev := [(0, []), (1, [])], ds := [(0, 0), (1, 0)] }

/-- Every edge of the graph goes from a vertex to a vertex with a higher index: the graph
is acyclic, with the vertex index as a topological order. -/
def splice_graph.ordered (g : splice_graph) : Prop := ∀ e ∈ g.edges, e.s < e.t

/-- Every edge of the graph has a super-edge entry in `mev` (what `init_super_edges`
establishes and `init_trivial_vertex` asserts). -/
def scallop3.covered (sc : scallop3) : Prop :=
  ∀ e ∈ sc.gr.edges, (mev_find sc.mev e.id).isSome

/-- Test data: the decomposition state of the cycle `0 -> 1 -> 0` with the edge `1 -> 2`,
after `init_super_edges`: a graph without a self-loop. -/
def two_cycle_state : scallop3 :=
  scallop3.init_super_edges { gr := mk_graph 3 [(0, 1, 10), (1, 0, 10), (1, 2, 10)] }

/-- Test data: the state that `init_trivial_vertex(0)` makes of `two_cycle_state`: the
edge `1 -> 2` and the new edge `1 -> 1` with the super-edge `[0]`. -/
def two_cycle_after : scallop3 :=
  { gr := { vertices := [{}, {}, {}],
            edges := [{ id := 2, s := 1, t := 2, weight := 10 },
                      { id := 3, s := 1, t := 1, weight := 10 }],
            next := 4 },
    mev := [(0, []), (1, []), (2, []), (3, [0])] }

/-- The parts of the absent class `splice_graph` that `scallop3::check_linkable` calls,
taken as parameters, and the member `sis` of `scallop3` (a `set<PI>` filled by
`compute_intersecting_edges`): `check_directed_path(e1, e2)` on two edge descriptors,
`compute_shortest_path(e1, e2, p)` as the returned Boolean and the new content of `p`,
`compute_out_ancestor(v)` and `compute_in_ancestor(v)`. -/
structure linkable_env where
  check_directed_path : Nat → Nat → Bool
  compute_shortest_path : Nat → Nat → List Int → Bool × List Int
  compute_out_ancestor : Int → Int
  compute_in_ancestor : Int → Int
  sis : List (Int × Int)

/-- The loop `for(int i = 0; i < p.size() - 1; i++)` of `check_linkable`, entered with
`p.size() >= 2`: whether some pair `(p[i], p[i + 1])` is in `sis`. -/
def check_linkable_intersects (env : linkable_env) (p : List Int) : Bool :=
  (List.range (p.length - 1)).any
    (fun i => decide ((p.getD i 0, p.getD (i + 1) 0) ∈ env.sis))

/-- The loop `while(li < ri)` of `scallop3::check_linkable`, bounded by `fuel`
iterations: the returned Boolean and the vector `p`; running out of fuel and an access
outside `p` are `none`. Under the guard `li < ri` neither `li + 1` nor `ri - 1` leaves
the range of `int`. -/
def check_linkable_loop (env : linkable_env) : Nat → List Int → Int → Int →
    Option (Bool × List Int)
  | 0, _, _, _ => none
  | fuel + 1, p, li, ri =>
    if ¬ (li < ri) then some (true, p)
    else
      match vec_get p li, vec_get p ri, vec_get p (li + 1),
          vec_get p (ri - 1) with
      | some l1, some r1, some l2, some r2 =>
        let lr := env.compute_out_ancestor l1
        let rr := env.compute_out_ancestor r1
        let ll := env.compute_in_ancestor l1
        let rl := env.compute_in_ancestor r1
        if lr = l2 ∧ (ll, l1) ∉ env.sis then
          match vec_set p li (wrap32 (0 - l1)) with
          | none => none
          | some p => check_linkable_loop env fuel p (li + 1) ri
        else if rl = r2 ∧ (r1, rr) ∉ env.sis then
          match vec_set p ri (wrap32 (0 - r1)) with
          | none => none
          | some p => check_linkable_loop env fuel p li (ri - 1)
        else some (false, p)
      | _, _, _, _ => none

/-- The method `scallop3::check_linkable(ex, ey, p)`: the returned Boolean and the vector
`p`. The call with swapped arguments and the loop are bounded by `fuel`; running out of
it, an assertion failure and an access outside a vector are `none`. -/
def scallop3.check_linkable (env : linkable_env) :
    Nat → scallop3 → Nat → Nat → List Int → Option (Bool × List Int)
  | 0, _, _, _, _ => none
  | fuel + 1, sc, ex, ey, p =>
    match sc.i2e.get? ex, sc.i2e.get? ey with
    | some (some xx), some (some yy) =>
      let b1 := env.check_directed_path xx yy
      let b2 := env.check_directed_path yy xx
      if ¬ (b1 = false ∨ b2 = false) then none
      else if b1 = false ∧ b2 = false then some (false, p)
      else if b2 = true then scallop3.check_linkable env fuel sc ey ex p
      else
        let r := env.compute_shortest_path xx yy p
        if r.1 = false then some (false, r.2)
        else if ¬ (r.2.length ≥ 1) then none
        else if r.2.length = 1 then some (true, r.2)
        else if check_linkable_intersects env r.2 then some (false, r.2)
        else check_linkable_loop env fuel r.2 0 ((r.2.length : Int) - 1)
    | _, _ => none

/-- The value `(int)fabs(x)` of an `int` `x`: `fabs` yields a `double`, which is
converted back. -/
def int_fabs (x : Int) : Option Int := double_to_int |(x : ℚ)|

/-- The loop `while(li < ri)` of `scallop3::build_adjacent_edges`, bounded by `fuel`
iterations. The class `splice_graph` is absent and the loop reads nothing of the graph,
so the calls `gr.exchange(a, b, c)` are recorded, in order, as the triples `(a, b, c)`;
running out of fuel, `assert(false)` and an access outside `p` are `none`. -/
def build_adjacent_edges_loop (p : List Int) :
    Nat → Int → Int → Int → Int → List (Int × Int × Int) → Option (List (Int × Int × Int))
  | 0, _, _, _, _, _ => none
  | fuel + 1, li, ri, l0, r0, calls =>
    if ¬ (li < ri) then some calls
    else
      match vec_get p li, vec_get p ri, vec_get p (li + 1),
          vec_get p (ri - 1) with
      | some pl, some pr, some pl2, some pr2 =>
        match int_fabs pl, int_fabs pr, int_fabs pl2, int_fabs pr2 with
        | some l1, some r1, some l2, some r2 =>
          if pl < 0 then
            build_adjacent_edges_loop p fuel (li + 1) ri l1 r0
              (calls ++ [(l0, l1, l2)])
          else if pr < 0 then
            build_adjacent_edges_loop p fuel li (ri - 1) l0 r1
              (calls ++ [(r2, r1, r0)])
          else none
        | _, _, _, _ => none
      | _, _, _, _ => none

/-- The method `scallop3::build_adjacent_edges(ex, ey, p)`: the calls of `gr.exchange` it
makes, in order; `none` when `i2e[ex]` or `i2e[ey]` is no edge of the graph. -/
def scallop3.build_adjacent_edges (fuel : Nat) (sc : scallop3) (ex ey : Nat)
    (p : List Int) : Option (List (Int × Int × Int)) :=
  match sc.edge_at ex, sc.edge_at ey with
  | some el, some er =>
    build_adjacent_edges_loop p fuel 0 ((p.length : Int) - 1) (el.s : Int) (er.t : Int) []
  | _, _ => none

/-- The path `p0` in which `check_linkable` has negated the entries before the position
`li` and after the position `ri`. -/
def labelled_path (p0 : List Int) (li ri : Nat) : List Int :=
  (List.range p0.length).map
    (fun i => if i < li ∨ ri < i then - p0.getD i 0 else p0.getD i 0)

/-- Test data: a graph environment in which every vertex `v` has the out-ancestor
`v + 1` and the in-ancestor `v - 1`, there is a directed path from the edge `0` to the
edge `1`, the shortest path between them is `[1, 2, 3]`, and no edges intersect. -/
def chain_env : linkable_env :=
  { check_directed_path := fun a b => decide (a = 0 ∧ b = 1),
    compute_shortest_path := fun _ _ _ => (true, [1, 2, 3]),
    compute_out_ancestor := fun v => v + 1,
    compute_in_ancestor := fun v => v - 1,
    sis := [] }

/-- Test data: the partial exons `[100, 200)` of coverage `10` and `[300, 400)` of
coverage `1`, joined by the junction `(200, 300)` of count `1`. -/
def faint_end_locus : bundle :=
  mk_locus 0 500 [{ lpos := 200, rpos := 300, count := 1, lexon := 0, rexon := 1 }]
    [mk_pexon 100 200 START_BOUNDARY LEFT_SPLICE 10,
     mk_pexon 300 400 RIGHT_SPLICE END_BOUNDARY 1]

end Scallop

namespace Scallop

open library_type_t

open boundary_type

/-! ## Strand of a hit (`hit::set_strand`) -/

/-- The strand computed by `set_strand`, as a function of the four tests on the flag
that the source performs. -/
theorem set_strand_strand (lt : library_type_t) (h : hit) :
    (h.set_strand lt).strand =
      (match lt with
       | UNSTRANDED => '.'
       | FR_FIRST =>
         if flag_set h.flag 0x1 then
           (if flag_set h.flag 0x40 ∧ ¬ flag_set h.flag 0x80 then
              (if flag_set h.flag 0x10 then '+' else '-')
            else if ¬ flag_set h.flag 0x40 ∧ flag_set h.flag 0x80 then
              (if flag_set h.flag 0x10 then '-' else '+')
            else '.')
         else (if flag_set h.flag 0x10 then '+' else '-')
       | FR_SECOND =>
         if flag_set h.flag 0x1 then
           (if flag_set h.flag 0x40 ∧ ¬ flag_set h.flag 0x80 then
              (if flag_set h.flag 0x10 then '-' else '+')
            else if ¬ flag_set h.flag 0x40 ∧ flag_set h.flag 0x80 then
              (if flag_set h.flag 0x10 then '+' else '-')
            else '.')
         else (if flag_set h.flag 0x10 then '-' else '+')) := by
  cases lt <;> by_cases ha : h.flag &&& 0x1 = 0 <;> by_cases hb : h.flag &&& 0x10 = 0 <;>
    by_cases hc : h.flag &&& 0x40 = 0 <;> by_cases hd : h.flag &&& 0x80 = 0 <;>
    simp [hit.set_strand, flag_set, ha, hb, hc, hd, Nat.one_le_iff_ne_zero, -Nat.and_one_is_mod]

/-- Claim C3. For a paired read (bit 0x1 set) under FR_FIRST, `set_strand` yields `-`
for a forward first mate or a reverse second mate, `+` for a reverse first mate or a
forward second mate, and `.` when the mate bits 0x40 and 0x80 are both set or both
clear; under an unstranded library it yields `.` whatever the flag. -/
theorem set_strand_fr_first_paired (h : hit) :
    (flag_set h.flag 0x1 →
      (((¬ flag_set h.flag 0x10 ∧ flag_set h.flag 0x40 ∧ ¬ flag_set h.flag 0x80) ∨
        (flag_set h.flag 0x10 ∧ ¬ flag_set h.flag 0x40 ∧ flag_set h.flag 0x80)) →
          (h.set_strand FR_FIRST).strand = '-') ∧
      (((flag_set h.flag 0x10 ∧ flag_set h.flag 0x40 ∧ ¬ flag_set h.flag 0x80) ∨
        (¬ flag_set h.flag 0x10 ∧ ¬ flag_set h.flag 0x40 ∧ flag_set h.flag 0x80)) →
          (h.set_strand FR_FIRST).strand = '+') ∧
      (((flag_set h.flag 0x40 ∧ flag_set h.flag 0x80) ∨
        (¬ flag_set h.flag 0x40 ∧ ¬ flag_set h.flag 0x80)) →
          (h.set_strand FR_FIRST).strand = '.')) ∧
    (h.set_strand UNSTRANDED).strand = '.' := by
  rw [set_strand_strand, set_strand_strand]
  by_cases ha : flag_set h.flag 0x1 <;> by_cases hb : flag_set h.flag 0x10 <;>
    by_cases hc : flag_set h.flag 0x40 <;> by_cases hd : flag_set h.flag 0x80 <;>
    simp [ha, hb, hc, hd]

/-- Witness for C3: a paired forward first mate (flag `0x41`) gets strand `-`. -/
theorem set_strand_fr_first_paired_witness :
    ((mk_hit 100 0x41 [cig 50 0]).set_strand FR_FIRST).strand = '-' :=
  ((set_strand_fr_first_paired (mk_hit 100 0x41 [cig 50 0])).1 (by decide)).1
    (Or.inl (by decide))

/-- Claim C4. For every flag, the strand assigned under FR_SECOND is the mirror of the
strand assigned under FR_FIRST: `+` and `-` are exchanged and `.` stays `.`. -/
theorem set_strand_fr_second_mirror (h : hit) :
    (h.set_strand FR_SECOND).strand = mirror (h.set_strand FR_FIRST).strand := by
  rw [set_strand_strand, set_strand_strand]
  by_cases ha : flag_set h.flag 0x1 <;> by_cases hb : flag_set h.flag 0x10 <;>
    by_cases hc : flag_set h.flag 0x40 <;> by_cases hd : flag_set h.flag 0x80 <;>
    simp [ha, hb, hc, hd, mirror]

/-- Claim C5, refuted as stated: the unpaired forward read with flag `0` (bits 0x1 and
0x10 clear) gets strand `-` under FR_FIRST, not the strand `+` of the read itself. -/
theorem set_strand_unpaired_fr_first_counterexample :
    ¬ flag_set (mk_hit 100 0 [cig 50 0]).flag 0x1 ∧
    ¬ flag_set (mk_hit 100 0 [cig 50 0]).flag 0x10 ∧
    ((mk_hit 100 0 [cig 50 0]).set_strand FR_FIRST).strand = '-' ∧
    ((mk_hit 100 0 [cig 50 0]).set_strand FR_FIRST).strand ≠ '+' := by
  decide

/-- Claim C5, amended. For an unpaired read (bit 0x1 clear), `set_strand` assigns the
strand of the read itself under FR_SECOND (`+` when bit 0x10 is clear, `-` when it is
set) and the opposite strand under FR_FIRST (`-` when bit 0x10 is clear, `+` when it is
set). -/
theorem set_strand_unpaired (h : hit) (hu : ¬ flag_set h.flag 0x1) :
    (¬ flag_set h.flag 0x10 →
      (h.set_strand FR_SECOND).strand = '+' ∧ (h.set_strand FR_FIRST).strand = '-') ∧
    (flag_set h.flag 0x10 →
      (h.set_strand FR_SECOND).strand = '-' ∧ (h.set_strand FR_FIRST).strand = '+') := by
  rw [set_strand_strand, set_strand_strand]
  by_cases hb : flag_set h.flag 0x10 <;> simp [hu, hb]

/-- Witness for the amended C5: an unpaired reverse read (flag `0x10`). -/
theorem set_strand_unpaired_witness :
    ((mk_hit 100 0x10 [cig 50 0]).set_strand FR_SECOND).strand = '-' ∧
    ((mk_hit 100 0x10 [cig 50 0]).set_strand FR_FIRST).strand = '+' :=
  (set_strand_unpaired (mk_hit 100 0x10 [cig 50 0]) (by decide)).2 (by decide)

/-! ## Construction of a hit (`hit::hit(bam1_t*)`) -/

/-- Claim C9. Constructing a hit fails exactly when the record has no CIGAR operation
or more than `max_num_cigar` of them; for `1 ≤ n_cigar ≤ max_num_cigar` it succeeds
and the CIGAR of the hit is that of the record. -/
theorem hit_ofRecord_fails_iff (max_num_cigar : Nat) (b : bam1_t) :
    (hit.ofRecord max_num_cigar b = none ↔
      (b.cigar.length = 0 ∨ max_num_cigar < b.cigar.length)) ∧
    (1 ≤ b.cigar.length ∧ b.cigar.length ≤ max_num_cigar →
      ∃ h, hit.ofRecord max_num_cigar b = some h ∧ h.cigar = b.cigar) := by
  unfold hit.ofRecord
  constructor
  · by_cases h1 : b.cigar.length ≤ max_num_cigar
    · by_cases h2 : b.cigar.length ≥ 1
      · simp only [h1, h2, not_true_eq_false, if_false]
        constructor
        · intro hn; cases hn
        · intro hn; omega
      · simp only [h1, h2, not_true_eq_false, not_false_eq_true, if_false, if_true, true_iff]
        omega
    · simp only [h1, not_false_eq_true, if_true, true_iff]
      omega
  · rintro ⟨h1, h2⟩
    simp [h1, h2]

/-- Witness for C9: a record with three CIGAR operations under `max_num_cigar = 7`. -/
theorem hit_ofRecord_fails_iff_witness :
    ∃ h, hit.ofRecord 7
        (mk_record 100 0 [cig 50 0, cig 100 3, cig 50 0] []) = some h ∧
      h.cigar = [cig 50 0, cig 100 3, cig 50 0] :=
  (hit_ofRecord_fails_iff 7
    (mk_record 100 0 [cig 50 0, cig 100 3, cig 50 0] [])).2 (by decide)

/-! ## Strand vote of a bundle (`bundle::compute_strand`) -/

/-- The counting loop of `compute_strand` adds to each counter the number of hits whose
`xs` is the corresponding character. -/
theorem compute_strand_counts (hits : List hit) (n0 np nq : Nat) :
    hits.foldl compute_strand_step (n0, np, nq) =
      (n0 + (hits.map hit.xs).count '.', np + (hits.map hit.xs).count '+',
        nq + (hits.map hit.xs).count '-') := by
  induction hits generalizing n0 np nq with
  | nil => simp
  | cons h t ih =>
    rw [List.foldl_cons, compute_strand_step, ih]
    by_cases h0 : h.xs = '.' <;> by_cases h1 : h.xs = '+' <;> by_cases h2 : h.xs = '-' <;>
      simp_all [List.count_cons] <;> omega

/-- Claim C10, refuted as stated: on a bundle without hits (a tie, zero against zero)
whose strand was `+` before the call, the strand is still `+` afterwards, not `.`. -/
theorem compute_strand_tie_counterexample :
    (bundle.compute_strand { mk_bundle [] with strand := '+' }).strand = '+' ∧
    (([] : List hit).map hit.xs).count '+' = (([] : List hit).map hit.xs).count '-' := by
  decide

/-- Claim C10, amended. After `compute_strand` the bundle strand is `+` if the hits
with `xs = +` strictly outnumber those with `xs = -`, `-` if they are strictly fewer,
and the strand it had before the call otherwise; so on a tie it is `.` when it was `.`
before the call. -/
theorem compute_strand_vote (b : bundle) :
    ((b.hits.map hit.xs).count '-' < (b.hits.map hit.xs).count '+' →
      b.compute_strand.strand = '+') ∧
    ((b.hits.map hit.xs).count '+' < (b.hits.map hit.xs).count '-' →
      b.compute_strand.strand = '-') ∧
    ((b.hits.map hit.xs).count '+' = (b.hits.map hit.xs).count '-' →
      b.compute_strand.strand = b.strand ∧
      (b.strand = '.' → b.compute_strand.strand = '.')) := by
  simp only [bundle.compute_strand, compute_strand_counts, Nat.zero_add, gt_iff_lt]
  refine ⟨fun h => ?_, fun h => ?_, fun h => ?_⟩
  · rw [if_pos h, if_neg (by omega)]
  · rw [if_pos h]
  · rw [if_neg (by omega), if_neg (by omega)]
    exact ⟨rfl, fun h => h⟩

/-- Witness for the amended C10: two hits with `xs = +` against one with `xs = -`. -/
theorem compute_strand_vote_witness :
    (bundle.compute_strand
      (mk_bundle [{ mk_hit 100 0 [cig 50 0] with xs := '+' },
                  { mk_hit 120 0 [cig 50 0] with xs := '-' },
                  { mk_hit 130 0 [cig 50 0] with xs := '+' }])).strand = '+' :=
  (compute_strand_vote
      (mk_bundle [{ mk_hit 100 0 [cig 50 0] with xs := '+' },
                  { mk_hit 120 0 [cig 50 0] with xs := '-' },
                  { mk_hit 130 0 [cig 50 0] with xs := '+' }])).1 (by decide)

/-! ## Tags of a hit (`hit::set_tags`) -/

/-- The fields `ts` and `xs` after `set_tags`, in terms of the two tag lookups. -/
theorem set_tags_ts_eq (h : hit) (b : bam1_t) :
    (h.set_tags b).ts =
      (match bam_aux_get b "ts" with
       | some f => if f.type = 'A' then bam_aux2A f else '.'
       | none => '.') := rfl

/-- The field `xs` after `set_tags`: the XS character `x` read from the record unless it
is `.` while `ts` is not, in which case it is derived from `ts` and the reverse bit. -/
theorem set_tags_xs_eq (h : hit) (b : bam1_t) :
    (h.set_tags b).xs =
      (if (match bam_aux_get b "XS" with
            | some f => if f.type = 'A' then bam_aux2A f else '.'
            | none => '.') = '.' ∧ (h.set_tags b).ts ≠ '.' then
         (if (h.set_tags b).ts = '+' then (if flag_set h.flag 0x10 then '-' else '+')
          else if (h.set_tags b).ts = '-' then (if flag_set h.flag 0x10 then '+' else '-')
          else '.')
       else (match bam_aux_get b "XS" with
            | some f => if f.type = 'A' then bam_aux2A f else '.'
            | none => '.')) := by
  rw [set_tags_ts_eq]
  simp only [hit.set_tags, flag_set]
  generalize (match bam_aux_get b "XS" with
            | some f => if f.type = 'A' then bam_aux2A f else '.'
            | none => '.') = x
  generalize (match bam_aux_get b "ts" with
            | some f => if f.type = 'A' then bam_aux2A f else '.'
            | none => '.') = t
  have hpm : ('+' : Char) ≠ '-' := by decide
  have hmp : ('-' : Char) ≠ '+' := by decide
  by_cases hx : x = '.' <;> by_cases ht : t = '.' <;> by_cases hb : h.flag &&& 0x10 = 0 <;>
    by_cases h1 : t = '+' <;> by_cases h2 : t = '-' <;>
    simp_all [Nat.one_le_iff_ne_zero]

/-- Claim C6, refuted as stated: on a record that carries `XS:A:.` and `ts:A:+` (flag
`0`), the tag XS is present with type `A` and value `.`, yet `set_tags` sets `xs` to
`+`. -/
theorem set_tags_xs_counterexample :
    bam_aux_get
      (mk_record 100 0 [cig 50 0]
        [{ tag := "XS", type := 'A', value := 46 },
         { tag := "ts", type := 'A', value := 43 }]) "XS"
      = some { tag := "XS", type := 'A', value := 46 } ∧
    bam_aux2A { tag := "XS", type := 'A', value := 46 } = '.' ∧
    ((mk_hit 100 0 [cig 50 0]).set_tags
      (mk_record 100 0 [cig 50 0]
        [{ tag := "XS", type := 'A', value := 46 },
         { tag := "ts", type := 'A', value := 43 }])).xs = '+' := by
  decide

/-- Claim C6, amended. `set_tags` sets `xs` to the value of the XS tag when that tag
is present with type `A` and its value is not `.`; otherwise (tag absent, of another
type, or with value `.`), when `ts` is `+` or `-`, `xs` equals `ts` if the reverse bit
0x10 is clear and the opposite sign if it is set; otherwise `xs` is `.`. -/
theorem set_tags_xs (h : hit) (b : bam1_t) :
    (∀ f, bam_aux_get b "XS" = some f → f.type = 'A' → bam_aux2A f ≠ '.' →
      (h.set_tags b).xs = bam_aux2A f) ∧
    ((∀ f, bam_aux_get b "XS" = some f → f.type = 'A' → bam_aux2A f = '.') →
      (((h.set_tags b).ts = '+' ∨ (h.set_tags b).ts = '-') →
        (h.set_tags b).xs =
          if flag_set h.flag 0x10 then mirror (h.set_tags b).ts else (h.set_tags b).ts) ∧
      (¬ ((h.set_tags b).ts = '+' ∨ (h.set_tags b).ts = '-') → (h.set_tags b).xs = '.')) := by
  rw [set_tags_xs_eq]
  generalize (h.set_tags b).ts = t
  have hpm : ('+' : Char) ≠ '-' := by decide
  have hmp : ('-' : Char) ≠ '+' := by decide
  have hpd : ('+' : Char) ≠ '.' := by decide
  have hmd : ('-' : Char) ≠ '.' := by decide
  refine ⟨fun f hf hA hne => ?_, fun hall => ?_⟩
  · simp [hf, hA, hne]
  · have hx : (match bam_aux_get b "XS" with
            | some f => if f.type = 'A' then bam_aux2A f else '.'
            | none => '.') = '.' := by
      cases hf : bam_aux_get b "XS" with
      | none => rfl
      | some f =>
        by_cases hA : f.type = 'A'
        · simpa [hA] using hall f hf hA
        · simp [hA]
    rw [hx]
    refine ⟨fun hts => ?_, fun hts => ?_⟩
    · rcases hts with rfl | rfl
      · by_cases hb : flag_set h.flag 0x10 <;> simp [hb, mirror, hpd]
      · by_cases hb : flag_set h.flag 0x10 <;> simp [hb, mirror, hmd, hmp]
    · have h1 : t ≠ '+' := fun e => hts (Or.inl e)
      have h2 : t ≠ '-' := fun e => hts (Or.inr e)
      simp [h1, h2]

/-- Witness for the amended C6: a record carrying `XS:A:-`. -/
theorem set_tags_xs_witness :
    ((mk_hit 100 0 [cig 50 0]).set_tags
      (mk_record 100 0 [cig 50 0]
        [{ tag := "XS", type := 'A', value := 45 }])).xs = '-' :=
  (set_tags_xs (mk_hit 100 0 [cig 50 0])
      (mk_record 100 0 [cig 50 0]
        [{ tag := "XS", type := 'A', value := 45 }])).1
    { tag := "XS", type := 'A', value := 45 } (by decide) (by decide) (by decide)

/-! ## Walking the CIGAR -/

/-- A value inside the signed 32-bit range is left unchanged by `wrap32`. -/
theorem wrap32_of_range (x : Int) (h1 : -2147483648 ≤ x) (h2 : x < 2147483648) :
    wrap32 x = x := by
  unfold wrap32; omega

/-- Adding a wrapped value and wrapping again is wrapping the exact sum. -/
theorem wrap32_add_wrap32 (a b : Int) : wrap32 (a + wrap32 b) = wrap32 (a + b) := by
  unfold wrap32; omega

/-- The Boolean test `consumes_ref` is the test `bam_cigar_type(op) & 2` of the source. -/
theorem consumes_ref_iff (c : Nat) :
    consumes_ref c = true ↔ bam_cigar_type (bam_cigar_op c) &&& 2 ≠ 0 := by
  simp [consumes_ref]

/-- The reference length before index `k + 1` adds the length of operation `k` when that
operation consumes the reference. -/
theorem ref_before_succ (cigar : List Nat) (k : Nat) (hk : k < cigar.length) :
    ref_before cigar (k + 1) = ref_before cigar k +
      (if bam_cigar_type (bam_cigar_op (cigar.getD k 0)) &&& 2 ≠ 0
        then bam_cigar_oplen (cigar.getD k 0) else 0) := by
  have ht : cigar.take (k + 1) = cigar.take k ++ [cigar[k]] := by
    rw [List.take_succ, List.getElem?_eq_getElem hk]; rfl
  unfold ref_before
  rw [ht, List.getD_eq_getElem _ _ hk, List.filter_append, List.map_append,
    List.sum_append]
  by_cases hc : bam_cigar_type (bam_cigar_op cigar[k]) &&& 2 ≠ 0
  · have : consumes_ref cigar[k] = true := (consumes_ref_iff _).2 hc
    rw [if_pos hc, List.filter_cons_of_pos this]
    simp
  · have : ¬ consumes_ref cigar[k] = true := by
      rw [consumes_ref_iff]; exact hc
    rw [if_neg hc, List.filter_cons_of_neg this]
    simp

/-- The reference length before an index does not decrease with the index. -/
theorem ref_before_le_succ (cigar : List Nat) (k : Nat) :
    ref_before cigar k ≤ ref_before cigar (k + 1) := by
  by_cases hk : k < cigar.length
  · rw [ref_before_succ cigar k hk]; omega
  · unfold ref_before
    rw [List.take_of_length_le (by omega), List.take_of_length_le (by omega)]

/-- The reference length before an index is monotone in the index. -/
theorem ref_before_mono (cigar : List Nat) {j k : Nat} (h : j ≤ k) :
    ref_before cigar j ≤ ref_before cigar k := by
  induction k, h using Nat.le_induction with
  | base => exact le_rfl
  | succ k _ ih => exact le_trans ih (ref_before_le_succ cigar k)

/-- The function `bam_cigar2rlen` computes the reference length before the end of the CIGAR. -/
theorem bam_cigar2rlen_eq (cigar : List Nat) :
    bam_cigar2rlen cigar = ref_before cigar cigar.length := by
  have key : ∀ (l : List Nat) (a : Nat),
      l.foldl (fun l c =>
        if bam_cigar_type (bam_cigar_op c) &&& 2 ≠ 0 then l + bam_cigar_oplen c else l) a
      = a + ((l.filter consumes_ref).map bam_cigar_oplen).sum := by
    intro l
    induction l with
    | nil => intro a; simp
    | cons c t ih =>
      intro a
      rw [List.foldl_cons, ih]
      by_cases hc : bam_cigar_type (bam_cigar_op c) &&& 2 ≠ 0
      · have : consumes_ref c = true := (consumes_ref_iff _).2 hc
        simp [this, hc]; omega
      · have : consumes_ref c = false := by
          rw [← Bool.not_eq_true, consumes_ref_iff]; exact hc
        simp [this, hc]
  unfold bam_cigar2rlen ref_before
  rw [key, List.take_length, Nat.zero_add]

/-- A match operation consumes the reference. -/
theorem type_match_ref : bam_cigar_type BAM_CMATCH &&& 2 ≠ 0 := by decide

/-- A deletion consumes the reference. -/
theorem type_del_ref : bam_cigar_type BAM_CDEL &&& 2 ≠ 0 := by decide

/-- A reference skip consumes the reference. -/
theorem type_skip_ref : bam_cigar_type BAM_CREF_SKIP &&& 2 ≠ 0 := by decide

/-- An insertion does not consume the reference. -/
theorem type_ins_ref : ¬ (bam_cigar_type BAM_CINS &&& 2 ≠ 0) := by decide

/-- The start of operation `k + 1` is the start of operation `k` plus its length when it
consumes the reference. -/
theorem cigar_start_succ (pos : Int) (cigar : List Nat) (k : Nat) (hk : k < cigar.length) :
    cigar_start pos cigar (k + 1) = cigar_start pos cigar k +
      (if bam_cigar_type (bam_cigar_op (cigar.getD k 0)) &&& 2 ≠ 0
        then (bam_cigar_oplen (cigar.getD k 0) : Int) else 0) := by
  unfold cigar_start
  rw [ref_before_succ cigar k hk]
  split <;> simp [add_assoc]

/-- When the coordinates stay in range, every operation starts between `pos` and the right
end, inside the 32-bit range. -/
theorem cigar_start_bounds (pos : Int) (cigar : List Nat)
    (hr : coords_in_range pos cigar) (k : Nat) (hk : k ≤ cigar.length) :
    pos ≤ cigar_start pos cigar k ∧ -2147483648 ≤ cigar_start pos cigar k ∧
    cigar_start pos cigar k ≤ pos + (ref_before cigar cigar.length : Nat) ∧
    cigar_start pos cigar k < 2147483648 := by
  have h1 := ref_before_mono cigar hk
  obtain ⟨h2, h3⟩ := hr
  unfold cigar_start
  omega

/-- The running position after one iteration at index `k < n_cigar` of either CIGAR
walk, when the coordinates stay in range. -/
theorem walk_position (pos : Int) (cigar : List Nat) (hr : coords_in_range pos cigar)
    (k : Nat) (hk : k < cigar.length) :
    (if bam_cigar_type (bam_cigar_op (cigar.getD k 0)) &&& 2 ≠ 0
      then wrap32 (cigar_start pos cigar k + bam_cigar_oplen (cigar.getD k 0))
      else cigar_start pos cigar k) = cigar_start pos cigar (k + 1) := by
  have hb := cigar_start_bounds pos cigar hr (k + 1) hk
  have hb0 := cigar_start_bounds pos cigar hr k (Nat.le_of_lt hk)
  have hs := cigar_start_succ pos cigar k hk
  by_cases hc : bam_cigar_type (bam_cigar_op (cigar.getD k 0)) &&& 2 ≠ 0
  · rw [if_pos hc] at hs ⊢
    rw [← hs]
    exact wrap32_of_range _ hb.2.1 hb.2.2.2
  · rw [if_neg hc] at hs ⊢
    omega

/-- Filtering and mapping a one-element list of indices. -/
theorem filter_map_singleton {β : Type} (P : Nat → Prop) [DecidablePred P] (f : Nat → β)
    (k : Nat) :
    (List.filter (fun k => decide (P k)) [k]).map f = if P k then [f k] else [] := by
  by_cases h : P k <;> simp [h]

/-- The state of the loop of `get_mid_intervals` after its first `k` iterations, when
the coordinates stay in range. -/
theorem get_mid_intervals_fold (pos : Int) (cigar : List Nat)
    (hr : coords_in_range pos cigar) (k : Nat) (hk : k ≤ cigar.length) :
    (List.range k).foldl (get_mid_intervals_step cigar)
        { p := pos, vm := [], vi := [], vd := [] } =
      { p := cigar_start pos cigar k,
        vm := ((List.range k).filter
            (fun k => bam_cigar_op (cigar.getD k 0) = BAM_CMATCH)).map
          (fun k => (cigar_start pos cigar k,
            cigar_start pos cigar k + (bam_cigar_oplen (cigar.getD k 0) : Nat))),
        vi := ((List.range k).filter
            (fun k => bam_cigar_op (cigar.getD k 0) = BAM_CINS)).map
          (fun k => (wrap32 (cigar_start pos cigar k - 1),
            wrap32 (cigar_start pos cigar k + 1))),
        vd := ((List.range k).filter
            (fun k => bam_cigar_op (cigar.getD k 0) = BAM_CDEL)).map
          (fun k => (cigar_start pos cigar k,
            cigar_start pos cigar k + (bam_cigar_oplen (cigar.getD k 0) : Nat))) } := by
  induction k with
  | zero => simp [cigar_start, ref_before]
  | succ k ih =>
    have hk1 : k < cigar.length := hk
    rw [List.range_succ, List.foldl_append, ih (Nat.le_of_lt hk1), List.foldl_cons,
      List.foldl_nil]
    have hp := walk_position pos cigar hr k hk1
    have hb0 := cigar_start_bounds pos cigar hr k (Nat.le_of_lt hk1)
    have hs := cigar_start_succ pos cigar k hk1
    simp only [get_mid_intervals_step, hp, List.filter_append, List.map_append,
      filter_map_singleton]
    have hback : ∀ (_ : bam_cigar_type (bam_cigar_op (cigar.getD k 0)) &&& 2 ≠ 0),
        wrap32 (cigar_start pos cigar (k + 1) - bam_cigar_oplen (cigar.getD k 0))
          = cigar_start pos cigar k ∧
        cigar_start pos cigar (k + 1)
          = cigar_start pos cigar k + (bam_cigar_oplen (cigar.getD k 0) : Nat) := by
      intro hc
      rw [if_pos hc] at hs
      constructor
      · rw [hs]
        rw [show cigar_start pos cigar k + (bam_cigar_oplen (cigar.getD k 0) : Int)
          - (bam_cigar_oplen (cigar.getD k 0) : Int) = cigar_start pos cigar k by omega]
        exact wrap32_of_range _ hb0.2.1 hb0.2.2.2
      · exact hs
    congr 1
    · by_cases hm : bam_cigar_op (cigar.getD k 0) = BAM_CMATCH
      · have hc : bam_cigar_type (bam_cigar_op (cigar.getD k 0)) &&& 2 ≠ 0 := by
          rw [hm]; exact type_match_ref
        obtain ⟨e1, e2⟩ := hback hc
        rw [if_pos hm, if_pos hm, e1, pack, ← e2]
      · rw [if_neg hm, if_neg hm, List.append_nil]
    · by_cases hm : bam_cigar_op (cigar.getD k 0) = BAM_CINS
      · have hc : ¬ (bam_cigar_type (bam_cigar_op (cigar.getD k 0)) &&& 2 ≠ 0) := by
          rw [hm]; exact type_ins_ref
        rw [if_neg hc] at hs
        have e : cigar_start pos cigar (k + 1) = cigar_start pos cigar k := by omega
        rw [if_pos hm, if_pos hm, pack, e]
      · rw [if_neg hm, if_neg hm, List.append_nil]
    · by_cases hm : bam_cigar_op (cigar.getD k 0) = BAM_CDEL
      · have hc : bam_cigar_type (bam_cigar_op (cigar.getD k 0)) &&& 2 ≠ 0 := by
          rw [hm]; exact type_del_ref
        obtain ⟨e1, e2⟩ := hback hc
        rw [if_pos hm, if_pos hm, e1, pack, ← e2]
      · rw [if_neg hm, if_neg hm, List.append_nil]

/-- What a successfully constructed hit takes from its record. -/
theorem hit_ofRecord_some (max_num_cigar : Nat) (b : bam1_t) (h : hit)
    (hc : hit.ofRecord max_num_cigar b = some h) :
    h.pos = b.pos ∧ h.cigar = b.cigar ∧ h.flag = b.flag ∧
    h.rpos = wrap32 (b.pos + wrap32 (bam_cigar2rlen b.cigar)) := by
  unfold hit.ofRecord at hc
  by_cases h1 : b.cigar.length ≤ max_num_cigar
  · by_cases h2 : b.cigar.length ≥ 1
    · simp only [h1, h2, not_true_eq_false, if_false, Option.some.injEq] at hc
      subst hc
      simp
    · simp [h1, h2] at hc
  · simp [h1] at hc

/-- The right end computed by the constructor, when the coordinates stay in range. -/
theorem rpos_of_range (pos : Int) (cigar : List Nat) (hr : coords_in_range pos cigar) :
    wrap32 (pos + wrap32 (bam_cigar2rlen cigar)) = pos + (ref_before cigar cigar.length : Nat) := by
  rw [wrap32_add_wrap32, bam_cigar2rlen_eq]
  have := Int.ofNat_nonneg (ref_before cigar cigar.length)
  exact wrap32_of_range _ (by have := hr.1; omega) hr.2

/-- Claim C7. For a hit constructed from a record whose coordinates stay in the 32-bit
range, `get_mid_intervals` returns as matched intervals exactly one interval
`[s, s + len)` per match operation, in CIGAR order, and as deletion intervals exactly
one interval `[s, s + len)` per deletion operation, `s` being `pos` plus the lengths of
the reference-consuming operations before it; the matched intervals are in ascending
order, pairwise disjoint (each ends before the next starts) and contained in
`[pos, rpos]`. -/
theorem get_mid_intervals_matched (max_num_cigar : Nat) (b : bam1_t) (h : hit)
    (hc : hit.ofRecord max_num_cigar b = some h) (hr : coords_in_range b.pos b.cigar) :
    h.get_mid_intervals.vm = op_intervals BAM_CMATCH h.pos h.cigar ∧
    h.get_mid_intervals.vd = op_intervals BAM_CDEL h.pos h.cigar ∧
    h.get_mid_intervals.vm.Pairwise (fun a c => a.1 ≤ c.1 ∧ a.2 ≤ c.1) ∧
    ∀ a ∈ h.get_mid_intervals.vm, h.pos ≤ a.1 ∧ a.1 ≤ a.2 ∧ a.2 ≤ h.rpos := by
  obtain ⟨hpos, hcig, -, hrpos⟩ := hit_ofRecord_some max_num_cigar b h hc
  rw [← hpos, ← hcig] at hr
  have hfold := get_mid_intervals_fold h.pos h.cigar hr h.cigar.length le_rfl
  have hvm : h.get_mid_intervals.vm = op_intervals BAM_CMATCH h.pos h.cigar := by
    unfold hit.get_mid_intervals; rw [hfold]; rfl
  have hvd : h.get_mid_intervals.vd = op_intervals BAM_CDEL h.pos h.cigar := by
    unfold hit.get_mid_intervals; rw [hfold]; rfl
  have hend : h.rpos = h.pos + (ref_before h.cigar h.cigar.length : Nat) := by
    rw [hrpos, ← hpos, ← hcig]; exact rpos_of_range h.pos h.cigar hr
  have hstep : ∀ k, k ∈ (List.range h.cigar.length).filter
        (fun k => bam_cigar_op (h.cigar.getD k 0) = BAM_CMATCH) →
      k < h.cigar.length ∧
      cigar_start h.pos h.cigar k + (bam_cigar_oplen (h.cigar.getD k 0) : Nat)
        = cigar_start h.pos h.cigar (k + 1) := by
    intro k hk
    rw [List.mem_filter, List.mem_range, decide_eq_true_eq] at hk
    refine ⟨hk.1, ?_⟩
    rw [cigar_start_succ h.pos h.cigar k hk.1, if_pos (by rw [hk.2]; exact type_match_ref)]
  refine ⟨hvm, hvd, ?_, ?_⟩
  · rw [hvm, op_intervals, List.pairwise_map]
    have hlt : ((List.range h.cigar.length).filter
        (fun k => bam_cigar_op (h.cigar.getD k 0) = BAM_CMATCH)).Pairwise (· < ·) :=
      List.Pairwise.filter _ (List.pairwise_lt_range _)
    refine (List.Pairwise.and_mem.1 hlt).imp ?_
    rintro i j ⟨hi, -, hij⟩
    obtain ⟨-, e⟩ := hstep i hi
    have hm : ref_before h.cigar (i + 1) ≤ ref_before h.cigar j :=
      ref_before_mono h.cigar hij
    have hm0 : ref_before h.cigar i ≤ ref_before h.cigar (i + 1) :=
      ref_before_le_succ h.cigar i
    simp only
    rw [e]
    unfold cigar_start
    omega
  · intro a ha
    rw [hvm, op_intervals, List.mem_map] at ha
    obtain ⟨k, hk, rfl⟩ := ha
    obtain ⟨hkn, e⟩ := hstep k hk
    have hb := cigar_start_bounds h.pos h.cigar hr k (Nat.le_of_lt hkn)
    have hb1 := cigar_start_bounds h.pos h.cigar hr (k + 1) hkn
    simp only
    rw [e, hend]
    have hm0 : ref_before h.cigar k ≤ ref_before h.cigar (k + 1) :=
      ref_before_le_succ h.cigar k
    refine ⟨hb.1, ?_, hb1.2.2.1⟩
    unfold cigar_start
    omega

/-- Witness for C7: the record `50M 100N 50M 7D 10M` at position 150. -/
theorem get_mid_intervals_matched_witness :
    (mk_hit 150 0 [cig 50 0, cig 100 3, cig 50 0, cig 7 2, cig 10 0]).get_mid_intervals.vm
      = [(150, 200), (300, 350), (357, 367)] ∧
    (mk_hit 150 0 [cig 50 0, cig 100 3, cig 50 0, cig 7 2, cig 10 0]).get_mid_intervals.vd
      = [(350, 357)] ∧
    (mk_hit 150 0 [cig 50 0, cig 100 3, cig 50 0, cig 7 2, cig 10 0]).rpos = 367 :=
  ⟨(get_mid_intervals_matched 7
      (mk_record 150 0 [cig 50 0, cig 100 3, cig 50 0, cig 7 2, cig 10 0] [])
      (mk_hit 150 0 [cig 50 0, cig 100 3, cig 50 0, cig 7 2, cig 10 0])
      (by decide) (by decide)).1,
   (get_mid_intervals_matched 7
      (mk_record 150 0 [cig 50 0, cig 100 3, cig 50 0, cig 7 2, cig 10 0] [])
      (mk_hit 150 0 [cig 50 0, cig 100 3, cig 50 0, cig 7 2, cig 10 0])
      (by decide) (by decide)).2.1, by decide⟩

/-- Claim C8, refuted as stated: for the hit `5M 2I 5M` at position 100 the insertion
lies at reference position 105, and the interval emitted for it has the endpoints 104
and 106, not 105 and 105. -/
theorem get_mid_intervals_insertion_counterexample :
    insertion_positions 100 [cig 5 0, cig 2 1, cig 5 0] = [105] ∧
    (mk_hit 100 0 [cig 5 0, cig 2 1, cig 5 0]).get_mid_intervals.vi = [(104, 106)] ∧
    (mk_hit 100 0 [cig 5 0, cig 2 1, cig 5 0]).get_mid_intervals.vi ≠ [(105, 105)] := by
  decide

/-- Claim C8, amended. For every insertion operation of a hit, the insertion interval
emitted by `get_mid_intervals` is centred at the reference position `p` of the
insertion: its left endpoint is `p - 1` and its right endpoint is `p + 1` (there is
one such interval per insertion, in CIGAR order). The coordinates are taken to stay in
the 32-bit range with a margin of one on both sides. -/
theorem get_mid_intervals_insertions (h : hit) (h1 : -2147483648 < h.pos)
    (h2 : h.pos + (ref_before h.cigar h.cigar.length : Nat) < 2147483647) :
    h.get_mid_intervals.vi =
      (insertion_positions h.pos h.cigar).map (fun p => (p - 1, p + 1)) := by
  have hr : coords_in_range h.pos h.cigar := ⟨by omega, by omega⟩
  have hfold := get_mid_intervals_fold h.pos h.cigar hr h.cigar.length le_rfl
  unfold hit.get_mid_intervals
  rw [hfold, insertion_positions, List.map_map]
  apply List.map_congr_left
  intro k hk
  rw [List.mem_filter, List.mem_range] at hk
  have hb := cigar_start_bounds h.pos h.cigar hr k (Nat.le_of_lt hk.1)
  simp only [Function.comp]
  rw [wrap32_of_range _ (by omega) (by omega), wrap32_of_range _ (by omega) (by omega)]

/-- Witness for the amended C8: the hit `5M 2I 5M` at position 100. -/
theorem get_mid_intervals_insertions_witness :
    (mk_hit 100 0 [cig 5 0, cig 2 1, cig 5 0]).get_mid_intervals.vi =
      (insertion_positions 100 [cig 5 0, cig 2 1, cig 5 0]).map (fun p => (p - 1, p + 1)) :=
  get_mid_intervals_insertions (mk_hit 100 0 [cig 5 0, cig 2 1, cig 5 0])
    (by decide) (by decide)

/-! ## Splice positions (`hit::build_splice_positions`) -/

/-- The running position after one iteration of `build_splice_positions`. -/
theorem build_splice_positions_step_fst (mfl : Nat) (cigar : List Nat)
    (st : Int × Int × List Packed) (k : Nat) :
    (build_splice_positions_step mfl cigar st k).1 =
      if bam_cigar_type (bam_cigar_op (cigar.getD k 0)) &&& 2 ≠ 0
        then wrap32 (st.1 + bam_cigar_oplen (cigar.getD k 0)) else st.1 := by
  unfold build_splice_positions_step
  dsimp only
  split_ifs <;> rfl

/-- One iteration of `build_splice_positions` at an index `k < n_cigar` emits a pair exactly
when `is_splice` holds at `k`. -/
theorem build_splice_positions_step_spos (mfl : Nat) (cigar : List Nat)
    (st : Int × Int × List Packed) (k : Nat) (hk : k < cigar.length) :
    (build_splice_positions_step mfl cigar st k).2.2 =
      if is_splice mfl cigar k then
        st.2.2 ++ [pack (wrap32 ((build_splice_positions_step mfl cigar st k).1
            - bam_cigar_oplen (cigar.getD k 0)))
          (build_splice_positions_step mfl cigar st k).1]
      else st.2.2 := by
  rw [build_splice_positions_step_fst]
  unfold build_splice_positions_step
  dsimp only
  by_cases c1 : k = 0 ∨ k = cigar.length - 1
  · have hn : ¬ is_splice mfl cigar k := by unfold is_splice; omega
    rw [if_pos c1, if_neg hn]
  rw [if_neg c1]
  by_cases c2 : bam_cigar_op (cigar.getD k 0) ≠ BAM_CREF_SKIP
  · have hn : ¬ is_splice mfl cigar k := fun hs => c2 hs.2.2.1
    rw [if_pos c2, if_neg hn]
  rw [if_neg c2]
  by_cases c3 : bam_cigar_op (cigar.getD (k - 1) 0) ≠ BAM_CMATCH
  · have hn : ¬ is_splice mfl cigar k := fun hs => c3 hs.2.2.2.1
    rw [if_pos c3, if_neg hn]
  rw [if_neg c3]
  by_cases c4 : bam_cigar_op (cigar.getD (k + 1) 0) ≠ BAM_CMATCH
  · have hn : ¬ is_splice mfl cigar k := fun hs => c4 hs.2.2.2.2.1
    rw [if_pos c4, if_neg hn]
  rw [if_neg c4]
  by_cases c5 : bam_cigar_oplen (cigar.getD (k - 1) 0) < mfl
  · have hn : ¬ is_splice mfl cigar k := fun hs => absurd hs.2.2.2.2.2.1 (by omega)
    rw [if_pos c5, if_neg hn]
  rw [if_neg c5]
  by_cases c6 : bam_cigar_oplen (cigar.getD (k + 1) 0) < mfl
  · have hn : ¬ is_splice mfl cigar k := fun hs => absurd hs.2.2.2.2.2.2 (by omega)
    rw [if_pos c6, if_neg hn]
  have hy : is_splice mfl cigar k :=
    ⟨by omega, by omega, not_not.1 c2, not_not.1 c3, not_not.1 c4, by omega, by omega⟩
  rw [if_neg c6, if_pos hy]

/-- The state of the loop of `build_splice_positions` after its first `k` iterations,
when the coordinates stay in range: the running position and the pairs emitted so far. -/
theorem build_splice_positions_fold (mfl : Nat) (pos : Int) (cigar : List Nat)
    (hr : coords_in_range pos cigar) (k : Nat) (hk : k ≤ cigar.length) :
    ((List.range k).foldl (build_splice_positions_step mfl cigar) (pos, 0, [])).1
      = cigar_start pos cigar k ∧
    ((List.range k).foldl (build_splice_positions_step mfl cigar) (pos, 0, [])).2.2
      = ((List.range k).filter (fun k => decide (is_splice mfl cigar k))).map
          (fun k => (cigar_start pos cigar k,
            cigar_start pos cigar k + (bam_cigar_oplen (cigar.getD k 0) : Nat))) := by
  induction k with
  | zero => simp [cigar_start, ref_before]
  | succ k ih =>
    have hk1 : k < cigar.length := hk
    obtain ⟨ih1, ih2⟩ := ih (Nat.le_of_lt hk1)
    rw [List.range_succ, List.foldl_append, List.foldl_cons, List.foldl_nil]
    have hp := walk_position pos cigar hr k hk1
    have hfst : (build_splice_positions_step mfl cigar
        ((List.range k).foldl (build_splice_positions_step mfl cigar) (pos, 0, [])) k).1
        = cigar_start pos cigar (k + 1) := by
      rw [build_splice_positions_step_fst, ih1, hp]
    refine ⟨hfst, ?_⟩
    rw [build_splice_positions_step_spos mfl cigar _ k hk1, hfst, ih2, List.filter_append,
      List.map_append, filter_map_singleton]
    by_cases hs : is_splice mfl cigar k
    · rw [if_pos hs, if_pos hs]
      have hc : bam_cigar_type (bam_cigar_op (cigar.getD k 0)) &&& 2 ≠ 0 := by
        rw [hs.2.2.1]; exact type_skip_ref
      have hsucc := cigar_start_succ pos cigar k hk1
      rw [if_pos hc] at hsucc
      have hb0 := cigar_start_bounds pos cigar hr k (Nat.le_of_lt hk1)
      have e1 : wrap32 (cigar_start pos cigar (k + 1) - bam_cigar_oplen (cigar.getD k 0))
          = cigar_start pos cigar k := by
        rw [hsucc, show cigar_start pos cigar k + (bam_cigar_oplen (cigar.getD k 0) : Int)
          - (bam_cigar_oplen (cigar.getD k 0) : Int) = cigar_start pos cigar k by omega]
        exact wrap32_of_range _ hb0.2.1 hb0.2.2.2
      rw [e1, pack, hsucc]
    · rw [if_neg hs, if_neg hs, List.append_nil]

/-- Claim C2. For a hit whose coordinates stay in the 32-bit range,
`build_splice_positions` produces exactly, in CIGAR order, one pair `(s, e)` for each
index `k` with `0 < k < n - 1` such that operation `k` is a reference skip, operations
`k - 1` and `k + 1` are matches of length at least `min_flank_length`, where `s` is
`pos` plus the lengths of the reference-consuming operations before `k` and
`e = s + len(c[k])`; the indices `0` and `n - 1` never satisfy the condition. -/
theorem build_splice_positions_spec (min_flank_length : Nat) (h : hit)
    (hr : coords_in_range h.pos h.cigar) :
    (h.build_splice_positions min_flank_length).spos
      = splice_pairs min_flank_length h.pos h.cigar ∧
    ¬ is_splice min_flank_length h.cigar 0 ∧
    ¬ is_splice min_flank_length h.cigar (h.cigar.length - 1) := by
  refine ⟨?_, ?_, ?_⟩
  · unfold hit.build_splice_positions splice_pairs
    exact (build_splice_positions_fold min_flank_length h.pos h.cigar hr h.cigar.length
      le_rfl).2
  · unfold is_splice; omega
  · unfold is_splice; omega

/-- Witness for C2: the hit `50M 100N 50M 2I 7D 10M 20N 2M 5N` at position 100 with
`min_flank_length = 3`; only the first skip has two long enough flanks. -/
theorem build_splice_positions_spec_witness :
    ((mk_hit 100 0 [cig 50 0, cig 100 3, cig 50 0, cig 2 1, cig 7 2, cig 10 0, cig 20 3,
        cig 2 0, cig 5 3]).build_splice_positions 3).spos = [(150, 250)] :=
  (build_splice_positions_spec 3
    (mk_hit 100 0 [cig 50 0, cig 100 3, cig 50 0, cig 2 1, cig 7 2, cig 10 0, cig 20 3,
      cig 2 0, cig 5 3]) (by decide)).1

/-! ## Junction counting (`bundle::build_junctions`) -/

/-- Lookups after placing a pair under a key that was absent. -/
theorem map_find_place (m : List (Packed × Nat)) (p q : Packed) (c : Nat)
    (hp : map_find m p = none) :
    map_find (map_place m p c) q = if p = q then some c else map_find m q := by
  induction m with
  | nil => simp [map_place, map_find]
  | cons kd m ih =>
    obtain ⟨k, d⟩ := kd
    have hkp : k ≠ p := by
      intro e; simp [map_find, e] at hp
    have hp2 : map_find m p = none := by
      simpa [map_find, hkp] using hp
    unfold map_place
    by_cases hlt : packed_lt p k = true
    · rw [if_pos hlt]; simp [map_find]
    · rw [if_neg hlt]
      by_cases hkq : k = q
      · have : p ≠ q := fun e => hkp (hkq.trans e.symm)
        simp [map_find, hkq, this]
      · simp [map_find, hkq, ih hp2]

/-- Lookups after incrementing the value stored under a key. -/
theorem map_find_succ (m : List (Packed × Nat)) (p q : Packed) :
    map_find (map_succ m p) q =
      if p = q then (map_find m p).map (· + 1) else map_find m q := by
  induction m with
  | nil => simp [map_succ, map_find]
  | cons kd m ih =>
    obtain ⟨k, d⟩ := kd
    unfold map_succ
    by_cases hkp : k = p
    · subst hkp
      by_cases hkq : k = q <;> simp [map_find, hkq]
    · rw [if_neg hkp]
      by_cases hkq : k = q
      · have : p ≠ q := fun e => hkp (hkq.trans e.symm)
        simp [map_find, hkq, this]
      · simp [map_find, hkq, hkp, ih]

/-- Effect of one counting step of `build_junctions` on the lookups of the map. -/
theorem map_find_count (m : List (Packed × Nat)) (p q : Packed) :
    map_find (build_junctions_count m p) q =
      if p = q then some ((map_find m p).getD 0 + 1) else map_find m q := by
  unfold build_junctions_count
  cases hp : map_find m p with
  | none =>
    simp only [if_true, map_insert, hp, Option.isSome_none, Bool.false_eq_true, if_false]
    rw [map_find_place m p q 1 hp]
    simp
  | some d =>
    have hne : ¬ (some d = (none : Option Nat)) := by simp
    rw [if_neg hne]
    simp only [map_incr, map_insert, hp, Option.isSome_some, if_true]
    rw [map_find_succ, hp]
    simp

/-- Lookups of the map after counting a list of positions, starting from a map that
stores no zero. -/
theorem map_find_fold (L : List Packed) (m : List (Packed × Nat))
    (hpos : ∀ q, map_find m q ≠ some 0) (q : Packed) :
    map_find (L.foldl build_junctions_count m) q =
      if (map_find m q).getD 0 + L.count q = 0 then none
      else some ((map_find m q).getD 0 + L.count q) := by
  induction L generalizing m with
  | nil =>
    cases hq : map_find m q with
    | none => simp [hq]
    | some d =>
      have : d ≠ 0 := fun e => hpos q (by rw [hq, e])
      simp [hq, this]
  | cons p L ih =>
    have hpos2 : ∀ q, map_find (build_junctions_count m p) q ≠ some 0 := by
      intro r
      rw [map_find_count]
      by_cases hpr : p = r
      · rw [if_pos hpr]; simp
      · rw [if_neg hpr]; exact hpos r
    rw [List.foldl_cons, ih _ hpos2, map_find_count, List.count_cons]
    by_cases hpq : p = q
    · subst hpq
      simp only [if_true, Option.getD_some, beq_self_eq_true]
      have e : (map_find m p).getD 0 + 1 + List.count p L
          = (map_find m p).getD 0 + (List.count p L + 1) := by omega
      rw [e]
    · have hb : (p == q) = false := by simpa using hpq
      simp only [if_neg hpq, hb, Bool.false_eq_true, if_false, Nat.add_zero]

/-- Placing a pair yields a permutation of the map with the pair added. -/
theorem map_place_perm (m : List (Packed × Nat)) (p : Packed) (c : Nat) :
    (map_place m p c).Perm ((p, c) :: m) := by
  induction m with
  | nil => exact List.Perm.refl _
  | cons kd m ih =>
    obtain ⟨k, d⟩ := kd
    unfold map_place
    by_cases hlt : packed_lt p k = true
    · rw [if_pos hlt]
    · rw [if_neg hlt]
      exact ((List.Perm.cons _ ih).trans (List.Perm.swap _ _ _))

/-- Incrementing a value does not change the keys. -/
theorem map_succ_keys (m : List (Packed × Nat)) (p : Packed) :
    (map_succ m p).map Prod.fst = m.map Prod.fst := by
  induction m with
  | nil => rfl
  | cons kd m ih =>
    obtain ⟨k, d⟩ := kd
    unfold map_succ
    by_cases hkp : k = p
    · rw [if_pos hkp]; rfl
    · rw [if_neg hkp, List.map_cons, List.map_cons, ih]

/-- A lookup fails exactly when the key is not among the keys of the map. -/
theorem map_find_none_iff (m : List (Packed × Nat)) (p : Packed) :
    map_find m p = none ↔ p ∉ m.map Prod.fst := by
  induction m with
  | nil => simp [map_find]
  | cons kd m ih =>
    obtain ⟨k, d⟩ := kd
    by_cases hkp : k = p
    · simp [map_find, hkp]
    · have : ¬ p = k := fun e => hkp e.symm
      simp [map_find, hkp, this, ih]

/-- In a map with distinct keys, a lookup returns the value paired with the key. -/
theorem map_find_some_iff (m : List (Packed × Nat)) (hnd : (m.map Prod.fst).Nodup)
    (p : Packed) (c : Nat) :
    map_find m p = some c ↔ (p, c) ∈ m := by
  induction m with
  | nil => simp [map_find]
  | cons kd m ih =>
    obtain ⟨k, d⟩ := kd
    rw [List.map_cons, List.nodup_cons] at hnd
    by_cases hkp : k = p
    · subst hkp
      have hnot : ∀ c, (k, c) ∉ m := fun c hc =>
        hnd.1 (List.mem_map.2 ⟨(k, c), hc, rfl⟩)
      simp [map_find, hnot]
      exact eq_comm
    · have : ¬ p = k := fun e => hkp e.symm
      simp [map_find, hkp, this, ih hnd.2]

/-- One counting step keeps the keys of the map distinct. -/
theorem count_keys_nodup (m : List (Packed × Nat)) (p : Packed)
    (hnd : (m.map Prod.fst).Nodup) :
    ((build_junctions_count m p).map Prod.fst).Nodup := by
  unfold build_junctions_count
  cases hp : map_find m p with
  | none =>
    simp only [if_true, map_insert, hp, Option.isSome_none, Bool.false_eq_true, if_false]
    have hperm := (map_place_perm m p 1).map Prod.fst
    rw [hperm.nodup_iff, List.map_cons, List.nodup_cons]
    exact ⟨(map_find_none_iff m p).1 hp, hnd⟩
  | some d =>
    have hne : ¬ (some d = (none : Option Nat)) := by simp
    rw [if_neg hne]
    simp only [map_incr, map_insert, hp, Option.isSome_some, if_true]
    rw [map_succ_keys]
    exact hnd

/-- Counting a list of positions keeps the keys of the map distinct. -/
theorem fold_keys_nodup (L : List Packed) (m : List (Packed × Nat))
    (hnd : (m.map Prod.fst).Nodup) :
    ((L.foldl build_junctions_count m).map Prod.fst).Nodup := by
  induction L generalizing m with
  | nil => exact hnd
  | cons p L ih => exact ih _ (count_keys_nodup m p hnd)

/-- The outer loop of `build_junctions` counts the concatenation of the splice-position
lists of the hits. -/
theorem build_junctions_hits_fold (hits : List hit) (m : List (Packed × Nat)) :
    hits.foldl build_junctions_hit m =
      ((hits.map hit.get_splice_positions).flatten).foldl build_junctions_count m := by
  induction hits generalizing m with
  | nil => rfl
  | cons h t ih =>
    rw [List.foldl_cons, ih, List.map_cons, List.flatten_cons, List.foldl_append]
    congr 1
    unfold build_junctions_hit
    by_cases hv : h.get_splice_positions.length = 0
    · have : h.get_splice_positions = [] := List.length_eq_zero.1 hv
      simp [this]
    · simp only [hv, if_false]

/-- The final loop of `build_junctions` appends one junction per map entry that reaches
the threshold, in map order. -/
theorem build_junctions_emit (thr : Nat) (m : List (Packed × Nat)) (js : List junction) :
    m.foldl (fun (js : List junction) (it : Packed × Nat) =>
        if it.2 < thr then js else js ++ [junction.ofPacked it.1 it.2]) js =
      js ++ (m.filter (fun it => decide (thr ≤ it.2))).map
        (fun it => junction.ofPacked it.1 it.2) := by
  induction m generalizing js with
  | nil => simp
  | cons it m ih =>
    rw [List.foldl_cons, ih]
    by_cases hlt : it.2 < thr
    · have : ¬ thr ≤ it.2 := by omega
      simp [hlt, this]
    · have : thr ≤ it.2 := by omega
      simp [hlt, this]

/-- The junction list produced by `build_junctions`, in terms of the counting map. -/
theorem build_junctions_junctions (thr : Nat) (b : bundle) :
    (b.build_junctions thr).junctions =
      b.junctions ++
        ((((b.hits.map hit.get_splice_positions).flatten).foldl build_junctions_count
            []).filter (fun it => decide (thr ≤ it.2))).map
          (fun it => junction.ofPacked it.1 it.2) := by
  unfold bundle.build_junctions
  simp only
  rw [build_junctions_emit, build_junctions_hits_fold]

/-- Claim C1, refuted as stated: with `min_splice_boundary_hits = 0` and a single hit
`50M 100N 50M` at position 100, the position `(1, 2)` occurs `0` times, which reaches
the threshold, yet no junction is retained for it (the only junction is
`(150, 250)`). -/
theorem build_junctions_threshold_zero_counterexample :
    occurrences
      [(mk_hit 100 0 [cig 50 0, cig 100 3, cig 50 0]).build_splice_positions 3] (1, 2) = 0 ∧
    (bundle.build_junctions 0
      (mk_bundle [(mk_hit 100 0 [cig 50 0, cig 100 3, cig 50 0]).build_splice_positions 3])
      ).junctions.map junction.packed = [(150, 250)] ∧
    ¬ ((1, 2) ∈ (bundle.build_junctions 0
        (mk_bundle [(mk_hit 100 0 [cig 50 0, cig 100 3, cig 50 0]).build_splice_positions 3])
        ).junctions.map junction.packed ↔
      0 ≤ occurrences
        [(mk_hit 100 0 [cig 50 0, cig 100 3, cig 50 0]).build_splice_positions 3] (1, 2)) := by
  decide

/-- Claim C1, amended. Starting from an empty junction list, `build_junctions` retains
a junction for a packed splice position `p` if and only if `p` occurs at least once
over the splice-position lists of the hits and its number of occurrences is at least
`min_splice_boundary_hits`; the count of every retained junction is exactly the number
of occurrences of its position, and each position is retained at most once. -/
theorem build_junctions_spec (min_splice_boundary_hits : Nat) (b : bundle)
    (hj : b.junctions = []) :
    (∀ p, p ∈ (b.build_junctions min_splice_boundary_hits).junctions.map junction.packed ↔
      (1 ≤ occurrences b.hits p ∧ min_splice_boundary_hits ≤ occurrences b.hits p)) ∧
    (∀ j ∈ (b.build_junctions min_splice_boundary_hits).junctions,
      j.count = occurrences b.hits j.packed) ∧
    ((b.build_junctions min_splice_boundary_hits).junctions.map junction.packed).Nodup := by
  rw [build_junctions_junctions, hj, List.nil_append]
  have hfind := fun q => map_find_fold ((b.hits.map hit.get_splice_positions).flatten) []
    (by intro r; simp [map_find]) q
  have hnd := fold_keys_nodup ((b.hits.map hit.get_splice_positions).flatten) []
    (by simp)
  have hmem := map_find_some_iff _ hnd
  generalize ((b.hits.map hit.get_splice_positions).flatten).foldl build_junctions_count []
    = m at hfind hnd hmem
  have hocc : ∀ q, occurrences b.hits q
      = ((b.hits.map hit.get_splice_positions).flatten).count q := fun q => rfl
  have hval : ∀ q c, (q, c) ∈ m ↔ (c = occurrences b.hits q ∧ 1 ≤ c) := by
    intro q c
    rw [← hmem, hfind, hocc]
    simp only [map_find, Option.getD_none, Nat.zero_add]
    by_cases h0 : List.count q (b.hits.map hit.get_splice_positions).flatten = 0
    · rw [if_pos h0, h0]
      constructor
      · intro h; cases h
      · rintro ⟨rfl, h⟩; omega
    · rw [if_neg h0, Option.some.injEq]
      constructor
      · rintro rfl; exact ⟨rfl, by omega⟩
      · rintro ⟨rfl, -⟩; rfl
  have hpk : ∀ (it : Packed × Nat), (junction.ofPacked it.1 it.2).packed = it.1 :=
    fun it => rfl
  have hkeys : List.map junction.packed
      ((m.filter (fun it => decide (min_splice_boundary_hits ≤ it.2))).map
        (fun it => junction.ofPacked it.1 it.2))
      = (m.filter (fun it => decide (min_splice_boundary_hits ≤ it.2))).map Prod.fst := by
    rw [List.map_map]
    exact List.map_congr_left (fun it _ => hpk it)
  refine ⟨fun p => ?_, fun j hjm => ?_, ?_⟩
  · rw [hkeys, List.mem_map]
    constructor
    · rintro ⟨⟨q, c⟩, hqc, rfl⟩
      rw [List.mem_filter, decide_eq_true_eq, hval] at hqc
      obtain ⟨⟨rfl, h1⟩, h2⟩ := hqc
      exact ⟨h1, h2⟩
    · rintro ⟨h1, h2⟩
      refine ⟨(p, occurrences b.hits p), ?_, rfl⟩
      rw [List.mem_filter, decide_eq_true_eq, hval]
      exact ⟨⟨rfl, h1⟩, h2⟩
  · rw [List.mem_map] at hjm
    obtain ⟨⟨q, c⟩, hqc, rfl⟩ := hjm
    rw [List.mem_filter, hval] at hqc
    exact hqc.1.1
  · rw [hkeys]
    exact (List.Sublist.map Prod.fst (List.filter_sublist m)).nodup hnd

/-- Witness for the amended C1: three hits, two of which carry the junction
`(150, 250)`, under `min_splice_boundary_hits = 2`. -/
theorem build_junctions_spec_witness :
    (150, 250) ∈ (bundle.build_junctions 2
      (mk_bundle
        [(mk_hit 100 0 [cig 50 0, cig 100 3, cig 50 0]).build_splice_positions 3,
         (mk_hit 110 0 [cig 40 0, cig 100 3, cig 50 0]).build_splice_positions 3,
         (mk_hit 120 0 [cig 40 0, cig 90 3, cig 50 0]).build_splice_positions 3])
      ).junctions.map junction.packed :=
  ((build_junctions_spec 2
      (mk_bundle
        [(mk_hit 100 0 [cig 50 0, cig 100 3, cig 50 0]).build_splice_positions 3,
         (mk_hit 110 0 [cig 40 0, cig 100 3, cig 50 0]).build_splice_positions 3,
         (mk_hit 120 0 [cig 40 0, cig 90 3, cig 50 0]).build_splice_positions 3])
      rfl).1 (150, 250)).2 ⟨by decide, by decide⟩

/-! ## Regions (`bundle::build_regions`) -/

/-- The partial-exon loop of `build_regions` leaves the boundary map as it is: each of its
two statements inserts a key only when the map already holds it. -/
theorem build_regions_pexon_id (s : List (Int × boundary_type)) (p : partial_exon) :
    build_regions_pexon s p = s := by
  have key : ∀ (s : List (Int × boundary_type)) (k : Int) (v : boundary_type),
      (if mpi_find s k ≠ none then mpi_insert s k v else s) = s := by
    intro s k v
    by_cases h : mpi_find s k = none
    · simp [h]
    · have hs : (mpi_find s k).isSome = true := Option.isSome_iff_ne_none.2 h
      simp [h, mpi_insert, hs]
  unfold build_regions_pexon
  simp only [key]

/-- Claim C19, evaluated on the code. On the bundle `[0, 100)` without junctions that
holds the partial exon `[10, 50)`, the boundary map of `build_regions` is
`{0, 100}`: the positions 10 and 50 of the partial exon are not boundary points, and the
only region is `[0, 100)`. For every bundle the boundary map is the one computed
without any partial exon. -/
theorem build_regions_drops_pexon_boundaries :
    bundle.build_regions_boundaries env_zero 0
        (mk_locus 0 100 [] [mk_pexon 10 50 START_BOUNDARY END_BOUNDARY 10])
      = [(0, START_BOUNDARY), (100, END_BOUNDARY)] ∧
    ((bundle.build_regions env_zero 0
        (mk_locus 0 100 [] [mk_pexon 10 50 START_BOUNDARY END_BOUNDARY 10])).regions.map
      (fun r => (r.lpos, r.rpos))) = [(0, 100)] ∧
    ∀ (env : coverage_env) (count : Int) (b : bundle),
      b.build_regions_boundaries env count
        = bundle.build_regions_boundaries env count { b with pexons := [] } := by
  refine ⟨by decide, by decide, ?_⟩
  intro env count b
  unfold bundle.build_regions_boundaries
  simp only [List.foldl_nil]
  generalize List.foldl (build_regions_junction env count)
    (mpi_insert (mpi_insert [] b.lpos START_BOUNDARY) b.rpos END_BOUNDARY) b.junctions = s
  induction b.pexons generalizing s with
  | nil => rfl
  | cons p ps ih => rw [List.foldl_cons, build_regions_pexon_id, ih]

/-! ## Building a bundle (`bundle::build`) -/

/-- Claim C11. When `ignore_single_exon_transcripts` is true and `build_junctions` retains
no junction, `build` returns right after `build_junctions` (provided the assertions of
`check_left_ascending` hold; otherwise it aborts): the regions, the partial exons, the
partial-exon map, the splice graph and the hyper-set of the bundle are left unchanged,
so nothing from which a transcript could be derived is built. -/
theorem build_ignores_single_exon (env : coverage_env) (cfg : config) (b : bundle)
    (hi : cfg.ignore_single_exon_transcripts = true)
    (hj : (b.build_junctions cfg.min_splice_boundary_hits).junctions = []) :
    (b.check_left_ascending = true →
      ∃ b1, b.build env cfg = some b1 ∧ b1.regions = b.regions ∧ b1.pexons = b.pexons ∧
        b1.pmap = b.pmap ∧ b1.gr = b.gr ∧ b1.hs = b.hs) ∧
    (b.check_left_ascending = false → b.build env cfg = none) := by
  have hc : b.compute_strand.check_left_ascending = b.check_left_ascending := rfl
  have hjs : (b.compute_strand.build_junctions cfg.min_splice_boundary_hits).junctions
      = (b.build_junctions cfg.min_splice_boundary_hits).junctions := rfl
  constructor
  · intro hasc
    refine ⟨b.compute_strand.build_junctions cfg.min_splice_boundary_hits, ?_,
      rfl, rfl, rfl, rfl, rfl⟩
    unfold bundle.build
    simp only [hc, hasc, hjs, hj, hi, not_true_eq_false, if_false, List.length_nil,
      Nat.le_refl, and_self, if_true]
  · intro hasc
    unfold bundle.build
    simp only [hc, hasc, Bool.false_eq_true, not_false_eq_true, if_true]

/-- Witness for C11: two unspliced hits in ascending order, with
`ignore_single_exon_transcripts` set. -/
theorem build_ignores_single_exon_witness :
    ∃ b1, bundle.build env_zero
        { min_flank_length := 3, min_splice_boundary_hits := 1,
          ignore_single_exon_transcripts := true }
        (mk_bundle [mk_hit 100 0 [cig 50 0], mk_hit 120 0 [cig 50 0]]) = some b1 ∧
      b1.regions = [] ∧ b1.pexons = [] ∧ b1.pmap = [] ∧ b1.gr = {} ∧ b1.hs = [] :=
  (build_ignores_single_exon env_zero
    { min_flank_length := 3, min_splice_boundary_hits := 1,
      ignore_single_exon_transcripts := true }
    (mk_bundle [mk_hit 100 0 [cig 50 0], mk_hit 120 0 [cig 50 0]]) rfl (by decide)).1
    (by decide)

/-! ## Linking junctions (`bundle::link_partial_exons`) -/

/-- A lookup fails exactly when the key is not among the keys of the map. -/
theorem mpi_find_none_iff {α : Type} (m : List (Int × α)) (k : Int) :
    mpi_find m k = none ↔ k ∉ m.map Prod.fst := by
  induction m with
  | nil => simp [mpi_find]
  | cons x m ih =>
    unfold mpi_find at ih ⊢
    by_cases hx : x.1 = k
    · simp [List.find?_cons, hx]
    · have hk : ¬ k = x.1 := fun e => hx e.symm
      simp [List.find?_cons, hx, hk, ih]

/-- Lookups after placing a pair under a key that was absent. -/
theorem mpi_find_place {α : Type} (m : List (Int × α)) (k q : Int) (v : α)
    (hk : mpi_find m k = none) :
    mpi_find (mpi_place m k v) q = if q = k then some v else mpi_find m q := by
  induction m with
  | nil =>
    by_cases hq : q = k
    · simp [mpi_place, mpi_find, hq]
    · have : ¬ k = q := fun e => hq e.symm
      simp [mpi_place, mpi_find, hq, this]
  | cons x m ih =>
    have hxk : ¬ x.1 = k := by
      intro e
      simp [mpi_find, List.find?_cons, e] at hk
    have hk2 : mpi_find m k = none := by
      simpa [mpi_find, List.find?_cons, hxk] using hk
    unfold mpi_place
    by_cases hlt : k < x.1
    · rw [if_pos hlt]
      by_cases hq : q = k
      · simp [mpi_find, List.find?_cons, hq]
      · have : ¬ k = q := fun e => hq e.symm
        simp [mpi_find, List.find?_cons, hq, this]
    · rw [if_neg hlt]
      have ih2 := ih hk2
      unfold mpi_find at ih2 ⊢
      by_cases hxq : x.1 = q
      · have hq : ¬ q = k := fun e => hxk (hxq.trans e)
        simp [List.find?_cons, hxq, hq]
      · simp only [List.find?_cons, hxq, decide_False, ih2]

/-- Lookups after `insert` under a key that was absent. -/
theorem mpi_find_insert {α : Type} (m : List (Int × α)) (k q : Int) (v : α)
    (hk : mpi_find m k = none) :
    mpi_find (mpi_insert m k v) q = if q = k then some v else mpi_find m q := by
  unfold mpi_insert
  rw [hk]
  simp only [Option.isSome_none, Bool.false_eq_true, if_false]
  exact mpi_find_place m k q v hk

/-- An entry of a list extended by one element is an entry of the list or the new
element at the end. -/
theorem getElem?_snoc_eq_some {α : Type} (xs : List α) (a x : α) (i : Nat) :
    (xs ++ [a])[i]? = some x ↔ xs[i]? = some x ∨ (i = xs.length ∧ a = x) := by
  rcases Nat.lt_trichotomy i xs.length with h | h | h
  · rw [List.getElem?_append_left h]
    constructor
    · exact Or.inl
    · rintro (h1 | ⟨h1, -⟩)
      · exact h1
      · omega
  · subst h
    rw [List.getElem?_append_right (Nat.le_refl _)]
    simp
  · rw [List.getElem?_append_right (Nat.le_of_lt h)]
    have h1 : xs[i]? = none := List.getElem?_eq_none (Nat.le_of_lt h)
    have h2 : ([a] : List α)[i - xs.length]? = none :=
      List.getElem?_eq_none (by simp; omega)
    rw [h1, h2]
    constructor
    · intro e; cases e
    · rintro (e | ⟨e, -⟩)
      · cases e
      · omega

/-- Once an assertion of the first loop of `link_partial_exons` has failed, the loop
stays failed. -/
theorem link_partial_exons_pexon_none (P : List partial_exon) :
    P.foldl link_partial_exons_pexon none = none := by
  induction P with
  | nil => rfl
  | cons p P ih => rw [List.foldl_cons]; exact ih

/-- One more partial exon: the insertion of its position under the next index keeps the
description of the map, provided the position was absent. -/
theorem link_map_insert (xs : List Int) (m : List (Int × Nat)) (a : Int)
    (hm : ∀ x i, mpi_find m x = some i ↔ xs[i]? = some x) (ha : mpi_find m a = none) :
    a ∉ xs ∧
    ∀ x i, mpi_find (mpi_insert m a xs.length) x = some i ↔ (xs ++ [a])[i]? = some x := by
  have hmem : a ∉ xs := by
    intro h
    obtain ⟨i, hi⟩ := List.getElem?_of_mem h
    have := (hm a i).2 hi
    rw [ha] at this
    cases this
  refine ⟨hmem, fun x i => ?_⟩
  rw [mpi_find_insert m a x xs.length ha, getElem?_snoc_eq_some]
  by_cases hx : x = a
  · subst hx
    rw [if_pos rfl]
    constructor
    · intro e
      right
      exact ⟨(Option.some.inj e).symm, rfl⟩
    · rintro (e | ⟨e, -⟩)
      · exact absurd (List.getElem?_mem e) hmem
      · rw [e]
  · rw [if_neg hx, hm]
    constructor
    · exact Or.inl
    · rintro (e | ⟨-, e⟩)
      · exact e
      · exact absurd e.symm hx

/-- A key that is found in a map described by a list lies in the list. -/
theorem link_map_mem (xs : List Int) (m : List (Int × Nat)) (a : Int)
    (hm : ∀ x i, mpi_find m x = some i ↔ xs[i]? = some x) :
    mpi_find m a ≠ none ↔ a ∈ xs := by
  constructor
  · intro h
    obtain ⟨i, hi⟩ := Option.ne_none_iff_exists'.1 h
    exact List.getElem?_mem ((hm a i).1 hi)
  · intro h
    obtain ⟨i, hi⟩ := List.getElem?_of_mem h
    rw [(hm a i).2 hi]
    simp

/-- The first loop of `link_partial_exons`, started on empty maps, fails exactly when two
partial exons share a left or a right position; otherwise it builds the two index maps. -/
theorem link_partial_exons_maps (P : List partial_exon) :
    link_maps_ok P (P.foldl link_partial_exons_pexon (some (0, [], []))) := by
  induction P using List.reverseRecOn with
  | nil =>
    simp [link_maps_ok, mpi_find]
  | append_singleton P p ih =>
    rw [List.foldl_append, List.foldl_cons, List.foldl_nil]
    cases hst : P.foldl link_partial_exons_pexon (some (0, [], [])) with
    | none =>
      rw [hst] at ih
      simp only [link_partial_exons_pexon, link_maps_ok, List.map_append, List.map_cons,
        List.map_nil] at ih ⊢
      rcases ih with h | h
      · left
        intro hn
        exact h (List.Nodup.of_append_left hn)
      · right
        intro hn
        exact h (List.Nodup.of_append_left hn)
    | some st =>
      obtain ⟨n, lm, rm⟩ := st
      rw [hst] at ih
      obtain ⟨hn, hl, hr, hlm, hrm⟩ := ih
      subst hn
      simp only [link_partial_exons_pexon]
      by_cases h1 : mpi_find lm p.lpos = none
      · by_cases h2 : mpi_find rm p.rpos = none
        · rw [if_neg (not_not.2 h1), if_neg (not_not.2 h2)]
          have hL := link_map_insert _ lm p.lpos hlm h1
          have hR := link_map_insert _ rm p.rpos hrm h2
          rw [List.length_map] at hL hR
          refine ⟨by simp, ?_, ?_, ?_, ?_⟩
          · rw [List.map_append, List.map_cons, List.map_nil]
            exact List.Nodup.append hl (List.nodup_singleton _)
              (by simpa using hL.1)
          · rw [List.map_append, List.map_cons, List.map_nil]
            exact List.Nodup.append hr (List.nodup_singleton _)
              (by simpa using hR.1)
          · intro x i
            rw [List.map_append, List.map_cons, List.map_nil]
            exact hL.2 x i
          · intro x i
            rw [List.map_append, List.map_cons, List.map_nil]
            exact hR.2 x i
        · rw [if_neg (not_not.2 h1), if_pos h2]
          right
          rw [List.map_append, List.map_cons, List.map_nil]
          intro hn
          have hm := (link_map_mem _ rm p.rpos hrm).1 h2
          exact (List.disjoint_of_nodup_append hn) hm (List.mem_singleton_self _)
      · rw [if_pos h1]
        left
        rw [List.map_append, List.map_cons, List.map_nil]
        intro hn
        have hm := (link_map_mem _ lm p.lpos hlm).1 h1
        exact (List.disjoint_of_nodup_append hn) hm (List.mem_singleton_self _)

/-- The second loop of `link_partial_exons`, given index maps that describe the partial
exons `P`: it fails exactly when an endpoint of some junction is not the matching
boundary of a partial exon, and otherwise links every junction. -/
theorem link_partial_exons_junctions_spec (P : List partial_exon)
    (lm rm : List (Int × Nat))
    (hlm : ∀ x i, mpi_find lm x = some i ↔ (P.map partial_exon.lpos)[i]? = some x)
    (hrm : ∀ x i, mpi_find rm x = some i ↔ (P.map partial_exon.rpos)[i]? = some x)
    (js : List junction) :
    (link_partial_exons_junctions lm rm js = none ↔
      ∃ j ∈ js, j.lpos ∉ P.map partial_exon.rpos ∨ j.rpos ∉ P.map partial_exon.lpos) ∧
    (∀ js1, link_partial_exons_junctions lm rm js = some js1 →
      List.Forall₂ (linked_to P) js js1) := by
  induction js with
  | nil =>
    simp [link_partial_exons_junctions]
  | cons b rest ih =>
    obtain ⟨ih1, ih2⟩ := ih
    have hL := link_map_mem _ rm b.lpos hrm
    have hR := link_map_mem _ lm b.rpos hlm
    unfold link_partial_exons_junctions link_partial_exons_junction
    by_cases h1 : mpi_find rm b.lpos = none
    · have hb : b.lpos ∉ P.map partial_exon.rpos := fun h => (hL.2 h) h1
      simp only [h1, ne_eq, not_true_eq_false, not_false_eq_true, if_true]
      refine ⟨⟨fun _ => ⟨b, List.mem_cons_self _ _, Or.inl hb⟩, fun _ => trivial⟩, ?_⟩
      intro js1 h
      simp at h
    · by_cases h2 : mpi_find lm b.rpos = none
      · have hb : b.rpos ∉ P.map partial_exon.lpos := fun h => (hR.2 h) h2
        simp only [h1, h2, ne_eq, not_true_eq_false, not_false_eq_true, if_true, if_false]
        refine ⟨⟨fun _ => ⟨b, List.mem_cons_self _ _, Or.inr hb⟩, fun _ => trivial⟩, ?_⟩
        intro js1 h
        simp at h
      · obtain ⟨x, hx⟩ := Option.ne_none_iff_exists'.1 h1
        obtain ⟨y, hy⟩ := Option.ne_none_iff_exists'.1 h2
        have hbl : b.lpos ∈ P.map partial_exon.rpos := hL.1 h1
        have hbr : b.rpos ∈ P.map partial_exon.lpos := hR.1 h2
        simp only [hx, hy, ne_eq, not_false_eq_true, not_true_eq_false, if_false,
          reduceCtorEq]
        have hlk : linked_to P b { b with lexon := (x : Int), rexon := (y : Int) } := by
          have ex := (hrm b.lpos x).1 hx
          have ey := (hlm b.rpos y).1 hy
          rw [List.getElem?_map] at ex ey
          obtain ⟨px, hpx, epx⟩ := Option.map_eq_some'.1 ex
          obtain ⟨py, hpy, epy⟩ := Option.map_eq_some'.1 ey
          exact ⟨rfl, rfl, rfl, x, y, px, py, rfl, rfl, hpx, hpy, epx, epy⟩
        cases hrest : link_partial_exons_junctions lm rm rest with
        | none =>
          simp only [true_iff]
          obtain ⟨j, hj, hjb⟩ := ih1.1 hrest
          refine ⟨⟨j, List.mem_cons_of_mem _ hj, hjb⟩, fun js1 h => ?_⟩
          cases h
        | some js2 =>
          constructor
          · constructor
            · intro h; cases h
            · rintro ⟨j, hj, hjb⟩
              rcases List.mem_cons.1 hj with rfl | hj
              · rcases hjb with h | h
                · exact absurd hbl h
                · exact absurd hbr h
              · have := ih1.2 ⟨j, hj, hjb⟩
                rw [hrest] at this
                cases this
          · intro js1 h
            cases h
            exact List.Forall₂.cons hlk (ih2 js2 hrest)

/-- Claim C12, refuted as stated: on a bundle without partial exons that holds the
junction `(30, 60)`, `link_partial_exons` completes without an assertion failure, yet
the junction keeps the indices `-1` and its endpoints are boundaries of no partial
exon. -/
theorem link_partial_exons_empty_counterexample :
    bundle.link_partial_exons (mk_locus 0 100 [junction.ofPacked (30, 60) 2] [])
      = some (mk_locus 0 100 [junction.ofPacked (30, 60) 2] []) ∧
    (junction.ofPacked (30, 60) 2).lexon = -1 ∧
    (junction.ofPacked (30, 60) 2).rexon = -1 ∧
    (30 : Int) ∉ (mk_locus 0 100 [junction.ofPacked (30, 60) 2] []).pexons.map
      partial_exon.rpos := by
  decide

/-- Claim C12, amended. On a bundle with at least one partial exon, whenever
`link_partial_exons` completes without an assertion failure every junction has been
given indices `lexon` and `rexon` with `pexons[lexon].rpos == j.lpos` and
`pexons[rexon].lpos == j.rpos`, and it fails an assertion exactly when two partial exons
share a left position or a right position, or some junction endpoint is not such a
boundary. On a bundle without partial exons it returns at once and changes nothing. -/
theorem link_partial_exons_spec (b : bundle) :
    (b.pexons = [] → b.link_partial_exons = some b) ∧
    (b.pexons ≠ [] →
      (b.link_partial_exons = none ↔
        (¬ (b.pexons.map partial_exon.lpos).Nodup ∨
         ¬ (b.pexons.map partial_exon.rpos).Nodup ∨
         ∃ j ∈ b.junctions, j.lpos ∉ b.pexons.map partial_exon.rpos ∨
           j.rpos ∉ b.pexons.map partial_exon.lpos)) ∧
      (∀ b1, b.link_partial_exons = some b1 →
        b1.pexons = b.pexons ∧ List.Forall₂ (linked_to b.pexons) b.junctions b1.junctions)) := by
  constructor
  · intro h
    unfold bundle.link_partial_exons
    simp [h]
  · intro h
    have hlen : ¬ b.pexons.length = 0 := fun e => h (List.length_eq_zero.1 e)
    have hmaps := link_partial_exons_maps b.pexons
    unfold bundle.link_partial_exons
    rw [if_neg hlen]
    cases hst : b.pexons.foldl link_partial_exons_pexon (some (0, [], [])) with
    | none =>
      rw [hst] at hmaps
      simp only [link_maps_ok] at hmaps
      refine ⟨⟨fun _ => ?_, fun _ => rfl⟩, fun b1 hb => by cases hb⟩
      rcases hmaps with h1 | h1
      · exact Or.inl h1
      · exact Or.inr (Or.inl h1)
    | some st =>
      obtain ⟨n, lm, rm⟩ := st
      rw [hst] at hmaps
      obtain ⟨-, hl, hr, hlm, hrm⟩ := hmaps
      obtain ⟨hj1, hj2⟩ := link_partial_exons_junctions_spec b.pexons lm rm hlm hrm b.junctions
      dsimp only
      cases hjs : link_partial_exons_junctions lm rm b.junctions with
      | none =>
        refine ⟨⟨fun _ => Or.inr (Or.inr (hj1.1 hjs)), fun _ => rfl⟩, fun b1 hb => by cases hb⟩
      | some js1 =>
        dsimp only
        constructor
        · constructor
          · intro hb; cases hb
          · rintro (h1 | h1 | h1)
            · exact absurd hl h1
            · exact absurd hr h1
            · have := hj1.2 h1
              rw [hjs] at this
              cases this
        · intro b1 hb
          cases hb
          exact ⟨rfl, hj2 js1 hjs⟩

/-- Witness for the amended C12: two partial exons `[100, 200)` and `[300, 400)` and the
junction `(200, 300)`, which is linked to the indices `0` and `1`. -/
theorem link_partial_exons_spec_witness :
    (mk_locus 100 400 [{ junction.ofPacked (200, 300) 3 with lexon := 0, rexon := 1 }]
        [mk_pexon 100 200 START_BOUNDARY LEFT_SPLICE 10,
         mk_pexon 300 400 RIGHT_SPLICE END_BOUNDARY 10]).pexons
      = [mk_pexon 100 200 START_BOUNDARY LEFT_SPLICE 10,
         mk_pexon 300 400 RIGHT_SPLICE END_BOUNDARY 10] ∧
    List.Forall₂ (linked_to [mk_pexon 100 200 START_BOUNDARY LEFT_SPLICE 10,
         mk_pexon 300 400 RIGHT_SPLICE END_BOUNDARY 10])
      [junction.ofPacked (200, 300) 3]
      [{ junction.ofPacked (200, 300) 3 with lexon := 0, rexon := 1 }] :=
  ((link_partial_exons_spec
    (mk_locus 100 400 [junction.ofPacked (200, 300) 3]
      [mk_pexon 100 200 START_BOUNDARY LEFT_SPLICE 10,
       mk_pexon 300 400 RIGHT_SPLICE END_BOUNDARY 10])).2 (by decide)).2
    (mk_locus 100 400 [{ junction.ofPacked (200, 300) 3 with lexon := 0, rexon := 1 }]
      [mk_pexon 100 200 START_BOUNDARY LEFT_SPLICE 10,
       mk_pexon 300 400 RIGHT_SPLICE END_BOUNDARY 10])
    (by decide)

/-! ## Bridging a read pair (`bundle::bridge_read`) -/

/-- Claim C18, evaluated on the code. In the chain `0 -> 1 -> 2 -> 3 -> 4` (three
partial exons between source and sink) there is no edge between the vertices `1` and
`3` of the partial exons `0` and `2`, and exactly one directed path joins them; yet
`bridge_read(0, 2, v)` yields no result, because it writes `trace[0]` while `trace` is
empty. The same holds of every call with `x < y` that finds no direct edge. -/
theorem bridge_read_writes_outside_trace :
    (mk_graph 5 [(0, 1, 10), (1, 2, 10), (2, 3, 10), (3, 4, 10)]).edge 1 3 = none ∧
    (mk_graph 5 [(0, 1, 10), (1, 2, 10), (2, 3, 10), (3, 4, 10)]).num_paths 5 1 3 = 1 ∧
    bundle.bridge_read
      { mk_locus 0 400 [] [] with
        gr := mk_graph 5 [(0, 1, 10), (1, 2, 10), (2, 3, 10), (3, 4, 10)] } 0 2 = none ∧
    ∀ (b : bundle) (x y : Int), x < y →
      b.gr.edge (x + 1).toNat (y + 1).toNat = none → b.bridge_read x y = none := by
  refine ⟨by decide, by decide, by decide, ?_⟩
  intro b x y hxy he
  unfold bundle.bridge_read
  have h1 : ¬ x ≥ y := by omega
  simp only [h1, if_false, he, ite_self, ne_eq, not_true_eq_false]
  cases vec_set ([] ++ List.replicate (wrap32 (wrap32 (y - x) + 1)).toNat (0 : Int)) 0 1 with
  | none => rfl
  | some table => rfl

/-! ## Isolated boundaries (`bundle::extend_isolated_*_boundaries`) -/

/-- Adding an edge and setting its weight and a default info amounts to appending the
edge, when the new descriptor is fresh. -/
theorem add_edge_set_eq_append (g : splice_graph) (hf : g.fresh) (s t : Nat) (w : ℚ) :
    (((g.add_edge s t).1.set_edge_weight (g.add_edge s t).2 w).set_edge_info
      (g.add_edge s t).2 {}) = g.append_edge s t w := by
  have hold : ∀ e ∈ g.edges, ¬ e.id = g.next := fun e he h => by
    have := hf e he
    omega
  simp only [splice_graph.add_edge, splice_graph.set_edge_weight, splice_graph.set_edge_info,
    splice_graph.append_edge, List.map_append, List.map_map, List.map_cons, List.map_nil]
  congr 1
  congr 1
  · conv_rhs => rw [← List.map_id g.edges]
    apply List.map_congr_left
    intro e he
    simp [hold e he]
  · simp

/-- A list of length one is a singleton. -/
theorem length_one_head {α : Type} (l : List α) (h : l.length = 1) :
    ∃ a, l = [a] := by
  match l, h with
  | [a], _ => exact ⟨a, rfl⟩

/-- One iteration of `extend_isolated_end_boundaries` adds the edge of the candidate of
the vertex, if there is one, and does nothing else. -/
theorem extend_isolated_end_boundaries_step_eq (g : splice_graph) (hf : g.fresh) (i : Nat) :
    extend_isolated_end_boundaries_step g i = g.append_candidate (end_candidate g i) := by
  unfold extend_isolated_end_boundaries_step end_candidate
  by_cases h1 : g.in_degree i = 1
  · by_cases h2 : g.out_degree i = 1
    · obtain ⟨e1, he1⟩ := length_one_head _ h1
      obtain ⟨e2, he2⟩ := length_one_head _ h2
      rw [if_neg (not_not.2 h1), if_neg (not_not.2 h2)]
      simp only [he1, he2, List.head?_cons]
      by_cases c1 : g.out_degree e1.s = 1
      · by_cases c2 : e2.t = g.num_vertices - 1
        · by_cases c3 : e1.weight ≥ 1.5
          · have : ¬ e1.weight < 1.5 := not_lt.2 c3
            simp [c1, c2, c3, this, splice_graph.append_candidate]
          · by_cases c4 : g.get_vertex_weight e1.s ≤ 5.0
            · have : ¬ g.get_vertex_weight e1.s > 5.0 := not_lt.2 c4
              simp [c1, c2, c3, c4, this, splice_graph.append_candidate]
            · by_cases c5 : (g.get_vertex_info e1.s).rpos = (g.get_vertex_info i).lpos
              · simp [c1, c2, c3, c4, c5, splice_graph.append_candidate]
              · have h3 : e1.weight < 1.5 := not_le.1 c3
                have h4 : g.get_vertex_weight e1.s > 5.0 := not_le.1 c4
                rw [if_neg (not_not.2 c1), if_neg (not_not.2 c2), if_neg c3, if_neg c4,
                  if_neg c5, if_pos ⟨c1, c2, h3, h4, c5⟩]
                exact add_edge_set_eq_append g hf e1.s e2.t _
        · simp [c1, c2, splice_graph.append_candidate]
      · simp [c1, splice_graph.append_candidate]
    · rw [if_neg (not_not.2 h1), if_pos h2]
      have : ∀ e2, g.out_edges i ≠ [e2] := fun e2 h => h2 (by
        unfold splice_graph.out_degree; rw [h]; rfl)
      split
      · rename_i e1 e2 _ he2
        exact absurd he2 (this e2)
      · rfl
  · rw [if_pos h1]
    have : ∀ e1, g.in_edges i ≠ [e1] := fun e1 h => h1 (by
      unfold splice_graph.in_degree; rw [h]; rfl)
    split
    · rename_i e1 e2 he1 _
      exact absurd he1 (this e1)
    · rfl

/-- The edges into a vertex after an edge has been appended. -/
theorem in_edges_append_edge (g : splice_graph) (s t : Nat) (w : ℚ) (i : Nat) :
    (g.append_edge s t w).in_edges i =
      g.in_edges i ++ (if t = i then [{ id := g.next, s := s, t := t, weight := w }] else []) := by
  unfold splice_graph.in_edges splice_graph.append_edge
  rw [List.filter_append]
  by_cases h : t = i <;> simp [h]

/-- The edges out of a vertex after an edge has been appended. -/
theorem out_edges_append_edge (g : splice_graph) (s t : Nat) (w : ℚ) (i : Nat) :
    (g.append_edge s t w).out_edges i =
      g.out_edges i ++ (if s = i then [{ id := g.next, s := s, t := t, weight := w }] else []) := by
  unfold splice_graph.out_edges splice_graph.append_edge
  rw [List.filter_append]
  by_cases h : s = i <;> simp [h]

/-- An edge into `i` ends at `i` and is an edge of the graph. -/
theorem mem_in_edges (g : splice_graph) (i : Nat) (e : graph_edge) :
    e ∈ g.in_edges i ↔ e ∈ g.edges ∧ e.t = i := by
  unfold splice_graph.in_edges
  rw [List.mem_filter, decide_eq_true_eq]

/-- An edge out of `i` starts at `i` and is an edge of the graph. -/
theorem mem_out_edges (g : splice_graph) (i : Nat) (e : graph_edge) :
    e ∈ g.out_edges i ↔ e ∈ g.edges ∧ e.s = i := by
  unfold splice_graph.out_edges
  rw [List.mem_filter, decide_eq_true_eq]

/-- What a candidate of `extend_isolated_end_boundaries` says about the graph. -/
theorem end_candidate_some (g : splice_graph) (i : Nat) (c : Nat × Nat × ℚ)
    (h : end_candidate g i = some c) :
    ∃ e1 e2, g.in_edges i = [e1] ∧ g.out_edges i = [e2] ∧ g.out_degree e1.s = 1 ∧
      e2.t = g.num_vertices - 1 ∧ e1.weight < 1.5 ∧ g.get_vertex_weight e1.s > 5.0 ∧
      (g.get_vertex_info e1.s).rpos ≠ (g.get_vertex_info i).lpos ∧
      c = (e1.s, e2.t, g.get_vertex_weight e1.s - e1.weight) := by
  unfold end_candidate at h
  split at h
  · rename_i e1 e2 he1 he2
    split at h
    · rename_i hc
      obtain ⟨c1, c2, c3, c4, c5⟩ := hc
      exact ⟨e1, e2, he1, he2, c1, c2, c3, c4, c5, (Option.some.inj h).symm⟩
    · cases h
  · cases h

/-- What a candidate of `extend_isolated_start_boundaries` says about the graph. -/
theorem start_candidate_some (g : splice_graph) (i : Nat) (c : Nat × Nat × ℚ)
    (h : start_candidate g i = some c) :
    ∃ e1 e2, g.in_edges i = [e1] ∧ g.out_edges i = [e2] ∧ e1.s = 0 ∧
      g.in_degree e2.t = 1 ∧ e2.weight < 1.5 ∧ g.get_vertex_weight e2.t > 5.0 ∧
      (g.get_vertex_info i).rpos ≠ (g.get_vertex_info e2.t).lpos ∧
      c = (e1.s, e2.t, g.get_vertex_weight e2.t - e2.weight) := by
  unfold start_candidate at h
  split at h
  · rename_i e1 e2 he1 he2
    split at h
    · rename_i hc
      obtain ⟨c1, c2, c3, c4, c5⟩ := hc
      exact ⟨e1, e2, he1, he2, c1, c2, c3, c4, c5, (Option.some.inj h).symm⟩
    · cases h
  · cases h

/-- The candidate of a vertex whose in-edges or out-edges are not a single edge. -/
theorem end_candidate_none_of_length (g : splice_graph) (i : Nat)
    (h : (g.in_edges i).length ≠ 1 ∨ (g.out_edges i).length ≠ 1) :
    end_candidate g i = none := by
  unfold end_candidate
  split
  · rename_i e1 e2 he1 he2
    rw [he1, he2] at h
    simp at h
  · rfl

/-- The candidate of a vertex whose in-edges or out-edges are not a single edge. -/
theorem start_candidate_none_of_length (g : splice_graph) (i : Nat)
    (h : (g.in_edges i).length ≠ 1 ∨ (g.out_edges i).length ≠ 1) :
    start_candidate g i = none := by
  unfold start_candidate
  split
  · rename_i e1 e2 he1 he2
    rw [he1, he2] at h
    simp at h
  · rfl

/-- The candidate of a vertex with a single in-edge `e1` and a single out-edge `e2`. -/
theorem end_candidate_of_single (g : splice_graph) (i : Nat) (e1 e2 : graph_edge)
    (h1 : g.in_edges i = [e1]) (h2 : g.out_edges i = [e2]) :
    end_candidate g i =
      if g.out_degree e1.s = 1 ∧ e2.t = g.num_vertices - 1 ∧ e1.weight < 1.5 ∧
        g.get_vertex_weight e1.s > 5.0 ∧
        (g.get_vertex_info e1.s).rpos ≠ (g.get_vertex_info i).lpos
      then some (e1.s, e2.t, g.get_vertex_weight e1.s - e1.weight) else none := by
  unfold end_candidate
  rw [h1, h2]

/-- The candidate of a vertex with a single in-edge `e1` and a single out-edge `e2`. -/
theorem start_candidate_of_single (g : splice_graph) (i : Nat) (e1 e2 : graph_edge)
    (h1 : g.in_edges i = [e1]) (h2 : g.out_edges i = [e2]) :
    start_candidate g i =
      if e1.s = 0 ∧ g.in_degree e2.t = 1 ∧ e2.weight < 1.5 ∧
        g.get_vertex_weight e2.t > 5.0 ∧
        (g.get_vertex_info i).rpos ≠ (g.get_vertex_info e2.t).lpos
      then some (e1.s, e2.t, g.get_vertex_weight e2.t - e2.weight) else none := by
  unfold start_candidate
  rw [h1, h2]

/-- A vertex of out-degree one whose out-edges contain `e` has `e` as its only
out-edge. -/
theorem out_edges_eq_of_degree_one (g : splice_graph) (v : Nat) (e : graph_edge)
    (hd : g.out_degree v = 1) (he : e ∈ g.out_edges v) : g.out_edges v = [e] := by
  obtain ⟨a, ha⟩ := length_one_head _ hd
  rw [ha] at he ⊢
  rw [List.mem_singleton.1 he]

/-- A vertex of in-degree one whose in-edges contain `e` has `e` as its only in-edge. -/
theorem in_edges_eq_of_degree_one (g : splice_graph) (v : Nat) (e : graph_edge)
    (hd : g.in_degree v = 1) (he : e ∈ g.in_edges v) : g.in_edges v = [e] := by
  obtain ⟨a, ha⟩ := length_one_head _ hd
  rw [ha] at he ⊢
  rw [List.mem_singleton.1 he]

/-- Either the edges into and out of a vertex are single edges, or one of the two lists
has another length. -/
theorem single_or_not (g : splice_graph) (i : Nat) :
    (∃ e1 e2, g.in_edges i = [e1] ∧ g.out_edges i = [e2]) ∨
    ((g.in_edges i).length ≠ 1 ∨ (g.out_edges i).length ≠ 1) := by
  by_cases h1 : (g.in_edges i).length = 1
  · by_cases h2 : (g.out_edges i).length = 1
    · obtain ⟨e1, he1⟩ := length_one_head _ h1
      obtain ⟨e2, he2⟩ := length_one_head _ h2
      exact Or.inl ⟨e1, e2, he1, he2⟩
    · exact Or.inr (Or.inr h2)
  · exact Or.inr (Or.inl h1)

/-- The edge added for the candidate of a vertex `j` does not change the candidate of a
later vertex `i`: the loop of `extend_isolated_end_boundaries` may test `i` on the graph
as it was before the loop. -/
theorem end_candidate_append (g : splice_graph) (j i : Nat) (c : Nat × Nat × ℚ)
    (hc : end_candidate g j = some c) (hji : j < i) (hi : i < g.num_vertices) :
    end_candidate (g.append_edge c.1 c.2.1 c.2.2) i = end_candidate g i := by
  obtain ⟨e1, e2, h1, h2, c1, c2, -, -, -, rfl⟩ := end_candidate_some g j c hc
  have he1 : e1 ∈ g.edges ∧ e1.t = j :=
    (mem_in_edges g j e1).1 (by rw [h1]; exact List.mem_singleton_self _)
  have he2 : e2 ∈ g.edges ∧ e2.s = j :=
    (mem_out_edges g j e2).1 (by rw [h2]; exact List.mem_singleton_self _)
  have hs : g.out_edges e1.s = [e1] :=
    out_edges_eq_of_degree_one g e1.s e1 c1 ((mem_out_edges g e1.s e1).2 ⟨he1.1, rfl⟩)
  dsimp only
  by_cases ht : e2.t = i
  · have hin : e2 ∈ g.in_edges i := (mem_in_edges g i e2).2 ⟨he2.1, ht⟩
    have hn1 : end_candidate (g.append_edge e1.s e2.t
        (g.get_vertex_weight e1.s - e1.weight)) i = none := by
      apply end_candidate_none_of_length
      left
      rw [in_edges_append_edge, if_pos ht, List.length_append]
      have := List.length_pos_of_mem hin
      simp only [List.length_cons, List.length_nil]
      omega
    have hn2 : end_candidate g i = none := by
      rcases single_or_not g i with ⟨a1, a2, ha1, ha2⟩ | hlen
      · rw [end_candidate_of_single g i a1 a2 ha1 ha2, if_neg]
        rintro ⟨-, hsink, -⟩
        have e21 : e2 = a1 := by
          rw [ha1] at hin
          exact List.mem_singleton.1 hin
        have ha2m : a2 ∈ g.edges ∧ a2.s = i :=
          (mem_out_edges g i a2).1 (by rw [ha2]; exact List.mem_singleton_self _)
        have ha2in : a2 ∈ g.in_edges i :=
          (mem_in_edges g i a2).2 ⟨ha2m.1, by rw [hsink, ← c2, ht]⟩
        rw [ha1] at ha2in
        have e22 : a2 = a1 := List.mem_singleton.1 ha2in
        have : e2.s = i := by rw [e21, ← e22]; exact ha2m.2
        omega
      · exact end_candidate_none_of_length g i hlen
    rw [hn1, hn2]
  · by_cases hsi : e1.s = i
    · have hn1 : end_candidate (g.append_edge e1.s e2.t
          (g.get_vertex_weight e1.s - e1.weight)) i = none := by
        apply end_candidate_none_of_length
        right
        rw [out_edges_append_edge, if_pos hsi, ← hsi, hs]
        simp
      have hn2 : end_candidate g i = none := by
        rcases single_or_not g i with ⟨a1, a2, ha1, ha2⟩ | hlen
        · rw [end_candidate_of_single g i a1 a2 ha1 ha2, if_neg]
          rintro ⟨-, hsink, -⟩
          have : a2 = e1 := by
            rw [← hsi, hs] at ha2
            exact (List.cons.inj ha2).1.symm
          rw [this, he1.2] at hsink
          omega
        · exact end_candidate_none_of_length g i hlen
      rw [hn1, hn2]
    · have hin : (g.append_edge e1.s e2.t (g.get_vertex_weight e1.s - e1.weight)).in_edges i
          = g.in_edges i := by
        rw [in_edges_append_edge, if_neg ht, List.append_nil]
      have hout : (g.append_edge e1.s e2.t (g.get_vertex_weight e1.s - e1.weight)).out_edges i
          = g.out_edges i := by
        rw [out_edges_append_edge, if_neg hsi, List.append_nil]
      rcases single_or_not g i with ⟨a1, a2, ha1, ha2⟩ | hlen
      · rw [end_candidate_of_single g i a1 a2 ha1 ha2,
          end_candidate_of_single _ i a1 a2 (hin.trans ha1) (hout.trans ha2)]
        have ha1m : a1 ∈ g.edges ∧ a1.t = i :=
          (mem_in_edges g i a1).1 (by rw [ha1]; exact List.mem_singleton_self _)
        have hne : ¬ e1.s = a1.s := by
          intro e
          have : a1 ∈ g.out_edges e1.s := (mem_out_edges g e1.s a1).2 ⟨ha1m.1, e.symm⟩
          rw [hs] at this
          have : a1 = e1 := List.mem_singleton.1 this
          have : a1.t = j := by rw [this]; exact he1.2
          omega
        have hdeg : (g.append_edge e1.s e2.t
            (g.get_vertex_weight e1.s - e1.weight)).out_degree a1.s = g.out_degree a1.s := by
          unfold splice_graph.out_degree
          rw [out_edges_append_edge, if_neg hne, List.append_nil]
        rw [hdeg]
        rfl
      · rw [end_candidate_none_of_length g i hlen,
          end_candidate_none_of_length _ i (by rw [hin, hout]; exact hlen)]

/-- The edge added for the candidate of a vertex `j` does not change the candidate of
another vertex `i`: the loop of `extend_isolated_start_boundaries` may test `i` on the
graph as it was before the loop. -/
theorem start_candidate_append (g : splice_graph) (j i : Nat) (c : Nat × Nat × ℚ)
    (hc : start_candidate g j = some c) (hj : 1 ≤ j) (hi : 1 ≤ i) (hij : i ≠ j) :
    start_candidate (g.append_edge c.1 c.2.1 c.2.2) i = start_candidate g i := by
  obtain ⟨e1, e2, h1, h2, c1, c2, -, -, -, rfl⟩ := start_candidate_some g j c hc
  have he2 : e2 ∈ g.edges ∧ e2.s = j :=
    (mem_out_edges g j e2).1 (by rw [h2]; exact List.mem_singleton_self _)
  have ht : g.in_edges e2.t = [e2] :=
    in_edges_eq_of_degree_one g e2.t e2 c2 ((mem_in_edges g e2.t e2).2 ⟨he2.1, rfl⟩)
  dsimp only
  have hsi : ¬ e1.s = i := by omega
  have hout : (g.append_edge e1.s e2.t (g.get_vertex_weight e2.t - e2.weight)).out_edges i
      = g.out_edges i := by
    rw [out_edges_append_edge, if_neg hsi, List.append_nil]
  by_cases hti : e2.t = i
  · have hn1 : start_candidate (g.append_edge e1.s e2.t
        (g.get_vertex_weight e2.t - e2.weight)) i = none := by
      apply start_candidate_none_of_length
      left
      rw [in_edges_append_edge, if_pos hti, ← hti, ht]
      simp
    have hn2 : start_candidate g i = none := by
      rcases single_or_not g i with ⟨a1, a2, ha1, ha2⟩ | hlen
      · rw [start_candidate_of_single g i a1 a2 ha1 ha2, if_neg]
        rintro ⟨hsrc, -⟩
        have : a1 = e2 := by
          rw [← hti, ht] at ha1
          exact (List.cons.inj ha1).1.symm
        rw [this, he2.2] at hsrc
        omega
      · exact start_candidate_none_of_length g i hlen
    rw [hn1, hn2]
  · have hin : (g.append_edge e1.s e2.t (g.get_vertex_weight e2.t - e2.weight)).in_edges i
        = g.in_edges i := by
      rw [in_edges_append_edge, if_neg hti, List.append_nil]
    rcases single_or_not g i with ⟨a1, a2, ha1, ha2⟩ | hlen
    · rw [start_candidate_of_single g i a1 a2 ha1 ha2,
        start_candidate_of_single _ i a1 a2 (hin.trans ha1) (hout.trans ha2)]
      have ha2m : a2 ∈ g.edges ∧ a2.s = i :=
        (mem_out_edges g i a2).1 (by rw [ha2]; exact List.mem_singleton_self _)
      have hne : ¬ e2.t = a2.t := by
        intro e
        have : a2 ∈ g.in_edges e2.t := (mem_in_edges g e2.t a2).2 ⟨ha2m.1, e.symm⟩
        rw [ht] at this
        have : a2 = e2 := List.mem_singleton.1 this
        have : a2.s = j := by rw [this]; exact he2.2
        omega
      have hdeg : (g.append_edge e1.s e2.t
          (g.get_vertex_weight e2.t - e2.weight)).in_degree a2.t = g.in_degree a2.t := by
        unfold splice_graph.in_degree
        rw [in_edges_append_edge, if_neg hne, List.append_nil]
      rw [hdeg]
      rfl
    · rw [start_candidate_none_of_length g i hlen,
        start_candidate_none_of_length _ i (by rw [hin, hout]; exact hlen)]

/-- One iteration of `extend_isolated_start_boundaries` adds the edge of the candidate of
the vertex, if there is one, and does nothing else. -/
theorem extend_isolated_start_boundaries_step_eq (g : splice_graph) (hf : g.fresh)
    (i : Nat) :
    extend_isolated_start_boundaries_step g i
      = g.append_candidate (start_candidate g i) := by
  unfold extend_isolated_start_boundaries_step start_candidate
  by_cases h1 : g.in_degree i = 1
  · by_cases h2 : g.out_degree i = 1
    · obtain ⟨e1, he1⟩ := length_one_head _ h1
      obtain ⟨e2, he2⟩ := length_one_head _ h2
      rw [if_neg (not_not.2 h1), if_neg (not_not.2 h2)]
      simp only [he1, he2, List.head?_cons]
      by_cases c1 : e1.s = 0
      · by_cases c2 : g.in_degree e2.t = 1
        · by_cases c3 : e2.weight ≥ 1.5
          · have : ¬ e2.weight < 1.5 := not_lt.2 c3
            simp [c1, c2, c3, this, splice_graph.append_candidate]
          · by_cases c4 : g.get_vertex_weight e2.t ≤ 5.0
            · have : ¬ g.get_vertex_weight e2.t > 5.0 := not_lt.2 c4
              simp [c1, c2, c3, c4, this, splice_graph.append_candidate]
            · by_cases c5 : (g.get_vertex_info i).rpos = (g.get_vertex_info e2.t).lpos
              · simp [c1, c2, c3, c4, c5, splice_graph.append_candidate]
              · have h3 : e2.weight < 1.5 := not_le.1 c3
                have h4 : g.get_vertex_weight e2.t > 5.0 := not_le.1 c4
                rw [if_neg (not_not.2 c1), if_neg (not_not.2 c2), if_neg c3, if_neg c4,
                  if_neg c5, if_pos ⟨c1, c2, h3, h4, c5⟩]
                exact add_edge_set_eq_append g hf e1.s e2.t _
        · simp [c1, c2, splice_graph.append_candidate]
      · simp [c1, splice_graph.append_candidate]
    · rw [if_neg (not_not.2 h1), if_pos h2]
      have : ∀ e2, g.out_edges i ≠ [e2] := fun e2 h => h2 (by
        unfold splice_graph.out_degree; rw [h]; rfl)
      split
      · rename_i e1 e2 _ he2
        exact absurd he2 (this e2)
      · rfl
  · rw [if_pos h1]
    have : ∀ e1, g.in_edges i ≠ [e1] := fun e1 h => h1 (by
      unfold splice_graph.in_degree; rw [h]; rfl)
    split
    · rename_i e1 e2 he1 _
      exact absurd he1 (this e1)
    · rfl

/-- Appending the edge of a candidate keeps the descriptors fresh and the vertices. -/
theorem append_candidate_fresh (g : splice_graph) (hf : g.fresh)
    (c : Option (Nat × Nat × ℚ)) :
    (g.append_candidate c).fresh ∧ (g.append_candidate c).vertices = g.vertices := by
  cases c with
  | none => exact ⟨hf, rfl⟩
  | some c =>
    refine ⟨?_, rfl⟩
    intro e he
    simp only [splice_graph.append_candidate, splice_graph.append_edge,
      List.mem_append, List.mem_singleton] at he ⊢
    rcases he with he | rfl
    · have := hf e he
      omega
    · simp

/-- The edges of a graph to which the edges of a list of candidates have been appended. -/
theorem append_candidates_edges (cs : List (Option (Nat × Nat × ℚ))) (g : splice_graph) :
    (cs.foldl splice_graph.append_candidate g).vertices = g.vertices ∧
    ∃ added, (cs.foldl splice_graph.append_candidate g).edges = g.edges ++ added ∧
      added.map (fun e => (e.s, e.t, e.weight)) = cs.filterMap id := by
  induction cs generalizing g with
  | nil => exact ⟨rfl, [], by simp, rfl⟩
  | cons c cs ih =>
    rw [List.foldl_cons]
    obtain ⟨hv, added, he, hm⟩ := ih (g.append_candidate c)
    cases c with
    | none =>
      exact ⟨hv, added, he, by simpa using hm⟩
    | some c =>
      refine ⟨hv, { id := g.next, s := c.1, t := c.2.1, weight := c.2.2 } :: added, ?_, ?_⟩
      · rw [he]
        simp [splice_graph.append_candidate, splice_graph.append_edge]
      · simp [hm]

/-- The loop of `extend_isolated_end_boundaries` over an ascending list of vertices adds
the edges of the candidates that the vertices have in the graph before the loop. -/
theorem extend_isolated_end_boundaries_fold (L : List Nat) (g : splice_graph)
    (hf : g.fresh) (hs : L.Pairwise (· < ·)) (hn : ∀ i ∈ L, i < g.num_vertices) :
    L.foldl extend_isolated_end_boundaries_step g
      = (L.map (end_candidate g)).foldl splice_graph.append_candidate g := by
  induction L generalizing g with
  | nil => rfl
  | cons j rest ih =>
    rw [List.foldl_cons, List.map_cons, List.foldl_cons,
      extend_isolated_end_boundaries_step_eq g hf j]
    obtain ⟨hj, hrest⟩ := List.pairwise_cons.1 hs
    obtain ⟨hf1, hv1⟩ := append_candidate_fresh g hf (end_candidate g j)
    have hnv : (g.append_candidate (end_candidate g j)).num_vertices = g.num_vertices := by
      unfold splice_graph.num_vertices; rw [hv1]
    rw [ih _ hf1 hrest (fun i hi => by rw [hnv]; exact hn i (List.mem_cons_of_mem _ hi))]
    congr 1
    apply List.map_congr_left
    intro i hi
    cases hc : end_candidate g j with
    | none => rfl
    | some c =>
      exact end_candidate_append g j i c hc (hj i hi) (hn i (List.mem_cons_of_mem _ hi))

/-- The loop of `extend_isolated_start_boundaries` over a duplicate-free list of vertices
other than `0` adds the edges of the candidates that the vertices have in the graph
before the loop. -/
theorem extend_isolated_start_boundaries_fold (L : List Nat) (g : splice_graph)
    (hf : g.fresh) (hs : L.Nodup) (hn : ∀ i ∈ L, 1 ≤ i) :
    L.foldl extend_isolated_start_boundaries_step g
      = (L.map (start_candidate g)).foldl splice_graph.append_candidate g := by
  induction L generalizing g with
  | nil => rfl
  | cons j rest ih =>
    rw [List.foldl_cons, List.map_cons, List.foldl_cons,
      extend_isolated_start_boundaries_step_eq g hf j]
    obtain ⟨hj, hrest⟩ := List.nodup_cons.1 hs
    obtain ⟨hf1, -⟩ := append_candidate_fresh g hf (start_candidate g j)
    rw [ih _ hf1 hrest (fun i hi => hn i (List.mem_cons_of_mem _ hi))]
    congr 1
    apply List.map_congr_left
    intro i hi
    cases hc : start_candidate g j with
    | none => rfl
    | some c =>
      exact start_candidate_append g j i c hc (hn j (List.mem_cons_self _ _))
        (hn i (List.mem_cons_of_mem _ hi)) (fun e => hj (e ▸ hi))

/-- The vertices visited by the two loops: `1, ..., n - 1`, in ascending order. -/
theorem range_tail_props (n : Nat) :
    (List.range n).tail.Pairwise (· < ·) ∧ (∀ i ∈ (List.range n).tail, i < n) ∧
    (∀ i ∈ (List.range n).tail, 1 ≤ i) ∧
    ∀ (f : Nat → Option (Nat × Nat × ℚ)), f 0 = none →
      (List.range n).filterMap f = (List.range n).tail.filterMap f := by
  cases n with
  | zero => simp
  | succ n =>
    have e : List.range (n + 1) = 0 :: (List.range n).map (· + 1) := by
      rw [List.range_succ_eq_map]
    have hp := List.pairwise_lt_range (n + 1)
    rw [e] at hp ⊢
    obtain ⟨h0, hp⟩ := List.pairwise_cons.1 hp
    refine ⟨hp, ?_, ?_, ?_⟩
    · intro i hi
      simp only [List.tail_cons, List.mem_map, List.mem_range] at hi
      obtain ⟨a, ha, rfl⟩ := hi
      omega
    · intro i hi
      exact h0 i hi
    · intro f hf
      simp [List.filterMap_cons, hf]

/-- Claim C20. On a graph whose source (vertex `0`) has no incoming edge,
`extend_isolated_end_boundaries` adds, for every vertex `i` with in-degree 1 and
out-degree 1 whose out-edge goes to the sink and whose single in-edge `e1` comes from a
vertex `s` with out-degree 1, `w(e1) < 1.5`, vertex weight of `s` above `5.0` and `s` not
genomically adjacent to `i`, exactly one new edge `s -> sink` of weight
`vertex_weight(s) - w(e1)` (the conditions being read on the graph before the call);
it adds no other edge and leaves the existing edges and the vertices as they are.
`extend_isolated_start_boundaries` is the mirror image and adds `source -> t`. -/
theorem extend_isolated_boundaries_spec (b : bundle) (hf : b.gr.fresh)
    (h0 : b.gr.in_degree 0 = 0) :
    (b.extend_isolated_end_boundaries.gr.vertices = b.gr.vertices ∧
      ∃ added, b.extend_isolated_end_boundaries.gr.edges = b.gr.edges ++ added ∧
        added.map (fun e => (e.s, e.t, e.weight))
          = (List.range b.gr.num_vertices).filterMap (end_candidate b.gr)) ∧
    (b.extend_isolated_start_boundaries.gr.vertices = b.gr.vertices ∧
      ∃ added, b.extend_isolated_start_boundaries.gr.edges = b.gr.edges ++ added ∧
        added.map (fun e => (e.s, e.t, e.weight))
          = (List.range b.gr.num_vertices).filterMap (start_candidate b.gr)) := by
  obtain ⟨hp, hlt, hge, hfm⟩ := range_tail_props b.gr.num_vertices
  have hlen : ¬ (b.gr.in_edges 0).length = 1 := by
    unfold splice_graph.in_degree at h0
    omega
  constructor
  · have hfold := extend_isolated_end_boundaries_fold _ b.gr hf hp hlt
    obtain ⟨hv, added, he, hm⟩ :=
      append_candidates_edges ((List.range b.gr.num_vertices).tail.map (end_candidate b.gr))
        b.gr
    unfold bundle.extend_isolated_end_boundaries
    dsimp only
    rw [hfold]
    refine ⟨hv, added, he, ?_⟩
    rw [hm, hfm _ (end_candidate_none_of_length b.gr 0 (Or.inl hlen)), List.filterMap_map]
    rfl
  · have hfold := extend_isolated_start_boundaries_fold _ b.gr hf hp.nodup hge
    obtain ⟨hv, added, he, hm⟩ :=
      append_candidates_edges
        ((List.range b.gr.num_vertices).tail.map (start_candidate b.gr)) b.gr
    unfold bundle.extend_isolated_start_boundaries
    dsimp only
    rw [hfold]
    refine ⟨hv, added, he, ?_⟩
    rw [hm, hfm _ (start_candidate_none_of_length b.gr 0 (Or.inl hlen)), List.filterMap_map]
    rfl

/-- Witness of `extend_isolated_boundaries_spec` (claim C20) on the graph
`0 -> 1 -> 2 -> 3`, where the vertex `2` is an isolated end: the edge `1 -> 3` of weight
`10 - 1` is the one candidate. -/
theorem extend_isolated_boundaries_spec_witness :
    (isolated_end_graph.fresh ∧ isolated_end_graph.in_degree 0 = 0) ∧
    end_candidate isolated_end_graph 2 = some (1, 3, 9) ∧
    (({ mk_locus 0 400 [] [] with gr := isolated_end_graph }).extend_isolated_end_boundaries.gr.vertices
        = isolated_end_graph.vertices ∧
      ∃ added,
        ({ mk_locus 0 400 [] [] with gr := isolated_end_graph }).extend_isolated_end_boundaries.gr.edges
          = isolated_end_graph.edges ++ added ∧
        added.map (fun e => (e.s, e.t, e.weight))
          = (List.range isolated_end_graph.num_vertices).filterMap
              (end_candidate isolated_end_graph)) :=
  ⟨⟨by unfold splice_graph.fresh; decide, by decide⟩, by decide!,
    (extend_isolated_boundaries_spec { mk_locus 0 400 [] [] with gr := isolated_end_graph }
      (by unfold splice_graph.fresh; decide) (by decide)).1⟩

/-! ## Construction of the splice graph (`bundle::build_splice_graph`) -/

/-- Modifying the last element of a list. -/
theorem modify_length_append {α : Type} (f : α → α) (l : List α) (a : α) :
    (l ++ [a]).modify f l.length = l ++ [f a] := by
  induction l with
  | nil => rfl
  | cons x l ih =>
    show (x :: (l ++ [a])).modify f (l.length + 1) = x :: (l ++ [f a])
    rw [List.modify_succ_cons, ih]

/-- A graph grows to itself by no edge. -/
theorem grows_refl (g : splice_graph) : g.grows g [] :=
  ⟨rfl, by simp, fun h => h⟩

/-- Growth composes. -/
theorem grows_trans {g g1 g2 : splice_graph} {ps qs : List (Nat × Nat)}
    (h1 : g.grows g1 ps) (h2 : g1.grows g2 qs) : g.grows g2 (ps ++ qs) :=
  ⟨h2.1.trans h1.1, by rw [h2.2.1, h1.2.1, List.append_assoc], fun h => h2.2.2 (h1.2.2 h)⟩

/-- The method `add_edge` grows the graph by the new edge. -/
theorem grows_add_edge (g : splice_graph) (s t : Nat) : g.grows (g.add_edge s t).1 [(s, t)] := by
  refine ⟨rfl, by simp [splice_graph.add_edge, splice_graph.edge_pairs], ?_⟩
  intro hf e he
  simp only [splice_graph.add_edge, List.mem_append, List.mem_singleton] at he ⊢
  rcases he with he | rfl
  · have := hf e he
    omega
  · simp

/-- Setting the weight of an edge adds no edge. -/
theorem grows_set_edge_weight (g : splice_graph) (e : Nat) (w : ℚ) :
    g.grows (g.set_edge_weight e w) [] := by
  refine ⟨rfl, ?_, ?_⟩
  · simp only [splice_graph.set_edge_weight, splice_graph.edge_pairs, List.map_map,
      List.append_nil]
    apply List.map_congr_left
    intro x _
    by_cases h : x.id = e <;> simp [h]
  · intro hf x hx
    simp only [splice_graph.set_edge_weight, List.mem_map] at hx ⊢
    obtain ⟨y, hy, rfl⟩ := hx
    have := hf y hy
    by_cases h : y.id = e <;> simp [h] <;> omega

/-- Setting the info of an edge adds no edge. -/
theorem grows_set_edge_info (g : splice_graph) (e : Nat) (ei : edge_info) :
    g.grows (g.set_edge_info e ei) [] := by
  refine ⟨rfl, ?_, ?_⟩
  · simp only [splice_graph.set_edge_info, splice_graph.edge_pairs, List.map_map,
      List.append_nil]
    apply List.map_congr_left
    intro x _
    by_cases h : x.id = e <;> simp [h]
  · intro hf x hx
    simp only [splice_graph.set_edge_info, List.mem_map] at hx ⊢
    obtain ⟨y, hy, rfl⟩ := hx
    have := hf y hy
    by_cases h : y.id = e <;> simp [h] <;> omega

/-- A new edge with its weight and info, in the order of the boundary and adjacency
loops. -/
theorem grows_add_weight_info (g : splice_graph) (s t : Nat) (w : ℚ) (ei : edge_info) :
    g.grows (((g.add_edge s t).1.set_edge_weight (g.add_edge s t).2 w).set_edge_info
      (g.add_edge s t).2 ei) [(s, t)] := by
  have h := grows_trans (grows_trans (grows_add_edge g s t)
    (grows_set_edge_weight (g.add_edge s t).1 (g.add_edge s t).2 w))
    (grows_set_edge_info ((g.add_edge s t).1.set_edge_weight (g.add_edge s t).2 w)
      (g.add_edge s t).2 ei)
  simpa using h

/-- A new edge with its info and weight, in the order of the junction loop. -/
theorem grows_add_info_weight (g : splice_graph) (s t : Nat) (w : ℚ) (ei : edge_info) :
    g.grows (((g.add_edge s t).1.set_edge_info (g.add_edge s t).2 ei).set_edge_weight
      (g.add_edge s t).2 w) [(s, t)] := by
  have h := grows_trans (grows_trans (grows_add_edge g s t)
    (grows_set_edge_info (g.add_edge s t).1 (g.add_edge s t).2 ei))
    (grows_set_edge_weight ((g.add_edge s t).1.set_edge_info (g.add_edge s t).2 ei)
      (g.add_edge s t).2 w)
  simpa using h

/-- A loop whose iterations succeed and grow the graph grows it by all their edges. -/
theorem grows_foldl {α : Type} (step : Option splice_graph → α → Option splice_graph)
    (f : α → List (Nat × Nat)) (L : List α)
    (h : ∀ a ∈ L, ∀ g, ∃ g1, step (some g) a = some g1 ∧ g.grows g1 (f a))
    (g : splice_graph) :
    ∃ g1, L.foldl step (some g) = some g1 ∧ g.grows g1 (L.flatMap f) := by
  induction L generalizing g with
  | nil => exact ⟨g, rfl, grows_refl g⟩
  | cons a L ih =>
    obtain ⟨g1, h1, hg1⟩ := h a (List.mem_cons_self _ _) g
    obtain ⟨g2, h2, hg2⟩ := ih (fun x hx => h x (List.mem_cons_of_mem _ hx)) g1
    refine ⟨g2, ?_, ?_⟩
    · rw [List.foldl_cons, h1, h2]
    · rw [List.flatMap_cons]
      exact grows_trans hg1 hg2

/-- One iteration of the junction loop succeeds on a junction that can be processed and
grows the graph by the edge of the junction. -/
theorem build_splice_graph_junction_grows (P : List partial_exon) (j : junction)
    (hj : junction_ok P j) (g : splice_graph) :
    ∃ g1, build_splice_graph_junction P (some g) j = some g1 ∧
      g.grows g1 (junction_edges j) := by
  unfold build_splice_graph_junction junction_edges
  by_cases h : j.lexon < 0 ∨ j.rexon < 0
  · exact ⟨g, by simp only [h, if_true], by simpa only [h, if_true] using grows_refl g⟩
  · rcases hj with hj | ⟨h1, h2, h3⟩
    · exact absurd hj h
    · have hc : ¬ ¬ j.count ≥ 1 := not_not.2 h3
      simp only [h, if_false, List.get?_eq_getElem?, List.getElem?_eq_getElem h1,
        List.getElem?_eq_getElem h2, hc]
      exact ⟨_, rfl, grows_add_info_weight g _ _ _ _⟩

/-- One iteration of the boundary loop succeeds on the index of a partial exon and grows
the graph by the boundary edges of the partial exon. -/
theorem build_splice_graph_boundary_grows (P : List partial_exon) (i : Nat)
    (hi : i < P.length) (g : splice_graph) :
    ∃ g1, build_splice_graph_boundary P (some g) i = some g1 ∧
      g.grows g1 (boundary_edges P i) := by
  unfold build_splice_graph_boundary boundary_edges
  simp only [List.get?_eq_getElem?, List.getElem?_eq_getElem hi]
  refine ⟨_, rfl, ?_⟩
  by_cases h1 : P[i].ltype = START_BOUNDARY
  · by_cases h2 : P[i].rtype = END_BOUNDARY
    · simp only [h1, h2, if_true]
      exact grows_trans (grows_add_weight_info g _ _ _ _) (grows_add_weight_info _ _ _ _ _)
    · simp only [h1, h2, if_true, if_false]
      exact grows_trans (grows_add_weight_info g _ _ _ _) (grows_refl _)
  · by_cases h2 : P[i].rtype = END_BOUNDARY
    · simp only [h1, h2, if_true, if_false]
      exact grows_trans (grows_refl g) (grows_add_weight_info _ _ _ _ _)
    · simp only [h1, h2, if_false]
      exact grows_trans (grows_refl g) (grows_refl _)

/-- One iteration of the adjacency loop succeeds on the index of a partial exon that has
a successor and grows the graph by the adjacency edge of the two. -/
theorem build_splice_graph_adjacent_grows (P : List partial_exon) (i : Nat)
    (hi : i + 1 < P.length) (g : splice_graph) :
    ∃ g1, build_splice_graph_adjacent P (some g) i = some g1 ∧
      g.grows g1 (adjacent_edges P i) := by
  unfold build_splice_graph_adjacent adjacent_edges
  have hi0 : i < P.length := by omega
  simp only [List.get?_eq_getElem?, List.getElem?_eq_getElem hi,
    List.getElem?_eq_getElem hi0]
  by_cases h : P[i].rpos = P[i + 1].lpos
  · simp only [h, ne_eq, not_true_eq_false, if_false, if_true]
    exact ⟨_, rfl, grows_add_weight_info g _ _ _ _⟩
  · simp only [h, ne_eq, not_false_eq_true, if_true, if_false]
    exact ⟨_, rfl, grows_refl g⟩

/-- The vertex loop of `build_splice_graph` succeeds on partial exons whose lengths are
positive and appends their vertices. -/
theorem build_splice_graph_vertex_fold (P : List partial_exon)
    (hl : ∀ p ∈ P, 1 ≤ wrap32 (p.rpos - p.lpos)) (i : Nat) (g : splice_graph)
    (hg : g.vertices.length = i + 1) :
    P.foldl build_splice_graph_vertex (some (i, g)) =
      some (i + P.length, { g with vertices := g.vertices ++ P.map pexon_vertex }) := by
  induction P generalizing i g with
  | nil => simp
  | cons r P ih =>
    have h1 : ¬ ¬ wrap32 (r.rpos - r.lpos) ≥ 1 := not_not.2 (hl r (List.mem_cons_self _ _))
    have hstep : build_splice_graph_vertex (some (i, g)) r =
        some (i + 1, { g with vertices := g.vertices ++ [pexon_vertex r] }) := by
      unfold build_splice_graph_vertex
      simp only [h1, if_false, splice_graph.add_vertex, splice_graph.set_vertex_weight,
        splice_graph.set_vertex_info]
      rw [← hg, modify_length_append, modify_length_append]
      rfl
    rw [List.foldl_cons, hstep, ih (fun p hp => hl p (List.mem_cons_of_mem _ hp))]
    · simp only [List.length_cons, List.map_cons, List.append_assoc, List.singleton_append]
      congr 2
      omega
    · simp [hg]

/-- Closed form of `build_splice_graph`. On partial exons with positive lengths and
junctions that can be processed the method succeeds; the vertices are the source, one
vertex per partial exon and the sink; the edges are those of the junctions, then those
of the boundaries, then those between adjacent partial exons. -/
theorem build_splice_graph_closed (b : bundle)
    (hl : ∀ p ∈ b.pexons, 1 ≤ wrap32 (p.rpos - p.lpos))
    (hj : ∀ j ∈ b.junctions, junction_ok b.pexons j) :
    ∃ g, b.build_splice_graph = some { b with gr := g } ∧
      g.vertices = ({ weight := 0, info := { lpos := b.lpos, rpos := b.lpos } } : graph_vertex)
        :: (b.pexons.map pexon_vertex ++
          [{ weight := 0, info := { lpos := b.rpos, rpos := b.rpos } }]) ∧
      g.edge_pairs = b.junctions.flatMap junction_edges ++
        (List.range b.pexons.length).flatMap (boundary_edges b.pexons) ++
        (List.range (b.pexons.length - 1)).flatMap (adjacent_edges b.pexons) ∧
      g.fresh := by
  have hg0 : (b.gr.clear.add_vertex.set_vertex_weight 0 0).set_vertex_info 0
      { lpos := b.lpos, rpos := b.lpos } =
      (⟨[{ weight := 0, info := { lpos := b.lpos, rpos := b.lpos } }], [], 0⟩ : splice_graph) :=
    rfl
  have hv := build_splice_graph_vertex_fold b.pexons hl 0
    ⟨[{ weight := 0, info := { lpos := b.lpos, rpos := b.lpos } }], [], 0⟩ rfl
  obtain ⟨g1, h1, hg1⟩ := grows_foldl (build_splice_graph_junction b.pexons) junction_edges
    b.junctions (fun j hjm g => build_splice_graph_junction_grows b.pexons j (hj j hjm) g)
    { vertices := ({ weight := 0, info := { lpos := b.lpos, rpos := b.lpos } } : graph_vertex)
        :: (b.pexons.map pexon_vertex ++
          [{ weight := 0, info := { lpos := b.rpos, rpos := b.rpos } }]),
      edges := [], next := 0 }
  obtain ⟨g2, h2, hg2⟩ := grows_foldl (build_splice_graph_boundary b.pexons)
    (boundary_edges b.pexons) (List.range b.pexons.length)
    (fun i hi g => build_splice_graph_boundary_grows b.pexons i (List.mem_range.1 hi) g) g1
  obtain ⟨g3, h3, hg3⟩ := grows_foldl (build_splice_graph_adjacent b.pexons)
    (adjacent_edges b.pexons) (List.range (b.pexons.length - 1))
    (fun i hi g => build_splice_graph_adjacent_grows b.pexons i
      (by have := List.mem_range.1 hi; omega) g) g2
  have hg := grows_trans (grows_trans hg1 hg2) hg3
  refine ⟨g3, ?_, hg.1, by simpa [splice_graph.edge_pairs] using hg.2.1, hg.2.2 ?_⟩
  · unfold bundle.build_splice_graph
    simp only [hg0, hv]
    have hvert : (((⟨[{ weight := 0, info := { lpos := b.lpos, rpos := b.lpos } }] ++
          b.pexons.map pexon_vertex, [], 0⟩ : splice_graph).add_vertex.set_vertex_weight
          (b.pexons.length + 1) 0).set_vertex_info (b.pexons.length + 1)
          { lpos := b.rpos, rpos := b.rpos }) =
        ⟨{ weight := 0, info := { lpos := b.lpos, rpos := b.lpos } }
            :: (b.pexons.map pexon_vertex ++
              [{ weight := 0, info := { lpos := b.rpos, rpos := b.rpos } }]), [], 0⟩ := by
      have hlen : b.pexons.length + 1 =
          ([({ weight := 0, info := { lpos := b.lpos, rpos := b.lpos } } : graph_vertex)] ++
            b.pexons.map pexon_vertex).length := by
        simp
      simp only [splice_graph.add_vertex, splice_graph.set_vertex_weight,
        splice_graph.set_vertex_info]
      rw [hlen, modify_length_append, modify_length_append]
      rfl
    simp only [hvert, h1, h2, h3]
  · intro e he
    cases he

/-- A vertex has an incoming edge exactly when it is the target of a pair. -/
theorem in_degree_pos_iff (g : splice_graph) (v : Nat) :
    0 < g.in_degree v ↔ ∃ p ∈ g.edge_pairs, p.2 = v := by
  unfold splice_graph.in_degree splice_graph.in_edges splice_graph.edge_pairs
  rw [List.length_pos_iff_exists_mem]
  constructor
  · rintro ⟨e, he⟩
    rw [List.mem_filter, decide_eq_true_eq] at he
    exact ⟨(e.s, e.t), List.mem_map.2 ⟨e, he.1, rfl⟩, he.2⟩
  · rintro ⟨p, hp, hv⟩
    obtain ⟨e, he, rfl⟩ := List.mem_map.1 hp
    exact ⟨e, by rw [List.mem_filter, decide_eq_true_eq]; exact ⟨he, hv⟩⟩

/-- A vertex has an outgoing edge exactly when it is the source of a pair. -/
theorem out_degree_pos_iff (g : splice_graph) (v : Nat) :
    0 < g.out_degree v ↔ ∃ p ∈ g.edge_pairs, p.1 = v := by
  unfold splice_graph.out_degree splice_graph.out_edges splice_graph.edge_pairs
  rw [List.length_pos_iff_exists_mem]
  constructor
  · rintro ⟨e, he⟩
    rw [List.mem_filter, decide_eq_true_eq] at he
    exact ⟨(e.s, e.t), List.mem_map.2 ⟨e, he.1, rfl⟩, he.2⟩
  · rintro ⟨p, hp, hv⟩
    obtain ⟨e, he, rfl⟩ := List.mem_map.1 hp
    exact ⟨e, by rw [List.mem_filter, decide_eq_true_eq]; exact ⟨he, hv⟩⟩

/-- The pairs of the junction loop. -/
theorem mem_junction_edges (J : List junction) (p : Nat × Nat) :
    p ∈ J.flatMap junction_edges ↔
      ∃ j ∈ J, 0 ≤ j.lexon ∧ 0 ≤ j.rexon ∧ p = ((j.lexon + 1).toNat, (j.rexon + 1).toNat) := by
  rw [List.mem_flatMap]
  constructor
  · rintro ⟨j, hj, hp⟩
    unfold junction_edges at hp
    by_cases h : j.lexon < 0 ∨ j.rexon < 0
    · rw [if_pos h] at hp
      cases hp
    · rw [if_neg h, List.mem_singleton] at hp
      exact ⟨j, hj, by omega, by omega, hp⟩
  · rintro ⟨j, hj, h1, h2, hp⟩
    refine ⟨j, hj, ?_⟩
    unfold junction_edges
    rw [if_neg (by omega), List.mem_singleton]
    exact hp

/-- The pairs of the boundary loop. -/
theorem mem_boundary_edges (P : List partial_exon) (p : Nat × Nat) :
    p ∈ (List.range P.length).flatMap (boundary_edges P) ↔
      ∃ i r, P[i]? = some r ∧
        ((r.ltype = START_BOUNDARY ∧ p = (0, i + 1)) ∨
         (r.rtype = END_BOUNDARY ∧ p = (i + 1, P.length + 1))) := by
  rw [List.mem_flatMap]
  constructor
  · rintro ⟨i, hi, hp⟩
    have hi1 := List.mem_range.1 hi
    unfold boundary_edges at hp
    rw [List.getElem?_eq_getElem hi1] at hp
    simp only [List.mem_append] at hp
    refine ⟨i, P[i], List.getElem?_eq_getElem hi1, ?_⟩
    rcases hp with hp | hp
    · by_cases h : P[i].ltype = START_BOUNDARY
      · rw [if_pos h, List.mem_singleton] at hp
        exact Or.inl ⟨h, hp⟩
      · rw [if_neg h] at hp
        cases hp
    · by_cases h : P[i].rtype = END_BOUNDARY
      · rw [if_pos h, List.mem_singleton] at hp
        exact Or.inr ⟨h, hp⟩
      · rw [if_neg h] at hp
        cases hp
  · rintro ⟨i, r, hr, hp⟩
    have hi1 : i < P.length := by
      by_contra hc
      rw [List.getElem?_eq_none (by omega)] at hr
      cases hr
    refine ⟨i, List.mem_range.2 hi1, ?_⟩
    unfold boundary_edges
    rw [hr]
    simp only [List.mem_append]
    rcases hp with ⟨h, hp⟩ | ⟨h, hp⟩
    · exact Or.inl (by rw [if_pos h, List.mem_singleton]; exact hp)
    · exact Or.inr (by rw [if_pos h, List.mem_singleton]; exact hp)

/-- The pairs of the adjacency loop. -/
theorem mem_adjacent_edges (P : List partial_exon) (p : Nat × Nat) :
    p ∈ (List.range (P.length - 1)).flatMap (adjacent_edges P) ↔
      ∃ i x y, P[i]? = some x ∧ P[i + 1]? = some y ∧ x.rpos = y.lpos ∧ p = (i + 1, i + 2) := by
  rw [List.mem_flatMap]
  constructor
  · rintro ⟨i, _, hp⟩
    unfold adjacent_edges at hp
    split at hp
    · rename_i x y hx hy
      by_cases h : x.rpos = y.lpos
      · rw [if_pos h, List.mem_singleton] at hp
        exact ⟨i, x, y, hx, hy, h, hp⟩
      · rw [if_neg h] at hp
        cases hp
    · cases hp
  · rintro ⟨i, x, y, hx, hy, h, hp⟩
    have hi1 : i + 1 < P.length := by
      by_contra hc
      rw [List.getElem?_eq_none (by omega)] at hy
      cases hy
    refine ⟨i, List.mem_range.2 (by omega), ?_⟩
    unfold adjacent_edges
    rw [hx, hy]
    simp only [h, if_true, List.mem_singleton]
    exact hp

/-- The index of an element of a list is below the length. -/
theorem lt_length_of_getElem? {α : Type} (l : List α) (i : Nat) (a : α)
    (h : l[i]? = some a) : i < l.length := by
  by_contra hc
  rw [List.getElem?_eq_none (by omega)] at h
  cases h

/-- The pairs of the graph of `build_splice_graph`, read off its closed form. -/
theorem build_splice_graph_pairs (P : List partial_exon) (J : List junction)
    (g : splice_graph)
    (hg : g.edge_pairs = J.flatMap junction_edges ++
        (List.range P.length).flatMap (boundary_edges P) ++
        (List.range (P.length - 1)).flatMap (adjacent_edges P)) (p : Nat × Nat) :
    p ∈ g.edge_pairs ↔
      (∃ j ∈ J, 0 ≤ j.lexon ∧ 0 ≤ j.rexon ∧ p = ((j.lexon + 1).toNat, (j.rexon + 1).toNat)) ∨
      (∃ i r, P[i]? = some r ∧
        ((r.ltype = START_BOUNDARY ∧ p = (0, i + 1)) ∨
         (r.rtype = END_BOUNDARY ∧ p = (i + 1, P.length + 1)))) ∨
      (∃ i x y, P[i]? = some x ∧ P[i + 1]? = some y ∧ x.rpos = y.lpos ∧
        p = (i + 1, i + 2)) := by
  rw [hg, List.mem_append, List.mem_append, mem_junction_edges, mem_boundary_edges,
    mem_adjacent_edges, or_assoc]

/-- Claim C14, counterexample. With no partial exon the graph of `build_splice_graph`
has the two vertices `0` and `1` and no edge, so the sink has in-degree 0 and the source
has out-degree 0 as well. With the partial exons `[100, 200)` and `[300, 400)` and a
junction that is not linked to them (`lexon = rexon = -1`), vertex `1` has no outgoing
edge and vertex `2` has no incoming edge. -/
theorem build_splice_graph_one_source_counterexample :
    ((mk_locus 0 100 [] []).build_splice_graph).map
        (fun b => (b.gr.num_vertices, b.gr.in_degree 1, b.gr.out_degree 0)) = some (2, 0, 0) ∧
    ((mk_locus 0 500
        [{ lpos := 200, rpos := 300, count := 3, lexon := -1, rexon := -1 }]
        [mk_pexon 100 200 START_BOUNDARY LEFT_SPLICE 10,
         mk_pexon 300 400 RIGHT_SPLICE END_BOUNDARY 10]).build_splice_graph).map
        (fun b => (b.gr.num_vertices, b.gr.edge_pairs, b.gr.out_degree 1, b.gr.in_degree 2))
      = some (4, [(0, 1), (2, 3)], 0, 0) := by
  constructor
  · decide!
  · decide!

/-- Claim C14, amended. On partial exons of positive length and junctions that are
either without partial exons or linked to existing ones with a count of at least 1,
`build_splice_graph` returns a graph with `N + 2` vertices in which vertex `0` has
in-degree 0 and vertex `N + 1` has out-degree 0; the vertex `i + 1` of a partial exon
has an incoming edge exactly when the partial exon starts at a start boundary, or
starts where the previous one ends, or is the right exon of a junction with partial
exons; it has an outgoing edge exactly when the partial exon ends at an end boundary,
or ends where the next one starts, or is the left exon of such a junction. -/
theorem build_splice_graph_degrees (b : bundle)
    (hl : ∀ p ∈ b.pexons, 1 ≤ wrap32 (p.rpos - p.lpos))
    (hj : ∀ j ∈ b.junctions, junction_ok b.pexons j) :
    ∃ b1, b.build_splice_graph = some b1 ∧
      b1.gr.num_vertices = b.pexons.length + 2 ∧
      b1.gr.in_degree 0 = 0 ∧ b1.gr.out_degree (b.pexons.length + 1) = 0 ∧
      ∀ i r, b.pexons[i]? = some r →
        (0 < b1.gr.in_degree (i + 1) ↔
          r.ltype = START_BOUNDARY ∨
          (∃ x, 1 ≤ i ∧ b.pexons[i - 1]? = some x ∧ x.rpos = r.lpos) ∨
          (∃ j ∈ b.junctions, 0 ≤ j.lexon ∧ j.rexon = i)) ∧
        (0 < b1.gr.out_degree (i + 1) ↔
          r.rtype = END_BOUNDARY ∨
          (∃ y, b.pexons[i + 1]? = some y ∧ r.rpos = y.lpos) ∨
          (∃ j ∈ b.junctions, j.lexon = i ∧ 0 ≤ j.rexon)) := by
  obtain ⟨g, hb, hv, he, -⟩ := build_splice_graph_closed b hl hj
  have hp := build_splice_graph_pairs b.pexons b.junctions g he
  refine ⟨_, hb, ?_, ?_, ?_, ?_⟩
  · show g.vertices.length = _
    rw [hv]
    simp
  · show g.in_degree 0 = 0
    have h : ¬ 0 < g.in_degree 0 := by
      rw [in_degree_pos_iff]
      rintro ⟨p, hpm, h0⟩
      rcases (hp p).1 hpm with ⟨j, _, _, h2, rfl⟩ | ⟨i, r, _, ⟨_, rfl⟩ | ⟨_, rfl⟩⟩ |
        ⟨i, x, y, _, _, _, rfl⟩
      · simp only at h0
        omega
      · simp at h0
      · simp at h0
      · simp at h0
    omega
  · show g.out_degree (b.pexons.length + 1) = 0
    have h : ¬ 0 < g.out_degree (b.pexons.length + 1) := by
      rw [out_degree_pos_iff]
      rintro ⟨p, hpm, h0⟩
      rcases (hp p).1 hpm with ⟨j, hjm, h1, h2, rfl⟩ | ⟨i, r, hr, ⟨_, rfl⟩ | ⟨_, rfl⟩⟩ |
        ⟨i, x, y, _, hy, _, rfl⟩
      · simp only at h0
        rcases hj j hjm with h3 | ⟨h3, _, _⟩
        · omega
        · omega
      · simp at h0
      · have := lt_length_of_getElem? _ _ _ hr
        simp only at h0
        omega
      · have := lt_length_of_getElem? _ _ _ hy
        simp only at h0
        omega
    omega
  · intro i r hr
    have hi := lt_length_of_getElem? _ _ _ hr
    constructor
    · show 0 < g.in_degree (i + 1) ↔ _
      rw [in_degree_pos_iff]
      constructor
      · rintro ⟨p, hpm, h0⟩
        rcases (hp p).1 hpm with ⟨j, hjm, h1, h2, rfl⟩ | ⟨k, r1, hr1, ⟨h3, rfl⟩ | ⟨_, rfl⟩⟩ |
          ⟨k, x, y, hx, hy, hxy, rfl⟩
        · simp only at h0
          exact Or.inr (Or.inr ⟨j, hjm, h1, by omega⟩)
        · simp only [add_left_inj] at h0
          subst h0
          rw [hr] at hr1
          cases hr1
          exact Or.inl h3
        · simp only at h0
          omega
        · simp only at h0
          have hk : i = k + 1 := by omega
          subst hk
          rw [hr] at hy
          cases hy
          exact Or.inr (Or.inl ⟨x, by omega, by simpa using hx, hxy⟩)
      · rintro (h | ⟨x, h1, hx, hxy⟩ | ⟨j, hjm, h1, h2⟩)
        · exact ⟨(0, i + 1), (hp _).2 (Or.inr (Or.inl ⟨i, r, hr, Or.inl ⟨h, rfl⟩⟩)), rfl⟩
        · refine ⟨(i - 1 + 1, i - 1 + 2), (hp _).2 (Or.inr (Or.inr
            ⟨i - 1, x, r, hx, ?_, hxy, rfl⟩)), ?_⟩
          · rw [Nat.sub_add_cancel h1]
            exact hr
          · simp only
            omega
        · exact ⟨_, (hp _).2 (Or.inl ⟨j, hjm, h1, by omega, rfl⟩), by simp only; omega⟩
    · show 0 < g.out_degree (i + 1) ↔ _
      rw [out_degree_pos_iff]
      constructor
      · rintro ⟨p, hpm, h0⟩
        rcases (hp p).1 hpm with ⟨j, hjm, h1, h2, rfl⟩ | ⟨k, r1, hr1, ⟨_, rfl⟩ | ⟨h3, rfl⟩⟩ |
          ⟨k, x, y, hx, hy, hxy, rfl⟩
        · simp only at h0
          exact Or.inr (Or.inr ⟨j, hjm, by omega, h2⟩)
        · simp at h0
        · simp only [add_left_inj] at h0
          subst h0
          rw [hr] at hr1
          cases hr1
          exact Or.inl h3
        · simp only [add_left_inj] at h0
          subst h0
          rw [hr] at hx
          cases hx
          exact Or.inr (Or.inl ⟨y, hy, hxy⟩)
      · rintro (h | ⟨y, hy, hxy⟩ | ⟨j, hjm, h1, h2⟩)
        · exact ⟨(i + 1, b.pexons.length + 1),
            (hp _).2 (Or.inr (Or.inl ⟨i, r, hr, Or.inr ⟨h, rfl⟩⟩)), rfl⟩
        · exact ⟨(i + 1, i + 2), (hp _).2 (Or.inr (Or.inr ⟨i, r, y, hr, hy, hxy, rfl⟩)), rfl⟩
        · exact ⟨_, (hp _).2 (Or.inl ⟨j, hjm, by omega, h2, rfl⟩), by simp only; omega⟩

/-- Witness of `build_splice_graph_degrees` (claim C14) on two partial exons joined by
a linked junction. -/
theorem build_splice_graph_degrees_witness :
    ∃ b1, (mk_locus 0 500
        [{ lpos := 200, rpos := 300, count := 3, lexon := 0, rexon := 1 }]
        [mk_pexon 100 200 START_BOUNDARY LEFT_SPLICE 10,
         mk_pexon 300 400 RIGHT_SPLICE END_BOUNDARY 10]).build_splice_graph = some b1 ∧
      b1.gr.num_vertices = 2 + 2 ∧
      b1.gr.in_degree 0 = 0 ∧ b1.gr.out_degree (2 + 1) = 0 ∧
      ∀ i r, [mk_pexon 100 200 START_BOUNDARY LEFT_SPLICE 10,
          mk_pexon 300 400 RIGHT_SPLICE END_BOUNDARY 10][i]? = some r →
        (0 < b1.gr.in_degree (i + 1) ↔
          r.ltype = START_BOUNDARY ∨
          (∃ x, 1 ≤ i ∧ [mk_pexon 100 200 START_BOUNDARY LEFT_SPLICE 10,
            mk_pexon 300 400 RIGHT_SPLICE END_BOUNDARY 10][i - 1]? = some x ∧
            x.rpos = r.lpos) ∨
          (∃ j ∈ [({ lpos := 200, rpos := 300, count := 3, lexon := 0, rexon := 1 } : junction)],
            0 ≤ j.lexon ∧ j.rexon = i)) ∧
        (0 < b1.gr.out_degree (i + 1) ↔
          r.rtype = END_BOUNDARY ∨
          (∃ y, [mk_pexon 100 200 START_BOUNDARY LEFT_SPLICE 10,
            mk_pexon 300 400 RIGHT_SPLICE END_BOUNDARY 10][i + 1]? = some y ∧
            r.rpos = y.lpos) ∨
          (∃ j ∈ [({ lpos := 200, rpos := 300, count := 3, lexon := 0, rexon := 1 } : junction)],
            j.lexon = i ∧ 0 ≤ j.rexon)) :=
  build_splice_graph_degrees
    (mk_locus 0 500
      [{ lpos := 200, rpos := 300, count := 3, lexon := 0, rexon := 1 }]
      [mk_pexon 100 200 START_BOUNDARY LEFT_SPLICE 10,
       mk_pexon 300 400 RIGHT_SPLICE END_BOUNDARY 10])
    (by decide) (by unfold junction_ok; decide)

/-- In a list of partial exons sorted from left to right without overlap, a partial
exon that ends before another one starts has the smaller index. -/
theorem index_lt_of_sorted (P : List partial_exon)
    (hl : ∀ p ∈ P, p.lpos < p.rpos) (hs : P.Pairwise (fun p q => p.rpos ≤ q.lpos))
    (x y : Nat) (px py : partial_exon) (hx : P[x]? = some px) (hy : P[y]? = some py)
    (h : px.rpos < py.lpos) : x < y := by
  obtain ⟨hx1, hx2⟩ := List.getElem?_eq_some.1 hx
  obtain ⟨hy1, hy2⟩ := List.getElem?_eq_some.1 hy
  have lx := hl px (List.getElem?_mem hx)
  have ly := hl py (List.getElem?_mem hy)
  by_contra hc
  rcases Nat.lt_or_ge y x with hlt | hge
  · have := List.pairwise_iff_getElem.1 hs y x hy1 hx1 hlt
    rw [hx2, hy2] at this
    omega
  · have hxy : x = y := by omega
    subst hxy
    rw [hx] at hy
    cases hy
    omega

/-- Appending the edges of candidates keeps the descriptors fresh. -/
theorem append_candidates_fresh (cs : List (Option (Nat × Nat × ℚ))) (g : splice_graph)
    (hf : g.fresh) : (cs.foldl splice_graph.append_candidate g).fresh := by
  induction cs generalizing g with
  | nil => exact hf
  | cons c cs ih =>
    rw [List.foldl_cons]
    exact ih _ (append_candidate_fresh g hf c).1

/-- A property of the end points that holds of the edges of the graph and of the
candidates holds of the edges after the candidates have been appended. -/
theorem append_candidates_forall (cs : List (Option (Nat × Nat × ℚ))) (g : splice_graph)
    (Q : Nat → Nat → Prop) (hg : ∀ e ∈ g.edges, Q e.s e.t)
    (hc : ∀ x, some x ∈ cs → Q x.1 x.2.1) :
    ∀ e ∈ (cs.foldl splice_graph.append_candidate g).edges, Q e.s e.t := by
  obtain ⟨-, added, he, hm⟩ := append_candidates_edges cs g
  intro e hmem
  rw [he, List.mem_append] at hmem
  rcases hmem with h | h
  · exact hg e h
  · have h1 : (e.s, e.t, e.weight) ∈ added.map (fun e => (e.s, e.t, e.weight)) :=
      List.mem_map.2 ⟨e, h, rfl⟩
    rw [hm, List.mem_filterMap] at h1
    obtain ⟨c, hcm, hcs⟩ := h1
    simp only [id_eq] at hcs
    subst hcs
    exact hc _ hcm

/-- The graph after `extend_isolated_start_boundaries`: the edges of the candidates of
the vertices `1, ..., n - 1` are appended. -/
theorem extend_isolated_start_boundaries_gr (b : bundle) (hf : b.gr.fresh) :
    b.extend_isolated_start_boundaries.gr =
      ((List.range b.gr.num_vertices).tail.map (start_candidate b.gr)).foldl
        splice_graph.append_candidate b.gr := by
  obtain ⟨hp, -, hge, -⟩ := range_tail_props b.gr.num_vertices
  exact extend_isolated_start_boundaries_fold _ b.gr hf hp.nodup hge

/-- The graph after `extend_isolated_end_boundaries`: the edges of the candidates of
the vertices `1, ..., n - 1` are appended. -/
theorem extend_isolated_end_boundaries_gr (b : bundle) (hf : b.gr.fresh) :
    b.extend_isolated_end_boundaries.gr =
      ((List.range b.gr.num_vertices).tail.map (end_candidate b.gr)).foldl
        splice_graph.append_candidate b.gr := by
  obtain ⟨hp, hlt, -, -⟩ := range_tail_props b.gr.num_vertices
  exact extend_isolated_end_boundaries_fold _ b.gr hf hp hlt

/-- In a graph whose edges go from a smaller to a larger vertex, paths do so too. -/
theorem reaches_lt (g : splice_graph) (h : ∀ e ∈ g.edges, e.s < e.t) (a c : Nat)
    (hr : g.reaches a c) : a < c := by
  induction hr with
  | edge e he => exact h e he
  | step e c he _ ih => exact lt_trans (h e he) ih

/-- Claim C13. For partial exons sorted from left to right, pairwise non-overlapping,
with `lpos < rpos` (and a length that fits the `int32_t` subtraction), and linked
junctions with `lpos < rpos` (and the count of at least 1 that the method asserts),
`build_splice_graph` succeeds, and the graph after `extend_isolated_start_boundaries`
and `extend_isolated_end_boundaries` has exactly `N + 2` vertices; every edge `(s, t)`
has `s < t <= N + 1` and is of one of the four kinds source -> v, v -> sink, adjacency
or junction; no path leads from a vertex back to itself; vertex `0` has no incoming
edge and vertex `N + 1` has no outgoing edge. -/
theorem build_splice_graph_invariants (b : bundle)
    (hl : ∀ p ∈ b.pexons, p.lpos < p.rpos ∧ p.rpos - p.lpos < 2147483648)
    (hs : b.pexons.Pairwise (fun p q => p.rpos ≤ q.lpos))
    (hj : ∀ j ∈ b.junctions, j.lpos < j.rpos ∧ 1 ≤ j.count ∧ junction_linked b.pexons j) :
    ∃ b1, b.build_splice_graph = some b1 ∧
      b1.extend_isolated_start_boundaries.extend_isolated_end_boundaries.gr.num_vertices
        = b.pexons.length + 2 ∧
      (∀ e ∈ b1.extend_isolated_start_boundaries.extend_isolated_end_boundaries.gr.edges,
        e.s < e.t ∧ e.t ≤ b.pexons.length + 1 ∧
        splice_edge_kind b.pexons b.junctions e.s e.t) ∧
      (∀ v, ¬ b1.extend_isolated_start_boundaries.extend_isolated_end_boundaries.gr.reaches
        v v) ∧
      b1.extend_isolated_start_boundaries.extend_isolated_end_boundaries.gr.in_degree 0 = 0 ∧
      b1.extend_isolated_start_boundaries.extend_isolated_end_boundaries.gr.out_degree
        (b.pexons.length + 1) = 0 := by
  have hl1 : ∀ p ∈ b.pexons, 1 ≤ wrap32 (p.rpos - p.lpos) := by
    intro p hp
    obtain ⟨h1, h2⟩ := hl p hp
    unfold wrap32
    omega
  have hj1 : ∀ j ∈ b.junctions, junction_ok b.pexons j := by
    intro j hjm
    obtain ⟨_, hc, x, y, px, py, hx, hy, hpx, hpy, _, _⟩ := hj j hjm
    have := lt_length_of_getElem? _ _ _ hpx
    have := lt_length_of_getElem? _ _ _ hpy
    exact Or.inr ⟨by rw [hx]; omega, by rw [hy]; omega, hc⟩
  obtain ⟨g, hb, hv, he, hf⟩ := build_splice_graph_closed b hl1 hj1
  have hp := build_splice_graph_pairs b.pexons b.junctions g he
  have hQ0 : ∀ e ∈ g.edges, e.s < e.t ∧ e.t ≤ b.pexons.length + 1 ∧
      splice_edge_kind b.pexons b.junctions e.s e.t := by
    intro e hem
    have hmem : (e.s, e.t) ∈ g.edge_pairs := List.mem_map.2 ⟨e, hem, rfl⟩
    rcases (hp _).1 hmem with ⟨j, hjm, h1, h2, h3⟩ | ⟨i, r, hr, ⟨h3, h4⟩ | ⟨h3, h4⟩⟩ |
      ⟨i, x, y, hx, hy, hxy, h4⟩
    · obtain ⟨hlt, _, x, y, px, py, hx, hy, hpx, hpy, hxr, hyl⟩ := hj j hjm
      have hxy := index_lt_of_sorted b.pexons (fun p hp => (hl p hp).1) hs x y px py hpx hpy
        (by omega)
      have := lt_length_of_getElem? _ _ _ hpy
      have hs1 : e.s = (j.lexon + 1).toNat := congrArg Prod.fst h3
      have ht1 : e.t = (j.rexon + 1).toNat := congrArg Prod.snd h3
      refine ⟨by omega, by omega, Or.inr (Or.inr (Or.inr ⟨j, hjm, by omega, by omega⟩))⟩
    · have := lt_length_of_getElem? _ _ _ hr
      have hs1 : e.s = 0 := congrArg Prod.fst h4
      have ht1 : e.t = i + 1 := congrArg Prod.snd h4
      exact ⟨by omega, by omega, Or.inl ⟨hs1, by omega, by omega⟩⟩
    · have := lt_length_of_getElem? _ _ _ hr
      have hs1 : e.s = i + 1 := congrArg Prod.fst h4
      have ht1 : e.t = b.pexons.length + 1 := congrArg Prod.snd h4
      exact ⟨by omega, by omega, Or.inr (Or.inl ⟨by omega, by omega, ht1⟩)⟩
    · have := lt_length_of_getElem? _ _ _ hy
      have hs1 : e.s = i + 1 := congrArg Prod.fst h4
      have ht1 : e.t = i + 2 := congrArg Prod.snd h4
      exact ⟨by omega, by omega, Or.inr (Or.inr (Or.inl ⟨i, x, y, hs1, ht1, hx, hy, hxy⟩))⟩
  have hw0 : (g.vertices.getD 0 {}).weight = 0 := by
    rw [hv]
    rfl
  have hwn : (g.vertices.getD (b.pexons.length + 1) {}).weight = 0 := by
    rw [hv, List.getD_cons_succ, List.getD_append_right _ _ _ _ (by simp)]
    simp
  have hnv : g.num_vertices = b.pexons.length + 2 := by
    unfold splice_graph.num_vertices
    rw [hv]
    simp
  -- the graph after `extend_isolated_start_boundaries`
  have e1 := extend_isolated_start_boundaries_gr ({ b with gr := g }) hf
  have hf1 : (({ b with gr := g } : bundle).extend_isolated_start_boundaries).gr.fresh := by
    rw [e1]
    exact append_candidates_fresh _ _ hf
  have hv1 : (({ b with gr := g } : bundle).extend_isolated_start_boundaries).gr.vertices
      = g.vertices := by
    rw [e1]
    exact (append_candidates_edges _ _).1
  have hQ1 : ∀ e ∈ (({ b with gr := g } : bundle).extend_isolated_start_boundaries).gr.edges,
      e.s < e.t ∧ e.t ≤ b.pexons.length + 1 ∧
      splice_edge_kind b.pexons b.junctions e.s e.t := by
    rw [e1]
    apply append_candidates_forall _ _
      (fun s t => s < t ∧ t ≤ b.pexons.length + 1 ∧ splice_edge_kind b.pexons b.junctions s t)
      hQ0
    intro x hx
    obtain ⟨i, _, hi⟩ := List.mem_map.1 hx
    obtain ⟨a1, a2, _, ha2, hs0, _, _, hw, _, rfl⟩ := start_candidate_some _ _ _ hi
    have hm2 : a2 ∈ g.edges := ((mem_out_edges g i a2).1 (by
      show a2 ∈ g.out_edges i
      rw [show g.out_edges i = [a2] from ha2]
      exact List.mem_singleton_self _)).1
    obtain ⟨q1, q2, _⟩ := hQ0 a2 hm2
    have hne : a2.t ≠ b.pexons.length + 1 := by
      intro hc
      have hw1 : (g.vertices.getD a2.t {}).weight > 5.0 := hw
      rw [hc, hwn] at hw1
      norm_num at hw1
    simp only
    exact ⟨by omega, q2, Or.inl ⟨hs0, by omega, by omega⟩⟩
  -- the graph after `extend_isolated_end_boundaries`
  have e2 := extend_isolated_end_boundaries_gr
    (({ b with gr := g } : bundle).extend_isolated_start_boundaries) hf1
  have hv2 : (({ b with gr := g } : bundle).extend_isolated_start_boundaries
      ).extend_isolated_end_boundaries.gr.vertices = g.vertices := by
    rw [e2]
    exact ((append_candidates_edges _ _).1).trans hv1
  have hQ2 : ∀ e ∈ (({ b with gr := g } : bundle).extend_isolated_start_boundaries
      ).extend_isolated_end_boundaries.gr.edges,
      e.s < e.t ∧ e.t ≤ b.pexons.length + 1 ∧
      splice_edge_kind b.pexons b.junctions e.s e.t := by
    rw [e2]
    apply append_candidates_forall _ _
      (fun s t => s < t ∧ t ≤ b.pexons.length + 1 ∧ splice_edge_kind b.pexons b.junctions s t)
      hQ1
    intro x hx
    obtain ⟨i, _, hi⟩ := List.mem_map.1 hx
    obtain ⟨a1, a2, ha1, _, _, ht, _, hw, _, rfl⟩ := end_candidate_some _ _ _ hi
    have hm1 := ((mem_in_edges _ i a1).1 (by
      rw [ha1]
      exact List.mem_singleton_self _)).1
    obtain ⟨q1, q2, _⟩ := hQ1 a1 hm1
    have hne : a1.s ≠ 0 := by
      intro hc
      have hw1 : ((({ b with gr := g } : bundle).extend_isolated_start_boundaries
        ).gr.vertices.getD a1.s {}).weight > 5.0 := hw
      rw [hv1, hc, hw0] at hw1
      norm_num at hw1
    have ht1 : a2.t = b.pexons.length + 1 := by
      rw [ht]
      unfold splice_graph.num_vertices
      rw [hv1, hv]
      simp
    simp only
    exact ⟨by omega, by omega, Or.inr (Or.inl ⟨by omega, by omega, ht1⟩)⟩
  refine ⟨_, hb, ?_, hQ2, ?_, ?_, ?_⟩
  · unfold splice_graph.num_vertices
    rw [hv2, hv]
    simp
  · intro v hr
    exact lt_irrefl v (reaches_lt _ (fun e he => (hQ2 e he).1) v v hr)
  · unfold splice_graph.in_degree
    rw [List.length_eq_zero, List.eq_nil_iff_forall_not_mem]
    intro e hem
    obtain ⟨h1, h2⟩ := (mem_in_edges _ _ _).1 hem
    have := (hQ2 e h1).1
    omega
  · unfold splice_graph.out_degree
    rw [List.length_eq_zero, List.eq_nil_iff_forall_not_mem]
    intro e hem
    obtain ⟨h1, h2⟩ := (mem_out_edges _ _ _).1 hem
    have := hQ2 e h1
    omega

/-- Witness of `build_splice_graph_invariants` (claim C13) on three partial exons and
one linked junction. -/
theorem build_splice_graph_invariants_witness :
    ((∀ p ∈ three_exon_locus.pexons, p.lpos < p.rpos ∧ p.rpos - p.lpos < 2147483648) ∧
      three_exon_locus.pexons.Pairwise (fun p q => p.rpos ≤ q.lpos)) ∧
    ∃ b1, three_exon_locus.build_splice_graph = some b1 ∧
      b1.extend_isolated_start_boundaries.extend_isolated_end_boundaries.gr.num_vertices
        = three_exon_locus.pexons.length + 2 ∧
      (∀ e ∈ b1.extend_isolated_start_boundaries.extend_isolated_end_boundaries.gr.edges,
        e.s < e.t ∧ e.t ≤ three_exon_locus.pexons.length + 1 ∧
        splice_edge_kind three_exon_locus.pexons three_exon_locus.junctions e.s e.t) ∧
      (∀ v, ¬ b1.extend_isolated_start_boundaries.extend_isolated_end_boundaries.gr.reaches
        v v) ∧
      b1.extend_isolated_start_boundaries.extend_isolated_end_boundaries.gr.in_degree 0 = 0 ∧
      b1.extend_isolated_start_boundaries.extend_isolated_end_boundaries.gr.out_degree
        (three_exon_locus.pexons.length + 1) = 0 :=
  ⟨⟨by decide, by decide⟩,
    build_splice_graph_invariants three_exon_locus (by decide) (by decide)
      (fun j hj => by
        simp only [three_exon_locus, mk_locus, List.mem_singleton] at hj
        subst hj
        exact ⟨by decide, by decide, 0, 1, _, _, rfl, rfl, rfl, rfl, rfl, rfl⟩)⟩

/-! ## Transcript output (`bundle::output_transcript`) -/

/-- Unfolding of `coalesce` on two intervals that share a boundary. -/
theorem coalesce_merge (x y : Int × Int) (rest : List (Int × Int)) (h : x.2 = y.1) :
    coalesce (x :: y :: rest) = coalesce ((x.1, y.2) :: rest) := by
  rw [coalesce, if_pos h]

/-- Unfolding of `coalesce` on two intervals that do not share a boundary. -/
theorem coalesce_keep (x y : Int × Int) (rest : List (Int × Int)) (h : ¬ x.2 = y.1) :
    coalesce (x :: y :: rest) = x :: coalesce (y :: rest) := by
  rw [coalesce, if_neg h]

/-- The first exon of a chain starts where the chain starts. -/
theorem coalesce_head (n : Nat) : ∀ (x : Int × Int) (rest : List (Int × Int)),
    rest.length = n → ∃ h t, coalesce (x :: rest) = (x.1, h) :: t := by
  induction n with
  | zero =>
    intro x rest hn
    rw [List.length_eq_zero.1 hn]
    exact ⟨x.2, [], by rw [coalesce]⟩
  | succ n ih =>
    intro x rest hn
    match rest, hn with
    | y :: rest, hn =>
      by_cases h : x.2 = y.1
      · rw [coalesce_merge x y rest h]
        exact ih (x.1, y.2) rest (by simpa using hn)
      · rw [coalesce_keep x y rest h]
        exact ⟨x.2, _, rfl⟩

/-- The exons start at starts and end at ends of intervals of the chain. -/
theorem coalesce_mem (n : Nat) : ∀ (X : List (Int × Int)), X.length = n →
    ∀ z ∈ coalesce X, (∃ x ∈ X, z.1 = x.1) ∧ (∃ x ∈ X, z.2 = x.2) := by
  induction n using Nat.strong_induction_on with
  | _ n ih =>
    intro X hn z hz
    match X, hn with
    | [], _ => rw [coalesce] at hz; cases hz
    | [x], _ =>
      rw [coalesce, List.mem_singleton] at hz
      subst hz
      exact ⟨⟨z, List.mem_singleton_self _, rfl⟩, ⟨z, List.mem_singleton_self _, rfl⟩⟩
    | x :: y :: rest, hn =>
      by_cases h : x.2 = y.1
      · rw [coalesce_merge x y rest h] at hz
        obtain ⟨⟨a, ha, h1⟩, ⟨c, hc, h2⟩⟩ :=
          ih (rest.length + 1) (by simp at hn; omega) ((x.1, y.2) :: rest) rfl z hz
        constructor
        · rcases List.mem_cons.1 ha with rfl | ha
          · exact ⟨x, List.mem_cons_self _ _, h1⟩
          · exact ⟨a, List.mem_cons_of_mem _ (List.mem_cons_of_mem _ ha), h1⟩
        · rcases List.mem_cons.1 hc with rfl | hc
          · exact ⟨y, List.mem_cons_of_mem _ (List.mem_cons_self _ _), h2⟩
          · exact ⟨c, List.mem_cons_of_mem _ (List.mem_cons_of_mem _ hc), h2⟩
      · rw [coalesce_keep x y rest h] at hz
        rcases List.mem_cons.1 hz with rfl | hz
        · exact ⟨⟨z, List.mem_cons_self _ _, rfl⟩, ⟨z, List.mem_cons_self _ _, rfl⟩⟩
        · obtain ⟨⟨a, ha, h1⟩, ⟨c, hc, h2⟩⟩ :=
            ih (rest.length + 1) (by simp at hn; omega) (y :: rest) rfl z hz
          exact ⟨⟨a, List.mem_cons_of_mem _ ha, h1⟩, ⟨c, List.mem_cons_of_mem _ hc, h2⟩⟩

/-- The exons of an ascending chain are an ascending chain. -/
theorem coalesce_ascending (n : Nat) : ∀ (X : List (Int × Int)), X.length = n →
    ascending_intervals X → ascending_intervals (coalesce X) := by
  induction n using Nat.strong_induction_on with
  | _ n ih =>
    intro X hn hX
    match X, hn, hX with
    | [], _, hX => rw [coalesce]; exact hX
    | [x], _, hX => rw [coalesce]; exact hX
    | x :: y :: rest, hn, ⟨h1, h2⟩ =>
      have hx := h1 x (List.mem_cons_self _ _)
      have hy := h1 y (List.mem_cons_of_mem _ (List.mem_cons_self _ _))
      obtain ⟨hxr, h3⟩ := List.pairwise_cons.1 h2
      obtain ⟨hyr, h4⟩ := List.pairwise_cons.1 h3
      by_cases h : x.2 = y.1
      · rw [coalesce_merge x y rest h]
        apply ih (rest.length + 1) (by simp at hn; omega) ((x.1, y.2) :: rest) rfl
        refine ⟨?_, List.pairwise_cons.2 ⟨hyr, h4⟩⟩
        intro z hz
        rcases List.mem_cons.1 hz with rfl | hz
        · show x.1 < y.2
          omega
        · exact h1 z (List.mem_cons_of_mem _ (List.mem_cons_of_mem _ hz))
      · rw [coalesce_keep x y rest h]
        have hrec := ih (rest.length + 1) (by simp at hn; omega) (y :: rest) rfl
          ⟨fun z hz => h1 z (List.mem_cons_of_mem _ hz), h3⟩
        refine ⟨?_, List.pairwise_cons.2 ⟨?_, hrec.2⟩⟩
        · intro z hz
          rcases List.mem_cons.1 hz with rfl | hz
          · exact hx
          · exact hrec.1 z hz
        · intro z hz
          obtain ⟨⟨a, ha, h5⟩, _⟩ := coalesce_mem _ _ rfl z hz
          rw [h5]
          exact hxr a ha

/-- Coalescing a chain is coalescing the exons of a first part followed by the rest. -/
theorem coalesce_append (n : Nat) : ∀ (X Y : List (Int × Int)), X.length = n →
    coalesce (coalesce X ++ Y) = coalesce (X ++ Y) := by
  induction n using Nat.strong_induction_on with
  | _ n ih =>
    intro X Y hn
    match X, hn with
    | [], _ => rw [coalesce]
    | [x], _ => rw [coalesce]
    | x :: y :: rest, hn =>
      by_cases h : x.2 = y.1
      · rw [coalesce_merge x y rest h]
        show _ = coalesce (x :: y :: (rest ++ Y))
        rw [coalesce_merge x y (rest ++ Y) h]
        exact ih (rest.length + 1) (by simp at hn; omega) ((x.1, y.2) :: rest) Y rfl
      · rw [coalesce_keep x y rest h]
        show _ = coalesce (x :: y :: (rest ++ Y))
        rw [coalesce_keep x y (rest ++ Y) h]
        obtain ⟨hd, tl, e⟩ := coalesce_head _ y rest rfl
        rw [e]
        show coalesce (x :: (y.1, hd) :: (tl ++ Y)) = _
        rw [coalesce_keep x (y.1, hd) (tl ++ Y) h]
        congr 1
        have := ih (rest.length + 1) (by simp at hn; omega) (y :: rest) Y rfl
        rw [e] at this
        exact this

/-- Joining segments of value 1 coalesces their intervals. -/
theorem icl_join_unit_segments (n : Nat) : ∀ (X : List (Int × Int)), X.length = n →
    icl_join (unit_segments X) = unit_segments (coalesce X) := by
  induction n using Nat.strong_induction_on with
  | _ n ih =>
    intro X hn
    match X, hn with
    | [], _ => rw [coalesce]; unfold unit_segments; rw [List.map_nil, icl_join]
    | [x], _ => rw [coalesce]; unfold unit_segments; rw [List.map_singleton, icl_join]
    | x :: y :: rest, hn =>
      have hrec := ih (rest.length + 1) (by simp at hn; omega)
      unfold unit_segments at hrec ⊢
      rw [List.map_cons, List.map_cons, icl_join]
      by_cases h : x.2 = y.1
      · rw [coalesce_merge x y rest h, if_pos ⟨h, rfl⟩]
        exact hrec ((x.1, y.2) :: rest) rfl
      · rw [coalesce_keep x y rest h, if_neg (fun hc => h hc.1), List.map_cons]
        congr 1
        exact hrec (y :: rest) rfl

/-- Adding an interval to the right of all segments appends a segment. -/
theorem icl_add_right (l r c : Int) (hlr : l < r) (S : List segment)
    (hS : ∀ x ∈ S, x.lo < x.hi ∧ x.hi ≤ l) :
    icl_add l r c S = S ++ [{ lo := l, hi := r, val := c }] := by
  induction S with
  | nil => rw [icl_add, if_pos hlr]; rfl
  | cons x rest ih =>
    obtain ⟨h1, h2⟩ := hS x (List.mem_cons_self _ _)
    rw [icl_add, if_neg (by omega), if_neg (by omega), if_pos h2,
      ih (fun z hz => hS z (List.mem_cons_of_mem _ hz))]
    rfl

/-- The interval map after the intervals of the partial exons `Y` have been added to the
joined map of an ascending chain `X` that lies to their left. -/
theorem join_interval_map_add_fold (Y : List partial_exon) :
    ∀ (X : List (Int × Int)),
      ascending_intervals (X ++ Y.map (fun r => (r.lpos, r.rpos))) →
      Y.foldl (fun m r => join_interval_map_add m r.lpos r.rpos 1)
          (unit_segments (coalesce X))
        = unit_segments (coalesce (X ++ Y.map (fun r => (r.lpos, r.rpos)))) := by
  induction Y with
  | nil => intro X _; simp
  | cons r Y ih =>
    intro X hX
    obtain ⟨h1, h2⟩ := hX
    rw [List.map_cons] at h1 h2
    obtain ⟨hXp, hYp, hXY⟩ := List.pairwise_append.1 h2
    have hXa : ascending_intervals X :=
      ⟨fun x hx => h1 x (List.mem_append_left _ hx), hXp⟩
    have hr : r.lpos < r.rpos :=
      h1 (r.lpos, r.rpos) (List.mem_append_right _ (List.mem_cons_self _ _))
    have hstep : join_interval_map_add (unit_segments (coalesce X)) r.lpos r.rpos 1 =
        unit_segments (coalesce (X ++ [(r.lpos, r.rpos)])) := by
      unfold join_interval_map_add
      rw [icl_add_right r.lpos r.rpos 1 hr]
      · have : unit_segments (coalesce X) ++ [{ lo := r.lpos, hi := r.rpos, val := 1 }] =
            unit_segments (coalesce X ++ [(r.lpos, r.rpos)]) := by
          unfold unit_segments
          rw [List.map_append]
          rfl
        rw [this, icl_join_unit_segments _ _ rfl, coalesce_append _ _ _ rfl]
      · intro s hs
        unfold unit_segments at hs
        obtain ⟨z, hz, rfl⟩ := List.mem_map.1 hs
        have hca := coalesce_ascending _ X rfl hXa
        obtain ⟨_, ⟨c, hc, h4⟩⟩ := coalesce_mem _ X rfl z hz
        refine ⟨hca.1 z hz, ?_⟩
        show z.2 ≤ r.lpos
        rw [h4]
        exact hXY c hc (r.lpos, r.rpos) (List.mem_cons_self _ _)
    rw [List.foldl_cons, hstep, ih (X ++ [(r.lpos, r.rpos)])]
    · rw [List.map_cons, List.append_assoc]
      rfl
    · rw [List.append_assoc]
      exact ⟨h1, h2⟩

/-- The first loop of `output_transcript` on vertices that denote partial exons. -/
theorem output_transcript_add_fold (P : List partial_exon) (mid : List Int) :
    ∀ (exons : List partial_exon) (S : List segment),
      mid.map (fun x => vec_get P (x - 1)) = exons.map some →
      mid.foldl (output_transcript_add P) (some S) =
        some (exons.foldl (fun m r => join_interval_map_add m r.lpos r.rpos 1) S) := by
  induction mid with
  | nil =>
    intro exons S h
    cases exons with
    | nil => rfl
    | cons e es => cases h
  | cons x mid ih =>
    intro exons S h
    cases exons with
    | nil => cases h
    | cons e es =>
      rw [List.map_cons, List.map_cons, List.cons.injEq] at h
      rw [List.foldl_cons, List.foldl_cons]
      have : output_transcript_add P (some S) x =
          some (join_interval_map_add S e.lpos e.rpos 1) := by
        unfold output_transcript_add
        rw [h.1]
      rw [this]
      exact ih es _ h.2

/-- The reads of a vector `[0, v1, ..., vk, z]` with `k >= 1` in `output_transcript`. -/
theorem path_reads (mid : List Int) (z : Int) (hk : mid ≠ []) :
    vec_get (0 :: (mid ++ [z])) 0 = some 0 ∧
    vec_get (0 :: (mid ++ [z])) (((0 :: (mid ++ [z])).length : Int) - 1) = some z ∧
    ¬ (0 :: (mid ++ [z])).length < 2 ∧
    vec_get (0 :: (mid ++ [z])) 1 = mid.head? ∧
    vec_get (0 :: (mid ++ [z])) (((0 :: (mid ++ [z])).length : Int) - 2) = mid.getLast? ∧
    ((0 :: (mid ++ [z])).drop 1).take ((0 :: (mid ++ [z])).length - 2) = mid := by
  have hlen : 0 < mid.length := List.length_pos.2 hk
  refine ⟨rfl, ?_, ?_, ?_, ?_, ?_⟩
  · have e : (((0 :: (mid ++ [z])).length : Int) - 1) = ((mid.length + 1 : Nat) : Int) := by
      simp
    rw [e]
    unfold vec_get
    rw [if_pos (by omega), Int.toNat_ofNat, List.get?_eq_getElem?, List.getElem?_cons_succ,
      List.getElem?_append_right (le_refl _)]
    simp
  · simp
  · unfold vec_get
    rw [if_pos (by omega)]
    cases mid with
    | nil => exact absurd rfl hk
    | cons a as => rfl
  · have e : (((0 :: (mid ++ [z])).length : Int) - 2) = ((mid.length - 1 + 1 : Nat) : Int) := by
      simp
      omega
    rw [e]
    unfold vec_get
    rw [if_pos (by omega), Int.toNat_ofNat, List.get?_eq_getElem?, List.getElem?_cons_succ,
      List.getElem?_append_left (by omega), List.getLast?_eq_getElem?]
  · simp

/-- A vertex `x` with `1 <= x <= N` denotes the partial exon `x - 1`. -/
theorem vec_get_pexon (P : List partial_exon) (x : Int) (h1 : 1 ≤ x) (h2 : x ≤ P.length) :
    ∃ r, vec_get P (x - 1) = some r ∧ P[(x - 1).toNat]? = some r := by
  have hlt : (x - 1).toNat < P.length := by omega
  refine ⟨P[(x - 1).toNat], ?_, List.getElem?_eq_getElem hlt⟩
  unfold vec_get
  rw [if_pos (by omega), List.get?_eq_getElem?, List.getElem?_eq_getElem hlt]

/-- A list on which a partial function is defined everywhere. -/
theorem map_eq_filterMap_some {α β : Type} (f : α → Option β) (l : List α)
    (h : ∀ x ∈ l, ∃ r, f x = some r) : l.map f = (l.filterMap f).map some := by
  induction l with
  | nil => rfl
  | cons a l ih =>
    obtain ⟨r, hr⟩ := h a (List.mem_cons_self _ _)
    rw [List.map_cons, List.filterMap_cons_some hr, List.map_cons, hr,
      ih (fun x hx => h x (List.mem_cons_of_mem _ hx))]

/-- The intervals of the partial exons of an ascending chain of vertices over partial
exons sorted from left to right without overlap are an ascending chain. -/
theorem path_intervals_ascending (P : List partial_exon) (mid : List Int)
    (hmid : ∀ x ∈ mid, 1 ≤ x ∧ x ≤ P.length) (hasc : mid.Pairwise (· < ·))
    (hl : ∀ r ∈ P, r.lpos < r.rpos) (hs : P.Pairwise (fun r q => r.rpos ≤ q.lpos)) :
    ascending_intervals ((mid.filterMap (fun x => vec_get P (x - 1))).map
      (fun r => (r.lpos, r.rpos))) := by
  constructor
  · intro iv hiv
    obtain ⟨r, hr, rfl⟩ := List.mem_map.1 hiv
    obtain ⟨x, hx, hfx⟩ := List.mem_filterMap.1 hr
    obtain ⟨r1, h1, h2⟩ := vec_get_pexon P x (hmid x hx).1 (hmid x hx).2
    rw [hfx] at h1
    cases h1
    exact hl r (List.getElem?_mem h2)
  · rw [List.pairwise_map, List.pairwise_filterMap]
    refine List.Pairwise.imp_of_mem ?_ hasc
    intro a c ha hc hac r hr q hq
    obtain ⟨r1, h1, h2⟩ := vec_get_pexon P a (hmid a ha).1 (hmid a ha).2
    obtain ⟨q1, h3, h4⟩ := vec_get_pexon P c (hmid c hc).1 (hmid c hc).2
    rw [Option.mem_def] at hr hq
    rw [hr] at h1
    rw [hq] at h3
    cases h1
    cases h3
    obtain ⟨ha1, ha2⟩ := List.getElem?_eq_some.1 h2
    obtain ⟨hc1, hc2⟩ := List.getElem?_eq_some.1 h4
    have := List.pairwise_iff_getElem.1 hs (a - 1).toNat (c - 1).toNat ha1 hc1
      (by have := (hmid a ha).1; omega)
    rw [ha2, hc2] at this
    exact this

/-- Claim C17. For a path `v = [0, v1, ..., vk, N + 1]` with `k >= 1` whose vertices
`1 <= v1 < ... < vk <= N` ascend, over partial exons sorted from left to right without
overlap (with `int32_t` coordinates), `output_transcript` writes one transcript record
with start `pexons[v1 - 1].lpos + 1` and end `pexons[vk - 1].rpos`, followed by one exon
record per coalesced interval of the partial exons of the path, numbered `1, 2, ...`,
with start `lower + 1` and end `upper`, in strictly ascending coordinate order. -/
theorem output_transcript_spec (algo : String) (average_read_length : Int) (b : bundle)
    (p : path) (gid tid : String) (mid : List Int)
    (hv : p.v = 0 :: (mid ++ [(b.pexons.length : Int) + 1]))
    (hk : mid ≠ [])
    (hmid : ∀ x ∈ mid, 1 ≤ x ∧ x ≤ b.pexons.length)
    (hasc : mid.Pairwise (· < ·))
    (hl : ∀ r ∈ b.pexons, r.lpos < r.rpos ∧ -2147483648 ≤ r.lpos ∧ r.rpos < 2147483648)
    (hs : b.pexons.Pairwise (fun r q => r.rpos ≤ q.lpos)) :
    ∃ first last rec recs,
      mid.head?.bind (fun x => vec_get b.pexons (x - 1)) = some first ∧
      mid.getLast?.bind (fun x => vec_get b.pexons (x - 1)) = some last ∧
      b.output_transcript algo average_read_length p gid tid = some (rec :: recs) ∧
      rec.feature = "transcript" ∧ rec.start = first.lpos + 1 ∧ rec.stop = last.rpos ∧
      recs.map (fun r => (r.feature, r.start, r.stop, r.exon_number)) =
        (coalesce ((mid.filterMap (fun x => vec_get b.pexons (x - 1))).map
          (fun r => (r.lpos, r.rpos)))).enum.map
          (fun it => ("exon", it.2.1 + 1, it.2.2, some (it.1 + 1))) ∧
      recs.Pairwise (fun r s => r.stop < s.start) := by
  obtain ⟨r1, r2, r3, r4, r5, r6⟩ := path_reads mid ((b.pexons.length : Int) + 1) hk
  have hhead := List.head?_eq_head hk
  have hlast := List.getLast?_eq_getLast mid hk
  obtain ⟨first, hf1, hf2⟩ := vec_get_pexon b.pexons (mid.head hk)
    (hmid _ (List.head_mem hk)).1 (hmid _ (List.head_mem hk)).2
  obtain ⟨last, hg1, hg2⟩ := vec_get_pexon b.pexons (mid.getLast hk)
    (hmid _ (List.getLast_mem hk)).1 (hmid _ (List.getLast_mem hk)).2
  have hex := map_eq_filterMap_some (fun x => vec_get b.pexons (x - 1)) mid
    (fun x hx => by
      obtain ⟨r, hr, _⟩ := vec_get_pexon b.pexons x (hmid x hx).1 (hmid x hx).2
      exact ⟨r, hr⟩)
  have hai := path_intervals_ascending b.pexons mid hmid hasc (fun r hr => (hl r hr).1) hs
  have hfold := output_transcript_add_fold b.pexons mid _ [] hex
  have hjm := join_interval_map_add_fold
    (mid.filterMap (fun x => vec_get b.pexons (x - 1))) [] (by simpa using hai)
  have hc0 : unit_segments (coalesce []) = [] := by rw [coalesce]; rfl
  rw [hc0, List.nil_append] at hjm
  rw [hjm] at hfold
  have hca := coalesce_ascending _ _ rfl hai
  have hrange : ∀ z ∈ coalesce ((mid.filterMap (fun x => vec_get b.pexons (x - 1))).map
      (fun r => (r.lpos, r.rpos))), wrap32 (z.1 + 1) = z.1 + 1 := by
    intro z hz
    obtain ⟨⟨iv, hiv, h1⟩, _⟩ := coalesce_mem _ _ rfl z hz
    obtain ⟨r, hr, rfl⟩ := List.mem_map.1 hiv
    obtain ⟨x, hx, hfx⟩ := List.mem_filterMap.1 hr
    obtain ⟨q, hq1, hq2⟩ := vec_get_pexon b.pexons x (hmid x hx).1 (hmid x hx).2
    rw [hfx] at hq1
    cases hq1
    have := hl r (List.getElem?_mem hq2)
    rw [h1]
    exact wrap32_of_range _ (by omega) (by omega)
  have hfirst := hl first (List.getElem?_mem hf2)
  have hout : b.output_transcript algo average_read_length p gid tid = some
      ({ chrm := b.chrm, source := algo, feature := "transcript",
         start := wrap32 (first.lpos + 1), stop := last.rpos, score := 1000,
         strand := b.strand, gene_id := gid, transcript_id := tid, exon_number := none,
         coverage := p.reads / (average_read_length : ℚ), expression := p.abd } ::
       (unit_segments (coalesce ((mid.filterMap (fun x => vec_get b.pexons (x - 1))).map
          (fun r => (r.lpos, r.rpos))))).enum.map (fun it =>
        { chrm := b.chrm, source := algo, feature := "exon",
          start := wrap32 (it.2.lo + 1), stop := it.2.hi, score := 1000,
          strand := b.strand, gene_id := gid, transcript_id := tid,
          exon_number := some (it.1 + 1),
          coverage := p.reads / (average_read_length : ℚ), expression := p.abd })) := by
    unfold bundle.output_transcript
    simp only [hv, r1, r2, r3, r4, r5, r6, hhead, hlast, hf1, hg1, hfold, if_false,
      not_true_eq_false]
  refine ⟨first, last, _, _, ?_, ?_, hout, ?_, ?_, ?_, ?_, ?_⟩
  · rw [hhead]
    exact hf1
  · rw [hlast]
    exact hg1
  · rfl
  · exact wrap32_of_range _ (by omega) (by omega)
  · rfl
  · unfold unit_segments
    rw [List.enum_map, List.map_map, List.map_map]
    apply List.map_congr_left
    intro it hit
    have hmem : it.2 ∈ coalesce ((mid.filterMap (fun x => vec_get b.pexons (x - 1))).map
        (fun r => (r.lpos, r.rpos))) := by
      have := List.mem_map_of_mem Prod.snd hit
      rwa [List.enum_map_snd] at this
    obtain ⟨i, z⟩ := it
    simp only [Function.comp_apply, Prod.map_apply, id_eq]
    rw [hrange z hmem]
  · unfold unit_segments
    rw [List.enum_map, List.map_map, List.pairwise_map]
    have hP : (coalesce ((mid.filterMap (fun x => vec_get b.pexons (x - 1))).map
        (fun r => (r.lpos, r.rpos)))).Pairwise (fun x y => x.2 < wrap32 (y.1 + 1)) := by
      refine List.Pairwise.imp_of_mem ?_ hca.2
      intro x y _ hy hxy
      rw [hrange y hy]
      omega
    rw [← List.enum_map_snd (coalesce _), List.pairwise_map] at hP
    exact hP

/-- Witness of `output_transcript_spec` (claim C17) on the path `[0, 1, 2, 3, 4]` through
the partial exons `[100, 200)`, `[300, 400)`, `[400, 500)`. -/
theorem output_transcript_spec_witness :
    (three_exon_path.v = 0 :: ([1, 2, 3] ++ [(three_exon_locus.pexons.length : Int) + 1]) ∧
      ([1, 2, 3] : List Int) ≠ [] ∧
      (∀ x ∈ ([1, 2, 3] : List Int), 1 ≤ x ∧ x ≤ three_exon_locus.pexons.length) ∧
      ([1, 2, 3] : List Int).Pairwise (· < ·)) ∧
    ∃ first last rec recs,
      ([1, 2, 3] : List Int).head?.bind (fun x => vec_get three_exon_locus.pexons (x - 1))
        = some first ∧
      ([1, 2, 3] : List Int).getLast?.bind (fun x => vec_get three_exon_locus.pexons (x - 1))
        = some last ∧
      three_exon_locus.output_transcript "scallop" 100 three_exon_path "gene" "gene.1"
        = some (rec :: recs) ∧
      rec.feature = "transcript" ∧ rec.start = first.lpos + 1 ∧ rec.stop = last.rpos ∧
      recs.map (fun r => (r.feature, r.start, r.stop, r.exon_number)) =
        (coalesce ((([1, 2, 3] : List Int).filterMap
            (fun x => vec_get three_exon_locus.pexons (x - 1))).map
          (fun r => (r.lpos, r.rpos)))).enum.map
          (fun it => ("exon", it.2.1 + 1, it.2.2, some (it.1 + 1))) ∧
      recs.Pairwise (fun r s => r.stop < s.start) :=
  ⟨⟨by decide, by decide, by decide, by decide⟩,
    output_transcript_spec "scallop" 100 three_exon_locus three_exon_path "gene" "gene.1"
      [1, 2, 3] (by decide) (by decide) (by decide) (by decide) (by decide) (by decide)⟩

/-- Evaluation of `output_transcript` on the path through `three_exon_locus`: the last
two partial exons share the boundary `400` and give one exon. -/
theorem output_transcript_three_exon_path :
    (three_exon_locus.output_transcript "scallop" 100 three_exon_path "gene" "gene.1").map
        (fun rs => rs.map (fun r => (r.feature, r.start, r.stop, r.exon_number)))
      = some [("transcript", 101, 500, none), ("exon", 101, 200, some 1),
          ("exon", 301, 500, some 2)] := by
  decide!

/-! ## Removal of trivial vertices (`scallop3::reconstruct_splice_graph`) -/

/-- A key has an entry exactly when it is the key of a pair of the map. -/
theorem mev_find_isSome_iff {α : Type} (m : List (Nat × α)) (k : Nat) :
    (mev_find m k).isSome ↔ ∃ x ∈ m, x.1 = k := by
  unfold mev_find
  cases h : m.find? (fun x => x.1 = k) with
  | none =>
    rw [List.find?_eq_none] at h
    simp only [Option.map_none', Option.isSome_none, Bool.false_eq_true, false_iff]
    rintro ⟨x, hx, hk⟩
    exact h x hx (by simpa using hk)
  | some y =>
    simp only [Option.map_some', Option.isSome_some, true_iff]
    exact ⟨y, List.mem_of_find?_eq_some h, by simpa using List.find?_some h⟩

/-- Setting the standard deviation of an edge adds no edge. -/
theorem grows_set_edge_stddev (g : splice_graph) (e : Nat) (a : ℚ) :
    g.grows (g.set_edge_stddev e a) [] := by
  refine ⟨rfl, ?_, ?_⟩
  · simp only [splice_graph.set_edge_stddev, splice_graph.edge_pairs, List.map_map,
      List.append_nil]
    apply List.map_congr_left
    intro x _
    by_cases h : x.id = e <;> simp [h]
  · intro hf x hx
    simp only [splice_graph.set_edge_stddev, List.mem_map] at hx ⊢
    obtain ⟨y, hy, rfl⟩ := hx
    have := hf y hy
    by_cases h : y.id = e <;> simp [h] <;> omega

/-- The descriptors of the edges after a new edge has been given a weight and a
standard deviation: the old ones and the new one. -/
theorem add_weight_stddev_ids (g : splice_graph) (s t : Nat) (w a : ℚ) :
    (((g.add_edge s t).1.set_edge_weight (g.add_edge s t).2 w).set_edge_stddev
      (g.add_edge s t).2 a).edges.map graph_edge.id = g.edges.map graph_edge.id ++ [g.next] := by
  simp only [splice_graph.add_edge, splice_graph.set_edge_weight,
    splice_graph.set_edge_stddev, List.map_map, List.map_append, List.map_cons, List.map_nil]
  congr 1
  · apply List.map_congr_left
    intro e _
    simp only [Function.comp_apply]
    split_ifs <;> rfl
  · simp

/-- After an insertion the old keys and the inserted key have entries. -/
theorem mev_find_insert_isSome {α : Type} (m : List (Nat × α)) (e k : Nat) (v : α)
    (h : (mev_find m k).isSome ∨ k = e) : (mev_find (mev_insert m e v) k).isSome := by
  unfold mev_insert
  by_cases he : (mev_find m e).isSome
  · rw [if_pos he]
    rcases h with h | rfl
    · exact h
    · exact he
  · rw [if_neg he, mev_find_isSome_iff]
    rcases h with h | rfl
    · obtain ⟨x, hx, hk⟩ := (mev_find_isSome_iff m k).1 h
      exact ⟨x, List.mem_append_left _ hx, hk⟩
    · exact ⟨(k, v), List.mem_append_right _ (List.mem_singleton_self _), rfl⟩

/-- A state grows to itself by no edge. -/
theorem scallop3_grows_refl (sc : scallop3) : sc.grows sc [] :=
  ⟨rfl, by simp, fun _ h => h, fun h => h⟩

/-- Growth of states composes. -/
theorem scallop3_grows_trans {sc sc1 sc2 : scallop3} {ps qs : List (Nat × Nat)}
    (h1 : sc.grows sc1 ps) (h2 : sc1.grows sc2 qs) : sc.grows sc2 (ps ++ qs) :=
  ⟨h2.1.trans h1.1, by rw [h2.2.1, h1.2.1, List.append_assoc],
    fun k h => h2.2.2.1 k (h1.2.2.1 k h), fun h => h2.2.2.2 (h1.2.2.2 h)⟩

/-- The body of the inner loop of `init_trivial_vertex` succeeds on two edges with
super-edge entries and adds the edge from the source of the first to the target of the
second. -/
theorem init_trivial_vertex_pair_grows (x : Nat) (e1 e2 : graph_edge) (sc : scallop3)
    (h1 : (mev_find sc.mev e1.id).isSome) (h2 : (mev_find sc.mev e2.id).isSome) :
    ∃ sc1, init_trivial_vertex_pair x e1 (some sc) e2 = some sc1 ∧
      sc.grows sc1 [(e1.s, e2.t)] := by
  obtain ⟨c1, hc1⟩ := Option.isSome_iff_exists.1 h1
  obtain ⟨c2, hc2⟩ := Option.isSome_iff_exists.1 h2
  unfold init_trivial_vertex_pair
  simp only [hc1, hc2]
  have hg := grows_trans (grows_trans (grows_add_edge sc.gr e1.s e2.t)
    (grows_set_edge_weight (sc.gr.add_edge e1.s e2.t).1 (sc.gr.add_edge e1.s e2.t).2
      (if e1.weight < e2.weight then e1.weight else e2.weight)))
    (grows_set_edge_stddev ((sc.gr.add_edge e1.s e2.t).1.set_edge_weight
      (sc.gr.add_edge e1.s e2.t).2 (if e1.weight < e2.weight then e1.weight else e2.weight))
      (sc.gr.add_edge e1.s e2.t).2 (if e1.weight < e2.weight then e1.stddev else e2.stddev))
  have hids := add_weight_stddev_ids sc.gr e1.s e2.t
    (if e1.weight < e2.weight then e1.weight else e2.weight)
    (if e1.weight < e2.weight then e1.stddev else e2.stddev)
  refine ⟨_, rfl, hg.1, by simpa using hg.2.1, ?_, ?_⟩
  · intro k hk
    exact mev_find_insert_isSome _ _ _ _ (Or.inl hk)
  · intro hcov e he
    have hmem : e.id ∈ sc.gr.edges.map graph_edge.id ++ [sc.gr.next] := by
      rw [← hids]
      exact List.mem_map_of_mem _ he
    rw [List.mem_append, List.mem_singleton] at hmem
    rcases hmem with hm | hm
    · obtain ⟨y, hy, hyid⟩ := List.mem_map.1 hm
      rw [← hyid]
      exact mev_find_insert_isSome _ _ _ _ (Or.inl (hcov y hy))
    · rw [hm]
      exact mev_find_insert_isSome _ _ _ _ (Or.inr rfl)

/-- The inner loop of `init_trivial_vertex` over the edges `O` out of the vertex. -/
theorem init_trivial_vertex_inner (x : Nat) (e1 : graph_edge) (O : List graph_edge) :
    ∀ (sc : scallop3), (mev_find sc.mev e1.id).isSome →
      (∀ e2 ∈ O, (mev_find sc.mev e2.id).isSome) →
      ∃ sc1, O.foldl (init_trivial_vertex_pair x e1) (some sc) = some sc1 ∧
        sc.grows sc1 (O.map (fun e2 => (e1.s, e2.t))) := by
  induction O with
  | nil => intro sc _ _; exact ⟨sc, rfl, scallop3_grows_refl sc⟩
  | cons e2 O ih =>
    intro sc h1 h2
    obtain ⟨sc1, hs1, hg1⟩ := init_trivial_vertex_pair_grows x e1 e2 sc h1
      (h2 e2 (List.mem_cons_self _ _))
    obtain ⟨sc2, hs2, hg2⟩ := ih sc1 (hg1.2.2.1 _ h1)
      (fun e he => hg1.2.2.1 _ (h2 e (List.mem_cons_of_mem _ he)))
    exact ⟨sc2, by rw [List.foldl_cons, hs1, hs2], scallop3_grows_trans hg1 hg2⟩

/-- The two loops of `init_trivial_vertex` over the edges `I` into and the edges `O` out
of the vertex. -/
theorem init_trivial_vertex_outer (x : Nat) (O : List graph_edge) (I : List graph_edge) :
    ∀ (sc : scallop3), (∀ e1 ∈ I, (mev_find sc.mev e1.id).isSome) →
      (∀ e2 ∈ O, (mev_find sc.mev e2.id).isSome) →
      ∃ sc1, I.foldl (fun st e1 => O.foldl (init_trivial_vertex_pair x e1) st) (some sc)
          = some sc1 ∧
        sc.grows sc1 (I.flatMap (fun e1 => O.map (fun e2 => (e1.s, e2.t)))) := by
  induction I with
  | nil => intro sc _ _; exact ⟨sc, rfl, scallop3_grows_refl sc⟩
  | cons e1 I ih =>
    intro sc h1 h2
    obtain ⟨sc1, hs1, hg1⟩ := init_trivial_vertex_inner x e1 O sc
      (h1 e1 (List.mem_cons_self _ _)) h2
    obtain ⟨sc2, hs2, hg2⟩ := ih sc1
      (fun e he => hg1.2.2.1 _ (h1 e (List.mem_cons_of_mem _ he)))
      (fun e he => hg1.2.2.1 _ (h2 e he))
    exact ⟨sc2, by rw [List.foldl_cons, hs1, hs2], by
      rw [List.flatMap_cons]; exact scallop3_grows_trans hg1 hg2⟩

/-- The number of pairs made of the edges into and the edges out of a vertex. -/
theorem length_flatMap_map {α β γ : Type} (I : List α) (O : List β) (f : α → β → γ) :
    (I.flatMap (fun a => O.map (f a))).length = I.length * O.length := by
  induction I with
  | nil => simp
  | cons a I ih =>
    rw [List.flatMap_cons, List.length_append, ih, List.length_map, List.length_cons]
    ring

/-- Without an edge from `x` to `x`, the edges split into those that do not touch `x`,
those into `x` and those out of `x`. -/
theorem length_split_at (l : List graph_edge) (x : Nat)
    (h : ∀ e ∈ l, ¬ (e.s = x ∧ e.t = x)) :
    l.length = (l.filter (fun e => ¬ (e.s = x ∨ e.t = x))).length +
      (l.filter (fun e => e.t = x)).length + (l.filter (fun e => e.s = x)).length := by
  induction l with
  | nil => rfl
  | cons e l ih =>
    have hrec := ih (fun z hz => h z (List.mem_cons_of_mem _ hz))
    have he := h e (List.mem_cons_self _ _)
    by_cases h1 : e.s = x
    · have h2 : ¬ e.t = x := fun h2 => he ⟨h1, h2⟩
      simp only [List.filter_cons, h1, h2, List.length_cons, or_false, not_true_eq_false,
        decide_True, decide_False, if_true, if_false, Bool.false_eq_true] at hrec ⊢
      omega
    · by_cases h2 : e.t = x
      · simp only [List.filter_cons, h1, h2, List.length_cons, or_true, not_true_eq_false,
          decide_True, decide_False, if_true, if_false, Bool.false_eq_true] at hrec ⊢
        omega
      · simp only [List.filter_cons, h1, h2, List.length_cons, or_false, not_false_eq_true,
          decide_True, decide_False, if_true, if_false, Bool.false_eq_true] at hrec ⊢
        omega

/-- The number of edges that do not touch `x`, counted on the pairs. -/
theorem length_filter_pairs (l : List graph_edge) (x : Nat) :
    (l.filter (fun e => ¬ (e.s = x ∨ e.t = x))).length =
      ((l.map (fun e => (e.s, e.t))).filter (fun p => ¬ (p.1 = x ∨ p.2 = x))).length := by
  rw [List.filter_map, List.length_map]
  rfl

/-- What `init_trivial_vertex(x)` does on an acyclic graph with super-edges: on a vertex
that is not trivial it returns `false` and changes nothing; on a trivial vertex it
returns `true`, the graph stays acyclic with super-edges, the vertices are kept and
there is one edge less. -/
theorem init_trivial_vertex_spec (sc : scallop3) (r : Nat → Nat) (hr : sc.ranked r)
    (x : Nat) :
    (¬ sc.trivial_vertex x ∧ sc.init_trivial_vertex x = some (sc, false)) ∨
    (sc.trivial_vertex x ∧ ∃ sc1, sc.init_trivial_vertex x = some (sc1, true) ∧
      sc1.ranked r ∧ sc1.gr.edges.length + 1 = sc.gr.edges.length ∧
      sc1.gr.vertices = sc.gr.vertices) := by
  unfold scallop3.init_trivial_vertex
  by_cases h1 : sc.gr.in_degree x ≤ 0 ∨ sc.gr.out_degree x ≤ 0
  · left
    refine ⟨?_, by simp only [h1, if_true]⟩
    unfold scallop3.trivial_vertex
    omega
  · by_cases h2 : sc.gr.in_degree x ≥ 2 ∧ sc.gr.out_degree x ≥ 2
    · left
      refine ⟨?_, by simp only [h1, h2, if_true, if_false, and_self]⟩
      unfold scallop3.trivial_vertex
      omega
    · right
      have ht : sc.trivial_vertex x := by
        unfold scallop3.trivial_vertex
        omega
      refine ⟨ht, ?_⟩
      obtain ⟨sc1, hs, hg⟩ := init_trivial_vertex_outer x (sc.gr.out_edges x)
        (sc.gr.in_edges x) sc
        (fun e he => hr.2 e ((mem_in_edges _ _ _).1 he).1)
        (fun e he => hr.2 e ((mem_out_edges _ _ _).1 he).1)
      have h3 : ¬ ∃ e ∈ sc.gr.edges, e.s = x ∧ e.t = x := by
        rintro ⟨e, he, hs1, ht1⟩
        have := hr.1 e he
        rw [hs1, ht1] at this
        exact lt_irrefl _ this
      simp only [h1, h2, h3, if_false, hs]
      have hnew : ∀ p ∈ (sc.gr.in_edges x).flatMap
          (fun e1 => (sc.gr.out_edges x).map (fun e2 => (e1.s, e2.t))),
          r p.1 < r x ∧ r x < r p.2 := by
        intro p hp
        obtain ⟨e1, he1, hp1⟩ := List.mem_flatMap.1 hp
        obtain ⟨e2, he2, rfl⟩ := List.mem_map.1 hp1
        obtain ⟨m1, t1⟩ := (mem_in_edges _ _ _).1 he1
        obtain ⟨m2, t2⟩ := (mem_out_edges _ _ _).1 he2
        have a1 := hr.1 e1 m1
        have a2 := hr.1 e2 m2
        rw [t1] at a1
        rw [t2] at a2
        exact ⟨a1, a2⟩
      have hpairs : ∀ e ∈ sc1.gr.edges, r e.s < r e.t := by
        intro e he
        have hm : (e.s, e.t) ∈ sc1.gr.edge_pairs := List.mem_map.2 ⟨e, he, rfl⟩
        rw [hg.2.1, List.mem_append] at hm
        rcases hm with hm | hm
        · obtain ⟨e0, he0, h0⟩ := List.mem_map.1 hm
          have := hr.1 e0 he0
          rw [Prod.mk.injEq] at h0
          rw [← h0.1, ← h0.2]
          exact this
        · have := hnew _ hm
          exact lt_trans this.1 this.2
      refine ⟨_, rfl, ⟨?_, ?_⟩, ?_, hg.1⟩
      · intro e he
        exact hpairs e (List.mem_of_mem_filter he)
      · intro e he
        exact hg.2.2.2 hr.2 e (List.mem_of_mem_filter he)
      · show (sc1.gr.edges.filter (fun e => ¬ (e.s = x ∨ e.t = x))).length + 1 = _
        rw [length_filter_pairs]
        have hep : sc1.gr.edges.map (fun e => (e.s, e.t)) = sc1.gr.edge_pairs := rfl
        rw [hep, hg.2.1, List.filter_append, List.length_append]
        have hkeep : ((sc.gr.in_edges x).flatMap
            (fun e1 => (sc.gr.out_edges x).map (fun e2 => (e1.s, e2.t)))).filter
            (fun p => ¬ (p.1 = x ∨ p.2 = x)) = (sc.gr.in_edges x).flatMap
            (fun e1 => (sc.gr.out_edges x).map (fun e2 => (e1.s, e2.t))) := by
          rw [List.filter_eq_self]
          intro p hp
          have := hnew p hp
          rw [decide_eq_true_eq]
          rintro (h | h)
          · rw [h] at this
            exact lt_irrefl _ this.1
          · rw [h] at this
            exact lt_irrefl _ this.2
        rw [hkeep, length_flatMap_map]
        have hsplit := length_split_at sc.gr.edges x (fun e he hc => by
          have := hr.1 e he
          rw [hc.1, hc.2] at this
          exact lt_irrefl _ this)
        rw [length_filter_pairs] at hsplit
        have hi : (sc.gr.edges.filter (fun e => e.t = x)).length = sc.gr.in_degree x := rfl
        have ho : (sc.gr.edges.filter (fun e => e.s = x)).length = sc.gr.out_degree x := rfl
        have hi1 : (sc.gr.in_edges x).length = sc.gr.in_degree x := rfl
        have ho1 : (sc.gr.out_edges x).length = sc.gr.out_degree x := rfl
        have hep0 : sc.gr.edges.map (fun e => (e.s, e.t)) = sc.gr.edge_pairs := rfl
        rw [hi, ho, hep0] at hsplit
        rw [hi1, ho1, hsplit]
        rcases ht.2.2 with h | h
        · rw [h]
          omega
        · rw [h]
          omega

/-- The `for` loop of `reconstruct_splice_graph` over a list of vertices, from a state
`sc` and a value `flag`: either no vertex of the list is trivial, and the state and the
flag are unchanged, or the flag is set and the graph has lost edges. -/
theorem reconstruct_pass_fold (r : Nat → Nat) (L : List Nat) :
    ∀ (sc : scallop3) (flag : Bool), sc.ranked r →
      ∃ sc1 flag1,
        L.foldl (fun (st : Option (scallop3 × Bool)) (i : Nat) =>
            match st with
            | none => none
            | some (sc, flag) =>
              match sc.init_trivial_vertex i with
              | none => none
              | some (sc, b) => some (sc, if b = true then true else flag))
          (some (sc, flag)) = some (sc1, flag1) ∧
        sc1.ranked r ∧ sc1.gr.vertices = sc.gr.vertices ∧
        ((flag1 = flag ∧ sc1 = sc ∧ ∀ i ∈ L, ¬ sc.trivial_vertex i) ∨
         (flag1 = true ∧ sc1.gr.edges.length < sc.gr.edges.length)) := by
  induction L with
  | nil =>
    intro sc flag hr
    exact ⟨sc, flag, rfl, hr, rfl, Or.inl ⟨rfl, rfl, fun _ h => by cases h⟩⟩
  | cons i L ih =>
    intro sc flag hr
    rcases init_trivial_vertex_spec sc r hr i with ⟨hn, hi⟩ | ⟨_, sc2, hi, hr2, hlen, hv2⟩
    · obtain ⟨sc1, flag1, hf, hr1, hv1, hcase⟩ := ih sc flag hr
      refine ⟨sc1, flag1, ?_, hr1, hv1, ?_⟩
      · rw [List.foldl_cons]
        simp only [hi]
        exact hf
      · rcases hcase with ⟨h1, h2, h3⟩ | h
        · refine Or.inl ⟨h1, h2, ?_⟩
          intro j hj
          rcases List.mem_cons.1 hj with rfl | hj
          · exact hn
          · exact h3 j hj
        · exact Or.inr h
    · obtain ⟨sc1, flag1, hf, hr1, hv1, hcase⟩ := ih sc2 true hr2
      refine ⟨sc1, flag1, ?_, hr1, hv1.trans hv2, Or.inr ?_⟩
      · rw [List.foldl_cons]
        simp only [hi]
        exact hf
      · rcases hcase with ⟨h1, h2, _⟩ | ⟨h1, h2⟩
        · rw [h2]
          exact ⟨h1, by omega⟩
        · exact ⟨h1, by omega⟩

/-- One pass of `reconstruct_splice_graph` on an acyclic graph with super-edges. -/
theorem reconstruct_pass_spec (r : Nat → Nat) (sc : scallop3) (hr : sc.ranked r) :
    ∃ sc1 flag1, sc.reconstruct_pass = some (sc1, flag1) ∧ sc1.ranked r ∧
      sc1.gr.vertices = sc.gr.vertices ∧
      ((flag1 = false ∧ sc1 = sc ∧ ∀ i, i < sc.gr.num_vertices → ¬ sc.trivial_vertex i) ∨
       (flag1 = true ∧ sc1.gr.edges.length < sc.gr.edges.length)) := by
  obtain ⟨sc1, flag1, hf, hr1, hv1, hcase⟩ :=
    reconstruct_pass_fold r (List.range sc.gr.num_vertices) sc false hr
  refine ⟨sc1, flag1, hf, hr1, hv1, ?_⟩
  rcases hcase with ⟨h1, h2, h3⟩ | h
  · exact Or.inl ⟨h1, h2, fun i hi => h3 i (List.mem_range.2 hi)⟩
  · exact Or.inr h

/-- With more passes than edges, `reconstruct_splice_graph` returns, and no vertex of
the graph it returns is trivial. -/
theorem reconstruct_splice_graph_returns (r : Nat → Nat) (fuel : Nat) :
    ∀ (sc : scallop3), sc.ranked r → sc.gr.edges.length < fuel →
      ∃ sc1, sc.reconstruct_splice_graph fuel = some sc1 ∧ sc1.ranked r ∧
        ∀ i, i < sc1.gr.num_vertices → ¬ sc1.trivial_vertex i := by
  induction fuel with
  | zero => intro sc _ h; omega
  | succ fuel ih =>
    intro sc hr hlen
    obtain ⟨sc1, flag1, hp, hr1, _, hcase⟩ := reconstruct_pass_spec r sc hr
    rcases hcase with ⟨h1, h2, h3⟩ | ⟨h1, h2⟩
    · refine ⟨sc, ?_, hr, h3⟩
      rw [scallop3.reconstruct_splice_graph, hp]
      simp only [h1, h2, if_true]
    · obtain ⟨sc2, hs2, hr2, hn2⟩ := ih sc1 hr1 (by omega)
      refine ⟨sc2, ?_, hr2, hn2⟩
      rw [scallop3.reconstruct_splice_graph, hp]
      simp only [h1, Bool.true_eq_false, if_false]
      exact hs2

/-- More passes do not change what `reconstruct_splice_graph` returns. -/
theorem reconstruct_splice_graph_mono (fuel : Nat) :
    ∀ (sc a : scallop3), sc.reconstruct_splice_graph fuel = some a →
      sc.reconstruct_splice_graph (fuel + 1) = some a := by
  induction fuel with
  | zero => intro sc a h; rw [scallop3.reconstruct_splice_graph] at h; cases h
  | succ fuel ih =>
    intro sc a h
    rw [scallop3.reconstruct_splice_graph] at h ⊢
    cases hp : sc.reconstruct_pass with
    | none => rw [hp] at h; cases h
    | some res =>
      obtain ⟨sc1, flag⟩ := res
      rw [hp] at h
      simp only at h ⊢
      by_cases hflag : flag = false
      · rw [if_pos hflag] at h ⊢
        exact h
      · rw [if_neg hflag] at h ⊢
        exact ih sc1 a h

/-- From the number of passes that suffices on, the result is the same. -/
theorem reconstruct_splice_graph_stable (sc a : scallop3) (f : Nat)
    (h : sc.reconstruct_splice_graph f = some a) (k : Nat) :
    sc.reconstruct_splice_graph (f + k) = some a := by
  induction k with
  | zero => exact h
  | succ k ih => exact reconstruct_splice_graph_mono (f + k) sc a ih

/-- The `for` loop of `reconstruct_splice_graph` over vertices none of which is trivial
leaves the state and the flag as they are. -/
theorem reconstruct_pass_fold_fixed (r : Nat → Nat) (sc : scallop3) (hr : sc.ranked r)
    (flag : Bool) (L : List Nat) (hL : ∀ i ∈ L, ¬ sc.trivial_vertex i) :
    L.foldl (fun (st : Option (scallop3 × Bool)) (i : Nat) =>
        match st with
        | none => none
        | some (sc, flag) =>
          match sc.init_trivial_vertex i with
          | none => none
          | some (sc, b) => some (sc, if b = true then true else flag))
      (some (sc, flag)) = some (sc, flag) := by
  induction L with
  | nil => rfl
  | cons i L ih =>
    rcases init_trivial_vertex_spec sc r hr i with ⟨_, hi⟩ | ⟨ht, _⟩
    · rw [List.foldl_cons]
      simp only [hi]
      exact ih (fun j hj => hL j (List.mem_cons_of_mem _ hj))
    · exact absurd ht (hL i (List.mem_cons_self _ _))

/-- Claim C15. On an acyclic splice graph (the edges ascend in a ranking `r` of the
vertices) whose edges all have a super-edge entry, `reconstruct_splice_graph` returns a
state `sc1` (as soon as it may run more passes than there are edges), applying it to
`sc1` again returns `sc1` itself (same graph, weights and super-edges), and in `sc1` no
vertex with an edge in and an edge out has in-degree 1 or out-degree 1. -/
theorem reconstruct_splice_graph_idempotent (sc : scallop3) (r : Nat → Nat)
    (hacyc : ∀ e ∈ sc.gr.edges, r e.s < r e.t)
    (hmev : ∀ e ∈ sc.gr.edges, (mev_find sc.mev e.id).isSome) :
    ∃ sc1,
      (∀ fuel, sc.gr.edges.length < fuel → sc.reconstruct_splice_graph fuel = some sc1) ∧
      (∀ fuel, 0 < fuel → sc1.reconstruct_splice_graph fuel = some sc1) ∧
      ∀ x, x < sc1.gr.num_vertices →
        ¬ (1 ≤ sc1.gr.in_degree x ∧ 1 ≤ sc1.gr.out_degree x ∧
          (sc1.gr.in_degree x = 1 ∨ sc1.gr.out_degree x = 1)) := by
  obtain ⟨sc1, hs, hr1, hn⟩ := reconstruct_splice_graph_returns r (sc.gr.edges.length + 1) sc
    ⟨hacyc, hmev⟩ (by omega)
  refine ⟨sc1, ?_, ?_, hn⟩
  · intro fuel hfuel
    have := reconstruct_splice_graph_stable sc sc1 _ hs (fuel - (sc.gr.edges.length + 1))
    rwa [Nat.add_sub_cancel' (by omega)] at this
  · intro fuel hfuel
    have hp : sc1.reconstruct_pass = some (sc1, false) :=
      reconstruct_pass_fold_fixed r sc1 hr1 false (List.range sc1.gr.num_vertices)
        (fun i hi => hn i (List.mem_range.1 hi))
    have h1 : sc1.reconstruct_splice_graph 1 = some sc1 := by
      rw [scallop3.reconstruct_splice_graph, hp]
      rfl
    have := reconstruct_splice_graph_stable sc1 sc1 1 h1 (fuel - 1)
    rwa [Nat.add_sub_cancel' (by omega)] at this

/-- Witness of `reconstruct_splice_graph_idempotent` (claim C15) on the chain
`0 -> 1 -> 2 -> 3` with the edge `0 -> 2`, ranked by the vertex numbers. -/
theorem reconstruct_splice_graph_idempotent_witness :
    ((∀ e ∈ chain_state.gr.edges, e.s < e.t) ∧
      ∀ e ∈ chain_state.gr.edges, (mev_find chain_state.mev e.id).isSome) ∧
    ∃ sc1,
      (∀ fuel, chain_state.gr.edges.length < fuel →
        chain_state.reconstruct_splice_graph fuel = some sc1) ∧
      (∀ fuel, 0 < fuel → sc1.reconstruct_splice_graph fuel = some sc1) ∧
      ∀ x, x < sc1.gr.num_vertices →
        ¬ (1 ≤ sc1.gr.in_degree x ∧ 1 ≤ sc1.gr.out_degree x ∧
          (sc1.gr.in_degree x = 1 ∨ sc1.gr.out_degree x = 1)) :=
  ⟨⟨by decide, by decide⟩,
    reconstruct_splice_graph_idempotent chain_state (fun v => v) (by decide) (by decide)⟩

/-- Evaluation of `reconstruct_splice_graph` on the chain `0 -> 1 -> 2 -> 3` with the
edge `0 -> 2`: the trivial vertices `1` and `2` go, and two edges `0 -> 3` stay, with
the super-edges `[2]` and `[1, 2]`. -/
theorem reconstruct_splice_graph_chain :
    (chain_state.reconstruct_splice_graph 5).map
        (fun sc => (sc.gr.edges.map (fun e => (e.s, e.t, e.weight, mev_find sc.mev e.id))))
      = some [(0, 3, 2, some [2]), (0, 3, 10, some [1, 2])] := by
  with_unfolding_all rfl

/-! ## Splitting an edge (`scallop3::split_edge`) -/

/-- An edge with a weight is an edge of the graph, and has a standard deviation. -/
theorem get_edge_weight_some (g : splice_graph) (e : Nat) (w : ℚ)
    (h : g.get_edge_weight e = some w) :
    ∃ x, g.find_edge e = some x ∧ x.weight = w ∧ x.id = e ∧
      g.get_edge_stddev e = some x.stddev := by
  unfold splice_graph.get_edge_weight at h
  obtain ⟨x, hx, hw⟩ := Option.map_eq_some'.1 h
  refine ⟨x, hx, hw, ?_, ?_⟩
  · unfold splice_graph.find_edge at hx
    simpa using List.find?_some hx
  · unfold splice_graph.get_edge_stddev
    rw [hx]
    rfl

/-- The edge behind a descriptor after a weight has been set. -/
theorem find_edge_set_edge_weight (g : splice_graph) (e : Nat) (w : ℚ) (k : Nat) :
    (g.set_edge_weight e w).find_edge k =
      (g.find_edge k).map (fun x => if x.id = e then { x with weight := w } else x) := by
  unfold splice_graph.find_edge splice_graph.set_edge_weight
  rw [List.find?_map]
  congr 2
  funext x
  simp only [Function.comp_apply]
  split_ifs <;> rfl

/-- The edge behind a descriptor after a standard deviation has been set. -/
theorem find_edge_set_edge_stddev (g : splice_graph) (e : Nat) (a : ℚ) (k : Nat) :
    (g.set_edge_stddev e a).find_edge k =
      (g.find_edge k).map (fun x => if x.id = e then { x with stddev := a } else x) := by
  unfold splice_graph.find_edge splice_graph.set_edge_stddev
  rw [List.find?_map]
  congr 2
  funext x
  simp only [Function.comp_apply]
  split_ifs <;> rfl

/-- The weight of an edge after its weight and standard deviation have been set. -/
theorem get_edge_weight_set_same (g : splice_graph) (e : Nat) (w a : ℚ)
    (h : (g.find_edge e).isSome) :
    ((g.set_edge_weight e w).set_edge_stddev e a).get_edge_weight e = some w := by
  obtain ⟨x, hx⟩ := Option.isSome_iff_exists.1 h
  have hid : x.id = e := by
    unfold splice_graph.find_edge at hx
    simpa using List.find?_some hx
  unfold splice_graph.get_edge_weight
  rw [find_edge_set_edge_stddev, find_edge_set_edge_weight, hx]
  simp [hid]

/-- The weight of another edge after a weight and a standard deviation have been set. -/
theorem get_edge_weight_set_ne (g : splice_graph) (e : Nat) (w a : ℚ) (k : Nat)
    (h : k ≠ e) :
    ((g.set_edge_weight e w).set_edge_stddev e a).get_edge_weight k
      = g.get_edge_weight k := by
  unfold splice_graph.get_edge_weight
  rw [find_edge_set_edge_stddev, find_edge_set_edge_weight]
  cases hx : g.find_edge k with
  | none => rfl
  | some x =>
    have hid : x.id = k := by
      unfold splice_graph.find_edge at hx
      simpa using List.find?_some hx
    have hne : ¬ x.id = e := by rw [hid]; exact h
    simp [hne]

/-- The edge behind a descriptor other than the new one after `add_edge`. -/
theorem find_edge_add_edge_ne (g : splice_graph) (s t k : Nat) (h : k ≠ g.next) :
    (g.add_edge s t).1.find_edge k = g.find_edge k := by
  unfold splice_graph.find_edge splice_graph.add_edge
  rw [List.find?_append]
  have : List.find? (fun x => decide (x.id = k))
      [({ id := g.next, s := s, t := t } : graph_edge)] = none := by
    rw [List.find?_eq_none]
    intro x hx
    rw [List.mem_singleton] at hx
    subst hx
    simpa using fun hc => h hc.symm
  rw [this, Option.or_none]

/-- The new descriptor denotes an edge after `add_edge`. -/
theorem find_edge_add_edge_new (g : splice_graph) (s t : Nat) :
    ((g.add_edge s t).1.find_edge g.next).isSome := by
  unfold splice_graph.find_edge splice_graph.add_edge
  rw [List.find?_isSome]
  exact ⟨{ id := g.next, s := s, t := t }, List.mem_append_right _ (List.mem_singleton_self _),
    by simp⟩

/-- A descriptor that denotes an edge of a graph with fresh descriptors is older than the
next descriptor. -/
theorem lt_next_of_find_edge (g : splice_graph) (hf : g.fresh) (e : Nat)
    (h : (g.find_edge e).isSome) : e < g.next := by
  obtain ⟨x, hx⟩ := Option.isSome_iff_exists.1 h
  unfold splice_graph.find_edge at hx
  have hid : x.id = e := by simpa using List.find?_some hx
  rw [← hid]
  exact hf x (List.mem_of_find?_eq_some hx)

/-- One iteration of the second loop of `split_edge` on an entry `k` that denotes the
edge `e` of weight `w0`: a new edge of weight `w0` with index `i2e.size()` is made, the
other edges keep their weights, and the old entries of `i2e` stay. -/
theorem split_edge_copy_step (ex s t : Nat) (sc : scallop3) (v : List Nat) (k e : Nat)
    (w0 : ℚ) (he2i : ∀ x ∈ sc.e2i, x.1 < sc.gr.next)
    (hk : sc.live_edge k = some e) (hw : sc.gr.get_edge_weight e = some w0)
    (he : e < sc.gr.next) :
    ∃ sc1, split_edge_copy ex s t (some (sc, v)) k = some (sc1, v ++ [sc.i2e.length]) ∧
      sc1.i2e = sc.i2e ++ [some sc.gr.next] ∧
      sc1.gr.next = sc.gr.next + 1 ∧
      (∀ x ∈ sc1.e2i, x.1 < sc1.gr.next) ∧
      sc1.gr.get_edge_weight sc.gr.next = some w0 ∧
      (∀ e1, e1 ≠ sc.gr.next → sc1.gr.get_edge_weight e1 = sc.gr.get_edge_weight e1) := by
  have f1 : mev_find sc.e2i sc.gr.next = none := by
    rw [← Option.not_isSome_iff_eq_none, mev_find_isSome_iff]
    rintro ⟨x, hx, hxk⟩
    have := he2i x hx
    omega
  have hget : sc.i2e.get? k = some (some e) := by
    unfold scallop3.live_edge at hk
    cases hg : sc.i2e.get? k with
    | none => rw [hg] at hk; cases hk
    | some o =>
      rw [hg] at hk
      cases o with
      | none => cases hk
      | some e0 =>
        have : e0 = e := Option.some.inj hk
        rw [this]
  have hklt : k < sc.i2e.length := by
    by_contra hc
    rw [List.get?_eq_getElem?, List.getElem?_eq_none (by omega)] at hget
    cases hget
  have f2 : ((sc.i2e ++ [some sc.gr.next]).get? k).join = some e := by
    rw [List.get?_eq_getElem?, List.getElem?_append_left hklt, ← List.get?_eq_getElem?, hget]
    rfl
  obtain ⟨x, hx, hxw, _, hsd⟩ := get_edge_weight_some _ _ _ hw
  have hne : e ≠ sc.gr.next := by omega
  have f3 : (sc.gr.add_edge s t).1.get_edge_weight e = some w0 := by
    unfold splice_graph.get_edge_weight
    rw [find_edge_add_edge_ne _ _ _ _ hne, hx, Option.map_some', hxw]
  have f4 : (sc.gr.add_edge s t).1.get_edge_stddev e = some x.stddev := by
    unfold splice_graph.get_edge_stddev
    rw [find_edge_add_edge_ne _ _ _ _ hne, hx, Option.map_some']
  have hout : split_edge_copy ex s t (some (sc, v)) k = some
      ({ sc with
          gr := ((sc.gr.add_edge s t).1.set_edge_weight sc.gr.next w0).set_edge_stddev
            sc.gr.next x.stddev,
          i2e := sc.i2e ++ [some sc.gr.next],
          e2i := mev_insert sc.e2i sc.gr.next sc.i2e.length,
          mev := mev_insert (mev_insert sc.mev ex []) sc.gr.next
            ((mev_find (mev_insert sc.mev ex []) ex).getD []),
          ds := (sc.ds.make_set sc.i2e.length).union_set sc.i2e.length k },
        v ++ [sc.i2e.length]) := by
    unfold split_edge_copy
    have hp : (sc.gr.add_edge s t).2 = sc.gr.next := rfl
    simp only [hp, f1, f2, f3, f4, not_true_eq_false, if_false]
  refine ⟨_, hout, rfl, rfl, ?_, ?_, ?_⟩
  · intro y hy
    show y.1 < sc.gr.next + 1
    simp only [mev_insert, f1, Option.isSome_none, Bool.false_eq_true, if_false,
      List.mem_append, List.mem_singleton] at hy
    rcases hy with hy | rfl
    · have := he2i y hy
      omega
    · show sc.gr.next < sc.gr.next + 1
      omega
  · exact get_edge_weight_set_same _ _ _ _ (find_edge_add_edge_new sc.gr s t)
  · intro e1 he1
    show (((sc.gr.add_edge s t).1.set_edge_weight sc.gr.next w0).set_edge_stddev
      sc.gr.next x.stddev).get_edge_weight e1 = _
    rw [get_edge_weight_set_ne _ _ _ _ _ he1]
    unfold splice_graph.get_edge_weight
    rw [find_edge_add_edge_ne _ _ _ _ he1]

/-- The entries of `i2e` that were there before a `push_back`. -/
theorem live_edge_append_left (sc sc1 : scallop3) (a : Option Nat)
    (h : sc1.i2e = sc.i2e ++ [a]) (i : Nat) (hi : i < sc.i2e.length) :
    sc1.live_edge i = sc.live_edge i := by
  unfold scallop3.live_edge
  rw [h, List.get?_eq_getElem?, List.get?_eq_getElem?, List.getElem?_append_left hi]

/-- The entry of `i2e` added by a `push_back`. -/
theorem live_edge_append_new (sc sc1 : scallop3) (a : Option Nat)
    (h : sc1.i2e = sc.i2e ++ [a]) : sc1.live_edge sc.i2e.length = a := by
  unfold scallop3.live_edge
  rw [h, List.get?_eq_getElem?, List.getElem?_append_right (le_refl _)]
  simp

/-- An index with a weight is an index of `i2e` and denotes an edge with that weight. -/
theorem edge_weight_some (sc : scallop3) (k : Nat) (w : ℚ) (h : sc.edge_weight k = some w) :
    ∃ e, sc.live_edge k = some e ∧ sc.gr.get_edge_weight e = some w ∧ k < sc.i2e.length := by
  unfold scallop3.edge_weight at h
  obtain ⟨e, he, hw⟩ := Option.bind_eq_some.1 h
  refine ⟨e, he, hw, ?_⟩
  by_contra hc
  unfold scallop3.live_edge at he
  rw [List.get?_eq_getElem?, List.getElem?_eq_none (by omega)] at he
  cases he

/-- The second loop of `split_edge` over entries with the weights `ws`: it returns, the
new indices it appends to `v` denote edges with the weights `ws`, and the old entries
and the weights of the old edges are kept. -/
theorem split_edge_copy_fold (ex s t : Nat) (ks : List Nat) :
    ∀ (sc : scallop3) (v : List Nat) (ws : List ℚ),
      (∀ x ∈ sc.e2i, x.1 < sc.gr.next) →
      ks.map sc.edge_weight = ws.map some →
      (∀ k ∈ ks, ∀ e, sc.live_edge k = some e → e < sc.gr.next) →
      ∃ sc1 new, ks.foldl (split_edge_copy ex s t) (some (sc, v)) = some (sc1, v ++ new) ∧
        new.map sc1.edge_weight = ws.map some ∧
        (∀ i, i < sc.i2e.length → sc1.live_edge i = sc.live_edge i) ∧
        (∀ e, e < sc.gr.next → sc1.gr.get_edge_weight e = sc.gr.get_edge_weight e) := by
  induction ks with
  | nil =>
    intro sc v ws _ hws _
    cases ws with
    | nil => exact ⟨sc, [], by simp, rfl, fun _ _ => rfl, fun _ _ => rfl⟩
    | cons w ws => cases hws
  | cons k ks ih =>
    intro sc v ws he2i hws hlt
    cases ws with
    | nil => cases hws
    | cons w0 ws =>
      rw [List.map_cons, List.map_cons, List.cons.injEq] at hws
      obtain ⟨e, hk, hw, _⟩ := edge_weight_some sc k w0 hws.1
      have he := hlt k (List.mem_cons_self _ _) e hk
      obtain ⟨sc2, hstep, hi2e, hnext, he2i2, hnew, hold⟩ :=
        split_edge_copy_step ex s t sc v k e w0 he2i hk hw he
      have hsame : ∀ k1 ∈ ks, sc2.edge_weight k1 = sc.edge_weight k1 := by
        intro k1 hk1
        have hm : sc.edge_weight k1 ∈ ws.map some := by
          rw [← hws.2]
          exact List.mem_map_of_mem _ hk1
        obtain ⟨w1, _, hw1⟩ := List.mem_map.1 hm
        obtain ⟨e1, hl1, _, hlen1⟩ := edge_weight_some sc k1 w1 hw1.symm
        have hb := hlt k1 (List.mem_cons_of_mem _ hk1) e1 hl1
        unfold scallop3.edge_weight
        rw [live_edge_append_left sc sc2 _ hi2e k1 hlen1, hl1]
        exact hold e1 (by omega)
      obtain ⟨sc1, new, hfold, hnw, hlive, hwt⟩ := ih sc2 (v ++ [sc.i2e.length]) ws he2i2
        (by rw [← hws.2]; exact List.map_congr_left hsame)
        (fun k1 hk1 e1 hl1 => by
          have hm : sc.edge_weight k1 ∈ ws.map some := by
            rw [← hws.2]
            exact List.mem_map_of_mem _ hk1
          obtain ⟨w1, _, hw1⟩ := List.mem_map.1 hm
          obtain ⟨_, _, _, hlen1⟩ := edge_weight_some sc k1 w1 hw1.symm
          rw [live_edge_append_left sc sc2 _ hi2e k1 hlen1] at hl1
          have := hlt k1 (List.mem_cons_of_mem _ hk1) e1 hl1
          omega)
      have hlen2 : sc2.i2e.length = sc.i2e.length + 1 := by rw [hi2e]; simp
      refine ⟨sc1, sc.i2e.length :: new, ?_, ?_, ?_, ?_⟩
      · rw [List.foldl_cons, hstep, hfold, List.append_assoc]
        rfl
      · rw [List.map_cons, List.map_cons, hnw]
        congr 1
        unfold scallop3.edge_weight
        rw [hlive _ (by omega), live_edge_append_new sc sc2 _ hi2e]
        show sc1.gr.get_edge_weight sc.gr.next = some w0
        rw [hwt _ (by omega), hnew]
      · intro i hi
        rw [hlive i (by omega), live_edge_append_left sc sc2 _ hi2e i hi]
      · intro e1 he1
        rw [hwt e1 (by omega), hold e1 (by omega)]

/-- The first loop of `split_edge` subtracts the weights of the entries of `sub`. -/
theorem split_edge_residual_fold (sc : scallop3) (sub : List Nat) :
    ∀ (ws : List ℚ) (w : ℚ), sub.map sc.edge_weight = ws.map some →
      sub.foldl (split_edge_residual sc) (some w) = some (w - ws.sum) := by
  induction sub with
  | nil =>
    intro ws w h
    cases ws with
    | nil => simp
    | cons a ws => cases h
  | cons k sub ih =>
    intro ws w h
    cases ws with
    | nil => cases h
    | cons a ws =>
      rw [List.map_cons, List.map_cons, List.cons.injEq] at h
      obtain ⟨e, hk, hw, _⟩ := edge_weight_some sc k a h.1
      have hstep : split_edge_residual sc (some w) k = some (w - a) := by
        unfold split_edge_residual
        simp only [hk, hw]
      rw [List.foldl_cons, hstep, ih ws (w - a) h.2, List.sum_cons]
      congr 1
      ring

/-- The defined values of a list on which a partial function is defined everywhere. -/
theorem filterMap_of_map_eq {α β : Type} (f : α → Option β) (l : List α) :
    ∀ (ws : List β), l.map f = ws.map some → l.filterMap f = ws := by
  induction l with
  | nil =>
    intro ws h
    cases ws with
    | nil => rfl
    | cons a ws => cases h
  | cons x l ih =>
    intro ws h
    cases ws with
    | nil => cases h
    | cons a ws =>
      rw [List.map_cons, List.map_cons, List.cons.injEq] at h
      rw [List.filterMap_cons_some h.1, ih ws h.2]

/-- Claim C16, counterexample. With two parallel edges of weights `w(0) = 5` and
`w(1) = 0`, `split_edge(0, [1, 0])` meets the precondition `|5 - (0 + 5)| <= SMIN`, yet
the two edges it returns (indices `0` and `2`) both have weight `0`: the copy made for
the entry `0` of `sub` reads the weight of the edge `0` after it has been overwritten
with `w(1)`. The returned weights sum to `0`, not to `5`. -/
theorem split_edge_sum_counterexample :
    parallel_state.edge_weight 0 = some 5 ∧ parallel_state.edge_weight 1 = some 0 ∧
    |(5 : ℚ) - (0 + 5)| ≤ 1 / 1000000 ∧
    (parallel_state.split_edge (1 / 1000000) 0 [1, 0]).map
        (fun res => (res.2, res.2.map res.1.edge_weight)) = some ([0, 2], [some 0, some 0]) := by
  refine ⟨by with_unfolding_all rfl, by with_unfolding_all rfl, by norm_num, ?_⟩
  with_unfolding_all rfl

/-- Claim C16, amended. Let `ei` be a live edge of weight `w` and `sub` a non-empty list
of live edges with weights `ws` such that `|w - sum ws| <= SMIN`, in a state whose edge
descriptors are fresh. If no entry of `sub` after the first denotes the edge of `ei`,
then `split_edge(ei, sub)` returns, the edges it returns have, one by one, the original
weights of the entries of `sub`, so their weights sum exactly to the sum of the original
weights of `sub`, which is within `SMIN` of the original weight of `ei`. Repeated
entries and `ei` as the first entry of `sub` are allowed. -/
theorem split_edge_weights (SMIN : ℚ) (sc : scallop3) (ei : Nat) (sub : List Nat)
    (ex : Nat) (w : ℚ) (ws : List ℚ)
    (hf : sc.gr.fresh) (he2i : ∀ x ∈ sc.e2i, x.1 < sc.gr.next)
    (hei : sc.live_edge ei = some ex) (hw : sc.gr.get_edge_weight ex = some w)
    (hsub : 1 ≤ sub.length)
    (hws : sub.map sc.edge_weight = ws.map some)
    (hpre : |w - ws.sum| ≤ SMIN)
    (hna : ∀ k ∈ sub.tail, sc.live_edge k ≠ some ex) :
    ∃ sc1 v, sc.split_edge SMIN ei sub = some (sc1, v) ∧
      v.map sc1.edge_weight = ws.map some ∧
      (v.filterMap sc1.edge_weight).sum = ws.sum ∧
      |w - (v.filterMap sc1.edge_weight).sum| ≤ SMIN := by
  cases sub with
  | nil => simp at hsub
  | cons k0 tl =>
    cases ws with
    | nil => cases hws
    | cons w0 ws =>
      have hws0 := hws
      rw [List.map_cons, List.map_cons, List.cons.injEq] at hws
      obtain ⟨ey, hk0, hw0, _⟩ := edge_weight_some sc k0 w0 hws.1
      obtain ⟨y, _, _, _, hsd⟩ := get_edge_weight_some _ _ _ hw0
      obtain ⟨exo, hexo, _, _, _⟩ := get_edge_weight_some _ _ _ hw
      have hexlt : ex < sc.gr.next :=
        lt_next_of_find_edge sc.gr hf ex (by rw [hexo]; rfl)
      have heilt : ei < sc.i2e.length := by
        by_contra hc
        unfold scallop3.live_edge at hei
        rw [List.get?_eq_getElem?, List.getElem?_eq_none (by omega)] at hei
        cases hei
      have hall : (k0 :: tl).all (fun k => (sc.live_edge k).isSome) = true := by
        rw [List.all_eq_true]
        intro k hk
        have hm : sc.edge_weight k ∈ (w0 :: ws).map some := by
          rw [← hws0]
          exact List.mem_map_of_mem _ hk
        obtain ⟨w1, _, hw1⟩ := List.mem_map.1 hm
        obtain ⟨e1, hl1, _, _⟩ := edge_weight_some sc k w1 hw1.symm
        rw [hl1]
        rfl
      have hres := split_edge_residual_fold sc (k0 :: tl) (w0 :: ws) w hws0
      have htl : ∀ k ∈ tl, ∃ e w1, sc.live_edge k = some e ∧
          sc.gr.get_edge_weight e = some w1 ∧ e ≠ ex ∧ e < sc.gr.next := by
        intro k hk
        have hm : sc.edge_weight k ∈ ws.map some := by
          rw [← hws.2]
          exact List.mem_map_of_mem _ hk
        obtain ⟨w1, _, hw1⟩ := List.mem_map.1 hm
        obtain ⟨e1, hl1, hg1, _⟩ := edge_weight_some sc k w1 hw1.symm
        obtain ⟨x1, hx1, _, _, _⟩ := get_edge_weight_some _ _ _ hg1
        refine ⟨e1, w1, hl1, hg1, ?_, lt_next_of_find_edge sc.gr hf e1 (by rw [hx1]; rfl)⟩
        intro hc
        rw [hc] at hl1
        exact hna k hk hl1
      obtain ⟨sc1, new, hfold, hnw, hlive, hwt⟩ := split_edge_copy_fold ex exo.s exo.t tl
        { sc with gr := (sc.gr.set_edge_weight ex w0).set_edge_stddev ex y.stddev,
                  ds := sc.ds.union_set ei k0 }
        [ei] ws he2i
        (by
          rw [← hws.2]
          apply List.map_congr_left
          intro k hk
          obtain ⟨e1, w1, hl1, _, hne, _⟩ := htl k hk
          unfold scallop3.edge_weight
          show (sc.live_edge k).bind
            ((sc.gr.set_edge_weight ex w0).set_edge_stddev ex y.stddev).get_edge_weight = _
          rw [hl1]
          exact get_edge_weight_set_ne _ _ _ _ _ hne)
        (fun k hk e hl => by
          obtain ⟨e1, w1, hl1, _, _, hlt⟩ := htl k hk
          have hl2 : sc.live_edge k = some e := hl
          rw [hl1] at hl2
          cases hl2
          exact hlt)
      have hout : sc.split_edge SMIN ei (k0 :: tl) = some (sc1, [ei] ++ new) := by
        unfold scallop3.split_edge
        have hlen : ¬ ¬ (k0 :: tl).length ≥ 1 := not_not.2 hsub
        have hpre2 : ¬ ¬ |w - (w0 :: ws).sum| ≤ SMIN := not_not.2 hpre
        simp only [hei, hw, hlen, hall, hres, List.head?_cons, hpre2, hk0, hw0, hsd, hexo,
          List.tail_cons, if_false, not_true_eq_false, List.nil_append]
        exact hfold
      have hv : ([ei] ++ new).map sc1.edge_weight = (w0 :: ws).map some := by
        rw [List.map_append, hnw, List.map_cons, List.map_cons, List.map_nil,
          List.singleton_append]
        congr 1
        unfold scallop3.edge_weight
        rw [hlive ei heilt]
        show (sc.live_edge ei).bind sc1.gr.get_edge_weight = some w0
        rw [hei]
        show sc1.gr.get_edge_weight ex = some w0
        rw [hwt ex hexlt]
        exact get_edge_weight_set_same _ _ _ _ (by rw [hexo]; rfl)
      have hfm := filterMap_of_map_eq sc1.edge_weight _ _ hv
      exact ⟨sc1, [ei] ++ new, hout, hv, by rw [hfm], by rw [hfm]; exact hpre⟩

/-- Witness of `split_edge_weights` (claim C16): the edge of weight `5` is split along
`sub = [1, 2, 1]`, with a repeated entry and weights `2 + 1 + 2 = 5`. -/
theorem split_edge_weights_witness :
    (three_edge_state.gr.fresh ∧ three_edge_state.live_edge 0 = some 0 ∧
      three_edge_state.gr.get_edge_weight 0 = some 5 ∧
      [1, 2, 1].map three_edge_state.edge_weight = ([2, 1, 2] : List ℚ).map some ∧
      ∀ k ∈ ([1, 2, 1] : List Nat).tail, three_edge_state.live_edge k ≠ some 0) ∧
    ∃ sc1 v, three_edge_state.split_edge 0 0 [1, 2, 1] = some (sc1, v) ∧
      v.map sc1.edge_weight = ([2, 1, 2] : List ℚ).map some ∧
      (v.filterMap sc1.edge_weight).sum = ([2, 1, 2] : List ℚ).sum ∧
      |(5 : ℚ) - (v.filterMap sc1.edge_weight).sum| ≤ 0 :=
  ⟨⟨by unfold splice_graph.fresh; decide, by decide, by with_unfolding_all rfl,
      by with_unfolding_all rfl, by decide⟩,
    split_edge_weights 0 three_edge_state 0 [1, 2, 1] 0 5 [2, 1, 2]
      (by unfold splice_graph.fresh; decide) (by decide) (by decide)
      (by with_unfolding_all rfl) (by decide) (by with_unfolding_all rfl) (by norm_num)
      (by decide)⟩

/-! ## Hyper-edges from reads (`bundle::build_hyper_edges2`) -/

/-- Claim C21, evaluation at the failing input. A read that matches `[100, 200)` over the
partial exons `[100, 150)` and `[150, 200)` maps to the indices `0` and `1`. When it is
the only read, `build_hyper_edges2` returns an empty hyper-set; of two such reads named
`a` and `b` only the first contributes its node list `[0, 1]`. The list of a group is
added when the next query name starts (or a mate cannot be bridged), never after the
loop: for every bundle with a single hit the hyper-set is empty. -/
theorem build_hyper_edges2_drops_last_group :
    (named_read "a" 100 100).get_matched_intervals.foldl
        (build_hyper_edges2_interval 5 (two_exon_reads [named_read "a" 100 100])) (some [])
      = some [0, 1] ∧
    ((two_exon_reads [named_read "a" 100 100]).build_hyper_edges2 5).map bundle.hs
      = some [] ∧
    ((two_exon_reads [named_read "a" 100 100, named_read "b" 100 100]).build_hyper_edges2
        5).map bundle.hs = some [[0, 1]] ∧
    ∀ (min_flank_length : Nat) (b : bundle) (h : hit), b.hits = [h] →
      ∀ b1, b.build_hyper_edges2 min_flank_length = some b1 → b1.hs = [] := by
  refine ⟨by decide, by decide, by decide!, ?_⟩
  intro mfl b h hb b1 h1
  unfold bundle.build_hyper_edges2 at h1
  simp only [hb, List.insertionSort, List.orderedInsert, List.foldl_cons, List.foldl_nil]
    at h1
  unfold build_hyper_edges2_hit at h1
  have hs0 : int_set [] = [] := rfl
  have h20 : ¬ ((0 : Nat) ≥ 2) := by decide
  have hst : (if h.qname ≠ "" then
        ({ qname := "", sp1 := [], hs := [] } : hyper_state) else
        { qname := "", sp1 := [], hs := [] }) = { qname := "", sp1 := [], hs := [] } := by
    split_ifs <;> rfl
  simp only [hs0, List.length_nil, h20, if_false, hst, le_refl, true_or, if_true,
    List.nil_append] at h1
  by_cases hf : h.flag &&& 4 ≥ 1
  · simp only [hf, if_true] at h1
    cases h1
    rfl
  · simp only [hf, if_false] at h1
    split at h1
    · cases h1
    · rename_i st heq
      cases h1
      show st.hs = []
      split at heq
      · cases heq
      · cases heq
        rfl

/-! ## Closest subset (`scallop3::compute_closest_subset`) -/

/-- On `xxp = [(1, 0), (5, 1)]` and `w = 5` the binary search stays at `s = 0`, `t = 1`
for ever: `m = (0 + 1) / 2 = 0`, `w > xxp[0].first`, and `s = m` leaves `s` as it is. -/
theorem compute_closest_subset_search_stuck (fuel : Nat) :
    ∀ m, compute_closest_subset_search 5 [(1, 0), (5, 1)] fuel 0 1 m = none := by
  induction fuel with
  | zero => intro m; rfl
  | succ fuel ih =>
    intro m
    rw [compute_closest_subset_search]
    have h1 : Int.tdiv (wrap32 (0 + 1)) 2 = 0 := by decide
    have h2 : vec_get [((1 : Int), (0 : Int)), (5, 1)] 0 = some (1, 0) := by decide
    simp only [h1, h2]
    have h3 : ¬ ¬ ((0 : Int) < 1) := by decide
    have h4 : ¬ ((5 : Int) = 1) := by decide
    have h5 : (5 : Int) > 1 := by decide
    rw [if_neg h3, if_neg h4, if_pos h5]
    exact ih 0

/-- Claim C27, evaluation at the failing input. On the sorted list `[(1, 0), (5, 1)]`
with target `w = 5` and `xi = 2`, where the entry of index `1` has distance `0`,
`compute_closest_subset` returns nothing, whatever the number of iterations allowed to
its binary search: the search never ends. On `[(1, 0), (3, 1), (5, 2)]` with `w = 3` and
`xi = 2` the search ends, and the method then reads `xxp[3]`, outside the list. -/
theorem compute_closest_subset_never_returns :
    (∀ fuel, compute_closest_subset fuel 2 5 [(1, 0), (5, 1)] = none) ∧
    compute_closest_subset 10 2 3 [(1, 0), (3, 1), (5, 2)] = none := by
  refine ⟨?_, by decide⟩
  intro fuel
  unfold compute_closest_subset
  have h : compute_closest_subset_search 5 [(1, 0), (5, 1)] fuel 0
      ((([((1 : Int), (0 : Int)), (5, 1)] : List (Int × Int)).length : Int) - 1) (-1) = none :=
    compute_closest_subset_search_stuck fuel (-1)
  rw [h]
  rfl

/-! ## Decomposition of trivial vertices (`scallop3::decompose_trivial_vertices`) -/

/-- Once an assertion has failed the loop of `decompose_trivial_vertices` stays failed. -/
theorem decompose_trivial_vertices_step_none (SMIN : ℚ) (fuel : Nat) (L : List Nat) :
    L.foldl (decompose_trivial_vertices_step SMIN fuel) none = none := by
  induction L with
  | nil => rfl
  | cons i L ih => rw [List.foldl_cons]; exact ih

/-- The call `split_edge(ei, sub)` with an empty `sub` fails (`assert(sub.size() >= 1)`,
or before it `assert(i2e[ei] != null_edge)`). -/
theorem split_edge_nil (SMIN : ℚ) (sc : scallop3) (ei : Nat) :
    sc.split_edge SMIN ei [] = none := by
  unfold scallop3.split_edge
  cases sc.live_edge ei with
  | none => rfl
  | some ex => rfl

/-- Claim C29, evaluation at the failing input. On the graph with the single edge
`0 -> 1`, `decompose_trivial_vertices` fails an assertion: the source has out-degree 1
and no in-edge, so the method calls `split_edge` with an empty `sub`, against
`assert(sub.size() >= 1)`. The same holds for every state whose vertex `0` has no
in-edge and exactly one out-edge. On a graph whose source and sink have two edges each
the method completes. -/
theorem decompose_trivial_vertices_empty_sub :
    (∀ (SMIN : ℚ) (fuel : Nat), single_edge_state.decompose_trivial_vertices SMIN fuel = none) ∧
    (∀ (SMIN : ℚ) (fuel : Nat) (sc : scallop3), 0 < sc.gr.num_vertices →
      sc.gr.in_degree 0 = 0 → sc.gr.out_degree 0 = 1 →
      sc.decompose_trivial_vertices SMIN fuel = none) ∧
    (fan_state.decompose_trivial_vertices 0 3).map
        (fun r => (r.1.gr.edges.map (fun e => (e.s, e.t, e.weight)), r.2))
      = some ([(2, 3, 7), (2, 3, 8), (0, 2, 10), (0, 2, 5)], true) := by
  have key : ∀ (SMIN : ℚ) (fuel : Nat) (sc : scallop3), 0 < sc.gr.num_vertices →
      sc.gr.in_degree 0 = 0 → sc.gr.out_degree 0 = 1 →
      sc.decompose_trivial_vertices SMIN fuel = none := by
    intro SMIN fuel sc hn hi ho
    unfold scallop3.decompose_trivial_vertices
    obtain ⟨n, hn1⟩ : ∃ n, sc.gr.num_vertices = n + 1 := ⟨sc.gr.num_vertices - 1, by omega⟩
    rw [hn1, List.range_succ_eq_map, List.foldl_cons]
    have hstep : decompose_trivial_vertices_step SMIN fuel (some (sc, false)) 0 = none := by
      unfold decompose_trivial_vertices_step
      obtain ⟨e1, he1⟩ := length_one_head (sc.gr.out_edges 0) ho
      have hin : sc.gr.in_edges 0 = [] := List.length_eq_zero.1 hi
      have hd : ¬ sc.gr.degree 0 = 0 := by
        unfold splice_graph.degree
        omega
      have hi1 : ¬ sc.gr.in_degree 0 = 1 := by omega
      simp only [hd, hi1, ho, if_false, if_true, he1, List.head?_cons, hin, e2i_all,
        List.foldl_nil, split_edge_nil]
    rw [hstep]
    exact decompose_trivial_vertices_step_none SMIN fuel _
  refine ⟨fun SMIN fuel => key SMIN fuel single_edge_state (by decide) (by decide) (by decide),
    key, by with_unfolding_all rfl⟩

/-! ## The router (`router::build`, `router::split`) -/

/-- Giving the label `b` to the vertices labelled `a` loses at most one label. -/
theorem relabel_dedup_length (lab : List Nat) (a b : Nat) :
    lab.dedup.length ≤ (lab.map (fun l => if l = a then b else l)).dedup.length + 1 := by
  rw [← List.card_toFinset, ← List.card_toFinset]
  have hsub : lab.toFinset.erase a ⊆ (lab.map (fun l => if l = a then b else l)).toFinset := by
    intro x hx
    rw [Finset.mem_erase, List.mem_toFinset] at hx
    rw [List.mem_toFinset, List.mem_map]
    exact ⟨x, hx.2, by rw [if_neg hx.1]⟩
  have h1 := Finset.card_le_card hsub
  have h2 := @Finset.pred_card_le_card_erase _ lab.toFinset a _
  omega

/-- Merging the edges of a list loses at most one label per edge. -/
theorem labels_fold_length (es : List (Nat × Nat)) :
    ∀ (lab : List Nat),
      lab.dedup.length ≤ (es.foldl
        (fun lab e => lab.map (fun l => if l = lab.getD e.2 e.2 then lab.getD e.1 e.1 else l))
        lab).dedup.length + es.length := by
  induction es with
  | nil => intro lab; simp
  | cons e es ih =>
    intro lab
    rw [List.foldl_cons, List.length_cons]
    have h1 := relabel_dedup_length lab (lab.getD e.2 e.2) (lab.getD e.1 e.1)
    have h2 := ih (lab.map (fun l => if l = lab.getD e.2 e.2 then lab.getD e.1 e.1 else l))
    omega

/-- An undirected graph has at least as many connected components as it has vertices
more than edges. -/
theorem components_length_ge (ug : undirected_graph) :
    ug.n ≤ ug.compute_connected_components.length + ug.edges.length := by
  unfold undirected_graph.compute_connected_components
  rw [List.length_map]
  have h := labels_fold_length ug.edges (List.range ug.n)
  rw [(List.nodup_range ug.n).dedup, List.length_range] at h
  exact h

/-- One iteration of `build_bipartite_graph` adds one edge and keeps the vertices. -/
theorem build_bipartite_graph_fold (rt : router) (L : List (Nat × Nat)) :
    ∀ (ug ug1 : undirected_graph),
      L.foldl (build_bipartite_graph_route rt) (some ug) = some ug1 →
      ug1.n = ug.n ∧ ug1.edges.length = ug.edges.length + L.length := by
  induction L with
  | nil =>
    intro ug ug1 h
    cases h
    exact ⟨rfl, rfl⟩
  | cons r L ih =>
    intro ug ug1 h
    rw [List.foldl_cons] at h
    cases hs : build_bipartite_graph_route rt (some ug) r with
    | none =>
      rw [hs] at h
      have hnone : ∀ (M : List (Nat × Nat)),
          M.foldl (build_bipartite_graph_route rt) none = none := by
        intro M
        induction M with
        | nil => rfl
        | cons m M ihm => rw [List.foldl_cons]; exact ihm
      rw [hnone] at h
      cases h
    | some ug2 =>
      rw [hs] at h
      obtain ⟨h1, h2⟩ := ih ug2 ug1 h
      have h3 : ug2.n = ug.n ∧ ug2.edges.length = ug.edges.length + 1 := by
        unfold build_bipartite_graph_route at hs
        split at hs
        · rename_i heq _ _
          cases heq
          split_ifs at hs
          cases hs
          exact ⟨rfl, by simp⟩
        · cases hs
      rw [List.length_cons]
      omega

/-- The positions before the end of a first list read that list. -/
theorem range_map_get_append_left (l m : List Nat) :
    (List.range l.length).map (l ++ m).get? = l.map some := by
  apply List.ext_getElem?
  intro i
  by_cases hi : i < l.length
  · simp [List.getElem?_map, List.getElem?_range, hi, List.getElem?_append_left,
      List.getElem?_eq_getElem]
  · have h1 : l.length ≤ i := by omega
    simp [List.getElem?_map, List.getElem?_eq_none, h1]

/-- The positions after the end of a first list read the second list. -/
theorem range_map_get_append_right (l m : List Nat) :
    ((List.range (l.length + m.length)).drop l.length).map (l ++ m).get? = m.map some := by
  apply List.ext_getElem?
  intro i
  by_cases hi : i < m.length
  · have h2 : l.length + i < l.length + m.length := by omega
    have h3 : (l ++ m)[l.length + i]? = m[i]? := by
      rw [List.getElem?_append_right (by omega)]
      simp
    rw [List.getElem?_eq_getElem (by simp; omega), List.getElem?_eq_getElem hi] at h3
    simp [List.getElem?_map, List.getElem?_drop, List.getElem?_range, hi, h2,
      List.getElem?_eq_getElem]
    exact Option.some.inj h3
  · have h1 : m.length ≤ i := by omega
    have h2 : l.length + m.length ≤ l.length + i := by omega
    simp [List.getElem?_map, List.getElem?_drop, List.getElem?_eq_none, h1, h2]

/-- The state of `build_indices` after the edges of a list: `u2e` gains one entry per
edge, and when every edge has an index, `e2i` is unchanged and the entries are the
indices of the edges. -/
theorem build_indices_fold (es : List graph_edge) :
    ∀ (st : List (Nat × Nat) × List (Nat × Nat) × List Nat),
      (es.foldl build_indices_edge st).2.2.length = st.2.2.length + es.length ∧
      ((∀ e ∈ es, (mev_find st.1 e.id).isSome) →
        (es.foldl build_indices_edge st).1 = st.1 ∧
        (es.foldl build_indices_edge st).2.2 =
          st.2.2 ++ es.map (fun e => (e2i_at st.1 e.id).2)) := by
  induction es with
  | nil => intro st; simp
  | cons e es ih =>
    intro st
    rw [List.foldl_cons]
    obtain ⟨h1, h2⟩ := ih (build_indices_edge st e)
    refine ⟨?_, ?_⟩
    · rw [h1]
      simp [build_indices_edge]
      omega
    · intro hall
      have he : (mev_find st.1 e.id).isSome := hall e (List.mem_cons_self _ _)
      have hst : (build_indices_edge st e).1 = st.1 := by
        simp [build_indices_edge, e2i_at, mev_insert, he]
      have hu : (build_indices_edge st e).2.2 = st.2.2 ++ [(e2i_at st.1 e.id).2] := by
        simp [build_indices_edge]
      rw [hst] at h2
      obtain ⟨h3, h4⟩ := h2 (fun x hx => hall x (List.mem_cons_of_mem _ hx))
      refine ⟨h3, ?_⟩
      rw [h4, hu]
      simp

/-- The method `build_indices` keeps the graph, the vertex, `i2e`, the routes, the
equations, the ratio and the status, and gives `u2e` one entry per incident edge. -/
theorem build_indices_frame (rt : router) :
    rt.build_indices.gr = rt.gr ∧ rt.build_indices.root = rt.root ∧
    rt.build_indices.i2e = rt.i2e ∧ rt.build_indices.routes = rt.routes ∧
    rt.build_indices.eqns = rt.eqns ∧ rt.build_indices.ratio = rt.ratio ∧
    rt.build_indices.status = rt.status ∧
    rt.build_indices.u2e.length = rt.gr.degree rt.root := by
  refine ⟨rfl, rfl, rfl, rfl, rfl, rfl, rfl, ?_⟩
  unfold router.build_indices
  simp only
  rw [(build_indices_fold _ _).1, (build_indices_fold _ _).1]
  simp [splice_graph.degree, splice_graph.in_degree, splice_graph.out_degree]

/-- When every incident edge has an index, `build_indices` keeps `e2i` and lists in `u2e`
the indices of the in-edges followed by those of the out-edges. -/
theorem build_indices_u2e (rt : router)
    (hidx : ∀ e ∈ rt.gr.in_edges rt.root ++ rt.gr.out_edges rt.root,
      (mev_find rt.e2i e.id).isSome) :
    rt.build_indices.e2i = rt.e2i ∧
    rt.build_indices.u2e =
      (rt.gr.in_edges rt.root).map (fun e => (e2i_at rt.e2i e.id).2) ++
      (rt.gr.out_edges rt.root).map (fun e => (e2i_at rt.e2i e.id).2) := by
  unfold router.build_indices
  simp only
  obtain ⟨h1, h2⟩ := (build_indices_fold (rt.gr.in_edges rt.root) (rt.e2i, [], [])).2
    (fun e he => hidx e (List.mem_append_left _ he))
  have h3 := (build_indices_fold (rt.gr.out_edges rt.root)
    ((rt.gr.in_edges rt.root).foldl build_indices_edge (rt.e2i, [], []))).2
  rw [h1] at h3
  obtain ⟨h4, h5⟩ := h3 (fun e he => hidx e (List.mem_append_right _ he))
  refine ⟨h4, ?_⟩
  rw [h5, h2]
  simp

/-- The loops of `add_single_equation` over a list of positions of `u2e` append the
entries of `u2e` and add up the weights. -/
theorem add_single_equation_fold (rt : router) (P : List Nat) :
    ∀ (ks : List Nat) (ws : List ℚ) (l : List Nat) (s : ℚ),
      P.map rt.u2e.get? = ks.map some → P.map rt.edge_weight = ws.map some →
      P.foldl (add_single_equation_edge rt) (some (l, s)) = some (l ++ ks, s + ws.sum) := by
  induction P with
  | nil =>
    intro ks ws l s hk hw
    cases ks with
    | nil =>
      cases ws with
      | nil => simp
      | cons w ws => simp at hw
    | cons k ks => simp at hk
  | cons p P ih =>
    intro ks ws l s hk hw
    cases ks with
    | nil => simp at hk
    | cons k ks =>
      cases ws with
      | nil => simp at hw
      | cons w ws =>
        simp only [List.map_cons, List.cons.injEq] at hk hw
        rw [List.foldl_cons]
        have hstep : add_single_equation_edge rt (some (l, s)) p = some (l ++ [k], s + w) := by
          unfold add_single_equation_edge
          rw [hk.1, hw.1]
        rw [hstep, ih ks ws _ _ hk.2 hw.2]
        simp [add_assoc]

/-- An edge of a graph with distinct descriptors is found by its descriptor. -/
theorem find_edge_of_mem (g : splice_graph) (hnd : (g.edges.map graph_edge.id).Nodup)
    (e : graph_edge) (he : e ∈ g.edges) : g.find_edge e.id = some e := by
  unfold splice_graph.find_edge
  generalize g.edges = L at hnd he
  induction L with
  | nil => cases he
  | cons x L ih =>
    rw [List.map_cons, List.nodup_cons] at hnd
    rw [List.find?_cons]
    by_cases hx : x.id = e.id
    · rcases List.mem_cons.mp he with h | h
      · subst h
        simp
      · exact absurd (hx ▸ List.mem_map_of_mem graph_edge.id h) hnd.1
    · rcases List.mem_cons.mp he with h | h
      · exact absurd (h ▸ rfl) hx
      · simp only [hx, decide_False]
        exact ih hnd.2 h

/-- The method `add_single_equation` on a router whose `u2e` lists the indices of the
in-edges and then of the out-edges, each index leading back to its edge in `i2e`. -/
theorem add_single_equation_spec (rt : router) (f : graph_edge → Nat)
    (hnd : (rt.gr.edges.map graph_edge.id).Nodup)
    (hin : rt.gr.in_degree rt.root ≥ 1) (hout : rt.gr.out_degree rt.root ≥ 1)
    (hu : rt.u2e = (rt.gr.in_edges rt.root).map f ++ (rt.gr.out_edges rt.root).map f)
    (hw : ∀ e ∈ rt.gr.in_edges rt.root ++ rt.gr.out_edges rt.root,
      (rt.i2e.get? (f e)).join = some e.id) :
    ∃ rt1, rt.add_single_equation = some rt1 ∧
      rt1.eqns = rt.eqns ++ [equation.mk ((rt.gr.in_edges rt.root).map f)
        ((rt.gr.out_edges rt.root).map f)
        (fdiv |((rt.gr.in_edges rt.root).map graph_edge.weight).sum -
            ((rt.gr.out_edges rt.root).map graph_edge.weight).sum|
          (((rt.gr.in_edges rt.root).map graph_edge.weight).sum +
            ((rt.gr.out_edges rt.root).map graph_edge.weight).sum))] ∧
      rt1.ratio = fdiv |((rt.gr.in_edges rt.root).map graph_edge.weight).sum -
            ((rt.gr.out_edges rt.root).map graph_edge.weight).sum|
          (((rt.gr.in_edges rt.root).map graph_edge.weight).sum +
            ((rt.gr.out_edges rt.root).map graph_edge.weight).sum) ∧
      rt1.status = rt.status := by
  have hweight : ∀ (P : List Nat) (es : List graph_edge),
      (∀ e ∈ es, e ∈ rt.gr.in_edges rt.root ++ rt.gr.out_edges rt.root) →
      P.map rt.u2e.get? = (es.map f).map some →
      P.map rt.edge_weight = (es.map graph_edge.weight).map some := by
    intro P es hes hP
    have h1 : P.map rt.edge_weight =
        (P.map rt.u2e.get?).map (fun o => o.bind (fun k =>
          ((rt.i2e.get? k).join).bind rt.gr.get_edge_weight)) := by
      rw [List.map_map]
      apply List.map_congr_left
      intro i _
      simp only [Function.comp_apply, router.edge_weight]
      cases rt.u2e.get? i with
      | none => rfl
      | some k =>
        simp only [Option.some_bind]
        cases (rt.i2e.get? k).join with
        | none => rfl
        | some e => rfl
    rw [h1, hP, List.map_map, List.map_map, List.map_map]
    apply List.map_congr_left
    intro e he
    have hmem := hes e he
    have hedge : e ∈ rt.gr.edges := by
      rcases List.mem_append.mp hmem with h | h
      · exact (List.mem_filter.mp h).1
      · exact (List.mem_filter.mp h).1
    simp only [Function.comp_apply, Option.some_bind, hw e hmem,
      splice_graph.get_edge_weight, find_edge_of_mem rt.gr hnd e hedge, Option.map_some']
  have hlen1 : rt.gr.in_degree rt.root = ((rt.gr.in_edges rt.root).map f).length := by
    simp [splice_graph.in_degree]
  have hlen2 : rt.gr.degree rt.root = ((rt.gr.in_edges rt.root).map f).length +
      ((rt.gr.out_edges rt.root).map f).length := by
    simp [splice_graph.degree, splice_graph.in_degree, splice_graph.out_degree]
  have hk1 : (List.range (rt.gr.in_degree rt.root)).map rt.u2e.get? =
      ((rt.gr.in_edges rt.root).map f).map some := by
    rw [hu, hlen1]
    exact range_map_get_append_left _ _
  have hk2 : ((List.range (rt.gr.degree rt.root)).drop (rt.gr.in_degree rt.root)).map
      rt.u2e.get? = ((rt.gr.out_edges rt.root).map f).map some := by
    rw [hu, hlen1, hlen2]
    exact range_map_get_append_right _ _
  have hf1 := add_single_equation_fold rt _ _ _ [] 0 hk1
    (hweight _ _ (fun e he => List.mem_append_left _ he) hk1)
  have hf2 := add_single_equation_fold rt _ _ _ [] 0 hk2
    (hweight _ _ (fun e he => List.mem_append_right _ he) hk2)
  have hs1 : ((rt.gr.in_edges rt.root).map f).length ≥ 1 := by rw [← hlen1]; exact hin
  have hs2 : ((rt.gr.out_edges rt.root).map f).length ≥ 1 := by
    simp only [List.length_map]
    exact hout
  unfold router.add_single_equation
  simp only [hf1, hf2, List.nil_append, zero_add, hs1, hs2, not_true_eq_false, if_false]
  exact ⟨_, rfl, rfl, rfl, rfl⟩

/-- The quotient of a non-negative dividend: a finite value when the divisor is not
zero, and otherwise NaN for the dividend zero and the positive infinity for a positive
dividend. -/
theorem fdiv_abs (x y : ℚ) :
    (y ≠ 0 → fdiv |x| y = fdouble.fin (|x| / y)) ∧
    (y = 0 → x = 0 → fdiv |x| y = fdouble.nan) ∧
    (y = 0 → x ≠ 0 → fdiv |x| y = fdouble.pinf) := by
  refine ⟨?_, ?_, ?_⟩
  · intro hy
    unfold fdiv
    rw [if_neg hy]
  · intro hy hx
    unfold fdiv
    rw [if_pos hy, if_pos (by rw [hx]; simp)]
  · intro hy hx
    unfold fdiv
    rw [if_pos hy, if_neg (by simpa using hx), if_pos (abs_pos.mpr hx)]

/-- Claim C22. For a vertex with in-degree at least 1 and out-degree at least 1, one of
them equal to 1, `router::build` emits exactly one equation: its `s` side is the list of
the indices of all in-edges, its `t` side the list of the indices of all out-edges, and
its error, which is also the ratio of the router, is the quotient
`|sum1 - sum2| / (sum1 + sum2)` of `double` values for the total weights `sum1` of the
in-edges and `sum2` of the out-edges; the status is 0. The quotient is the rational
number `|sum1 - sum2| / (sum1 + sum2)` when `sum1 + sum2` is not zero; when it is zero
the method returns all the same, and the quotient is NaN for `sum1 = sum2` and the
positive infinity otherwise. The edges of the graph have distinct descriptors, and every
incident edge has an index in `e2i` that leads back to it in `i2e`. -/
theorem build_single_equation (solve : List (Int × Nat) → List (Int × Nat) → equation)
    (rt : router)
    (hin : rt.gr.in_degree rt.root ≥ 1) (hout : rt.gr.out_degree rt.root ≥ 1)
    (h1 : rt.gr.in_degree rt.root = 1 ∨ rt.gr.out_degree rt.root = 1)
    (hnd : (rt.gr.edges.map graph_edge.id).Nodup)
    (hidx : ∀ e ∈ rt.gr.in_edges rt.root ++ rt.gr.out_edges rt.root,
      ∃ k, mev_find rt.e2i e.id = some k ∧ (rt.i2e.get? k).join = some e.id) :
    ∃ rt1, rt.build solve = some rt1 ∧ rt1.status = 0 ∧
      rt1.eqns = [equation.mk
        ((rt.gr.in_edges rt.root).map (fun e => (e2i_at rt.e2i e.id).2))
        ((rt.gr.out_edges rt.root).map (fun e => (e2i_at rt.e2i e.id).2))
        (fdiv |((rt.gr.in_edges rt.root).map graph_edge.weight).sum -
            ((rt.gr.out_edges rt.root).map graph_edge.weight).sum|
          (((rt.gr.in_edges rt.root).map graph_edge.weight).sum +
            ((rt.gr.out_edges rt.root).map graph_edge.weight).sum))] ∧
      rt1.ratio = fdiv |((rt.gr.in_edges rt.root).map graph_edge.weight).sum -
            ((rt.gr.out_edges rt.root).map graph_edge.weight).sum|
          (((rt.gr.in_edges rt.root).map graph_edge.weight).sum +
            ((rt.gr.out_edges rt.root).map graph_edge.weight).sum) ∧
      (((rt.gr.in_edges rt.root).map graph_edge.weight).sum +
          ((rt.gr.out_edges rt.root).map graph_edge.weight).sum ≠ 0 →
        rt1.ratio = fdouble.fin
          (|((rt.gr.in_edges rt.root).map graph_edge.weight).sum -
              ((rt.gr.out_edges rt.root).map graph_edge.weight).sum| /
            (((rt.gr.in_edges rt.root).map graph_edge.weight).sum +
              ((rt.gr.out_edges rt.root).map graph_edge.weight).sum))) ∧
      (((rt.gr.in_edges rt.root).map graph_edge.weight).sum +
          ((rt.gr.out_edges rt.root).map graph_edge.weight).sum = 0 →
        rt1.ratio =
          if ((rt.gr.in_edges rt.root).map graph_edge.weight).sum =
              ((rt.gr.out_edges rt.root).map graph_edge.weight).sum
          then fdouble.nan else fdouble.pinf) := by
  have hsome : ∀ e ∈ rt.gr.in_edges rt.root ++ rt.gr.out_edges rt.root,
      (mev_find rt.e2i e.id).isSome := by
    intro e he
    obtain ⟨k, hk, _⟩ := hidx e he
    rw [hk]
    rfl
  obtain ⟨he2i, hu2e⟩ := build_indices_u2e
    { rt with eqns := [], ratio := fdouble.fin (-1), status := -1 } hsome
  have hw : ∀ e ∈ rt.gr.in_edges rt.root ++ rt.gr.out_edges rt.root,
      (rt.i2e.get? ((fun e => (e2i_at rt.e2i e.id).2) e)).join = some e.id := by
    intro e he
    obtain ⟨k, hk, hk2⟩ := hidx e he
    simp only [e2i_at, hk, Option.getD_some]
    exact hk2
  obtain ⟨rt1, hr1, hr2, hr3, _⟩ := add_single_equation_spec
    (router.build_indices { rt with eqns := [], ratio := fdouble.fin (-1), status := -1 })
    (fun e => (e2i_at rt.e2i e.id).2) hnd hin hout hu2e hw
  have hq := fdiv_abs
    (((rt.gr.in_edges rt.root).map graph_edge.weight).sum -
      ((rt.gr.out_edges rt.root).map graph_edge.weight).sum)
    (((rt.gr.in_edges rt.root).map graph_edge.weight).sum +
      ((rt.gr.out_edges rt.root).map graph_edge.weight).sum)
  refine ⟨{ rt1 with status := 0 }, ?_, rfl, hr2, hr3, ?_, ?_⟩
  · unfold router.build
    rw [if_neg (not_not.mpr hin), if_neg (not_not.mpr hout)]
    refine (if_pos (show (router.build_indices
      { rt with eqns := [], ratio := fdouble.fin (-1), status := -1 }).gr.in_degree rt.root = 1 ∨
      (router.build_indices
      { rt with eqns := [], ratio := fdouble.fin (-1), status := -1 }).gr.out_degree rt.root = 1
      from h1)).trans ?_
    rw [hr1]
  · intro hne
    exact hr3.trans (hq.1 hne)
  · intro hz
    by_cases heq : ((rt.gr.in_edges rt.root).map graph_edge.weight).sum =
        ((rt.gr.out_edges rt.root).map graph_edge.weight).sum
    · rw [if_pos heq]
      exact hr3.trans (hq.2.1 hz (sub_eq_zero.mpr heq))
    · rw [if_neg heq]
      exact hr3.trans (hq.2.2 hz (sub_ne_zero.mpr heq))

/-- Witness of `build_single_equation` (claim C22): the vertex 1 of a three-vertex graph
with one in-edge of weight 10 and two out-edges of weights 4 and 5 gets the equation
`[0]` against `[1, 2]` with the error `1 / 19`. -/
theorem build_single_equation_witness :
    (fork_router.gr.in_degree fork_router.root ≥ 1 ∧
      fork_router.gr.out_degree fork_router.root ≥ 1 ∧
      (fork_router.gr.in_degree fork_router.root = 1 ∨
        fork_router.gr.out_degree fork_router.root = 1) ∧
      (fork_router.gr.edges.map graph_edge.id).Nodup ∧
      (∀ e ∈ fork_router.gr.in_edges fork_router.root ++
          fork_router.gr.out_edges fork_router.root,
        ∃ k, mev_find fork_router.e2i e.id = some k ∧
          (fork_router.i2e.get? k).join = some e.id)) ∧
    ∃ rt1, fork_router.build solve_first = some rt1 ∧ rt1.status = 0 ∧
      rt1.eqns = [equation.mk [0] [1, 2] (fdouble.fin (1 / 19))] ∧
      rt1.ratio = fdouble.fin (1 / 19) := by
  have hL : fork_router.gr.in_edges fork_router.root ++
      fork_router.gr.out_edges fork_router.root =
      [⟨0, 0, 1, 10, 0, {}⟩, ⟨1, 1, 2, 4, 0, {}⟩, ⟨2, 1, 2, 5, 0, {}⟩] := by
    with_unfolding_all rfl
  have hidx : ∀ e ∈ fork_router.gr.in_edges fork_router.root ++
      fork_router.gr.out_edges fork_router.root,
      ∃ k, mev_find fork_router.e2i e.id = some k ∧
        (fork_router.i2e.get? k).join = some e.id := by
    intro e he
    rw [hL] at he
    simp only [List.mem_cons, List.mem_singleton, List.not_mem_nil, or_false] at he
    rcases he with rfl | rfl | rfl
    · exact ⟨0, by with_unfolding_all rfl, by with_unfolding_all rfl⟩
    · exact ⟨1, by with_unfolding_all rfl, by with_unfolding_all rfl⟩
    · exact ⟨2, by with_unfolding_all rfl, by with_unfolding_all rfl⟩
  obtain ⟨rt1, h1, h2, h3, h4, _, _⟩ := build_single_equation solve_first fork_router
    (by decide) (by decide) (Or.inl (by decide)) (by decide) hidx
  refine ⟨⟨by decide, by decide, Or.inl (by decide), by decide, hidx⟩,
    rt1, h1, h2, ?_, ?_⟩
  · rw [h3]
    with_unfolding_all rfl
  · rw [h4]
    with_unfolding_all rfl

/-- The method `router::build` on a vertex whose edges all have the weight zero: it
returns with the status 0 and one equation, whose error is NaN. -/
theorem build_single_equation_zero :
    (zero_fork_router.build solve_first).map (fun r => (r.status, r.eqns, r.ratio)) =
      some (0, [equation.mk [0] [1, 2] fdouble.nan], fdouble.nan) := by
  with_unfolding_all rfl

/-- The method `build_bipartite_graph` changes the member `ug` only: the graph it builds
has one vertex per entry of `u2e` and one edge per route. -/
theorem build_bipartite_graph_spec (rt rt1 : router)
    (h : rt.build_bipartite_graph = some rt1) :
    rt1 = { rt with ug := rt1.ug } ∧ rt1.ug.n = rt.u2e.length ∧
    rt1.ug.edges.length = rt.routes.length := by
  unfold router.build_bipartite_graph at h
  split at h
  · cases h
  · rename_i ug hf
    cases h
    obtain ⟨h1, h2⟩ := build_bipartite_graph_fold rt rt.routes _ ug hf
    exact ⟨rfl, h1, by simpa using h2⟩

/-- Claim C23. For a vertex with in-degree at least 2 and out-degree at least 2 whose
bipartite route graph on the incident edges `U` has exactly one connected component, the
number of routes is at least `|U| - 1`, and `router::build` returns without a failed
assertion and without an equation: with status 1 when the number of routes is
`|U| - 1`, with status 2 when it is at least `|U|`. -/
theorem build_one_component (solve : List (Int × Nat) → List (Int × Nat) → equation)
    (rt : router) (ug : undirected_graph)
    (hin : rt.gr.in_degree rt.root ≥ 2) (hout : rt.gr.out_degree rt.root ≥ 2)
    (hug : rt.route_graph = some ug)
    (hone : ug.compute_connected_components.length = 1) :
    ug.n = rt.gr.degree rt.root ∧ rt.routes.length + 1 ≥ rt.gr.degree rt.root ∧
    ∃ rt1, rt.build solve = some rt1 ∧ rt1.eqns = [] ∧
      rt1.u2e.length = rt.gr.degree rt.root ∧
      ((rt1.status = 1 ∧ rt.routes.length + 1 = rt.gr.degree rt.root) ∨
        (rt1.status = 2 ∧ rt.routes.length ≥ rt.gr.degree rt.root)) := by
  unfold router.route_graph at hug
  obtain ⟨rtb, hb, hbug⟩ := Option.map_eq_some'.mp hug
  obtain ⟨hfr, hn, he⟩ := build_bipartite_graph_spec _ _ hb
  obtain ⟨_, _, _, hroutes, heqns, _, _, hlen⟩ :=
    build_indices_frame { rt with eqns := [], ratio := fdouble.fin (-1), status := -1 }
  have hn2 : ug.n = rt.gr.degree rt.root := by rw [← hbug, hn]; exact hlen
  have he2 : ug.edges.length = rt.routes.length := by
    rw [← hbug, he]
    exact congrArg List.length hroutes
  have hcount : rt.gr.degree rt.root ≤ 1 + rt.routes.length := by
    have h := components_length_ge ug
    rw [hone, hn2, he2] at h
    exact h
  have hlen2 : rtb.u2e.length = rt.gr.degree rt.root := by rw [hfr]; exact hlen
  have hroutes2 : rtb.routes.length = rt.routes.length := by
    rw [hfr]
    exact congrArg List.length hroutes
  have heqns2 : rtb.eqns = [] := by rw [hfr]; exact heqns
  have hbuild : rt.build solve =
      (if rtb.ug.compute_connected_components.length = 1 then
        (if rtb.routes.length + 1 = rtb.u2e.length then some { rtb with status := 1 }
         else if rtb.routes.length ≥ rtb.u2e.length then some { rtb with status := 2 }
         else none)
       else
        (match rtb.split solve with
         | none => none
         | some r => if r.eqns.length = 2 then some { r with status := 4 } else some r)) := by
    unfold router.build
    rw [if_neg (not_not.mpr (by omega)), if_neg (not_not.mpr (by omega))]
    refine (if_neg (show ¬ ((router.build_indices
      { rt with eqns := [], ratio := fdouble.fin (-1), status := -1 }).gr.in_degree rt.root = 1 ∨
      (router.build_indices
      { rt with eqns := [], ratio := fdouble.fin (-1), status := -1 }).gr.out_degree rt.root = 1)
      from ?_)).trans ?_
    · show ¬ (rt.gr.in_degree rt.root = 1 ∨ rt.gr.out_degree rt.root = 1)
      omega
    · rw [hb]
  refine ⟨hn2, by omega, ?_⟩
  rw [hbuild, hbug, if_pos hone, hroutes2, hlen2]
  by_cases h1 : rt.routes.length + 1 = rt.gr.degree rt.root
  · rw [if_pos h1]
    exact ⟨_, rfl, heqns2, hlen2, Or.inl ⟨rfl, h1⟩⟩
  · have h2 : rt.routes.length ≥ rt.gr.degree rt.root := by omega
    rw [if_neg h1, if_pos h2]
    exact ⟨_, rfl, heqns2, hlen2, Or.inr ⟨rfl, h2⟩⟩

/-- Witness of `build_one_component` (claim C23): two in-edges and two out-edges joined
by the three routes `(0, 2)`, `(0, 3)`, `(1, 3)` form one component of four vertices, and
`build` ends with status 1. -/
theorem build_one_component_witness :
    ((cross_router [(0, 2), (0, 3), (1, 3)]).gr.in_degree
        (cross_router [(0, 2), (0, 3), (1, 3)]).root ≥ 2 ∧
      (cross_router [(0, 2), (0, 3), (1, 3)]).gr.out_degree
        (cross_router [(0, 2), (0, 3), (1, 3)]).root ≥ 2 ∧
      (cross_router [(0, 2), (0, 3), (1, 3)]).route_graph =
        some ⟨4, [(0, 2), (0, 3), (1, 3)]⟩ ∧
      (undirected_graph.mk 4 [(0, 2), (0, 3), (1, 3)]).compute_connected_components.length
        = 1) ∧
    ((undirected_graph.mk 4 [(0, 2), (0, 3), (1, 3)]).n =
        (cross_router [(0, 2), (0, 3), (1, 3)]).gr.degree
          (cross_router [(0, 2), (0, 3), (1, 3)]).root ∧
      (cross_router [(0, 2), (0, 3), (1, 3)]).routes.length + 1 ≥
        (cross_router [(0, 2), (0, 3), (1, 3)]).gr.degree
          (cross_router [(0, 2), (0, 3), (1, 3)]).root ∧
      ∃ rt1, (cross_router [(0, 2), (0, 3), (1, 3)]).build solve_first = some rt1 ∧
        rt1.eqns = [] ∧
        rt1.u2e.length = (cross_router [(0, 2), (0, 3), (1, 3)]).gr.degree
          (cross_router [(0, 2), (0, 3), (1, 3)]).root ∧
        ((rt1.status = 1 ∧ (cross_router [(0, 2), (0, 3), (1, 3)]).routes.length + 1 =
            (cross_router [(0, 2), (0, 3), (1, 3)]).gr.degree
              (cross_router [(0, 2), (0, 3), (1, 3)]).root) ∨
          (rt1.status = 2 ∧ (cross_router [(0, 2), (0, 3), (1, 3)]).routes.length ≥
            (cross_router [(0, 2), (0, 3), (1, 3)]).gr.degree
              (cross_router [(0, 2), (0, 3), (1, 3)]).root))) :=
  ⟨⟨by decide, by decide, by with_unfolding_all rfl, by decide⟩,
    build_one_component solve_first (cross_router [(0, 2), (0, 3), (1, 3)])
      ⟨4, [(0, 2), (0, 3), (1, 3)]⟩ (by decide) (by decide) (by with_unfolding_all rfl)
      (by decide)⟩

/-- A property of the state is kept by a fold over optional states when every step that
succeeds keeps it. -/
theorem foldl_option_invariant {σ α : Type} (f : Option σ → α → Option σ)
    (P : σ → Prop) (hnone : ∀ x, f none x = none)
    (hstep : ∀ s x s1, P s → f (some s) x = some s1 → P s1) (L : List α) :
    ∀ (s s1 : σ), P s → L.foldl f (some s) = some s1 → P s1 := by
  induction L with
  | nil =>
    intro s s1 hP h
    cases h
    exact hP
  | cons x L ih =>
    intro s s1 hP h
    rw [List.foldl_cons] at h
    cases hs : f (some s) x with
    | none =>
      rw [hs] at h
      have hn : ∀ (M : List α), M.foldl f none = none := by
        intro M
        induction M with
        | nil => rfl
        | cons m M ihm => rw [List.foldl_cons, hnone]; exact ihm
      rw [hn] at h
      cases h
    | some s2 =>
      rw [hs] at h
      exact ih s2 s1 (hstep s x s2 hP hs) h

/-- An entry of `u2e` at a position before `a` is among the first `a` entries, one at a
later position is among the others. -/
theorem mem_take_drop_of_get (u2e : List Nat) (a e x : Nat) (h : u2e.get? e = some x) :
    (e < a → x ∈ u2e.take a) ∧ (¬ e < a → x ∈ u2e.drop a) := by
  rw [List.get?_eq_getElem?] at h
  constructor
  · intro he
    refine List.getElem?_mem (?_ : (u2e.take a)[e]? = some x)
    rw [List.getElem?_take, if_pos he]
    exact h
  · intro he
    refine List.getElem?_mem (?_ : (u2e.drop a)[e - a]? = some x)
    rw [List.getElem?_drop]
    have : a + (e - a) = e := by omega
    rw [this]
    exact h

/-- The statement that appends an entry of `u2e` to a side of an equation keeps the
sides within `u2e`. -/
theorem split_push_within (a : Nat) (u2e : List Nat) (eqn : equation) (e : Nat)
    (eqn1 : equation) (hw : eqn.within a u2e)
    (h : split_push a u2e (some eqn) e = some eqn1) :
    eqn1.within a u2e ∧ eqn1.e = eqn.e := by
  unfold split_push at h
  cases hx : u2e.get? e with
  | none =>
    rw [hx] at h
    cases h
  | some x =>
    obtain ⟨h1, h2⟩ := mem_take_drop_of_get u2e a e x hx
    rw [hx] at h
    simp only at h
    split_ifs at h with he
    · cases h
      refine ⟨⟨?_, hw.2⟩, rfl⟩
      intro y hy
      rcases List.mem_append.mp hy with hy | hy
      · exact hw.1 y hy
      · rw [List.mem_singleton.mp hy]
        exact h1 he
    · cases h
      refine ⟨⟨hw.1, ?_⟩, rfl⟩
      intro y hy
      rcases List.mem_append.mp hy with hy | hy
      · exact hw.2 y hy
      · rw [List.mem_singleton.mp hy]
        exact h2 he

/-- The loop over a component that fills the sides of an equation keeps them within
`u2e`, and keeps the error. -/
theorem split_push_fold_within (a : Nat) (u2e : List Nat) (c : List Nat)
    (eqn eqn1 : equation) (hw : eqn.within a u2e)
    (h : c.foldl (split_push a u2e) (some eqn) = some eqn1) :
    eqn1.within a u2e ∧ eqn1.e = eqn.e := by
  have := foldl_option_invariant (split_push a u2e)
    (fun q => q.within a u2e ∧ q.e = eqn.e) (fun x => rfl)
    (fun s x s1 hP hs => by
      obtain ⟨h1, h2⟩ := split_push_within a u2e s x s1 hP.1 hs
      exact ⟨h1, h2.trans hP.2⟩)
    c eqn eqn1 ⟨hw, rfl⟩ h
  exact this

/-- The evaluation of a single component keeps the sides of `eqn0` within `u2e`, and
sides that are empty only when the error is negative. -/
theorem split_single_within (a : Nat) (u2e : List Nat) (vv : List (List Nat)) (den : ℚ)
    (eqn0 : equation) (p : Int × Nat) (eqn1 : equation)
    (hw : eqn0.within a u2e)
    (h : split_single a u2e vv den (some eqn0) p = some eqn1) :
    eqn1.within a u2e := by
  unfold split_single at h
  cases hc : vv.get? p.2 with
  | none =>
    rw [hc] at h
    cases h
  | some s =>
    rw [hc] at h
    simp only at h
    split_ifs at h with h1 h2 h3
    · cases h
      exact hw
    · cases h
      exact hw
    · split at h
      · cases h
      · rename_i eqn hf
        split_ifs at h with h4 h5
        cases h
        exact (split_push_fold_within a u2e s _ eqn1
          ⟨fun x hx => absurd hx (List.not_mem_nil x), fun x hx => absurd hx (List.not_mem_nil x)⟩ hf).1

/-- The loop over a component chosen by `subsetsum4` keeps the sides of `eqn1` within
`u2e`. -/
theorem split_chosen_within (a : Nat) (u2e : List Nat) (vv : List (List Nat))
    (eqn : equation) (k : Nat) (eqn1 : equation) (hw : eqn.within a u2e)
    (h : split_chosen a u2e vv (some eqn) k = some eqn1) :
    eqn1.within a u2e := by
  unfold split_chosen at h
  cases hc : vv.get? k with
  | none =>
    rw [hc] at h
    cases h
  | some c =>
    rw [hc] at h
    simp only at h
    exact (split_push_fold_within a u2e c eqn eqn1 hw h).1

/-- The two candidates of `router::split` have their sides within `u2e`. -/
theorem split_candidates_within (solve : List (Int × Nat) → List (Int × Nat) → equation)
    (rt : router) (eqn0 eqn1 : equation)
    (h : rt.split_candidates solve = some (eqn0, eqn1)) :
    eqn0.within (rt.gr.in_degree rt.root) rt.u2e ∧
    eqn1.within (rt.gr.in_degree rt.root) rt.u2e := by
  have hempty : ∀ (e : fdouble), (equation.mk [] [] e).within (rt.gr.in_degree rt.root) rt.u2e :=
    fun e => ⟨fun x hx => absurd hx (List.not_mem_nil x), fun x hx => absurd hx (List.not_mem_nil x)⟩
  have hsingle : ∀ (L : List (Int × Nat)) (den : ℚ) (q q1 : equation),
      q.within (rt.gr.in_degree rt.root) rt.u2e →
      L.foldl (split_single (rt.gr.in_degree rt.root) rt.u2e
        rt.ug.compute_connected_components den) (some q) = some q1 →
      q1.within (rt.gr.in_degree rt.root) rt.u2e := by
    intro L den q q1 hq hf
    exact foldl_option_invariant _ (fun q => q.within (rt.gr.in_degree rt.root) rt.u2e)
      (fun x => rfl) (fun s x s1 hP hs => split_single_within _ _ _ _ s x s1 hP hs)
      L q q1 hq hf
  have hchosen : ∀ (L : List Nat) (q q1 : equation),
      q.within (rt.gr.in_degree rt.root) rt.u2e →
      L.foldl (split_chosen (rt.gr.in_degree rt.root) rt.u2e
        rt.ug.compute_connected_components) (some q) = some q1 →
      q1.within (rt.gr.in_degree rt.root) rt.u2e := by
    intro L q q1 hq hf
    exact foldl_option_invariant _ (fun q => q.within (rt.gr.in_degree rt.root) rt.u2e)
      (fun x => rfl) (fun s x s1 hP hs => split_chosen_within _ _ _ s x s1 hP hs)
      L q q1 hq hf
  unfold router.split_candidates at h
  simp only at h
  split at h
  · cases h
  · rename_i vw sum1 sum2 _
    split at h
    · rename_i r1 r2 _ _
      split at h
      · cases h
      · rename_i vw1 _
        split at h
        · cases h
        · rename_i ss tt _
          split at h
          · cases h
          · rename_i q0 hq0
            have hw0 : q0.within (rt.gr.in_degree rt.root) rt.u2e := by
              cases hss : ss.foldl (split_single (rt.gr.in_degree rt.root) rt.u2e
                  rt.ug.compute_connected_components (sum1 * r1))
                  (some { s := [], t := [], e := fdouble.fin (-1) }) with
              | none =>
                rw [hss] at hq0
                have hn : ∀ (M : List (Int × Nat)),
                    M.foldl (split_single (rt.gr.in_degree rt.root) rt.u2e
                      rt.ug.compute_connected_components (sum1 * r1)) none = none := by
                  intro M
                  induction M with
                  | nil => rfl
                  | cons m M ihm => rw [List.foldl_cons]; exact ihm
                rw [hn] at hq0
                cases hq0
              | some qs =>
                rw [hss] at hq0
                exact hsingle tt _ qs q0 (hsingle ss _ _ qs (hempty _) hss) hq0
            split_ifs at h with hc hneg
            · cases hcs : (solve ss tt).s.foldl
                  (split_chosen (rt.gr.in_degree rt.root) rt.u2e
                    rt.ug.compute_connected_components)
                  (some { s := [], t := [], e := (solve ss tt).e }) with
              | none =>
                rw [hcs] at h
                have hn : ∀ (M : List Nat),
                    M.foldl (split_chosen (rt.gr.in_degree rt.root) rt.u2e
                      rt.ug.compute_connected_components) none = none := by
                  intro M
                  induction M with
                  | nil => rfl
                  | cons m M ihm => rw [List.foldl_cons]; exact ihm
                rw [hn] at h
                cases h
              | some qs =>
                rw [hcs] at h
                cases hct : (solve ss tt).t.foldl
                    (split_chosen (rt.gr.in_degree rt.root) rt.u2e
                      rt.ug.compute_connected_components) (some qs) with
                | none =>
                  rw [hct] at h
                  cases h
                | some q1 =>
                  rw [hct] at h
                  cases h
                  exact ⟨hw0, hchosen _ qs eqn1 (hchosen _ _ qs (hempty _) hcs) hct⟩
            · cases h
              exact ⟨hw0, hempty _⟩
    · cases h

/-- The loop that fills a side of the complement: of the entries of `u2e` at the given
positions it keeps, in order, those that are not in `s1`. -/
theorem split_complement_spec (u2e s1 : List Nat) (P : List Nat) :
    ∀ (ks l : List Nat), P.map u2e.get? = ks.map some →
      P.foldl
        (fun (st : Option (List Nat)) (i : Nat) =>
          match st, u2e.get? i with
          | some l, some e => if e ∈ s1 then some l else some (l ++ [e])
          | _, _ => none)
        (some l) = some (l ++ ks.filter (fun e => decide (e ∉ s1))) := by
  induction P with
  | nil =>
    intro ks l hk
    cases ks with
    | nil => simp
    | cons k ks => simp at hk
  | cons p P ih =>
    intro ks l hk
    cases ks with
    | nil => simp at hk
    | cons k ks =>
      simp only [List.map_cons, List.cons.injEq] at hk
      rw [List.foldl_cons, hk.1]
      simp only
      by_cases hmem : k ∈ s1
      · rw [if_pos hmem, ih ks l hk.2]
        simp [hmem]
      · rw [if_neg hmem, ih ks _ hk.2]
        simp [hmem]

/-- When `u2e` has one entry per incident edge, the positions of the in-edges read the
first `in_degree` entries and the positions of the out-edges read the others. -/
theorem range_map_get_take_drop (u2e : List Nat) (a d : Nat) (hd : u2e.length = d)
    (ha : a ≤ d) :
    (List.range a).map u2e.get? = (u2e.take a).map some ∧
    ((List.range d).drop a).map u2e.get? = (u2e.drop a).map some := by
  have h1 := range_map_get_append_left (u2e.take a) (u2e.drop a)
  have h2 := range_map_get_append_right (u2e.take a) (u2e.drop a)
  rw [List.take_append_drop] at h1 h2
  have hl1 : (u2e.take a).length = a := by rw [List.length_take]; omega
  have hl2 : (u2e.take a).length + (u2e.drop a).length = d := by
    rw [List.length_take, List.length_drop]; omega
  rw [hl1] at h1
  rw [hl2, hl1] at h2
  exact ⟨h1, h2⟩

/-- The last part of `router::split` either leaves the router as it is, or appends one
of the candidates and its complement, both with the error of the candidate, which
becomes the ratio; the four sides are then not empty. -/
theorem split_emit_spec (rt : router) (eqn0 eqn1 : equation) (rt1 : router)
    (hu : rt.u2e.length = rt.gr.degree rt.root)
    (h : rt.split_emit eqn0 eqn1 = some rt1) :
    rt1 = rt ∨
    ∃ eqn2, (eqn2 = eqn0 ∨ eqn2 = eqn1) ∧ eqn2.s ≠ [] ∧ eqn2.t ≠ [] ∧
      (rt.u2e.take (rt.gr.in_degree rt.root)).filter (fun e => decide (e ∉ eqn2.s)) ≠ [] ∧
      (rt.u2e.drop (rt.gr.in_degree rt.root)).filter (fun e => decide (e ∉ eqn2.t)) ≠ [] ∧
      rt1 = { rt with
        ratio := eqn2.e,
        eqns := rt.eqns ++ [eqn2,
          equation.mk
            ((rt.u2e.take (rt.gr.in_degree rt.root)).filter (fun e => decide (e ∉ eqn2.s)))
            ((rt.u2e.drop (rt.gr.in_degree rt.root)).filter (fun e => decide (e ∉ eqn2.t)))
            eqn2.e] } := by
  obtain ⟨hr1, hr2⟩ := range_map_get_take_drop rt.u2e (rt.gr.in_degree rt.root)
    (rt.gr.degree rt.root) hu (by unfold splice_graph.degree; omega)
  have hc1 : ∀ s1, split_complement rt.u2e s1 (List.range (rt.gr.in_degree rt.root)) =
      some ((rt.u2e.take (rt.gr.in_degree rt.root)).filter (fun e => decide (e ∉ s1))) := by
    intro s1
    unfold split_complement
    rw [split_complement_spec rt.u2e s1 _ _ [] hr1]
    rfl
  have hc2 : ∀ s1, split_complement rt.u2e s1
      ((List.range (rt.gr.degree rt.root)).drop (rt.gr.in_degree rt.root)) =
      some ((rt.u2e.drop (rt.gr.in_degree rt.root)).filter (fun e => decide (e ∉ s1))) := by
    intro s1
    unfold split_complement
    rw [split_complement_spec rt.u2e s1 _ _ [] hr2]
    rfl
  have hsel : ∀ (q : equation),
      q = (if eqn1.e.lt (fdouble.fin (-0.5)) = true then eqn0 else if eqn0.e.lt (fdouble.fin (-0.5)) = true then eqn1
        else if eqn0.e.gt eqn1.e = true then eqn1 else eqn0) → q = eqn0 ∨ q = eqn1 := by
    intro q hq
    by_cases c1 : eqn1.e.lt (fdouble.fin (-0.5)) = true
    · rw [if_pos c1] at hq
      exact Or.inl hq
    · by_cases c2 : eqn0.e.lt (fdouble.fin (-0.5)) = true
      · rw [if_neg c1, if_pos c2] at hq
        exact Or.inr hq
      · by_cases c3 : eqn0.e.gt eqn1.e = true
        · rw [if_neg c1, if_neg c2, if_pos c3] at hq
          exact Or.inr hq
        · rw [if_neg c1, if_neg c2, if_neg c3] at hq
          exact Or.inl hq
  unfold router.split_emit at h
  simp only [hc1, hc2] at h
  generalize hq : (if eqn1.e.lt (fdouble.fin (-0.5)) = true then eqn0 else if eqn0.e.lt (fdouble.fin (-0.5)) = true then eqn1
        else if eqn0.e.gt eqn1.e = true then eqn1 else eqn0) = q at h
  by_cases h1 : eqn0.e.lt (fdouble.fin (-0.5)) = true ∧ eqn1.e.lt (fdouble.fin (-0.5)) = true
  · rw [if_pos h1] at h
    exact Or.inl (Option.some.inj h).symm
  · rw [if_neg h1] at h
    by_cases h2 : ¬ (eqn0.e.ge (fdouble.fin 0) = true ∨ eqn1.e.ge (fdouble.fin 0) = true)
    · rw [if_pos h2] at h
      exact Option.noConfusion h
    · rw [if_neg h2] at h
      by_cases h3 : ¬ (q.s.length ≥ 1)
      · rw [if_pos h3] at h
        exact Option.noConfusion h
      · rw [if_neg h3] at h
        by_cases h4 : ¬ (q.t.length ≥ 1)
        · rw [if_pos h4] at h
          exact Option.noConfusion h
        · rw [if_neg h4] at h
          by_cases h5 : ((rt.u2e.take (rt.gr.in_degree rt.root)).filter
              (fun e => decide (e ∉ q.s))).length ≤ 0 ∨
              ((rt.u2e.drop (rt.gr.in_degree rt.root)).filter
              (fun e => decide (e ∉ q.t))).length ≤ 0
          · rw [if_pos h5] at h
            exact Or.inl (Option.some.inj h).symm
          · rw [if_neg h5] at h
            refine Or.inr ⟨q, hsel q hq.symm, ?_, ?_, ?_, ?_, (Option.some.inj h).symm⟩
            · intro hnil
              rw [hnil] at h3
              exact h3 (by simp)
            · intro hnil
              rw [hnil] at h4
              exact h4 (by simp)
            · intro hnil
              rw [hnil] at h5
              exact h5 (Or.inl (by simp))
            · intro hnil
              rw [hnil] at h5
              exact h5 (Or.inr (by simp))

/-- Claim C24. Whenever `router::split` emits equations it emits exactly two, and the
second is the complement of the first: their `s` sides are disjoint and together hold
exactly the indices of the in-edges of the vertex, their `t` sides are disjoint and
together hold exactly the indices of the out-edges, the four sides are not empty, and
the two equations carry the same error, which is the ratio of the router. The member
`u2e` is as `build_indices` leaves it: the indices of the in-edges, then those of the
out-edges. -/
theorem split_complementary (solve : List (Int × Nat) → List (Int × Nat) → equation)
    (rt rt1 : router)
    (hu : rt.u2e = (rt.gr.in_edges rt.root).map (fun e => (e2i_at rt.e2i e.id).2) ++
      (rt.gr.out_edges rt.root).map (fun e => (e2i_at rt.e2i e.id).2))
    (h : rt.split solve = some rt1) (hne : rt1.eqns ≠ rt.eqns) :
    ∃ eqn2 eqn3, rt1.eqns = rt.eqns ++ [eqn2, eqn3] ∧
      (∀ x ∈ eqn2.s, x ∉ eqn3.s) ∧
      (∀ x, x ∈ eqn2.s ∨ x ∈ eqn3.s ↔
        x ∈ (rt.gr.in_edges rt.root).map (fun e => (e2i_at rt.e2i e.id).2)) ∧
      (∀ x ∈ eqn2.t, x ∉ eqn3.t) ∧
      (∀ x, x ∈ eqn2.t ∨ x ∈ eqn3.t ↔
        x ∈ (rt.gr.out_edges rt.root).map (fun e => (e2i_at rt.e2i e.id).2)) ∧
      eqn2.s ≠ [] ∧ eqn2.t ≠ [] ∧ eqn3.s ≠ [] ∧ eqn3.t ≠ [] ∧
      eqn3.e = eqn2.e ∧ rt1.ratio = eqn2.e := by
  have hlen : rt.u2e.length = rt.gr.degree rt.root := by
    rw [hu]
    simp [splice_graph.degree, splice_graph.in_degree, splice_graph.out_degree]
  have htake : rt.u2e.take (rt.gr.in_degree rt.root) =
      (rt.gr.in_edges rt.root).map (fun e => (e2i_at rt.e2i e.id).2) := by
    rw [hu]
    apply List.take_left'
    simp [splice_graph.in_degree]
  have hdrop : rt.u2e.drop (rt.gr.in_degree rt.root) =
      (rt.gr.out_edges rt.root).map (fun e => (e2i_at rt.e2i e.id).2) := by
    rw [hu]
    apply List.drop_left'
    simp [splice_graph.in_degree]
  unfold router.split at h
  split at h
  · cases h
  · rename_i eqn0 eqn1 hcand
    obtain ⟨hw0, hw1⟩ := split_candidates_within solve rt eqn0 eqn1 hcand
    rcases split_emit_spec rt eqn0 eqn1 rt1 hlen h with h1 | ⟨q, hq, hs, ht, hs3, ht3, h1⟩
    · rw [h1] at hne
      exact absurd rfl hne
    · have hw : q.within (rt.gr.in_degree rt.root) rt.u2e := by
        rcases hq with hq | hq
        · rw [hq]; exact hw0
        · rw [hq]; exact hw1
      rw [htake] at hs3 h1
      rw [hdrop] at ht3 h1
      unfold equation.within at hw
      rw [htake, hdrop] at hw
      refine ⟨q, equation.mk
        (((rt.gr.in_edges rt.root).map (fun e => (e2i_at rt.e2i e.id).2)).filter
          (fun e => decide (e ∉ q.s)))
        (((rt.gr.out_edges rt.root).map (fun e => (e2i_at rt.e2i e.id).2)).filter
          (fun e => decide (e ∉ q.t))) q.e,
        by rw [h1], ?_, ?_, ?_, ?_, hs, ht, hs3, ht3, rfl, by rw [h1]⟩
      · intro x hx hx3
        simpa [hx] using (List.mem_filter.mp hx3).2
      · intro x
        constructor
        · rintro (hx | hx)
          · exact hw.1 x hx
          · exact (List.mem_filter.mp hx).1
        · intro hx
          by_cases hxs : x ∈ q.s
          · exact Or.inl hxs
          · exact Or.inr (List.mem_filter.mpr ⟨hx, by simpa using hxs⟩)
      · intro x hx hx3
        simpa [hx] using (List.mem_filter.mp hx3).2
      · intro x
        constructor
        · rintro (hx | hx)
          · exact hw.2 x hx
          · exact (List.mem_filter.mp hx).1
        · intro hx
          by_cases hxs : x ∈ q.t
          · exact Or.inl hxs
          · exact Or.inr (List.mem_filter.mpr ⟨hx, by simpa using hxs⟩)

/-- Witness of `split_complementary` (claim C24): with the routes `(0, 2)` and `(1, 3)`
the two in-edges and the two out-edges of the vertex fall into the components
`[0, 2]` and `[1, 3]`, and `split` emits the equations `[0]` against `[2]` and `[1]`
against `[3]`. -/
theorem split_complementary_witness :
    ((cross_router_built [(0, 2), (1, 3)]).u2e =
        ((cross_router_built [(0, 2), (1, 3)]).gr.in_edges
          (cross_router_built [(0, 2), (1, 3)]).root).map
          (fun e => (e2i_at (cross_router_built [(0, 2), (1, 3)]).e2i e.id).2) ++
        ((cross_router_built [(0, 2), (1, 3)]).gr.out_edges
          (cross_router_built [(0, 2), (1, 3)]).root).map
          (fun e => (e2i_at (cross_router_built [(0, 2), (1, 3)]).e2i e.id).2) ∧
      (cross_router_built [(0, 2), (1, 3)]).split solve_first = some cross_router_split ∧
      cross_router_split.eqns ≠ (cross_router_built [(0, 2), (1, 3)]).eqns ∧
      cross_router_split.eqns = [equation.mk [0] [2] (fdouble.fin 0), equation.mk [1] [3] (fdouble.fin 0)]) ∧
    ∃ eqn2 eqn3,
      cross_router_split.eqns = (cross_router_built [(0, 2), (1, 3)]).eqns ++ [eqn2, eqn3] ∧
      (∀ x ∈ eqn2.s, x ∉ eqn3.s) ∧
      (∀ x, x ∈ eqn2.s ∨ x ∈ eqn3.s ↔
        x ∈ ((cross_router_built [(0, 2), (1, 3)]).gr.in_edges
          (cross_router_built [(0, 2), (1, 3)]).root).map
          (fun e => (e2i_at (cross_router_built [(0, 2), (1, 3)]).e2i e.id).2)) ∧
      (∀ x ∈ eqn2.t, x ∉ eqn3.t) ∧
      (∀ x, x ∈ eqn2.t ∨ x ∈ eqn3.t ↔
        x ∈ ((cross_router_built [(0, 2), (1, 3)]).gr.out_edges
          (cross_router_built [(0, 2), (1, 3)]).root).map
          (fun e => (e2i_at (cross_router_built [(0, 2), (1, 3)]).e2i e.id).2)) ∧
      eqn2.s ≠ [] ∧ eqn2.t ≠ [] ∧ eqn3.s ≠ [] ∧ eqn3.t ≠ [] ∧
      eqn3.e = eqn2.e ∧ cross_router_split.ratio = eqn2.e :=
  ⟨⟨by with_unfolding_all rfl, by with_unfolding_all rfl, by with_unfolding_all decide,
      by with_unfolding_all rfl⟩,
    split_complementary solve_first (cross_router_built [(0, 2), (1, 3)]) cross_router_split
      (by with_unfolding_all rfl) (by with_unfolding_all rfl) (by with_unfolding_all decide)⟩

/-! ## The candidates of `router::split` when `subsetsum4` is not consulted -/

/-- The cases of `build_split_status` on the vertex with the in-edges `0`, `1` and the
out-edges `2`, `3`. With the routes `(0, 2)` and `(1, 3)` the components are `[0, 2]`
and `[1, 3]`; each leaves out an in-edge and an out-edge, and `build` ends with status 4
and two equations. With the route `(0, 2)` the components are `[1]`, `[0, 2]` and `[3]`,
and `build` ends in the same way. With the routes `(0, 2)` and `(0, 3)` the components
are `[1]` and `[0, 2, 3]`; the second holds all the out-edges, and `build` ends with
status `-1` and no equation. -/
theorem build_split_cases :
    ((cross_router [(0, 2), (1, 3)]).build solve_first).map
      (fun r => (r.status, r.eqns)) =
      some (4, [equation.mk [0] [2] (fdouble.fin 0), equation.mk [1] [3] (fdouble.fin 0)]) ∧
    ((cross_router [(0, 2)]).route_graph).map undirected_graph.compute_connected_components =
      some [[1], [0, 2], [3]] ∧
    ((cross_router [(0, 2)]).build solve_first).map (fun r => (r.status, r.eqns)) =
      some (4, [equation.mk [0] [2] (fdouble.fin 0), equation.mk [1] [3] (fdouble.fin 0)]) ∧
    ((cross_router [(0, 2), (0, 3)]).build solve_first).map
      (fun r => (r.status, r.eqns)) = some (-1, []) := by
  refine ⟨by with_unfolding_all rfl, by with_unfolding_all rfl, by with_unfolding_all rfl,
    by with_unfolding_all rfl⟩

/-! ## Splitting an edge (`scallop3::split_edge`), the full state -/

/-- A key that is not in a map is not found. -/
theorem mev_find_none_of_lt {α : Type} (m : List (Nat × α)) (n k : Nat)
    (h : ∀ x ∈ m, x.1 < n) (hk : n ≤ k) : mev_find m k = none := by
  rw [← Option.not_isSome_iff_eq_none, mev_find_isSome_iff]
  rintro ⟨x, hx, hxk⟩
  have := h x hx
  omega

/-- Setting the weight and the standard deviation of the edge just added to a graph with
fresh descriptors. -/
theorem add_edge_set_weight_stddev (g : splice_graph) (hf : g.fresh) (s t : Nat) (w a : ℚ) :
    ((g.add_edge s t).1.set_edge_weight g.next w).set_edge_stddev g.next a =
      splice_graph.mk g.vertices
        (g.edges ++ [{ id := g.next, s := s, t := t, weight := w, stddev := a }])
        (g.next + 1) := by
  unfold splice_graph.add_edge splice_graph.set_edge_weight splice_graph.set_edge_stddev
  simp only [List.map_append, List.map_map, List.map_cons, List.map_nil, Function.comp_apply,
    if_true]
  congr 1
  congr 1
  conv_rhs => rw [← List.map_id g.edges]
  apply List.map_congr_left
  intro x hx
  have hne : x.id ≠ g.next := by
    have := hf x hx
    omega
  simp [hne]

/-- One iteration of the second loop of `split_edge` on an entry `k` that denotes the
edge `x`, in closed form. -/
theorem split_edge_copy_eq (ex s t : Nat) (sc : scallop3) (v : List Nat) (k : Nat)
    (x : graph_edge) (c : List Int)
    (hf : sc.gr.fresh) (he2i : ∀ p ∈ sc.e2i, p.1 < sc.gr.next)
    (hmev : ∀ p ∈ sc.mev, p.1 < sc.gr.next) (hc : mev_find sc.mev ex = some c)
    (hk : sc.edge_at k = some x) :
    split_edge_copy ex s t (some (sc, v)) k =
      some (split_edge_after sc c s t [k] [x], v ++ [sc.i2e.length]) := by
  unfold scallop3.edge_at at hk
  obtain ⟨e, hlive, hfind⟩ := Option.bind_eq_some.1 hk
  have hid : x.id = e := by
    unfold splice_graph.find_edge at hfind
    simpa using List.find?_some hfind
  have hmem : x ∈ sc.gr.edges := List.mem_of_find?_eq_some hfind
  have hlt : e < sc.gr.next := by rw [← hid]; exact hf x hmem
  have f1 : mev_find sc.e2i sc.gr.next = none :=
    mev_find_none_of_lt _ _ _ he2i (le_refl _)
  have hklt : k < sc.i2e.length := by
    by_contra hcon
    unfold scallop3.live_edge at hlive
    rw [List.get?_eq_getElem?, List.getElem?_eq_none (by omega)] at hlive
    cases hlive
  have f2 : ((sc.i2e ++ [some sc.gr.next]).get? k).join = some e := by
    unfold scallop3.live_edge at hlive
    rw [List.get?_eq_getElem?, List.getElem?_append_left hklt, ← List.get?_eq_getElem?]
    exact hlive
  have hne : e ≠ sc.gr.next := by omega
  have f3 : (sc.gr.add_edge s t).1.get_edge_weight e = some x.weight := by
    unfold splice_graph.get_edge_weight
    rw [find_edge_add_edge_ne _ _ _ _ hne, hfind]
    rfl
  have f4 : (sc.gr.add_edge s t).1.get_edge_stddev e = some x.stddev := by
    unfold splice_graph.get_edge_stddev
    rw [find_edge_add_edge_ne _ _ _ _ hne, hfind]
    rfl
  have f5 : mev_insert sc.mev ex [] = sc.mev := by
    unfold mev_insert
    rw [hc]
    rfl
  have f6 : mev_find sc.mev sc.gr.next = none :=
    mev_find_none_of_lt _ _ _ hmev (le_refl _)
  have f7 : mev_insert sc.mev sc.gr.next c = sc.mev ++ [(sc.gr.next, c)] := by
    unfold mev_insert
    rw [f6]
    rfl
  have f8 : mev_insert sc.e2i sc.gr.next sc.i2e.length =
      sc.e2i ++ [(sc.gr.next, sc.i2e.length)] := by
    unfold mev_insert
    rw [f1]
    rfl
  have hnext : (sc.gr.add_edge s t).2 = sc.gr.next := rfl
  unfold split_edge_copy
  simp only [hnext, f1, not_true_eq_false, if_false, f2, f3, f4, f5, f7, f8, hc,
    Option.getD_some, add_edge_set_weight_stddev sc.gr hf]
  rfl

/-- The closed form of the state after the second loop composes: a first entry, then the
others. -/
theorem split_edge_after_cons (sc : scallop3) (c : List Int) (s t : Nat) (k : Nat)
    (x : graph_edge) (ks : List Nat) (xs : List graph_edge) :
    split_edge_after (split_edge_after sc c s t [k] [x]) c s t ks xs =
      split_edge_after sc c s t (k :: ks) (x :: xs) := by
  unfold split_edge_after
  simp only [List.length_cons, List.length_nil, List.length_append, List.length_map,
    List.length_range', List.range'_succ, List.range', List.zip_cons_cons, List.zip_nil_right,
    List.map_cons, List.map_nil, List.append_assoc, List.singleton_append, split_edge_copies,
    split_edge_classes, zero_add]
  congr 2
  omega

/-! ## The disjoint sets -/

/-- A lookup in two maps, one after the other. -/
theorem mev_find_append {α : Type} (m m1 : List (Nat × α)) (z : Nat) :
    mev_find (m ++ m1) z = (mev_find m z).or (mev_find m1 z) := by
  unfold mev_find
  rw [List.find?_append]
  cases List.find? (fun x => decide (x.1 = z)) m <;> rfl

/-- A lookup in a map whose values have been changed by a function of the value. -/
theorem mev_find_map_snd {α : Type} (m : List (Nat × α)) (g : α → α) (z : Nat) :
    mev_find (m.map (fun p => (p.1, g p.2))) z = (mev_find m z).map g := by
  unfold mev_find
  rw [List.find?_map]
  have : ((fun x : Nat × α => decide (x.1 = z)) ∘ fun p : Nat × α => (p.1, g p.2)) =
      fun x => decide (x.1 = z) := by
    funext p
    rfl
  rw [this]
  cases List.find? (fun x => decide (x.1 = z)) m <;> rfl

/-- A search in a filtered list finds what it finds in the list when the filter keeps
whatever the search accepts. -/
theorem find?_filter_of_imp {α : Type} (p q : α → Bool) (l : List α)
    (h : ∀ x, p x = true → q x = true) : (l.filter q).find? p = l.find? p := by
  induction l with
  | nil => rfl
  | cons x l ih =>
    rw [List.filter_cons]
    by_cases hq : q x = true
    · rw [if_pos hq, List.find?_cons, List.find?_cons, ih]
    · have hp : p x = false := by
        cases hpx : p x with
        | false => rfl
        | true => exact absurd (h x hpx) hq
      rw [if_neg hq, List.find?_cons, ih, hp]

/-- A lookup of a key in a map from which another key has been erased. -/
theorem mev_find_filter_ne {α : Type} (m : List (Nat × α)) (n z : Nat) (h : z ≠ n) :
    mev_find (m.filter (fun p => p.1 ≠ n)) z = mev_find m z := by
  unfold mev_find
  rw [find?_filter_of_imp]
  intro x hx
  have hxz : x.1 = z := by simpa using hx
  simpa [hxz] using h

/-- The element erased from a map is not found in it. -/
theorem mev_find_filter_self {α : Type} (m : List (Nat × α)) (n : Nat) :
    mev_find (m.filter (fun p => p.1 ≠ n)) n = none := by
  rw [← Option.not_isSome_iff_eq_none, mev_find_isSome_iff]
  rintro ⟨x, hx, hxk⟩
  have := (List.mem_filter.mp hx).2
  simp [hxk] at this

/-- After `make_set(n)` the class of another element is what it was. -/
theorem find_set_make_set_ne (ds : disjoint_sets) (n z : Nat) (h : z ≠ n) :
    (ds.make_set n).find_set z = ds.find_set z ∧
    ((ds.make_set n).known z ↔ ds.known z) := by
  unfold disjoint_sets.find_set disjoint_sets.known disjoint_sets.make_set
  rw [mev_find_append, mev_find_filter_ne _ _ _ h]
  have : mev_find [(n, n)] z = none := by
    have hnz : ¬ n = z := fun hc => h hc.symm
    unfold mev_find
    simp [hnz]
  rw [this, Option.or_none]
  exact ⟨rfl, Iff.rfl⟩

/-- After `make_set(n)` the element `n` is known and is its own label. -/
theorem find_set_make_set_self (ds : disjoint_sets) (n : Nat) :
    (ds.make_set n).find_set n = n ∧ (ds.make_set n).known n := by
  unfold disjoint_sets.find_set disjoint_sets.known disjoint_sets.make_set
  rw [mev_find_append, mev_find_filter_self]
  have : mev_find [(n, n)] n = some n := by
    unfold mev_find
    simp
  rw [this]
  exact ⟨rfl, rfl⟩

/-- The disjoint sets in which `union_set(x, y)` merges: `x` and `y` have been entered,
each in a class of its own, if they were not known. -/
theorem union_set_eq (ds : disjoint_sets) (x y : Nat) :
    ∃ ds2 : disjoint_sets, ds.union_set x y =
        ds2.map (fun p => (p.1, if p.2 = ds.find_set y then ds.find_set x else p.2)) ∧
      (∀ z, ds.known z ∨ z = x ∨ z = y → mev_find ds2 z = some (ds.find_set z)) ∧
      (∀ z, (mev_find ds2 z).isSome → ds.known z ∨ z = x ∨ z = y) := by
  have hone : ∀ (d : disjoint_sets) (a : Nat),
      (∀ z, d.known z ∨ z = a →
        mev_find (if (mev_find d a).isSome then d else d ++ [(a, a)]) z =
          some (d.find_set z)) ∧
      (∀ z, (mev_find (if (mev_find d a).isSome then d else d ++ [(a, a)]) z).isSome →
        d.known z ∨ z = a) ∧
      (∀ z, disjoint_sets.find_set (if (mev_find d a).isSome then d else d ++ [(a, a)]) z =
        d.find_set z) := by
    intro d a
    by_cases ha : (mev_find d a).isSome
    · rw [if_pos ha]
      refine ⟨?_, fun z hz => Or.inl hz, fun z => rfl⟩
      intro z hz
      have hk : (mev_find d z).isSome := by
        rcases hz with hz | hz
        · exact hz
        · rw [hz]; exact ha
      obtain ⟨l, hl⟩ := Option.isSome_iff_exists.1 hk
      unfold disjoint_sets.find_set
      rw [hl]
      rfl
    · rw [if_neg ha]
      have hsing : ∀ z, mev_find [(a, a)] z = if a = z then some a else none := by
        intro z
        unfold mev_find
        by_cases haz : a = z
        · simp [haz]
        · simp [haz]
      refine ⟨?_, ?_, ?_⟩
      · intro z hz
        rw [mev_find_append]
        cases hl : mev_find d z with
        | some l =>
          unfold disjoint_sets.find_set
          rw [hl]
          rfl
        | none =>
          have hza : z = a := by
            rcases hz with hz | hz
            · unfold disjoint_sets.known at hz
              rw [hl] at hz
              cases hz
            · exact hz
          unfold disjoint_sets.find_set
          rw [hl, hsing, if_pos hza.symm, hza]
          rfl
      · intro z hz
        rw [mev_find_append] at hz
        cases hl : mev_find d z with
        | some l =>
          left
          unfold disjoint_sets.known
          rw [hl]
          rfl
        | none =>
          rw [hl, hsing] at hz
          by_cases haz : a = z
          · exact Or.inr haz.symm
          · rw [if_neg haz] at hz
            cases hz
      · intro z
        unfold disjoint_sets.find_set
        rw [mev_find_append]
        cases hl : mev_find d z with
        | some l => rfl
        | none =>
          rw [hsing]
          by_cases haz : a = z
          · rw [if_pos haz, haz]
            rfl
          · rw [if_neg haz]
            rfl
  obtain ⟨h1a, h1b, h1c⟩ := hone ds x
  obtain ⟨h2a, h2b, h2c⟩ := hone (if (mev_find ds x).isSome then ds else ds ++ [(x, x)]) y
  refine ⟨(if (mev_find (if (mev_find ds x).isSome then ds else ds ++ [(x, x)]) y).isSome
    then (if (mev_find ds x).isSome then ds else ds ++ [(x, x)])
    else (if (mev_find ds x).isSome then ds else ds ++ [(x, x)]) ++ [(y, y)]), ?_, ?_, ?_⟩
  · unfold disjoint_sets.union_set
    simp only
    rw [h2c, h2c, h1c, h1c]
    apply List.map_congr_left
    intro p _
    by_cases hp : p.2 = ds.find_set y
    · rw [if_pos hp, if_pos hp]
    · rw [if_neg hp, if_neg hp]
  · intro z hz
    have hz1 : disjoint_sets.known (if (mev_find ds x).isSome then ds else ds ++ [(x, x)]) z ∨
        z = y := by
      rcases hz with hz | hz | hz
      · left
        unfold disjoint_sets.known
        rw [h1a z (Or.inl hz)]
        rfl
      · left
        unfold disjoint_sets.known
        rw [h1a z (Or.inr hz)]
        rfl
      · exact Or.inr hz
    rw [h2a z hz1, h1c]
  · intro z hz
    rcases h2b z hz with h | h
    · rcases h1b z h with h | h
      · exact Or.inl h
      · exact Or.inr (Or.inl h)
    · exact Or.inr (Or.inr h)

/-- After `union_set(x, y)` an element of the class of `y` is in the class of `x`, and
every other element is in the class it was in; `x`, `y` and the known elements are
known, and no others. -/
theorem find_set_union_set (ds : disjoint_sets) (x y z : Nat)
    (hz : ds.known z ∨ z = x ∨ z = y) :
    (ds.union_set x y).find_set z =
      (if ds.find_set z = ds.find_set y then ds.find_set x else ds.find_set z) ∧
    (ds.union_set x y).known z := by
  obtain ⟨ds2, h1, h2, _⟩ := union_set_eq ds x y
  have hm := mev_find_map_snd ds2
    (fun l => if l = ds.find_set y then ds.find_set x else l) z
  have hfind : mev_find (ds.union_set x y) z =
      some (if ds.find_set z = ds.find_set y then ds.find_set x else ds.find_set z) := by
    rw [h1]
    refine hm.trans ?_
    rw [h2 z hz]
    rfl
  have e1 : (ds.union_set x y).find_set z = (mev_find (ds.union_set x y) z).getD z := rfl
  have e2 : (ds.union_set x y).known z = ((mev_find (ds.union_set x y) z).isSome = true) := rfl
  rw [e1, e2, hfind]
  exact ⟨rfl, rfl⟩

/-- An element known after `union_set(x, y)` was known before, or is `x` or `y`. -/
theorem known_union_set (ds : disjoint_sets) (x y z : Nat)
    (hz : (ds.union_set x y).known z) : ds.known z ∨ z = x ∨ z = y := by
  obtain ⟨ds2, h1, _, h3⟩ := union_set_eq ds x y
  have hm := mev_find_map_snd ds2
    (fun l => if l = ds.find_set y then ds.find_set x else l) z
  have e2 : (ds.union_set x y).known z = ((mev_find (ds.union_set x y) z).isSome = true) := rfl
  rw [e2, h1] at hz
  rw [hm] at hz
  apply h3
  cases h : mev_find ds2 z with
  | none =>
    rw [h] at hz
    cases hz
  | some l => rfl

/-- Two known elements of one class, older than the indices that the second loop of
`split_edge` makes, are in one class after the loop. -/
theorem split_edge_classes_keeps (ks : List Nat) :
    ∀ (ds : disjoint_sets) (n a b : Nat), a < n → b < n → ds.known a → ds.known b →
      ds.find_set a = ds.find_set b →
      (split_edge_classes ds n ks).find_set a = (split_edge_classes ds n ks).find_set b := by
  induction ks with
  | nil => intro ds n a b _ _ _ _ h; exact h
  | cons k ks ih =>
    intro ds n a b ha hb hka hkb h
    unfold split_edge_classes
    have hane : a ≠ n := by omega
    have hbne : b ≠ n := by omega
    obtain ⟨fa, ka⟩ := find_set_make_set_ne ds n a hane
    obtain ⟨fb, kb⟩ := find_set_make_set_ne ds n b hbne
    obtain ⟨ua, ua2⟩ := find_set_union_set (ds.make_set n) n k a (Or.inl (ka.2 hka))
    obtain ⟨ub, ub2⟩ := find_set_union_set (ds.make_set n) n k b (Or.inl (kb.2 hkb))
    apply ih _ (n + 1) a b (by omega) (by omega) ua2 ub2
    rw [ua, ub, fa, fb, h]

/-- After the second loop of `split_edge` each new index is in the class of the entry of
`sub` it was made for. -/
theorem split_edge_classes_pair (ks : List Nat) :
    ∀ (ds : disjoint_sets) (n : Nat), (∀ k ∈ ks, k < n) →
      ∀ (j k : Nat), ks[j]? = some k →
        (split_edge_classes ds n ks).find_set (n + j) =
          (split_edge_classes ds n ks).find_set k := by
  induction ks with
  | nil =>
    intro ds n _ j k hj
    cases hj
  | cons k0 ks ih =>
    intro ds n hlt j k hj
    unfold split_edge_classes
    cases j with
    | zero =>
      simp only [List.getElem?_cons_zero, Option.some.injEq] at hj
      subst hj
      have hk0 : k0 < n := hlt k0 (List.mem_cons_self _ _)
      obtain ⟨un, un2⟩ := find_set_union_set (ds.make_set n) n k0 n (Or.inr (Or.inl rfl))
      obtain ⟨uk, uk2⟩ := find_set_union_set (ds.make_set n) n k0 k0 (Or.inr (Or.inr rfl))
      apply split_edge_classes_keeps ks _ (n + 1) (n + 0) k0 (by omega) (by omega) un2 uk2
      rw [Nat.add_zero, un, uk, if_pos rfl]
      by_cases hc : (ds.make_set n).find_set n = (ds.make_set n).find_set k0
      · rw [if_pos hc]
      · rw [if_neg hc]
    | succ j =>
      simp only [List.getElem?_cons_succ] at hj
      have := ih ((ds.make_set n).union_set n k0) (n + 1)
        (fun k hk => by have := hlt k (List.mem_cons_of_mem _ hk); omega) j k hj
      have e : n + (j + 1) = n + 1 + j := by omega
      rw [e]
      exact this

/-- An index that denotes an edge keeps denoting it after the second loop of
`split_edge`, which appends to `i2e` and to the edges of the graph. -/
theorem edge_at_split_edge_after (sc : scallop3) (c : List Int) (s t : Nat) (ks : List Nat)
    (xs : List graph_edge) (k : Nat) (x : graph_edge) (h : sc.edge_at k = some x) :
    (split_edge_after sc c s t ks xs).edge_at k = some x := by
  unfold scallop3.edge_at at h ⊢
  obtain ⟨e, hlive, hfind⟩ := Option.bind_eq_some.1 h
  have hklt : k < sc.i2e.length := by
    by_contra hcon
    unfold scallop3.live_edge at hlive
    rw [List.get?_eq_getElem?, List.getElem?_eq_none (by omega)] at hlive
    cases hlive
  have h1 : (split_edge_after sc c s t ks xs).live_edge k = some e := by
    unfold scallop3.live_edge at hlive ⊢
    unfold split_edge_after
    simp only
    rw [List.get?_eq_getElem?, List.getElem?_append_left hklt, ← List.get?_eq_getElem?]
    exact hlive
  have h2 : (split_edge_after sc c s t ks xs).gr.find_edge e = some x := by
    unfold splice_graph.find_edge at hfind ⊢
    unfold split_edge_after
    simp only
    rw [List.find?_append, hfind]
    rfl
  rw [h1]
  exact h2

/-- The copies made by the second loop of `split_edge` carry the descriptors from `next`
on. -/
theorem split_edge_copies_ids (s t : Nat) (xs : List graph_edge) :
    ∀ (next : Nat), (split_edge_copies next s t xs).length = xs.length ∧
      ∀ e ∈ split_edge_copies next s t xs, next ≤ e.id ∧ e.id < next + xs.length := by
  induction xs with
  | nil =>
    intro next
    exact ⟨rfl, fun e he => by cases he⟩
  | cons x xs ih =>
    intro next
    obtain ⟨h1, h2⟩ := ih (next + 1)
    unfold split_edge_copies
    refine ⟨by simp [h1], ?_⟩
    intro e he
    rcases List.mem_cons.mp he with he | he
    · rw [he]
      simp
    · have := h2 e he
      simp only [List.length_cons]
      omega

/-- The second loop of `split_edge` over entries that denote the edges `xs` returns the
state in closed form and appends the new indices to `v`. -/
theorem split_edge_copy_fold_eq (ex s t : Nat) (c : List Int) (ks : List Nat) :
    ∀ (sc : scallop3) (v : List Nat) (xs : List graph_edge),
      sc.gr.fresh → (∀ p ∈ sc.e2i, p.1 < sc.gr.next) → (∀ p ∈ sc.mev, p.1 < sc.gr.next) →
      mev_find sc.mev ex = some c → ks.map sc.edge_at = xs.map some →
      ks.foldl (split_edge_copy ex s t) (some (sc, v)) =
        some (split_edge_after sc c s t ks xs, v ++ List.range' sc.i2e.length ks.length) := by
  induction ks with
  | nil =>
    intro sc v xs _ _ _ _ hxs
    cases xs with
    | nil =>
      simp [split_edge_after, split_edge_copies, split_edge_classes]
    | cons x xs => cases hxs
  | cons k ks ih =>
    intro sc v xs hf he2i hmev hc hxs
    cases xs with
    | nil => cases hxs
    | cons x xs =>
      simp only [List.map_cons, List.cons.injEq] at hxs
      rw [List.foldl_cons, split_edge_copy_eq ex s t sc v k x c hf he2i hmev hc hxs.1]
      have hf1 : (split_edge_after sc c s t [k] [x]).gr.fresh := by
        intro e he
        unfold split_edge_after at he ⊢
        simp only [split_edge_copies, List.length_cons, List.length_nil] at he ⊢
        rcases List.mem_append.mp he with he | he
        · have := hf e he
          omega
        · rw [List.mem_singleton.mp he]
          simp
      have he2i1 : ∀ p ∈ (split_edge_after sc c s t [k] [x]).e2i,
          p.1 < (split_edge_after sc c s t [k] [x]).gr.next := by
        intro p hp
        unfold split_edge_after at hp ⊢
        simp only [List.length_cons, List.length_nil, List.range', List.zip_cons_cons,
          List.zip_nil_right] at hp ⊢
        rcases List.mem_append.mp hp with hp | hp
        · have := he2i p hp
          omega
        · rw [List.mem_singleton.mp hp]
          simp
      have hmev1 : ∀ p ∈ (split_edge_after sc c s t [k] [x]).mev,
          p.1 < (split_edge_after sc c s t [k] [x]).gr.next := by
        intro p hp
        unfold split_edge_after at hp ⊢
        simp only [List.length_cons, List.length_nil, List.range', List.map_cons,
          List.map_nil] at hp ⊢
        rcases List.mem_append.mp hp with hp | hp
        · have := hmev p hp
          omega
        · rw [List.mem_singleton.mp hp]
          simp
      have hc1 : mev_find (split_edge_after sc c s t [k] [x]).mev ex = some c := by
        unfold split_edge_after
        simp only
        rw [mev_find_append, hc]
        rfl
      have hxs1 : ks.map (split_edge_after sc c s t [k] [x]).edge_at = xs.map some := by
        rw [← hxs.2]
        apply List.map_congr_left
        intro k1 hk1
        have hsome : ∃ x1, sc.edge_at k1 = some x1 := by
          have hmem : sc.edge_at k1 ∈ ks.map sc.edge_at := List.mem_map_of_mem _ hk1
          rw [hxs.2] at hmem
          obtain ⟨x1, _, hx1⟩ := List.mem_map.mp hmem
          exact ⟨x1, hx1.symm⟩
        obtain ⟨x1, hx1⟩ := hsome
        rw [hx1]
        exact edge_at_split_edge_after sc c s t [k] [x] k1 x1 hx1
      rw [ih _ _ xs hf1 he2i1 hmev1 hc1 hxs1, split_edge_after_cons]
      have hlen : (split_edge_after sc c s t [k] [x]).i2e.length = sc.i2e.length + 1 := by
        unfold split_edge_after
        simp
      rw [hlen, List.length_cons, List.range'_succ, List.append_assoc]
      rfl

/-- An index that denotes an edge is an index of `i2e`, its entry is the descriptor of
the edge, and the edge is in the graph under that descriptor. -/
theorem edge_at_some (sc : scallop3) (k : Nat) (x : graph_edge) (h : sc.edge_at k = some x) :
    sc.live_edge k = some x.id ∧ sc.gr.find_edge x.id = some x ∧ k < sc.i2e.length ∧
    x ∈ sc.gr.edges := by
  unfold scallop3.edge_at at h
  obtain ⟨e, hlive, hfind⟩ := Option.bind_eq_some.1 h
  have hid : x.id = e := by
    unfold splice_graph.find_edge at hfind
    simpa using List.find?_some hfind
  have hklt : k < sc.i2e.length := by
    by_contra hcon
    unfold scallop3.live_edge at hlive
    rw [List.get?_eq_getElem?, List.getElem?_eq_none (by omega)] at hlive
    cases hlive
  rw [hid]
  exact ⟨hlive, hfind, hklt, List.mem_of_find?_eq_some hfind⟩

/-- The copy made for the entry at position `j` is found under the descriptor
`next + j`. -/
theorem find_split_edge_copies (s t : Nat) (xs : List graph_edge) :
    ∀ (next j : Nat) (xj : graph_edge), xs[j]? = some xj →
      (split_edge_copies next s t xs).find? (fun e => e.id = next + j) =
        some { id := next + j, s := s, t := t, weight := xj.weight, stddev := xj.stddev } := by
  induction xs with
  | nil =>
    intro next j xj h
    cases h
  | cons x xs ih =>
    intro next j xj h
    unfold split_edge_copies
    cases j with
    | zero =>
      simp only [List.getElem?_cons_zero, Option.some.injEq] at h
      subst h
      simp
    | succ j =>
      simp only [List.getElem?_cons_succ] at h
      have hne : ¬ next = next + (j + 1) := by omega
      rw [List.find?_cons]
      simp only [hne, decide_False]
      have e : next + (j + 1) = next + 1 + j := by omega
      rw [e]
      exact ih (next + 1) j xj h

/-- The chain entered for the descriptor `next + j` by the second loop of `split_edge`. -/
theorem mev_find_range_map {α : Type} (c : α) (len : Nat) :
    ∀ (next j : Nat), j < len →
      mev_find ((List.range' next len).map (fun p => (p, c))) (next + j) = some c := by
  induction len with
  | zero =>
    intro next j h
    omega
  | succ len ih =>
    intro next j h
    rw [List.range'_succ, List.map_cons]
    cases j with
    | zero =>
      unfold mev_find
      simp
    | succ j =>
      have hne : ¬ next = next + (j + 1) := by omega
      have e : next + (j + 1) = next + 1 + j := by omega
      have := ih (next + 1) j (by omega)
      unfold mev_find at this ⊢
      rw [List.find?_cons]
      simp only [hne, decide_False]
      rw [e]
      exact this

/-- The method `split_edge(ei, sub)` on a live edge `ei` and live entries of `sub` that
meet the precondition on the weights: the state before the second loop, followed by the
second loop over the entries after the first. -/
theorem split_edge_eq (SMIN : ℚ) (sc : scallop3) (ei k0 : Nat) (ks : List Nat)
    (exo x0 : graph_edge) (xr : List graph_edge)
    (hei : sc.edge_at ei = some exo)
    (hsub : (k0 :: ks).map sc.edge_at = (x0 :: xr).map some)
    (hw : |exo.weight - ((x0 :: xr).map graph_edge.weight).sum| ≤ SMIN) :
    sc.split_edge SMIN ei (k0 :: ks) =
      ks.foldl (split_edge_copy exo.id exo.s exo.t)
        (some (split_edge_first sc ei exo.id k0 x0.weight x0.stddev, [ei])) := by
  obtain ⟨hlive, hfind, _, _⟩ := edge_at_some sc ei exo hei
  have hk0 : sc.edge_at k0 = some x0 := by
    simp only [List.map_cons, List.cons.injEq] at hsub
    exact hsub.1
  obtain ⟨hlive0, hfind0, _, _⟩ := edge_at_some sc k0 x0 hk0
  have hall : (k0 :: ks).all (fun k => (sc.live_edge k).isSome) = true := by
    rw [List.all_eq_true]
    intro k hk
    have hmem : sc.edge_at k ∈ (k0 :: ks).map sc.edge_at := List.mem_map_of_mem _ hk
    rw [hsub] at hmem
    obtain ⟨x1, _, hx1⟩ := List.mem_map.mp hmem
    rw [(edge_at_some sc k x1 hx1.symm).1]
    rfl
  have hweights : (k0 :: ks).map sc.edge_weight =
      ((x0 :: xr).map graph_edge.weight).map some := by
    have : (k0 :: ks).map sc.edge_weight =
        ((k0 :: ks).map sc.edge_at).map (fun o => o.map graph_edge.weight) := by
      rw [List.map_map]
      apply List.map_congr_left
      intro k _
      simp only [Function.comp_apply, scallop3.edge_weight, scallop3.edge_at,
        splice_graph.get_edge_weight]
      cases sc.live_edge k with
      | none => rfl
      | some e => rfl
    rw [this, hsub, List.map_map, List.map_map]
    rfl
  have hres := split_edge_residual_fold sc (k0 :: ks) _ exo.weight hweights
  have hgw : sc.gr.get_edge_weight exo.id = some exo.weight := by
    unfold splice_graph.get_edge_weight
    rw [hfind]
    rfl
  have hgw0 : sc.gr.get_edge_weight x0.id = some x0.weight := by
    unfold splice_graph.get_edge_weight
    rw [hfind0]
    rfl
  have hgs0 : sc.gr.get_edge_stddev x0.id = some x0.stddev := by
    unfold splice_graph.get_edge_stddev
    rw [hfind0]
    rfl
  unfold scallop3.split_edge
  simp only [hlive, hall, hgw, hres, List.head?_cons, hw, hlive0, hgw0, hgs0, hfind,
    List.length_cons, List.tail_cons, List.nil_append, not_true_eq_false, if_false,
    ge_iff_le, Nat.le_add_left]
  rfl

/-- The edges of the graph before the second loop of `split_edge`: those of the graph,
the ones with the descriptor `ex` carrying the new weight and standard deviation. -/
theorem split_edge_first_edges (sc : scallop3) (ei ex k0 : Nat) (w0 w1 : ℚ) :
    (split_edge_first sc ei ex k0 w0 w1).gr.edges =
      sc.gr.edges.map (fun x =>
        if x.id = ex then { x with weight := w0, stddev := w1 } else x) ∧
    (split_edge_first sc ei ex k0 w0 w1).gr.next = sc.gr.next ∧
    ((split_edge_first sc ei ex k0 w0 w1).gr.fresh ↔ sc.gr.fresh) ∧
    ∀ e, (split_edge_first sc ei ex k0 w0 w1).gr.find_edge e =
      (sc.gr.find_edge e).map (fun x =>
        if x.id = ex then { x with weight := w0, stddev := w1 } else x) := by
  have h1 : (split_edge_first sc ei ex k0 w0 w1).gr.edges =
      sc.gr.edges.map (fun x =>
        if x.id = ex then { x with weight := w0, stddev := w1 } else x) := by
    unfold split_edge_first splice_graph.set_edge_weight splice_graph.set_edge_stddev
    simp only [List.map_map]
    apply List.map_congr_left
    intro x _
    simp only [Function.comp_apply]
    by_cases hx : x.id = ex
    · simp [hx]
    · simp [hx]
  refine ⟨h1, rfl, ?_, ?_⟩
  · unfold splice_graph.fresh
    rw [h1]
    have hn : (split_edge_first sc ei ex k0 w0 w1).gr.next = sc.gr.next := rfl
    rw [hn]
    constructor
    · intro h e he
      have := h _ (List.mem_map_of_mem
        (fun x : graph_edge => if x.id = ex then { x with weight := w0, stddev := w1 } else x) he)
      by_cases hx : e.id = ex
      · simpa [hx] using this
      · simpa [hx] using this
    · intro h e he
      obtain ⟨x, hx, hxe⟩ := List.mem_map.mp he
      have := h x hx
      rw [← hxe]
      by_cases hxx : x.id = ex
      · simpa [hxx] using this
      · simpa [hxx] using this
  · intro e
    unfold splice_graph.find_edge
    rw [h1, List.find?_map]
    congr 2
    funext x
    simp only [Function.comp_apply]
    by_cases hx : x.id = ex
    · simp [hx]
    · simp [hx]

/-- Claim C26. For a live edge `ei` and a non-empty list `sub` of `k` live edges distinct
from the edge of `ei`, with the precondition on the weights, `split_edge(ei, sub)`
returns a list `v` of `k` indices: `v[0] = ei`, followed by the `k - 1` new indices
`i2e.size()`, `i2e.size() + 1`, ..., whose entries of `i2e` are new edges. The edge of
every `v[i]` has the source, the target and the super-edge chain of `ei`, the weight and
the standard deviation of `sub[i]`, and `v[i]` is in the disjoint-set class of `sub[i]`.
The graph gains exactly `k - 1` edges, and every edge other than that of `ei` is
unchanged, with its chain. Descriptors are fresh, and `e2i` and `mev` hold no key for a
descriptor not yet handed out. -/
theorem split_edge_spec (SMIN : ℚ) (sc : scallop3) (ei : Nat) (sub : List Nat)
    (exo : graph_edge) (c : List Int) (xs : List graph_edge)
    (hf : sc.gr.fresh) (he2i : ∀ p ∈ sc.e2i, p.1 < sc.gr.next)
    (hmev : ∀ p ∈ sc.mev, p.1 < sc.gr.next)
    (hei : sc.edge_at ei = some exo) (hc : mev_find sc.mev exo.id = some c)
    (hne : sub ≠ []) (hsub : sub.map sc.edge_at = xs.map some)
    (hdist : ∀ k ∈ sub, sc.live_edge k ≠ some exo.id)
    (hw : |exo.weight - (xs.map graph_edge.weight).sum| ≤ SMIN) :
    ∃ sc1 v, sc.split_edge SMIN ei sub = some (sc1, v) ∧
      v = ei :: List.range' sc.i2e.length (sub.length - 1) ∧
      sc1.i2e = sc.i2e ++ (List.range' sc.gr.next (sub.length - 1)).map some ∧
      (∀ (i vi ki : Nat) (xi : graph_edge),
        v[i]? = some vi → sub[i]? = some ki → xs[i]? = some xi →
        ∃ y, sc1.edge_at vi = some y ∧ y.s = exo.s ∧ y.t = exo.t ∧
          y.weight = xi.weight ∧ y.stddev = xi.stddev ∧
          mev_find sc1.mev y.id = some c ∧ sc1.ds.find_set vi = sc1.ds.find_set ki) ∧
      sc1.gr.edges.length = sc.gr.edges.length + (sub.length - 1) ∧
      (∀ e : graph_edge, e.id ≠ exo.id →
        (e ∈ sc1.gr.edges ∧ e.id < sc.gr.next ↔ e ∈ sc.gr.edges)) ∧
      (∀ e, e < sc.gr.next → mev_find sc1.mev e = mev_find sc.mev e) := by
  cases sub with
  | nil => exact absurd rfl hne
  | cons k0 ks =>
    cases xs with
    | nil => cases hsub
    | cons x0 xr =>
      have hsub0 := hsub
      simp only [List.map_cons, List.cons.injEq] at hsub0
      obtain ⟨hk0, hks⟩ := hsub0
      have hlenr : xr.length = ks.length := by
        have := congrArg List.length hks
        simpa using this.symm
      obtain ⟨hlive, hfind, heilt, hexo⟩ := edge_at_some sc ei exo hei
      obtain ⟨hlive0, hfind0, hk0lt, _⟩ := edge_at_some sc k0 x0 hk0
      obtain ⟨hedges0, hnext0, hfresh0, hfind1⟩ :=
        split_edge_first_edges sc ei exo.id k0 x0.weight x0.stddev
      have hf0 : (split_edge_first sc ei exo.id k0 x0.weight x0.stddev).gr.fresh :=
        hfresh0.2 hf
      have hkeep : ∀ k x, sc.edge_at k = some x → sc.live_edge k ≠ some exo.id →
          (split_edge_first sc ei exo.id k0 x0.weight x0.stddev).edge_at k = some x := by
        intro k x hkx hkne
        obtain ⟨hl, hfi, _, _⟩ := edge_at_some sc k x hkx
        have hxid : x.id ≠ exo.id := by
          intro hcon
          rw [hcon] at hl
          exact hkne hl
        have hl0 : (split_edge_first sc ei exo.id k0 x0.weight x0.stddev).live_edge k =
            some x.id := hl
        unfold scallop3.edge_at
        rw [hl0, Option.some_bind, hfind1, hfi, Option.map_some', if_neg hxid]
      have hks0 : ks.map (split_edge_first sc ei exo.id k0 x0.weight x0.stddev).edge_at =
          xr.map some := by
        rw [← hks]
        apply List.map_congr_left
        intro k1 hk1
        have hmem : sc.edge_at k1 ∈ ks.map sc.edge_at := List.mem_map_of_mem _ hk1
        rw [hks] at hmem
        obtain ⟨x1, _, hx1⟩ := List.mem_map.mp hmem
        rw [← hx1]
        exact hkeep k1 x1 hx1.symm (hdist k1 (List.mem_cons_of_mem _ hk1))
      have hfold := split_edge_copy_fold_eq exo.id exo.s exo.t c ks
        (split_edge_first sc ei exo.id k0 x0.weight x0.stddev) [ei] xr hf0 he2i hmev hc hks0
      have hei0 : (split_edge_first sc ei exo.id k0 x0.weight x0.stddev).edge_at ei =
          some { exo with weight := x0.weight, stddev := x0.stddev } := by
        have hl0 : (split_edge_first sc ei exo.id k0 x0.weight x0.stddev).live_edge ei =
            some exo.id := hlive
        unfold scallop3.edge_at
        rw [hl0, Option.some_bind, hfind1, hfind, Option.map_some', if_pos rfl]
      have hkslt : ∀ k ∈ ks, k < sc.i2e.length := by
        intro k1 hk1
        have hmem : sc.edge_at k1 ∈ ks.map sc.edge_at := List.mem_map_of_mem _ hk1
        rw [hks] at hmem
        obtain ⟨x1, _, hx1⟩ := List.mem_map.mp hmem
        exact (edge_at_some sc k1 x1 hx1.symm).2.2.1
      refine ⟨split_edge_after (split_edge_first sc ei exo.id k0 x0.weight x0.stddev) c
        exo.s exo.t ks xr, [ei] ++ List.range' sc.i2e.length ks.length, ?_, ?_, ?_, ?_, ?_, ?_,
        ?_⟩
      · rw [split_edge_eq SMIN sc ei k0 ks exo x0 xr hei hsub hw]
        exact hfold
      · simp
      · have hi2e : (split_edge_after
            (split_edge_first sc ei exo.id k0 x0.weight x0.stddev) c exo.s exo.t ks
            xr).i2e = sc.i2e ++ (List.range' sc.gr.next xr.length).map some := rfl
        rw [hi2e, hlenr]
        simp
      · intro i vi ki xi hvi hki hxi
        cases i with
        | zero =>
          simp only [List.singleton_append, List.getElem?_cons_zero,
            Option.some.injEq] at hvi hki hxi
          subst hvi
          subst hki
          subst hxi
          refine ⟨{ exo with weight := x0.weight, stddev := x0.stddev },
            edge_at_split_edge_after _ c exo.s exo.t ks xr ei _ hei0, rfl, rfl, rfl, rfl, ?_, ?_⟩
          · unfold split_edge_after split_edge_first
            simp only
            rw [mev_find_append, hc]
            rfl
          · obtain ⟨u1, u2⟩ := find_set_union_set sc.ds ei k0 ei (Or.inr (Or.inl rfl))
            obtain ⟨u3, u4⟩ := find_set_union_set sc.ds ei k0 k0 (Or.inr (Or.inr rfl))
            apply split_edge_classes_keeps ks _ sc.i2e.length ei k0 heilt hk0lt u2 u4
            rw [u1, u3, if_pos rfl]
            by_cases hcl : sc.ds.find_set ei = sc.ds.find_set k0
            · rw [if_pos hcl]
            · rw [if_neg hcl]
        | succ j =>
          simp only [List.singleton_append, List.getElem?_cons_succ] at hvi hki hxi
          have hj : j < ks.length := by
            by_contra hcon
            rw [List.getElem?_eq_none (by omega)] at hki
            cases hki
          rw [List.getElem?_range' _ _ hj, Nat.one_mul] at hvi
          have hvi2 : vi = sc.i2e.length + j := (Option.some.inj hvi).symm
          subst hvi2
          have hlive1 : (split_edge_after
              (split_edge_first sc ei exo.id k0 x0.weight x0.stddev) c exo.s exo.t ks
              xr).live_edge (sc.i2e.length + j) = some (sc.gr.next + j) := by
            unfold scallop3.live_edge split_edge_after split_edge_first
            simp only
            rw [List.get?_eq_getElem?, List.getElem?_append_right (by omega)]
            simp only [Nat.add_sub_cancel_left, List.getElem?_map]
            rw [List.getElem?_range' _ _ (by omega), Nat.one_mul]
            rfl
          have hfind2 : (split_edge_after
              (split_edge_first sc ei exo.id k0 x0.weight x0.stddev) c exo.s exo.t ks
              xr).gr.find_edge (sc.gr.next + j) =
              some { id := sc.gr.next + j, s := exo.s, t := exo.t, weight := xi.weight,
                     stddev := xi.stddev } := by
            unfold splice_graph.find_edge
            have hed : (split_edge_after
                (split_edge_first sc ei exo.id k0 x0.weight x0.stddev) c exo.s exo.t ks
                xr).gr.edges =
                (split_edge_first sc ei exo.id k0 x0.weight x0.stddev).gr.edges ++
                  split_edge_copies sc.gr.next exo.s exo.t xr := rfl
            rw [hed, List.find?_append]
            have hnone : List.find? (fun x => decide (x.id = sc.gr.next + j))
                (split_edge_first sc ei exo.id k0 x0.weight x0.stddev).gr.edges = none := by
              rw [List.find?_eq_none]
              intro x hx
              have := hf0 x hx
              rw [hnext0] at this
              simp only [decide_eq_true_eq]
              omega
            rw [hnone, Option.none_or]
            exact find_split_edge_copies exo.s exo.t xr sc.gr.next j xi hxi
          refine ⟨graph_edge.mk (sc.gr.next + j) exo.s exo.t xi.weight xi.stddev {},
            ?_, rfl, rfl, rfl, rfl, ?_, ?_⟩
          · unfold scallop3.edge_at
            rw [hlive1, Option.some_bind]
            exact hfind2
          · have hm : (split_edge_after
                (split_edge_first sc ei exo.id k0 x0.weight x0.stddev) c exo.s exo.t ks
                xr).mev = sc.mev ++
                (List.range' sc.gr.next xr.length).map (fun p => (p, c)) := rfl
            rw [hm, mev_find_append, mev_find_none_of_lt sc.mev sc.gr.next _ hmev
              (Nat.le_add_right _ _), Option.none_or]
            exact mev_find_range_map c xr.length sc.gr.next j (by omega)
          · exact split_edge_classes_pair ks _ sc.i2e.length hkslt j ki hki
      · unfold split_edge_after
        simp only [List.length_append, (split_edge_copies_ids _ _ _ _).1, hedges0,
          List.length_map, List.length_cons, Nat.add_sub_cancel, hlenr]
      · intro e hne1
        have hed : (split_edge_after
            (split_edge_first sc ei exo.id k0 x0.weight x0.stddev) c exo.s exo.t ks
            xr).gr.edges =
            (split_edge_first sc ei exo.id k0 x0.weight x0.stddev).gr.edges ++
              split_edge_copies sc.gr.next exo.s exo.t xr := rfl
        rw [hed, hedges0]
        constructor
        · rintro ⟨hmem, hlt⟩
          rcases List.mem_append.mp hmem with hm | hm
          · obtain ⟨x, hx, hxe⟩ := List.mem_map.mp hm
            by_cases hxid : x.id = exo.id
            · rw [if_pos hxid] at hxe
              exact absurd (by rw [← hxe]; exact hxid) hne1
            · rw [if_neg hxid] at hxe
              rw [← hxe]
              exact hx
          · have := ((split_edge_copies_ids exo.s exo.t xr sc.gr.next).2 e hm).1
            omega
        · intro hmem
          refine ⟨List.mem_append_left _ (List.mem_map.mpr ⟨e, hmem, by rw [if_neg hne1]⟩),
            hf e hmem⟩
      · intro e helt
        have hm : (split_edge_after
            (split_edge_first sc ei exo.id k0 x0.weight x0.stddev) c exo.s exo.t ks
            xr).mev = sc.mev ++
            (List.range' sc.gr.next xr.length).map (fun p => (p, c)) := rfl
        rw [hm, mev_find_append]
        have hnone : mev_find ((List.range' sc.gr.next xr.length).map (fun p => (p, c))) e =
            none := by
          rw [← Option.not_isSome_iff_eq_none, mev_find_isSome_iff]
          rintro ⟨x, hx, hxk⟩
          obtain ⟨p, hp, hpx⟩ := List.mem_map.mp hx
          obtain ⟨i, _, hi⟩ := List.mem_range'.mp hp
          rw [← hpx] at hxk
          simp only at hxk
          omega
        rw [hnone, Option.or_none]

/-- Witness of `split_edge_spec` (claim C26): of three parallel edges `0 -> 1` with the
weights `5`, `2`, `1`, the edge `0` is split along `sub = [1, 2, 1]`, whose weights sum
to `5`. -/
theorem split_edge_spec_witness :
    (three_edge_state.gr.fresh ∧
      (∀ p ∈ three_edge_state.e2i, p.1 < three_edge_state.gr.next) ∧
      (∀ p ∈ three_edge_state.mev, p.1 < three_edge_state.gr.next) ∧
      three_edge_state.edge_at 0 = some (graph_edge.mk 0 0 1 5 0 {}) ∧
      mev_find three_edge_state.mev (graph_edge.mk 0 0 1 5 0 {}).id = some [] ∧
      ([1, 2, 1] : List Nat) ≠ [] ∧
      ([1, 2, 1] : List Nat).map three_edge_state.edge_at =
        [graph_edge.mk 1 0 1 2 0 {}, graph_edge.mk 2 0 1 1 0 {},
          graph_edge.mk 1 0 1 2 0 {}].map some ∧
      (∀ k ∈ ([1, 2, 1] : List Nat),
        three_edge_state.live_edge k ≠ some (graph_edge.mk 0 0 1 5 0 {}).id) ∧
      |(graph_edge.mk 0 0 1 5 0 {}).weight -
        ([graph_edge.mk 1 0 1 2 0 {}, graph_edge.mk 2 0 1 1 0 {},
          graph_edge.mk 1 0 1 2 0 {}].map graph_edge.weight).sum| ≤ 0) ∧
    ∃ sc1 v, three_edge_state.split_edge 0 0 [1, 2, 1] = some (sc1, v) ∧
      v = 0 :: List.range' three_edge_state.i2e.length (([1, 2, 1] : List Nat).length - 1) ∧
      sc1.i2e = three_edge_state.i2e ++
        (List.range' three_edge_state.gr.next (([1, 2, 1] : List Nat).length - 1)).map some ∧
      (∀ (i vi ki : Nat) (xi : graph_edge),
        v[i]? = some vi → ([1, 2, 1] : List Nat)[i]? = some ki →
        [graph_edge.mk 1 0 1 2 0 {}, graph_edge.mk 2 0 1 1 0 {},
          graph_edge.mk 1 0 1 2 0 {}][i]? = some xi →
        ∃ y, sc1.edge_at vi = some y ∧ y.s = (graph_edge.mk 0 0 1 5 0 {}).s ∧
          y.t = (graph_edge.mk 0 0 1 5 0 {}).t ∧
          y.weight = xi.weight ∧ y.stddev = xi.stddev ∧
          mev_find sc1.mev y.id = some [] ∧ sc1.ds.find_set vi = sc1.ds.find_set ki) ∧
      sc1.gr.edges.length =
        three_edge_state.gr.edges.length + (([1, 2, 1] : List Nat).length - 1) ∧
      (∀ e : graph_edge, e.id ≠ (graph_edge.mk 0 0 1 5 0 {}).id →
        (e ∈ sc1.gr.edges ∧ e.id < three_edge_state.gr.next ↔
          e ∈ three_edge_state.gr.edges)) ∧
      (∀ e, e < three_edge_state.gr.next →
        mev_find sc1.mev e = mev_find three_edge_state.mev e) :=
  ⟨⟨by unfold splice_graph.fresh; decide, by decide, by decide, by with_unfolding_all rfl,
      by decide, by decide, by with_unfolding_all rfl, by decide, by norm_num⟩,
    split_edge_spec 0 three_edge_state 0 [1, 2, 1] (graph_edge.mk 0 0 1 5 0 {}) []
      [graph_edge.mk 1 0 1 2 0 {}, graph_edge.mk 2 0 1 1 0 {}, graph_edge.mk 1 0 1 2 0 {}]
      (by unfold splice_graph.fresh; decide) (by decide) (by decide)
      (by with_unfolding_all rfl) (by decide) (by decide) (by with_unfolding_all rfl)
      (by decide) (by norm_num)⟩

/-! ## The invariant of the disjoint sets -/

/-- A known element has an entry that carries its label. -/
theorem known_entry (ds : disjoint_sets) (z : Nat) (h : ds.known z) :
    (z, ds.find_set z) ∈ ds := by
  unfold disjoint_sets.known at h
  obtain ⟨l, hl⟩ := Option.isSome_iff_exists.1 h
  unfold disjoint_sets.find_set
  rw [hl]
  unfold mev_find at hl
  obtain ⟨p, hp, hpl⟩ := Option.map_eq_some'.1 hl
  have hk : p.1 = z := by simpa using List.find?_some hp
  have hm := List.mem_of_find?_eq_some hp
  have : p = (z, l) := by
    rw [← hk, ← hpl]
  rw [this] at hm
  exact hm

/-- An element with an entry is known. -/
theorem known_of_mem (ds : disjoint_sets) (p : Nat × Nat) (h : p ∈ ds) : ds.known p.1 := by
  unfold disjoint_sets.known
  rw [mev_find_isSome_iff]
  exact ⟨p, h, rfl⟩

/-- On known elements `union_set(x, y)` gives the label of `x` to the entries that carry
the label of `y`. -/
theorem union_set_known (ds : disjoint_sets) (x y : Nat) (hx : ds.known x) (hy : ds.known y) :
    ds.union_set x y =
      ds.map (fun p => if p.2 = ds.find_set y then (p.1, ds.find_set x) else p) := by
  unfold disjoint_sets.known at hx hy
  unfold disjoint_sets.union_set
  simp only [hx, hy, if_true]

/-- Disjoint sets over `0, ..., n - 1` are, after `make_set(n)`, disjoint sets over
`0, ..., n`. -/
theorem ds_covers_make_set (ds : disjoint_sets) (n : Nat) (h : ds_covers ds n) :
    ds_covers (ds.make_set n) (n + 1) := by
  refine ⟨?_, ?_⟩
  · intro i hi
    by_cases hin : i = n
    · rw [hin]
      exact (find_set_make_set_self ds n).2
    · exact (find_set_make_set_ne ds n i hin).2.2 (h.1 i (by omega))
  · intro p hp
    unfold disjoint_sets.make_set at hp
    rcases List.mem_append.mp hp with hp | hp
    · have := h.2 p (List.mem_filter.mp hp).1
      omega
    · rw [List.mem_singleton.mp hp]
      simp

/-- Disjoint sets over `0, ..., n - 1` stay so under a union of two of these indices. -/
theorem ds_covers_union_set (ds : disjoint_sets) (n x y : Nat) (h : ds_covers ds n)
    (hx : x < n) (hy : y < n) : ds_covers (ds.union_set x y) n := by
  have hkx := h.1 x hx
  have hky := h.1 y hy
  refine ⟨fun i hi => (find_set_union_set ds x y i (Or.inl (h.1 i hi))).2, ?_⟩
  intro p hp
  rw [union_set_known ds x y hkx hky] at hp
  obtain ⟨q, hq, hqp⟩ := List.mem_map.mp hp
  have hqb := h.2 q hq
  have hlx := (h.2 _ (known_entry ds x hkx)).2
  by_cases hc : q.2 = ds.find_set y
  · rw [if_pos hc] at hqp
    rw [← hqp]
    exact ⟨hqb.1, hlx⟩
  · rw [if_neg hc] at hqp
    rw [← hqp]
    exact hqb

/-- The invariant "every class contains a live edge" after a new live edge has been
appended to `i2e` and made a class of its own. -/
theorem ds_live_make_set (ds : disjoint_sets) (i2e : List (Option Nat)) (p : Nat)
    (h : ds_live ds i2e) : ds_live (ds.make_set i2e.length) (i2e ++ [some p]) := by
  intro i hi
  rw [List.length_append, List.length_singleton] at hi
  by_cases hin : i = i2e.length
  · refine ⟨i2e.length, by simp, by rw [hin], ?_⟩
    rw [List.get?_eq_getElem?, List.getElem?_append_right (le_refl _)]
    simp
  · obtain ⟨j, hj, hfj, hlj⟩ := h i (by omega)
    refine ⟨j, by simp; omega, ?_, ?_⟩
    · rw [(find_set_make_set_ne ds _ j (by omega)).1, (find_set_make_set_ne ds _ i hin).1]
      exact hfj
    · rw [List.get?_eq_getElem?, List.getElem?_append_left hj, ← List.get?_eq_getElem?]
      exact hlj

/-- The invariant "every class contains a live edge" is kept by a union of known
elements. -/
theorem ds_live_union_set (ds : disjoint_sets) (i2e : List (Option Nat)) (x y : Nat)
    (hc : ds_covers ds i2e.length) (h : ds_live ds i2e) :
    ds_live (ds.union_set x y) i2e := by
  intro i hi
  obtain ⟨j, hj, hfj, hlj⟩ := h i hi
  refine ⟨j, hj, ?_, hlj⟩
  rw [(find_set_union_set ds x y j (Or.inl (hc.1 j hj))).1,
    (find_set_union_set ds x y i (Or.inl (hc.1 i hi))).1, hfj]

/-- The invariant "every class contains a live edge" is kept when entries of `i2e` are
replaced, as long as a class that loses a live edge holds another one. -/
theorem ds_live_replace (ds : disjoint_sets) (i2e i2e1 : List (Option Nat))
    (hlen : i2e1.length = i2e.length) (h : ds_live ds i2e)
    (hrep : ∀ j, j < i2e.length → ((i2e.get? j).join).isSome →
      ∃ z, z < i2e.length ∧ ds.find_set z = ds.find_set j ∧ ((i2e1.get? z).join).isSome) :
    ds_live ds i2e1 := by
  intro i hi
  rw [hlen] at hi
  obtain ⟨j, hj, hfj, hlj⟩ := h i hi
  obtain ⟨z, hz, hfz, hlz⟩ := hrep j hj hlj
  exact ⟨z, by rw [hlen]; exact hz, hfz.trans hfj, hlz⟩

/-- The disjoint sets made by `init_disjoint_sets` for `m` edges cover `0, ..., m - 1`,
and every index is the label of its own class. -/
theorem init_disjoint_sets_fold (m : Nat) :
    ds_covers ((List.range m).foldl disjoint_sets.make_set []) m ∧
    ∀ i, i < m → disjoint_sets.find_set ((List.range m).foldl disjoint_sets.make_set []) i = i := by
  induction m with
  | zero =>
    refine ⟨⟨fun i hi => by omega, fun p hp => by cases hp⟩, fun i hi => by omega⟩
  | succ m ih =>
    rw [List.range_succ, List.foldl_append]
    simp only [List.foldl_cons, List.foldl_nil]
    refine ⟨ds_covers_make_set _ m ih.1, ?_⟩
    intro i hi
    by_cases him : i = m
    · rw [him]
      exact (find_set_make_set_self _ m).1
    · rw [(find_set_make_set_ne _ m i him).1]
      exact ih.2 i (by omega)

/-- After `init_disjoint_sets`, on a state in which `i2e` lists the edges of the graph,
all live, the invariant of the disjoint sets holds. -/
theorem init_disjoint_sets_invariant (sc : scallop3)
    (hlen : sc.i2e.length = sc.gr.edges.length)
    (hlive : ∀ i, i < sc.i2e.length → (sc.live_edge i).isSome) :
    sc.init_disjoint_sets.ds_invariant := by
  obtain ⟨h1, h2⟩ := init_disjoint_sets_fold sc.gr.edges.length
  have hds : sc.init_disjoint_sets.ds =
      (List.range sc.gr.edges.length).foldl disjoint_sets.make_set [] := rfl
  have hi2e : sc.init_disjoint_sets.i2e = sc.i2e := rfl
  unfold scallop3.ds_invariant
  rw [hds, hi2e, hlen]
  refine ⟨h1, ?_⟩
  intro i hi
  exact ⟨i, hi, rfl, hlive i hi⟩

/-- One iteration of the second loop of `split_edge`, when it succeeds, appends a live
entry to `i2e`, makes its index a class and merges it with the class of the entry of
`sub`, which is an index of the extended `i2e`. -/
theorem split_edge_copy_ds (ex s t : Nat) (sc : scallop3) (v : List Nat) (k : Nat)
    (sc1 : scallop3) (v1 : List Nat)
    (h : split_edge_copy ex s t (some (sc, v)) k = some (sc1, v1)) :
    sc1.i2e = sc.i2e ++ [some sc.gr.next] ∧
    sc1.ds = (sc.ds.make_set sc.i2e.length).union_set sc.i2e.length k ∧
    k < sc.i2e.length + 1 := by
  unfold split_edge_copy at h
  simp only at h
  split_ifs at h with h1
  split at h
  · cases h
  · rename_i ey hey
    have hk : k < sc.i2e.length + 1 := by
      by_contra hcon
      rw [List.get?_eq_getElem?, List.getElem?_eq_none (by simp; omega)] at hey
      cases hey
    split at h
    · rename_i w0 w1 _ _
      have h2 := congrArg Prod.fst (Option.some.inj h)
      simp only at h2
      rw [← h2]
      exact ⟨rfl, rfl, hk⟩
    · cases h

/-- One iteration of the second loop of `split_edge` keeps the invariant of the disjoint
sets. -/
theorem split_edge_copy_invariant (ex s t : Nat) (st : scallop3 × List Nat) (k : Nat)
    (st1 : scallop3 × List Nat) (hinv : st.1.ds_invariant)
    (h : split_edge_copy ex s t (some st) k = some st1) : st1.1.ds_invariant := by
  obtain ⟨sc, v⟩ := st
  obtain ⟨sc1, v1⟩ := st1
  obtain ⟨hi2e, hds, hk⟩ := split_edge_copy_ds ex s t sc v k sc1 v1 h
  unfold scallop3.ds_invariant at hinv ⊢
  simp only at hinv ⊢
  rw [hi2e, hds]
  have hc1 := ds_covers_make_set sc.ds sc.i2e.length hinv.1
  have hl1 := ds_live_make_set sc.ds sc.i2e sc.gr.next hinv.2
  have hlen : (sc.i2e ++ [some sc.gr.next]).length = sc.i2e.length + 1 := by simp
  rw [hlen]
  refine ⟨ds_covers_union_set _ _ _ _ hc1 (by omega) hk, ?_⟩
  apply ds_live_union_set
  · rw [hlen]
    exact hc1
  · exact hl1

/-- The method `split_edge` keeps the invariant of the disjoint sets. -/
theorem split_edge_invariant (SMIN : ℚ) (sc : scallop3) (ei : Nat) (sub : List Nat)
    (sc1 : scallop3) (v : List Nat) (hinv : sc.ds_invariant)
    (h : sc.split_edge SMIN ei sub = some (sc1, v)) : sc1.ds_invariant := by
  have hlt : ∀ k e, sc.live_edge k = some e → k < sc.i2e.length := by
    intro k e hk
    by_contra hcon
    unfold scallop3.live_edge at hk
    rw [List.get?_eq_getElem?, List.getElem?_eq_none (by omega)] at hk
    cases hk
  unfold scallop3.split_edge at h
  simp only at h
  split at h
  · cases h
  · rename_i exd hex
    split_ifs at h with h1 h2
    split at h
    · rename_i w k0 hres hhead
      split_ifs at h with h3
      split at h
      · cases h
      · rename_i ey hey
        split at h
        · rename_i w0 w1 exo _ _ _
          have hinv0 : (({ sc with
              gr := (sc.gr.set_edge_weight exd w0).set_edge_stddev exd w1,
              ds := sc.ds.union_set ei k0 } : scallop3), [] ++ [ei]).1.ds_invariant := by
            unfold scallop3.ds_invariant
            simp only
            exact ⟨ds_covers_union_set _ _ _ _ hinv.1 (hlt ei exd hex) (hlt k0 ey hey),
              ds_live_union_set _ _ _ _ hinv.1 hinv.2⟩
          exact foldl_option_invariant (split_edge_copy exd exo.s exo.t)
            (fun st => st.1.ds_invariant) (fun x => rfl)
            (fun st k st1 hP hs => split_edge_copy_invariant exd exo.s exo.t st k st1 hP hs)
            sub.tail _ (sc1, v) hinv0 h
        · cases h
    · cases h

/-! ## Merging adjacent edges (`scallop3::connect_adjacent_edges`) -/

/-- The edge behind a descriptor carries that descriptor. -/
theorem find_edge_id (g : splice_graph) (e : Nat) (x : graph_edge)
    (h : g.find_edge e = some x) : x.id = e := by
  unfold splice_graph.find_edge at h
  simpa using List.find?_some h

/-- An edge found in a graph is found after `add_edge`. -/
theorem find_edge_add_edge_of_some (g : splice_graph) (s t e : Nat) (x : graph_edge)
    (h : g.find_edge e = some x) : (g.add_edge s t).1.find_edge e = some x := by
  unfold splice_graph.find_edge at h ⊢
  unfold splice_graph.add_edge
  simp only
  rw [List.find?_append, h]
  rfl

/-- The method `connect_adjacent_edges(x, y)`, when it returns, returns `false` and
either leaves the state as it is, or has merged two live adjacent edges, those of `x`
and `y` in this or in the other order. -/
theorem connect_adjacent_edges_cases (SMIN : ℚ) (fuel : Nat) :
    ∀ (sc : scallop3) (x y : Nat) (sc1 : scallop3) (b : Bool),
      sc.connect_adjacent_edges SMIN fuel x y = some (sc1, b) →
      b = false ∧
      (sc1 = sc ∨
        ∃ x1 y1 ex ey, ((x1 = x ∧ y1 = y) ∨ (x1 = y ∧ y1 = x)) ∧
          sc.edge_at x1 = some ex ∧ sc.edge_at y1 = some ey ∧ ex.t = ey.s ∧
          |ex.weight - ey.weight| ≤ SMIN ∧
          sc1 = connect_adjacent_edges_state sc x1 y1 ex ey) := by
  induction fuel with
  | zero =>
    intro sc x y sc1 b h
    unfold scallop3.connect_adjacent_edges at h
    cases h
  | succ fuel ih =>
    intro sc x y sc1 b h
    unfold scallop3.connect_adjacent_edges at h
    cases hx : sc.i2e.get? x with
    | none =>
      rw [hx] at h
      cases h
    | some ox =>
      rw [hx] at h
      cases ox with
      | none =>
        simp only at h
        have h2 := Option.some.inj h
        exact ⟨(congrArg Prod.snd h2).symm, Or.inl (congrArg Prod.fst h2).symm⟩
      | some xx =>
        simp only at h
        cases hy : sc.i2e.get? y with
        | none =>
          rw [hy] at h
          cases h
        | some oy =>
          rw [hy] at h
          cases oy with
          | none =>
            simp only at h
            have h2 := Option.some.inj h
            exact ⟨(congrArg Prod.snd h2).symm, Or.inl (congrArg Prod.fst h2).symm⟩
          | some yy =>
            simp only at h
            cases hex : sc.gr.find_edge xx with
            | none =>
              rw [hex] at h
              cases h
            | some ex =>
              cases hey : sc.gr.find_edge yy with
              | none =>
                rw [hex, hey] at h
                cases h
              | some ey =>
                rw [hex, hey] at h
                simp only at h
                have hidx := find_edge_id _ _ _ hex
                have hidy := find_edge_id _ _ _ hey
                have hatx : sc.edge_at x = some ex := by
                  unfold scallop3.edge_at scallop3.live_edge
                  rw [hx]
                  exact hex
                have haty : sc.edge_at y = some ey := by
                  unfold scallop3.edge_at scallop3.live_edge
                  rw [hy]
                  exact hey
                by_cases c1 : ex.t ≠ ey.s ∧ ey.t ≠ ex.s
                · rw [if_pos c1] at h
                  have h2 := Option.some.inj h
                  exact ⟨(congrArg Prod.snd h2).symm, Or.inl (congrArg Prod.fst h2).symm⟩
                · rw [if_neg c1] at h
                  by_cases c2 : ey.t = ex.s
                  · rw [if_pos c2] at h
                    obtain ⟨hb, hr⟩ := ih sc y x sc1 b h
                    refine ⟨hb, ?_⟩
                    rcases hr with hr | ⟨x1, y1, ex1, ey1, hxy, h3, h4, h5, h6, h7⟩
                    · exact Or.inl hr
                    · refine Or.inr ⟨x1, y1, ex1, ey1, ?_, h3, h4, h5, h6, h7⟩
                      rcases hxy with hxy | hxy
                      · exact Or.inr hxy
                      · exact Or.inl hxy
                  · rw [if_neg c2] at h
                    have hadj : ex.t = ey.s := by
                      by_contra hcon
                      exact c1 ⟨hcon, c2⟩
                    have hnext : (sc.gr.add_edge ex.s ey.t).2 = sc.gr.next := rfl
                    have hwx : (sc.gr.add_edge ex.s ey.t).1.get_edge_weight xx =
                        some ex.weight := by
                      unfold splice_graph.get_edge_weight
                      rw [find_edge_add_edge_of_some _ _ _ _ _ hex]
                      rfl
                    have hwy : (sc.gr.add_edge ex.s ey.t).1.get_edge_weight yy =
                        some ey.weight := by
                      unfold splice_graph.get_edge_weight
                      rw [find_edge_add_edge_of_some _ _ _ _ _ hey]
                      rfl
                    have hsx : (sc.gr.add_edge ex.s ey.t).1.get_edge_stddev xx =
                        some ex.stddev := by
                      unfold splice_graph.get_edge_stddev
                      rw [find_edge_add_edge_of_some _ _ _ _ _ hex]
                      rfl
                    have hsy : (sc.gr.add_edge ex.s ey.t).1.get_edge_stddev yy =
                        some ey.stddev := by
                      unfold splice_graph.get_edge_stddev
                      rw [find_edge_add_edge_of_some _ _ _ _ _ hey]
                      rfl
                    simp only [hnext, hwx, hwy, hsx, hsy] at h
                    split_ifs at h with c3 c4
                    have h2 := Option.some.inj h
                    refine ⟨(congrArg Prod.snd h2).symm, Or.inr ⟨x, y, ex, ey, Or.inl ⟨rfl, rfl⟩,
                      hatx, haty, hadj, c4, ?_⟩⟩
                    have h3 := congrArg Prod.fst h2
                    simp only at h3
                    rw [← h3]
                    unfold connect_adjacent_edges_state
                    rw [hidx, hidy]

/-- After `make_set(n)`, `union_set(n, x)` and `union_set(n, y)` the elements `n`, `x`
and `y` are in one class. -/
theorem connect_classes (ds : disjoint_sets) (n x y : Nat) :
    (((ds.make_set n).union_set n x).union_set n y).find_set n =
      (((ds.make_set n).union_set n x).union_set n y).find_set x ∧
    (((ds.make_set n).union_set n x).union_set n y).find_set n =
      (((ds.make_set n).union_set n x).union_set n y).find_set y := by
  obtain ⟨a1, a2⟩ := find_set_union_set (ds.make_set n) n x n (Or.inr (Or.inl rfl))
  obtain ⟨b1, b2⟩ := find_set_union_set (ds.make_set n) n x x (Or.inr (Or.inr rfl))
  have hnx : ((ds.make_set n).union_set n x).find_set n =
      ((ds.make_set n).union_set n x).find_set x := by
    rw [a1, b1, if_pos rfl]
    by_cases hc : (ds.make_set n).find_set n = (ds.make_set n).find_set x
    · rw [if_pos hc]
    · rw [if_neg hc]
  obtain ⟨c1, _⟩ := find_set_union_set ((ds.make_set n).union_set n x) n y n
    (Or.inr (Or.inl rfl))
  obtain ⟨c2, _⟩ := find_set_union_set ((ds.make_set n).union_set n x) n y x (Or.inl b2)
  obtain ⟨c3, _⟩ := find_set_union_set ((ds.make_set n).union_set n x) n y y
    (Or.inr (Or.inr rfl))
  have hn : (((ds.make_set n).union_set n x).union_set n y).find_set n =
      ((ds.make_set n).union_set n x).find_set n := by
    rw [c1]
    by_cases hc : ((ds.make_set n).union_set n x).find_set n =
        ((ds.make_set n).union_set n x).find_set y
    · rw [if_pos hc]
    · rw [if_neg hc]
  refine ⟨?_, ?_⟩
  · rw [hn, c2, ← hnx]
    by_cases hc : ((ds.make_set n).union_set n x).find_set n =
        ((ds.make_set n).union_set n x).find_set y
    · rw [if_pos hc]
    · rw [if_neg hc]
  · rw [hn, c3, if_pos rfl]

/-- The merged state of `connect_adjacent_edges` satisfies the invariant of the disjoint
sets when the state before does and `x`, `y` are indices of `i2e`. -/
theorem connect_adjacent_edges_state_invariant (sc : scallop3) (x y : Nat)
    (ex ey : graph_edge) (hinv : sc.ds_invariant) (hx : x < sc.i2e.length)
    (hy : y < sc.i2e.length) :
    (connect_adjacent_edges_state sc x y ex ey).ds_invariant := by
  have hi2e : (connect_adjacent_edges_state sc x y ex ey).i2e =
      ((sc.i2e ++ [some sc.gr.next]).set x none).set y none := rfl
  have hds : (connect_adjacent_edges_state sc x y ex ey).ds =
      ((sc.ds.make_set sc.i2e.length).union_set sc.i2e.length x).union_set sc.i2e.length y :=
    rfl
  have hlen : (((sc.i2e ++ [some sc.gr.next]).set x none).set y none).length =
      sc.i2e.length + 1 := by simp
  have hlen0 : (sc.i2e ++ [some sc.gr.next]).length = sc.i2e.length + 1 := by simp
  have hc1 := ds_covers_make_set sc.ds sc.i2e.length hinv.1
  have hc2 := ds_covers_union_set _ _ sc.i2e.length x hc1 (by omega) (by omega)
  have hc3 := ds_covers_union_set _ _ sc.i2e.length y hc2 (by omega) (by omega)
  have hl1 := ds_live_make_set sc.ds sc.i2e sc.gr.next hinv.2
  have hl2 := ds_live_union_set _ _ sc.i2e.length x (by rw [hlen0]; exact hc1) hl1
  have hl3 := ds_live_union_set _ _ sc.i2e.length y (by rw [hlen0]; exact hc2) hl2
  obtain ⟨hnx, hny⟩ := connect_classes sc.ds sc.i2e.length x y
  have hnew : (((((sc.i2e ++ [some sc.gr.next]).set x none).set y none).get?
      sc.i2e.length).join).isSome := by
    rw [List.get?_eq_getElem?, List.getElem?_set_ne (by omega),
      List.getElem?_set_ne (by omega), List.getElem?_append_right (le_refl _)]
    simp
  unfold scallop3.ds_invariant
  rw [hi2e, hds, hlen]
  refine ⟨hc3, ?_⟩
  apply ds_live_replace _ (sc.i2e ++ [some sc.gr.next]) _ (by rw [hlen, hlen0]) hl3
  intro j hj hlj
  rw [hlen0] at hj
  by_cases hjx : j = x
  · exact ⟨sc.i2e.length, by rw [hlen0]; omega, by rw [hjx]; exact hnx, hnew⟩
  · by_cases hjy : j = y
    · exact ⟨sc.i2e.length, by rw [hlen0]; omega, by rw [hjy]; exact hny, hnew⟩
    · refine ⟨j, by rw [hlen0]; exact hj, rfl, ?_⟩
      rw [List.get?_eq_getElem?, List.getElem?_set_ne (fun hc => hjy hc.symm),
        List.getElem?_set_ne (fun hc => hjx hc.symm), ← List.get?_eq_getElem?]
      exact hlj

/-- The method `connect_adjacent_edges` keeps the invariant of the disjoint sets. -/
theorem connect_adjacent_edges_invariant (SMIN : ℚ) (fuel : Nat) (sc : scallop3) (x y : Nat)
    (sc1 : scallop3) (b : Bool) (hinv : sc.ds_invariant)
    (h : sc.connect_adjacent_edges SMIN fuel x y = some (sc1, b)) : sc1.ds_invariant := by
  obtain ⟨_, hr⟩ := connect_adjacent_edges_cases SMIN fuel sc x y sc1 b h
  rcases hr with hr | ⟨x1, y1, ex, ey, _, hx1, hy1, _, _, hst⟩
  · rw [hr]
    exact hinv
  · rw [hst]
    exact connect_adjacent_edges_state_invariant sc x1 y1 ex ey hinv
      (edge_at_some sc x1 ex hx1).2.2.1 (edge_at_some sc y1 ey hy1).2.2.1

/-! ## Representatives and classes (`compute_representatives`, `compute_disjoint_sets`) -/

/-- The inner loop of `compute_representatives` over a class of indices of `i2e` that
holds a live edge finds a live element of the class. -/
theorem compute_representatives_first_spec (sc : scallop3) (c : List Nat) :
    (∀ e ∈ c, e < sc.i2e.length) → (∃ j ∈ c, (sc.live_edge j).isSome) →
    ∃ k, compute_representatives_first sc c = some (some k) ∧ k ∈ c ∧
      (sc.live_edge k).isSome := by
  induction c with
  | nil =>
    rintro _ ⟨j, hj, _⟩
    cases hj
  | cons e rest ih =>
    intro hlt hex
    have he : e < sc.i2e.length := hlt e (List.mem_cons_self _ _)
    unfold compute_representatives_first
    cases hg : sc.i2e.get? e with
    | none =>
      rw [List.get?_eq_getElem?, List.getElem?_eq_getElem he] at hg
      cases hg
    | some o =>
      cases o with
      | none =>
        simp only
        have hex2 : ∃ j ∈ rest, (sc.live_edge j).isSome := by
          obtain ⟨j, hj, hl⟩ := hex
          rcases List.mem_cons.mp hj with hj | hj
          · rw [hj] at hl
            unfold scallop3.live_edge at hl
            rw [hg] at hl
            cases hl
          · exact ⟨j, hj, hl⟩
        obtain ⟨k, hk1, hk2, hk3⟩ := ih (fun x hx => hlt x (List.mem_cons_of_mem _ hx)) hex2
        exact ⟨k, hk1, List.mem_cons_of_mem _ hk2, hk3⟩
      | some d =>
        simp only
        refine ⟨e, rfl, List.mem_cons_self _ _, ?_⟩
        unfold scallop3.live_edge
        rw [hg]
        rfl

/-- The inner loop of `compute_disjoint_sets` over a class of indices of `i2e` returns
the elements of the class with a live edge. -/
theorem compute_disjoint_sets_live_spec (sc : scallop3) (c : List Nat) :
    (∀ e ∈ c, e < sc.i2e.length) →
    compute_disjoint_sets_live sc c = some (c.filter (fun e => (sc.live_edge e).isSome)) := by
  induction c with
  | nil => intro _; rfl
  | cons e rest ih =>
    intro hlt
    have he : e < sc.i2e.length := hlt e (List.mem_cons_self _ _)
    have hrest := ih (fun x hx => hlt x (List.mem_cons_of_mem _ hx))
    unfold compute_disjoint_sets_live
    rw [hrest]
    cases hg : sc.i2e.get? e with
    | none =>
      rw [List.get?_eq_getElem?, List.getElem?_eq_getElem he] at hg
      cases hg
    | some o =>
      have hl : sc.live_edge e = o := by
        unfold scallop3.live_edge
        rw [hg]
        rfl
      cases o with
      | none =>
        simp only
        rw [List.filter_cons, hl]
        rfl
      | some d =>
        simp only
        rw [List.filter_cons, hl]
        rfl

/-- The classes that `get_disjoint_sets` returns hold indices below `n` only, and under
the invariant "every class contains a live edge" a class that is not empty holds a live
edge. -/
theorem get_disjoint_sets_classes (sc : scallop3) (hl : ds_live sc.ds sc.i2e) :
    ∀ c ∈ get_disjoint_sets sc.ds sc.i2e.length,
      (∀ e ∈ c, e < sc.i2e.length) ∧
      (c.length ≠ 0 → ∃ j ∈ c, (sc.live_edge j).isSome) := by
  intro c hc
  unfold get_disjoint_sets at hc
  obtain ⟨r, _, hr⟩ := List.mem_map.mp hc
  have hmem : ∀ e, e ∈ c ↔ e < sc.i2e.length ∧ sc.ds.find_set e = r := by
    intro e
    rw [← hr, List.mem_filter, List.mem_range]
    simp
  refine ⟨fun e he => ((hmem e).1 he).1, ?_⟩
  intro hne
  obtain ⟨i, hi⟩ := List.length_pos_iff_exists_mem.mp (Nat.pos_of_ne_zero hne)
  obtain ⟨hilt, hir⟩ := (hmem i).1 hi
  obtain ⟨j, hj, hfj, hlj⟩ := hl i hilt
  exact ⟨j, (hmem j).2 ⟨hj, hfj.trans hir⟩, hlj⟩

/-- The loop of `compute_representatives` over classes that hold indices of `i2e` and,
when not empty, a live edge: one live element is appended per class that is not
empty. -/
theorem compute_representatives_fold (sc : scallop3) (cs : List (List Nat)) :
    (∀ c ∈ cs, (∀ e ∈ c, e < sc.i2e.length) ∧
      (c.length ≠ 0 → ∃ j ∈ c, (sc.live_edge j).isSome)) →
    ∀ (v0 : List Nat), ∃ v,
      cs.foldl
        (fun (st : Option (List Nat)) (c : List Nat) =>
          match st with
          | none => none
          | some v =>
            if c.length = 0 then some v
            else
              match compute_representatives_first sc c with
              | some (some k) => some (v ++ [k])
              | _ => none)
        (some v0) = some (v0 ++ v) ∧
      List.Forall₂ (fun k c => k ∈ c ∧ (sc.live_edge k).isSome) v
        (cs.filter (fun c => decide (c.length ≠ 0))) := by
  induction cs with
  | nil =>
    intro _ v0
    exact ⟨[], by simp, List.Forall₂.nil⟩
  | cons c cs ih =>
    intro hcs v0
    have hc := hcs c (List.mem_cons_self _ _)
    have hrest := ih (fun x hx => hcs x (List.mem_cons_of_mem _ hx))
    rw [List.foldl_cons]
    by_cases hlen : c.length = 0
    · simp only [hlen, if_true]
      obtain ⟨v, hv1, hv2⟩ := hrest v0
      refine ⟨v, hv1, ?_⟩
      rw [List.filter_cons]
      simp only [hlen, ne_eq, not_true_eq_false, decide_False, Bool.false_eq_true, if_false]
      exact hv2
    · obtain ⟨k, hk1, hk2, hk3⟩ := compute_representatives_first_spec sc c hc.1 (hc.2 hlen)
      simp only [hlen, if_false, hk1]
      obtain ⟨v, hv1, hv2⟩ := hrest (v0 ++ [k])
      refine ⟨k :: v, by rw [hv1]; simp, ?_⟩
      rw [List.filter_cons]
      simp only [hlen, ne_eq, not_false_eq_true, decide_True, if_true]
      exact List.Forall₂.cons ⟨hk2, hk3⟩ hv2

/-- The loop of `compute_disjoint_sets` over classes that hold indices of `i2e` and,
when not empty, a live edge: the live elements of each class that is not empty are
appended as one list, which is not empty. -/
theorem compute_disjoint_sets_fold (sc : scallop3) (cs : List (List Nat)) :
    (∀ c ∈ cs, (∀ e ∈ c, e < sc.i2e.length) ∧
      (c.length ≠ 0 → ∃ j ∈ c, (sc.live_edge j).isSome)) →
    ∀ (x0 : List (List Nat)), ∃ xx,
      cs.foldl
        (fun (st : Option (List (List Nat))) (c : List Nat) =>
          match st with
          | none => none
          | some xx =>
            if c.length = 0 then some xx
            else
              match compute_disjoint_sets_live sc c with
              | none => none
              | some v => if ¬ (v.length ≥ 1) then none else some (xx ++ [v]))
        (some x0) = some (x0 ++ xx) ∧
      List.Forall₂
        (fun v c => v = c.filter (fun e => (sc.live_edge e).isSome) ∧ v ≠ []) xx
        (cs.filter (fun c => decide (c.length ≠ 0))) := by
  induction cs with
  | nil =>
    intro _ x0
    exact ⟨[], by simp, List.Forall₂.nil⟩
  | cons c cs ih =>
    intro hcs x0
    have hc := hcs c (List.mem_cons_self _ _)
    have hrest := ih (fun x hx => hcs x (List.mem_cons_of_mem _ hx))
    rw [List.foldl_cons]
    by_cases hlen : c.length = 0
    · simp only [hlen, if_true]
      obtain ⟨v, hv1, hv2⟩ := hrest x0
      refine ⟨v, hv1, ?_⟩
      rw [List.filter_cons]
      simp only [hlen, ne_eq, not_true_eq_false, decide_False, Bool.false_eq_true, if_false]
      exact hv2
    · have hlive := compute_disjoint_sets_live_spec sc c hc.1
      obtain ⟨j, hj, hlj⟩ := hc.2 hlen
      have hjm : j ∈ c.filter (fun e => (sc.live_edge e).isSome) :=
        List.mem_filter.mpr ⟨hj, hlj⟩
      have hpos : (c.filter (fun e => (sc.live_edge e).isSome)).length ≥ 1 :=
        List.length_pos_iff_exists_mem.mpr ⟨j, hjm⟩
      simp only [hlen, if_false, hlive, hpos, not_true_eq_false]
      obtain ⟨v, hv1, hv2⟩ := hrest (x0 ++ [c.filter (fun e => (sc.live_edge e).isSome)])
      refine ⟨c.filter (fun e => (sc.live_edge e).isSome) :: v, by rw [hv1]; simp, ?_⟩
      rw [List.filter_cons]
      simp only [hlen, ne_eq, not_false_eq_true, decide_True, if_true]
      refine List.Forall₂.cons ⟨rfl, ?_⟩ hv2
      intro hnil
      rw [hnil] at hjm
      cases hjm

/-- Claim C30. The invariant "the disjoint sets are over the indices
`0, ..., i2e.size() - 1` and every class contains a live (non-null) edge" holds after
`init_disjoint_sets` (on a state in which `i2e` lists the edges of the graph, all live)
and is kept by `split_edge` and by `connect_adjacent_edges`. Under it
`compute_representatives` returns, without a failed assertion, one live element of each
class, and `compute_disjoint_sets` returns for each class the list of its live elements,
which is not empty. -/
theorem disjoint_sets_invariant (SMIN : ℚ) (sc0 sc : scallop3)
    (hlen : sc0.i2e.length = sc0.gr.edges.length)
    (hlive : ∀ i, i < sc0.i2e.length → (sc0.live_edge i).isSome)
    (hinv : sc.ds_invariant) :
    sc0.init_disjoint_sets.ds_invariant ∧
    (∀ ei sub sc1 v, sc.split_edge SMIN ei sub = some (sc1, v) → sc1.ds_invariant) ∧
    (∀ fuel x y sc1 b, sc.connect_adjacent_edges SMIN fuel x y = some (sc1, b) →
      sc1.ds_invariant) ∧
    (∃ v, sc.compute_representatives = some v ∧
      List.Forall₂ (fun k c => k ∈ c ∧ (sc.live_edge k).isSome) v
        ((get_disjoint_sets sc.ds sc.i2e.length).filter (fun c => decide (c.length ≠ 0)))) ∧
    (∃ xx, sc.compute_disjoint_sets = some xx ∧
      List.Forall₂
        (fun v c => v = c.filter (fun e => (sc.live_edge e).isSome) ∧ v ≠ []) xx
        ((get_disjoint_sets sc.ds sc.i2e.length).filter (fun c => decide (c.length ≠ 0)))) := by
  refine ⟨init_disjoint_sets_invariant sc0 hlen hlive,
    fun ei sub sc1 v h => split_edge_invariant SMIN sc ei sub sc1 v hinv h,
    fun fuel x y sc1 b h => connect_adjacent_edges_invariant SMIN fuel sc x y sc1 b hinv h,
    ?_, ?_⟩
  · obtain ⟨v, hv1, hv2⟩ := compute_representatives_fold sc _
      (get_disjoint_sets_classes sc hinv.2) []
    exact ⟨v, hv1, hv2⟩
  · obtain ⟨xx, hx1, hx2⟩ := compute_disjoint_sets_fold sc _
      (get_disjoint_sets_classes sc hinv.2) []
    exact ⟨xx, hx1, hx2⟩

/-- Witness of `disjoint_sets_invariant` (claim C30): the state of three parallel edges,
before and after `init_disjoint_sets`. -/
theorem disjoint_sets_invariant_witness :
    (three_edge_state.i2e.length = three_edge_state.gr.edges.length ∧
      (∀ i, i < three_edge_state.i2e.length → (three_edge_state.live_edge i).isSome) ∧
      three_edge_state.init_disjoint_sets.ds_invariant) ∧
    (three_edge_state.init_disjoint_sets.ds_invariant ∧
    (∀ ei sub sc1 v, three_edge_state.init_disjoint_sets.split_edge 0 ei sub = some (sc1, v) →
      sc1.ds_invariant) ∧
    (∀ fuel x y sc1 b,
      three_edge_state.init_disjoint_sets.connect_adjacent_edges 0 fuel x y = some (sc1, b) →
      sc1.ds_invariant) ∧
    (∃ v, three_edge_state.init_disjoint_sets.compute_representatives = some v ∧
      List.Forall₂
        (fun k c => k ∈ c ∧ (three_edge_state.init_disjoint_sets.live_edge k).isSome) v
        ((get_disjoint_sets three_edge_state.init_disjoint_sets.ds
          three_edge_state.init_disjoint_sets.i2e.length).filter
            (fun c => decide (c.length ≠ 0)))) ∧
    (∃ xx, three_edge_state.init_disjoint_sets.compute_disjoint_sets = some xx ∧
      List.Forall₂
        (fun v c => v = c.filter
          (fun e => (three_edge_state.init_disjoint_sets.live_edge e).isSome) ∧ v ≠ []) xx
        ((get_disjoint_sets three_edge_state.init_disjoint_sets.ds
          three_edge_state.init_disjoint_sets.i2e.length).filter
            (fun c => decide (c.length ≠ 0))))) :=
  ⟨⟨by decide, by decide,
      init_disjoint_sets_invariant three_edge_state (by decide) (by decide)⟩,
    disjoint_sets_invariant 0 three_edge_state three_edge_state.init_disjoint_sets
      (by decide) (by decide)
      (init_disjoint_sets_invariant three_edge_state (by decide) (by decide))⟩

/-- The methods on the state of three parallel edges after `init_disjoint_sets`: the
representatives are `0`, `1`, `2`, the classes are `[0]`, `[1]`, `[2]`; after
`split_edge(0, [1, 2, 1])` the classes are `[2, 3]` and `[0, 1, 4]` (in the order of
their labels `3` and `4`) with the representatives `2` and `0`. -/
theorem disjoint_sets_three_edges :
    three_edge_state.init_disjoint_sets.compute_representatives = some [0, 1, 2] ∧
    three_edge_state.init_disjoint_sets.compute_disjoint_sets = some [[0], [1], [2]] ∧
    ((three_edge_state.init_disjoint_sets.split_edge 0 0 [1, 2, 1]).bind
      (fun r => r.1.compute_representatives)) = some [2, 0] ∧
    ((three_edge_state.init_disjoint_sets.split_edge 0 0 [1, 2, 1]).bind
      (fun r => r.1.compute_disjoint_sets)) = some [[2, 3], [0, 1, 4]] := by
  refine ⟨by with_unfolding_all rfl, by with_unfolding_all rfl, by with_unfolding_all rfl,
    by with_unfolding_all rfl⟩

/-- The method `connect_adjacent_edges(x, y)` on two live edges with
`target(x) = source(y)` and `target(y) != source(x)` whose weights differ by at most
`SMIN`: it returns the merged state. -/
theorem connect_adjacent_edges_direct (SMIN : ℚ) (fuel : Nat) (sc : scallop3) (x y : Nat)
    (ex ey : graph_edge) (he2i : ∀ p ∈ sc.e2i, p.1 < sc.gr.next)
    (hx : sc.edge_at x = some ex) (hy : sc.edge_at y = some ey)
    (hw : |ex.weight - ey.weight| ≤ SMIN) (hadj : ex.t = ey.s) (hacyc : ey.t ≠ ex.s) :
    sc.connect_adjacent_edges SMIN (fuel + 1) x y =
      some (connect_adjacent_edges_state sc x y ex ey, false) := by
  obtain ⟨hlx, hfx, hxlt, _⟩ := edge_at_some sc x ex hx
  obtain ⟨hly, hfy, hylt, _⟩ := edge_at_some sc y ey hy
  have hgx : sc.i2e.get? x = some (some ex.id) := by
    unfold scallop3.live_edge at hlx
    cases hg : sc.i2e.get? x with
    | none => rw [hg] at hlx; cases hlx
    | some o =>
      rw [hg] at hlx
      cases o with
      | none => cases hlx
      | some d =>
        have : d = ex.id := Option.some.inj hlx
        rw [this]
  have hgy : sc.i2e.get? y = some (some ey.id) := by
    unfold scallop3.live_edge at hly
    cases hg : sc.i2e.get? y with
    | none => rw [hg] at hly; cases hly
    | some o =>
      rw [hg] at hly
      cases o with
      | none => cases hly
      | some d =>
        have : d = ey.id := Option.some.inj hly
        rw [this]
  have c1 : ¬ (ex.t ≠ ey.s ∧ ey.t ≠ ex.s) := fun hc => hc.1 hadj
  have hnext : (sc.gr.add_edge ex.s ey.t).2 = sc.gr.next := rfl
  have hwx : (sc.gr.add_edge ex.s ey.t).1.get_edge_weight ex.id = some ex.weight := by
    unfold splice_graph.get_edge_weight
    rw [find_edge_add_edge_of_some _ _ _ _ _ hfx]
    rfl
  have hwy : (sc.gr.add_edge ex.s ey.t).1.get_edge_weight ey.id = some ey.weight := by
    unfold splice_graph.get_edge_weight
    rw [find_edge_add_edge_of_some _ _ _ _ _ hfy]
    rfl
  have hsx : (sc.gr.add_edge ex.s ey.t).1.get_edge_stddev ex.id = some ex.stddev := by
    unfold splice_graph.get_edge_stddev
    rw [find_edge_add_edge_of_some _ _ _ _ _ hfx]
    rfl
  have hsy : (sc.gr.add_edge ex.s ey.t).1.get_edge_stddev ey.id = some ey.stddev := by
    unfold splice_graph.get_edge_stddev
    rw [find_edge_add_edge_of_some _ _ _ _ _ hfy]
    rfl
  have f1 : mev_find sc.e2i sc.gr.next = none :=
    mev_find_none_of_lt _ _ _ he2i (le_refl _)
  unfold scallop3.connect_adjacent_edges
  simp only [hgx, hgy, hfx, hfy, c1, hacyc, if_false, hnext, f1, not_true_eq_false, hwx, hwy,
    hsx, hsy, hw]
  rfl

/-- The method `connect_adjacent_edges` with the two edges given in the other order: it
calls itself with the arguments swapped and returns the same merged state. -/
theorem connect_adjacent_edges_swapped (SMIN : ℚ) (fuel : Nat) (sc : scallop3) (x y : Nat)
    (ex ey : graph_edge) (he2i : ∀ p ∈ sc.e2i, p.1 < sc.gr.next)
    (hx : sc.edge_at x = some ex) (hy : sc.edge_at y = some ey)
    (hw : |ex.weight - ey.weight| ≤ SMIN) (hadj : ex.t = ey.s) (hacyc : ey.t ≠ ex.s) :
    sc.connect_adjacent_edges SMIN (fuel + 2) y x =
      some (connect_adjacent_edges_state sc x y ex ey, false) := by
  obtain ⟨hlx, hfx, hxlt, _⟩ := edge_at_some sc x ex hx
  obtain ⟨hly, hfy, hylt, _⟩ := edge_at_some sc y ey hy
  have hgx : sc.i2e.get? x = some (some ex.id) := by
    unfold scallop3.live_edge at hlx
    cases hg : sc.i2e.get? x with
    | none => rw [hg] at hlx; cases hlx
    | some o =>
      rw [hg] at hlx
      cases o with
      | none => cases hlx
      | some d =>
        have : d = ex.id := Option.some.inj hlx
        rw [this]
  have hgy : sc.i2e.get? y = some (some ey.id) := by
    unfold scallop3.live_edge at hly
    cases hg : sc.i2e.get? y with
    | none => rw [hg] at hly; cases hly
    | some o =>
      rw [hg] at hly
      cases o with
      | none => cases hly
      | some d =>
        have : d = ey.id := Option.some.inj hly
        rw [this]
  have c1 : ¬ (ey.t ≠ ex.s ∧ ex.t ≠ ey.s) := fun hc => hc.2 hadj
  have hrec := connect_adjacent_edges_direct SMIN fuel sc x y ex ey he2i hx hy hw hadj hacyc
  rw [← hrec]
  conv_lhs => unfold scallop3.connect_adjacent_edges
  simp only [hgx, hgy, hfx, hfy]
  rw [if_neg c1, if_pos hadj]

/-- Removing the edges with the descriptor of an edge of a graph with distinct
descriptors removes exactly one edge. -/
theorem length_filter_id_ne (L : List graph_edge) (hnd : (L.map graph_edge.id).Nodup)
    (e : graph_edge) (he : e ∈ L) :
    (L.filter (fun x => x.id ≠ e.id)).length + 1 = L.length := by
  induction L with
  | nil => cases he
  | cons a L ih =>
    rw [List.map_cons, List.nodup_cons] at hnd
    rw [List.filter_cons]
    by_cases ha : a.id = e.id
    · have hnone : ∀ x ∈ L, x.id ≠ e.id := by
        intro x hx hxe
        exact hnd.1 (by rw [ha, ← hxe]; exact List.mem_map_of_mem _ hx)
      have hall : L.filter (fun x => x.id ≠ e.id) = L := by
        rw [List.filter_eq_self]
        intro x hx
        simpa using hnone x hx
      simp only [ha, ne_eq, not_true_eq_false, decide_False, Bool.false_eq_true, if_false]
      rw [hall, List.length_cons]
    · have hmem : e ∈ L := by
        rcases List.mem_cons.mp he with h | h
        · exact absurd (by rw [h]) ha
        · exact h
      simp only [ha, ne_eq, not_false_eq_true, decide_True, if_true, List.length_cons]
      rw [ih hnd.2 hmem]

/-- The edges of the merged state of `connect_adjacent_edges` on a graph with fresh
descriptors: those of the graph and the new edge, without the two merged edges. -/
theorem connect_adjacent_edges_state_edges (sc : scallop3) (x y : Nat) (ex ey : graph_edge)
    (hf : sc.gr.fresh) :
    (connect_adjacent_edges_state sc x y ex ey).gr.edges =
      ((sc.gr.edges ++ [(graph_edge.mk sc.gr.next ex.s ey.t ex.weight ex.stddev {})]).filter (fun e => e.id ≠ ex.id)).filter
        (fun e => e.id ≠ ey.id) := by
  unfold connect_adjacent_edges_state
  simp only
  rw [add_edge_set_weight_stddev sc.gr hf]
  rfl

/-- The graph of the merged state of `connect_adjacent_edges`: the two merged edges are
gone, the new edge from the source of the first to the target of the second is there
with the weight and the standard deviation of the first, every other edge is as it
was, and the graph has one edge less. -/
theorem connect_adjacent_edges_state_graph (sc : scallop3) (x y : Nat) (ex ey : graph_edge)
    (hf : sc.gr.fresh) (hnd : (sc.gr.edges.map graph_edge.id).Nodup)
    (hex : ex ∈ sc.gr.edges) (hey : ey ∈ sc.gr.edges) (hne : ex.id ≠ ey.id) :
    (∀ e, e ∈ (connect_adjacent_edges_state sc x y ex ey).gr.edges ↔
      (e ∈ sc.gr.edges ∧ e.id ≠ ex.id ∧ e.id ≠ ey.id) ∨
      e = (graph_edge.mk sc.gr.next ex.s ey.t ex.weight ex.stddev {})) ∧
    (connect_adjacent_edges_state sc x y ex ey).gr.edges.length + 1 = sc.gr.edges.length ∧
    (connect_adjacent_edges_state sc x y ex ey).gr.find_edge sc.gr.next =
      some (graph_edge.mk sc.gr.next ex.s ey.t ex.weight ex.stddev {}) := by
  have hxlt : ex.id < sc.gr.next := hf ex hex
  have hylt : ey.id < sc.gr.next := hf ey hey
  rw [connect_adjacent_edges_state_edges sc x y ex ey hf]
  refine ⟨?_, ?_, ?_⟩
  · intro e
    simp only [List.mem_filter, List.mem_append, List.mem_singleton, ne_eq, decide_not,
      Bool.not_eq_true', decide_eq_false_iff_not]
    constructor
    · rintro ⟨⟨h1 | h1, h2⟩, h3⟩
      · exact Or.inl ⟨h1, h2, h3⟩
      · exact Or.inr h1
    · rintro (⟨h1, h2, h3⟩ | h1)
      · exact ⟨⟨Or.inl h1, h2⟩, h3⟩
      · rw [h1]
        refine ⟨⟨Or.inr rfl, ?_⟩, ?_⟩
        · simp only
          omega
        · simp only
          omega
  · have hnd1 : ((sc.gr.edges ++ [(graph_edge.mk sc.gr.next ex.s ey.t ex.weight ex.stddev {})]).map graph_edge.id).Nodup := by
      rw [List.map_append, List.nodup_append]
      refine ⟨hnd, by simp, ?_⟩
      intro a ha hb
      simp only [List.map_cons, List.map_nil, List.mem_singleton] at hb
      obtain ⟨e, he, hea⟩ := List.mem_map.mp ha
      have := hf e he
      omega
    have hl1 := length_filter_id_ne _ hnd1 ex (List.mem_append_left _ hex)
    have hnd2 : (((sc.gr.edges ++ [(graph_edge.mk sc.gr.next ex.s ey.t ex.weight ex.stddev {})]).filter
        (fun e => e.id ≠ ex.id)).map graph_edge.id).Nodup :=
      List.Nodup.sublist (List.Sublist.map _ (List.filter_sublist _)) hnd1
    have hey2 : ey ∈ (sc.gr.edges ++ [(graph_edge.mk sc.gr.next ex.s ey.t ex.weight ex.stddev {})]).filter
        (fun e => e.id ≠ ex.id) := by
      rw [List.mem_filter]
      refine ⟨List.mem_append_left _ hey, ?_⟩
      simpa using fun hc => hne hc.symm
    have hl2 := length_filter_id_ne _ hnd2 ey hey2
    rw [List.length_append, List.length_singleton] at hl1
    omega
  · unfold splice_graph.find_edge
    rw [connect_adjacent_edges_state_edges sc x y ex ey hf,
      find?_filter_of_imp, find?_filter_of_imp, List.find?_append]
    · have hnone : List.find? (fun x => decide (x.id = sc.gr.next)) sc.gr.edges = none := by
        rw [List.find?_eq_none]
        intro e he
        have := hf e he
        simp only [decide_eq_true_eq]
        omega
      rw [hnone]
      simp
    · intro e he
      have : e.id = sc.gr.next := by simpa using he
      simp only [ne_eq, decide_not, Bool.not_eq_true', decide_eq_false_iff_not]
      omega
    · intro e he
      have : e.id = sc.gr.next := by simpa using he
      simp only [ne_eq, decide_not, Bool.not_eq_true', decide_eq_false_iff_not]
      omega

/-- Replacing a live entry of `i2e` by `null_edge` lowers the number of live entries by
one. -/
theorem length_filter_set_none (l : List (Option Nat)) :
    ∀ (x : Nat), (∃ d, l[x]? = some (some d)) →
      ((l.set x none).filter Option.isSome).length + 1 = (l.filter Option.isSome).length := by
  induction l with
  | nil =>
    rintro x ⟨d, hd⟩
    cases hd
  | cons a l ih =>
    rintro x ⟨d, hd⟩
    cases x with
    | zero =>
      simp only [List.getElem?_cons_zero, Option.some.injEq] at hd
      rw [hd]
      simp [List.filter_cons]
    | succ x =>
      simp only [List.getElem?_cons_succ] at hd
      have := ih x ⟨d, hd⟩
      simp only [List.set_cons_succ, List.filter_cons]
      cases a with
      | none => simpa using this
      | some b =>
        simp only [Option.isSome_some, if_true, List.length_cons]
        omega

/-- The entries of `i2e` in the merged state of `connect_adjacent_edges`: `x` and `y`
are `null_edge`, the new index holds the new descriptor, every other entry is as it
was, and there is one live entry less. -/
theorem connect_adjacent_edges_state_i2e (sc : scallop3) (x y : Nat) (ex ey : graph_edge)
    (dx dy : Nat) (hx : sc.i2e[x]? = some (some dx)) (hy : sc.i2e[y]? = some (some dy))
    (hxy : x ≠ y) :
    (connect_adjacent_edges_state sc x y ex ey).i2e.length = sc.i2e.length + 1 ∧
    (connect_adjacent_edges_state sc x y ex ey).i2e[x]? = some none ∧
    (connect_adjacent_edges_state sc x y ex ey).i2e[y]? = some none ∧
    (connect_adjacent_edges_state sc x y ex ey).i2e[sc.i2e.length]? =
      some (some sc.gr.next) ∧
    (∀ i, i ≠ x → i ≠ y → i < sc.i2e.length →
      (connect_adjacent_edges_state sc x y ex ey).i2e[i]? = sc.i2e[i]?) ∧
    ((connect_adjacent_edges_state sc x y ex ey).i2e.filter Option.isSome).length + 1 =
      (sc.i2e.filter Option.isSome).length := by
  have hxlt : x < sc.i2e.length := by
    by_contra hc
    rw [List.getElem?_eq_none (by omega)] at hx
    cases hx
  have hylt : y < sc.i2e.length := by
    by_contra hc
    rw [List.getElem?_eq_none (by omega)] at hy
    cases hy
  have hi2e : (connect_adjacent_edges_state sc x y ex ey).i2e =
      ((sc.i2e ++ [some sc.gr.next]).set x none).set y none := rfl
  rw [hi2e]
  refine ⟨by simp, ?_, ?_, ?_, ?_, ?_⟩
  · rw [List.getElem?_set_ne (fun hc => hxy hc.symm), List.getElem?_set_self]
    simp
    omega
  · rw [List.getElem?_set_self]
    simp
    omega
  · rw [List.getElem?_set_ne (by omega), List.getElem?_set_ne (by omega),
      List.getElem?_append_right (le_refl _)]
    simp
  · intro i hix hiy hi
    rw [List.getElem?_set_ne (fun hc => hiy hc.symm),
      List.getElem?_set_ne (fun hc => hix hc.symm), List.getElem?_append_left hi]
  · have h1 := length_filter_set_none (sc.i2e ++ [some sc.gr.next]) x
      ⟨dx, by rw [List.getElem?_append_left hxlt]; exact hx⟩
    have h2 := length_filter_set_none ((sc.i2e ++ [some sc.gr.next]).set x none) y
      ⟨dy, by
        rw [List.getElem?_set_ne hxy, List.getElem?_append_left hylt]
        exact hy⟩
    have h3 : ((sc.i2e ++ [some sc.gr.next]).filter Option.isSome).length =
        (sc.i2e.filter Option.isSome).length + 1 := by
      simp [List.filter_append]
    omega

/-- The super-edge chain of the new edge in the merged state of
`connect_adjacent_edges`: the chain of the first edge, the vertex where the two edges
meet, and the chain of the second edge; the chains of the older descriptors are as they
were. -/
theorem connect_adjacent_edges_state_mev (sc : scallop3) (x y : Nat) (ex ey : graph_edge)
    (cx cy : List Int) (hmev : ∀ p ∈ sc.mev, p.1 < sc.gr.next)
    (hcx : mev_find sc.mev ex.id = some cx) (hcy : mev_find sc.mev ey.id = some cy) :
    mev_find (connect_adjacent_edges_state sc x y ex ey).mev sc.gr.next =
      some (cx ++ [(ex.t : Int)] ++ cy) ∧
    ∀ e, e < sc.gr.next →
      mev_find (connect_adjacent_edges_state sc x y ex ey).mev e = mev_find sc.mev e := by
  have f1 : mev_insert sc.mev ex.id [] = sc.mev := by
    unfold mev_insert
    rw [hcx]
    rfl
  have f2 : mev_insert sc.mev ey.id [] = sc.mev := by
    unfold mev_insert
    rw [hcy]
    rfl
  have f3 : mev_find sc.mev sc.gr.next = none :=
    mev_find_none_of_lt _ _ _ hmev (le_refl _)
  have hm : (connect_adjacent_edges_state sc x y ex ey).mev =
      sc.mev ++ [(sc.gr.next, cx ++ [(ex.t : Int)] ++ cy)] := by
    unfold connect_adjacent_edges_state
    simp only [f1, f2, hcx, hcy, Option.getD_some]
    unfold mev_insert
    rw [f3]
    rfl
  rw [hm]
  refine ⟨?_, ?_⟩
  · rw [mev_find_append, f3, Option.none_or]
    unfold mev_find
    simp
  · intro e he
    rw [mev_find_append]
    have : mev_find [(sc.gr.next, cx ++ [(ex.t : Int)] ++ cy)] e = none := by
      have hne : ¬ sc.gr.next = e := by omega
      unfold mev_find
      simp [hne]
    rw [this, Option.or_none]

/-- Removing an element of a list without repetitions shortens the list by one. -/
theorem length_filter_ne (L : List Nat) (hnd : L.Nodup) (a : Nat) (ha : a ∈ L) :
    (L.filter (fun i => decide (i ≠ a))).length + 1 = L.length := by
  induction L with
  | nil => cases ha
  | cons b L ih =>
    rw [List.nodup_cons] at hnd
    rw [List.filter_cons]
    by_cases hb : b = a
    · have hall : L.filter (fun i => decide (i ≠ a)) = L := by
        rw [List.filter_eq_self]
        intro i hi
        have : i ≠ a := fun hc => hnd.1 (by rw [hb, ← hc]; exact hi)
        simpa using this
      simp only [hb, ne_eq, not_true_eq_false, decide_False, Bool.false_eq_true, if_false]
      rw [hall, List.length_cons]
    · have hmem : a ∈ L := by
        rcases List.mem_cons.mp ha with h | h
        · exact absurd h.symm hb
        · exact h
      simp only [hb, ne_eq, not_false_eq_true, decide_True, if_true, List.length_cons]
      rw [ih hnd.2 hmem]

/-- The labels after `make_set(n)`, `union_set(n, x)` and `union_set(n, y)` on disjoint
sets over `0, ..., n - 1` in which `x` and `y` are in one class: that class gets the
label `n`, the other classes keep theirs. -/
theorem connect_labels (ds : disjoint_sets) (n x y : Nat) (hcov : ds_covers ds n)
    (hx : x < n) (hy : y < n) (hcl : ds.find_set x = ds.find_set y) :
    (((ds.make_set n).union_set n x).union_set n y).find_set n = n ∧
    ∀ i, i < n → (((ds.make_set n).union_set n x).union_set n y).find_set i =
      if ds.find_set i = ds.find_set x then n else ds.find_set i := by
  obtain ⟨an, akn⟩ := find_set_make_set_self ds n
  have ai : ∀ i, i < n → (ds.make_set n).find_set i = ds.find_set i ∧
      (ds.make_set n).known i := by
    intro i hi
    obtain ⟨h1, h2⟩ := find_set_make_set_ne ds n i (by omega)
    exact ⟨h1, h2.2 (hcov.1 i hi)⟩
  have hlab : ∀ i, i < n → ds.find_set i < n := by
    intro i hi
    exact (hcov.2 _ (known_entry ds i (hcov.1 i hi))).2
  have bi : ∀ i, i < n → ((ds.make_set n).union_set n x).find_set i =
      (if ds.find_set i = ds.find_set x then n else ds.find_set i) ∧
      ((ds.make_set n).union_set n x).known i := by
    intro i hi
    obtain ⟨h1, h2⟩ := find_set_union_set (ds.make_set n) n x i (Or.inl (ai i hi).2)
    rw [h1, (ai i hi).1, (ai x hx).1, an]
    exact ⟨rfl, h2⟩
  have bn : ((ds.make_set n).union_set n x).find_set n = n ∧
      ((ds.make_set n).union_set n x).known n := by
    obtain ⟨h1, h2⟩ := find_set_union_set (ds.make_set n) n x n (Or.inl akn)
    rw [h1, an]
    refine ⟨?_, h2⟩
    by_cases hc : n = (ds.make_set n).find_set x
    · rw [if_pos hc]
    · rw [if_neg hc]
  have bY : ((ds.make_set n).union_set n x).find_set y = n := by
    rw [(bi y hy).1, if_pos hcl.symm]
  refine ⟨?_, ?_⟩
  · rw [(find_set_union_set _ n y n (Or.inl bn.2)).1, bn.1, bY, if_pos rfl]
  · intro i hi
    rw [(find_set_union_set _ n y i (Or.inl (bi i hi).2)).1, bn.1, bY, (bi i hi).1]
    by_cases hc : ds.find_set i = ds.find_set x
    · rw [if_pos hc, if_pos rfl]
    · rw [if_neg hc]
      have := hlab i hi
      rw [if_neg (by omega)]

/-- The live edges of the class of `x` and `y` after `connect_adjacent_edges` has merged
them: one less than before. -/
theorem class_live_connect (ds : disjoint_sets) (l : List (Option Nat)) (p x y dx dy : Nat)
    (hcov : ds_covers ds l.length) (hx : l[x]? = some (some dx))
    (hy : l[y]? = some (some dy)) (hxy : x ≠ y) (hcl : ds.find_set x = ds.find_set y) :
    (class_live (((ds.make_set l.length).union_set l.length x).union_set l.length y)
      (((l ++ [some p]).set x none).set y none)
      ((((ds.make_set l.length).union_set l.length x).union_set l.length y).find_set
        x)).length + 1 = (class_live ds l (ds.find_set x)).length := by
  have hxlt : x < l.length := by
    by_contra hc
    rw [List.getElem?_eq_none (by omega)] at hx
    cases hx
  have hylt : y < l.length := by
    by_contra hc
    rw [List.getElem?_eq_none (by omega)] at hy
    cases hy
  obtain ⟨hn, hi⟩ := connect_labels ds l.length x y hcov hxlt hylt hcl
  have hlab : ∀ i, i < l.length → ds.find_set i < l.length := by
    intro i hi
    exact (hcov.2 _ (known_entry ds i (hcov.1 i hi))).2
  have hfx : (((ds.make_set l.length).union_set l.length x).union_set l.length y).find_set x =
      l.length := by
    rw [hi x hxlt, if_pos rfl]
  have hlen : (((l ++ [some p]).set x none).set y none).length = l.length + 1 := by simp
  unfold class_live
  rw [hfx, hlen, List.range_succ, List.filter_append]
  have hlast : [l.length].filter (fun i =>
      decide ((((((l ++ [some p]).set x none).set y none).get? i).join).isSome = true ∧
        (((ds.make_set l.length).union_set l.length x).union_set l.length y).find_set i =
          l.length)) = [l.length] := by
    rw [List.filter_eq_self]
    intro i hi1
    rw [List.mem_singleton.mp hi1]
    have hg : (((l ++ [some p]).set x none).set y none).get? l.length = some (some p) := by
      rw [List.get?_eq_getElem?, List.getElem?_set_ne (by omega),
        List.getElem?_set_ne (by omega), List.getElem?_append_right (le_refl _)]
      simp
    rw [hg, hn]
    simp
  have hfirst : (List.range l.length).filter (fun i =>
      decide ((((((l ++ [some p]).set x none).set y none).get? i).join).isSome = true ∧
        (((ds.make_set l.length).union_set l.length x).union_set l.length y).find_set i =
          l.length)) =
      (((List.range l.length).filter (fun i =>
        decide (((l.get? i).join).isSome = true ∧ ds.find_set i = ds.find_set x))).filter
        (fun i => decide (i ≠ x))).filter (fun i => decide (i ≠ y)) := by
    rw [List.filter_filter, List.filter_filter]
    apply List.filter_congr
    intro i hi1
    have hilt : i < l.length := List.mem_range.mp hi1
    have hlabel : ((((ds.make_set l.length).union_set l.length x).union_set l.length
        y).find_set i = l.length) ↔ ds.find_set i = ds.find_set x := by
      rw [hi i hilt]
      by_cases hc : ds.find_set i = ds.find_set x
      · rw [if_pos hc]
        exact ⟨fun _ => hc, fun _ => rfl⟩
      · rw [if_neg hc]
        have := hlab i hilt
        exact ⟨fun h => by omega, fun h => absurd h hc⟩
    by_cases hix : i = x
    · have hg : (((l ++ [some p]).set x none).set y none).get? i = some none := by
        rw [hix, List.get?_eq_getElem?, List.getElem?_set_ne (fun hc => hxy hc.symm),
          List.getElem?_set_self]
        simp
        omega
      rw [hg]
      simp [hix]
    · by_cases hiy : i = y
      · have hg : (((l ++ [some p]).set x none).set y none).get? i = some none := by
          rw [hiy, List.get?_eq_getElem?, List.getElem?_set_self]
          simp
          omega
        rw [hg]
        simp [hiy]
      · have hg : (((l ++ [some p]).set x none).set y none).get? i = l.get? i := by
          rw [List.get?_eq_getElem?, List.getElem?_set_ne (fun hc => hiy hc.symm),
            List.getElem?_set_ne (fun hc => hix hc.symm), List.getElem?_append_left hilt,
            List.get?_eq_getElem?]
        rw [hg]
        simp only [hlabel, hix, hiy, ne_eq, not_false_eq_true, decide_True, Bool.and_true,
          Bool.true_and]
  rw [hlast, hfirst, List.length_append, List.length_singleton]
  have hnd0 : ((List.range l.length).filter (fun i =>
      decide (((l.get? i).join).isSome = true ∧ ds.find_set i = ds.find_set x))).Nodup :=
    List.Nodup.filter _ (List.nodup_range _)
  have hx0 : x ∈ (List.range l.length).filter (fun i =>
      decide (((l.get? i).join).isSome = true ∧ ds.find_set i = ds.find_set x)) := by
    rw [List.mem_filter, List.mem_range, List.get?_eq_getElem?, hx]
    exact ⟨hxlt, by simp⟩
  have hy0 : y ∈ ((List.range l.length).filter (fun i =>
      decide (((l.get? i).join).isSome = true ∧ ds.find_set i = ds.find_set x))).filter
      (fun i => decide (i ≠ x)) := by
    rw [List.mem_filter, List.mem_filter, List.mem_range, List.get?_eq_getElem?, hy]
    refine ⟨⟨hylt, by simp [hcl]⟩, ?_⟩
    simpa using fun hc => hxy hc.symm
  have h1 := length_filter_ne _ hnd0 x hx0
  have h2 := length_filter_ne _ (List.Nodup.filter _ hnd0) y hy0
  omega

/-- Claim C28. For two live edges `x`, `y` of equal weight with
`target(x) = source(y)` (and, the graph being acyclic, `target(y) != source(x)`),
`connect_adjacent_edges`, called with the two indices in either order, removes both
edges and adds exactly one edge from `source(x)` to `target(y)`, with the common weight
and the super-edge chain `chain(x) ++ [target(x)] ++ chain(y)`; its index `i2e.size()`
is in the class of `x` and of `y`; the entries of `x` and `y` in `i2e` become
`null_edge`, so the graph and `i2e` have one live edge less, and so has the class when
`x` and `y` were in one class. If an edge is dead or the two edges are not adjacent,
the state is returned unchanged. -/
theorem connect_adjacent_edges_spec (SMIN : ℚ) (fuel : Nat) (sc : scallop3) (x y : Nat)
    (ex ey : graph_edge) (cx cy : List Int) (hS : 0 ≤ SMIN)
    (hf : sc.gr.fresh) (hnd : (sc.gr.edges.map graph_edge.id).Nodup)
    (he2i : ∀ p ∈ sc.e2i, p.1 < sc.gr.next) (hmev : ∀ p ∈ sc.mev, p.1 < sc.gr.next)
    (hcov : ds_covers sc.ds sc.i2e.length)
    (hx : sc.edge_at x = some ex) (hy : sc.edge_at y = some ey)
    (hw : ex.weight = ey.weight) (hadj : ex.t = ey.s) (hacyc : ey.t ≠ ex.s)
    (hcx : mev_find sc.mev ex.id = some cx) (hcy : mev_find sc.mev ey.id = some cy) :
    (∃ sc1, sc.connect_adjacent_edges SMIN (fuel + 2) x y = some (sc1, false) ∧
      sc.connect_adjacent_edges SMIN (fuel + 2) y x = some (sc1, false) ∧
      sc1.i2e[x]? = some none ∧ sc1.i2e[y]? = some none ∧
      sc1.edge_at sc.i2e.length =
        some (graph_edge.mk sc.gr.next ex.s ey.t ex.weight ex.stddev {}) ∧
      (∀ i, i ≠ x → i ≠ y → i < sc.i2e.length → sc1.i2e[i]? = sc.i2e[i]?) ∧
      (∀ e, e ∈ sc1.gr.edges ↔
        (e ∈ sc.gr.edges ∧ e.id ≠ ex.id ∧ e.id ≠ ey.id) ∨
        e = graph_edge.mk sc.gr.next ex.s ey.t ex.weight ex.stddev {}) ∧
      sc1.gr.edges.length + 1 = sc.gr.edges.length ∧
      mev_find sc1.mev sc.gr.next = some (cx ++ [(ex.t : Int)] ++ cy) ∧
      sc1.ds.find_set sc.i2e.length = sc1.ds.find_set x ∧
      sc1.ds.find_set sc.i2e.length = sc1.ds.find_set y ∧
      (sc1.i2e.filter Option.isSome).length + 1 = (sc.i2e.filter Option.isSome).length ∧
      (sc.ds.find_set x = sc.ds.find_set y →
        (class_live sc1.ds sc1.i2e (sc1.ds.find_set x)).length + 1 =
          (class_live sc.ds sc.i2e (sc.ds.find_set x)).length)) ∧
    (∀ (sc2 : scallop3) (a b : Nat),
      (a < sc2.i2e.length ∧ b < sc2.i2e.length ∧
        (sc2.live_edge a = none ∨ sc2.live_edge b = none)) ∨
      (∃ ea eb, sc2.edge_at a = some ea ∧ sc2.edge_at b = some eb ∧
        ea.t ≠ eb.s ∧ eb.t ≠ ea.s) →
      sc2.connect_adjacent_edges SMIN (fuel + 1) a b = some (sc2, false)) := by
  obtain ⟨hlx, hfx, hxlt, hexm⟩ := edge_at_some sc x ex hx
  obtain ⟨hly, hfy, hylt, heym⟩ := edge_at_some sc y ey hy
  have hget : ∀ (s : scallop3) (k d : Nat), s.live_edge k = some d →
      s.i2e[k]? = some (some d) := by
    intro s k d hk
    unfold scallop3.live_edge at hk
    rw [List.get?_eq_getElem?] at hk
    cases hg : s.i2e[k]? with
    | none => rw [hg] at hk; cases hk
    | some o =>
      rw [hg] at hk
      cases o with
      | none => cases hk
      | some d1 =>
        have : d1 = d := Option.some.inj hk
        rw [this]
  have hgx := hget sc x ex.id hlx
  have hgy := hget sc y ey.id hly
  have hexy : ex ≠ ey := by
    intro hc
    apply hacyc
    rw [← hc, hadj, ← hc]
  have hidne : ex.id ≠ ey.id := by
    intro hc
    rw [hc, hfy] at hfx
    exact hexy (Option.some.inj hfx).symm
  have hxy : x ≠ y := by
    intro hc
    rw [hc, hy] at hx
    exact hexy (Option.some.inj hx).symm
  have hwabs : |ex.weight - ey.weight| ≤ SMIN := by
    rw [hw, sub_self, abs_zero]
    exact hS
  obtain ⟨g1, g2, g3⟩ := connect_adjacent_edges_state_graph sc x y ex ey hf hnd hexm heym hidne
  obtain ⟨i1, i2, i3, i4, i5, i6⟩ :=
    connect_adjacent_edges_state_i2e sc x y ex ey ex.id ey.id hgx hgy hxy
  obtain ⟨m1, _⟩ := connect_adjacent_edges_state_mev sc x y ex ey cx cy hmev hcx hcy
  obtain ⟨d1, d2⟩ := connect_classes sc.ds sc.i2e.length x y
  refine ⟨⟨connect_adjacent_edges_state sc x y ex ey,
    connect_adjacent_edges_direct SMIN (fuel + 1) sc x y ex ey he2i hx hy hwabs hadj hacyc,
    connect_adjacent_edges_swapped SMIN fuel sc x y ex ey he2i hx hy hwabs hadj hacyc,
    i2, i3, ?_, i5, g1, g2, m1, d1, d2, i6, ?_⟩, ?_⟩
  · unfold scallop3.edge_at scallop3.live_edge
    rw [List.get?_eq_getElem?, i4]
    exact g3
  · intro hcl
    exact class_live_connect sc.ds sc.i2e sc.gr.next x y ex.id ey.id hcov hgx hgy hxy hcl
  · intro sc2 a b hcase
    rcases hcase with ⟨ha, hb, hdead⟩ | ⟨ea, eb, hea, heb, hn1, hn2⟩
    · unfold scallop3.connect_adjacent_edges
      rw [List.get?_eq_getElem?, List.get?_eq_getElem?, List.getElem?_eq_getElem ha,
        List.getElem?_eq_getElem hb]
      unfold scallop3.live_edge at hdead
      rw [List.get?_eq_getElem?, List.get?_eq_getElem?, List.getElem?_eq_getElem ha,
        List.getElem?_eq_getElem hb] at hdead
      cases hoa : sc2.i2e[a] with
      | none => rfl
      | some da =>
        cases hob : sc2.i2e[b] with
        | none => rfl
        | some db =>
          rw [hoa, hob] at hdead
          rcases hdead with h | h <;> cases h
    · obtain ⟨hla, hfa, _, _⟩ := edge_at_some sc2 a ea hea
      obtain ⟨hlb, hfb, _, _⟩ := edge_at_some sc2 b eb heb
      have hga := hget sc2 a ea.id hla
      have hgb := hget sc2 b eb.id hlb
      unfold scallop3.connect_adjacent_edges
      rw [List.get?_eq_getElem?, List.get?_eq_getElem?, hga, hgb]
      simp only [hfa, hfb]
      rw [if_pos ⟨hn1, hn2⟩]

/-- Witness of `connect_adjacent_edges_spec` (claim C28): the two edges of the path
`0 -> 1 -> 2`, both of weight `5` and in one class, are merged into the edge `0 -> 2`
with the chain `[1]`. -/
theorem connect_adjacent_edges_spec_witness :
    ((0 : ℚ) ≤ 0 ∧ adjacent_pair_state.gr.fresh ∧
      (adjacent_pair_state.gr.edges.map graph_edge.id).Nodup ∧
      (∀ p ∈ adjacent_pair_state.e2i, p.1 < adjacent_pair_state.gr.next) ∧
      (∀ p ∈ adjacent_pair_state.mev, p.1 < adjacent_pair_state.gr.next) ∧
      ds_covers adjacent_pair_state.ds adjacent_pair_state.i2e.length ∧
      adjacent_pair_state.edge_at 0 = some (graph_edge.mk 0 0 1 5 0 {}) ∧
      adjacent_pair_state.edge_at 1 = some (graph_edge.mk 1 1 2 5 0 {}) ∧
      (graph_edge.mk 0 0 1 5 0 {}).weight = (graph_edge.mk 1 1 2 5 0 {}).weight ∧
      (graph_edge.mk 0 0 1 5 0 {}).t = (graph_edge.mk 1 1 2 5 0 {}).s ∧
      (graph_edge.mk 1 1 2 5 0 {}).t ≠ (graph_edge.mk 0 0 1 5 0 {}).s ∧
      mev_find adjacent_pair_state.mev (graph_edge.mk 0 0 1 5 0 {}).id = some [] ∧
      mev_find adjacent_pair_state.mev (graph_edge.mk 1 1 2 5 0 {}).id = some []) ∧
    ((∃ sc1, adjacent_pair_state.connect_adjacent_edges 0 (0 + 2) 0 1 = some (sc1, false) ∧
      adjacent_pair_state.connect_adjacent_edges 0 (0 + 2) 1 0 = some (sc1, false) ∧
      sc1.i2e[0]? = some none ∧ sc1.i2e[1]? = some none ∧
      sc1.edge_at adjacent_pair_state.i2e.length =
        some (graph_edge.mk adjacent_pair_state.gr.next (graph_edge.mk 0 0 1 5 0 {}).s
          (graph_edge.mk 1 1 2 5 0 {}).t (graph_edge.mk 0 0 1 5 0 {}).weight
          (graph_edge.mk 0 0 1 5 0 {}).stddev {}) ∧
      (∀ i, i ≠ 0 → i ≠ 1 → i < adjacent_pair_state.i2e.length →
        sc1.i2e[i]? = adjacent_pair_state.i2e[i]?) ∧
      (∀ e, e ∈ sc1.gr.edges ↔
        (e ∈ adjacent_pair_state.gr.edges ∧ e.id ≠ (graph_edge.mk 0 0 1 5 0 {}).id ∧
          e.id ≠ (graph_edge.mk 1 1 2 5 0 {}).id) ∨
        e = graph_edge.mk adjacent_pair_state.gr.next (graph_edge.mk 0 0 1 5 0 {}).s
          (graph_edge.mk 1 1 2 5 0 {}).t (graph_edge.mk 0 0 1 5 0 {}).weight
          (graph_edge.mk 0 0 1 5 0 {}).stddev {}) ∧
      sc1.gr.edges.length + 1 = adjacent_pair_state.gr.edges.length ∧
      mev_find sc1.mev adjacent_pair_state.gr.next =
        some ([] ++ [((graph_edge.mk 0 0 1 5 0 {}).t : Int)] ++ []) ∧
      sc1.ds.find_set adjacent_pair_state.i2e.length = sc1.ds.find_set 0 ∧
      sc1.ds.find_set adjacent_pair_state.i2e.length = sc1.ds.find_set 1 ∧
      (sc1.i2e.filter Option.isSome).length + 1 =
        (adjacent_pair_state.i2e.filter Option.isSome).length ∧
      (adjacent_pair_state.ds.find_set 0 = adjacent_pair_state.ds.find_set 1 →
        (class_live sc1.ds sc1.i2e (sc1.ds.find_set 0)).length + 1 =
          (class_live adjacent_pair_state.ds adjacent_pair_state.i2e
            (adjacent_pair_state.ds.find_set 0)).length)) ∧
    (∀ (sc2 : scallop3) (a b : Nat),
      (a < sc2.i2e.length ∧ b < sc2.i2e.length ∧
        (sc2.live_edge a = none ∨ sc2.live_edge b = none)) ∨
      (∃ ea eb, sc2.edge_at a = some ea ∧ sc2.edge_at b = some eb ∧
        ea.t ≠ eb.s ∧ eb.t ≠ ea.s) →
      sc2.connect_adjacent_edges 0 (0 + 1) a b = some (sc2, false))) :=
  ⟨⟨le_refl _, by unfold splice_graph.fresh; decide, by decide, by decide, by decide,
      by unfold ds_covers disjoint_sets.known; decide, by with_unfolding_all rfl,
      by with_unfolding_all rfl, rfl, rfl, by decide, by decide, by decide⟩,
    connect_adjacent_edges_spec 0 0 adjacent_pair_state 0 1 (graph_edge.mk 0 0 1 5 0 {})
      (graph_edge.mk 1 1 2 5 0 {}) [] [] (le_refl _) (by unfold splice_graph.fresh; decide)
      (by decide) (by decide) (by decide) (by unfold ds_covers disjoint_sets.known; decide)
      (by with_unfolding_all rfl) (by with_unfolding_all rfl) rfl rfl (by decide)
      (by decide) (by decide)⟩

/-- The merge of the two edges of the path `0 -> 1 -> 2`, evaluated: the graph holds the
single edge `0 -> 2` of weight `5` with the descriptor `2` and the chain `[1]`; the
entries `0` and `1` of `i2e` are `null_edge`; the three indices are in one class with
the label `2`; the call returns `false`. A pair of edges on a cycle of length two runs
into the call with the arguments swapped for ever. -/
theorem connect_adjacent_edges_path :
    (adjacent_pair_state.connect_adjacent_edges 0 2 1 0).map
      (fun r => (r.1.gr.edges, r.1.i2e, r.1.ds, mev_find r.1.mev 2, r.2)) =
      some ([graph_edge.mk 2 0 2 5 0 {}], [none, none, some 2], [(0, 2), (1, 2), (2, 2)],
        some [1], false) ∧
    ∀ fuel, (scallop3.mk (mk_graph 2 [(0, 1, 5), (1, 0, 5)]) [(0, 0), (1, 1)]
      [some 0, some 1] [(0, []), (1, [])] [(0, 0), (1, 0)] 0).connect_adjacent_edges
        0 fuel 0 1 = none := by
  refine ⟨by with_unfolding_all rfl, ?_⟩
  have hswap : ∀ fuel, (scallop3.mk (mk_graph 2 [(0, 1, 5), (1, 0, 5)]) [(0, 0), (1, 1)]
      [some 0, some 1] [(0, []), (1, [])] [(0, 0), (1, 0)] 0).connect_adjacent_edges
        0 fuel 0 1 = none ∧
      (scallop3.mk (mk_graph 2 [(0, 1, 5), (1, 0, 5)]) [(0, 0), (1, 1)]
      [some 0, some 1] [(0, []), (1, [])] [(0, 0), (1, 0)] 0).connect_adjacent_edges
        0 fuel 1 0 = none := by
    intro fuel
    induction fuel with
    | zero => exact ⟨rfl, rfl⟩
    | succ fuel ih =>
      refine ⟨?_, ?_⟩
      · rw [← ih.2]
        conv_lhs => unfold scallop3.connect_adjacent_edges
        rfl
      · rw [← ih.1]
        conv_lhs => unfold scallop3.connect_adjacent_edges
        rfl
  exact fun fuel => (hswap fuel).1

/-! ## Closest subset: progress of the bisection and range of the result -/

/-- On a list of two entries whose first sum is below `w`, the bisection of
`compute_closest_subset` makes no progress: `m = (0 + 1) / 2 = 0`, `w > xxp[0].first`,
and `s = m` leaves `s = 0`, `t = 1`. -/
theorem compute_closest_subset_search_two (a b : Int × Int) (w : Int) (h : a.1 < w)
    (fuel : Nat) : ∀ m, compute_closest_subset_search w [a, b] fuel 0 1 m = none := by
  induction fuel with
  | zero => intro m; rfl
  | succ fuel ih =>
    intro m
    rw [compute_closest_subset_search]
    have h1 : Int.tdiv (wrap32 (0 + 1)) 2 = 0 := by decide
    have h2 : vec_get [a, b] 0 = some a := rfl
    simp only [h1, h2]
    have h3 : ¬ ¬ ((0 : Int) < 1) := by decide
    have h4 : ¬ (w = a.1) := by omega
    have h5 : w > a.1 := h
    rw [if_neg h3, if_neg h4, if_pos h5]
    exact ih 0

/-- Claim C35, evaluation at the failing inputs. On every list of two entries whose first
sum is below `w` (so on `[(2, 0), (7, 1)]` with `w = 7`, sorted ascending), the
bisection loop of `compute_closest_subset` never ends: no number of iterations yields a
result. On the one-entry list `[(1, 2)]` with `xi = 2` the method returns `1`, which is
`xxp.size()` and no index of `xxp`. -/
theorem compute_closest_subset_no_progress :
    (∀ (a b : Int × Int) (w : Int), a.1 < w →
      ∀ fuel xi, compute_closest_subset fuel xi w [a, b] = none) ∧
    (∀ fuel, compute_closest_subset fuel 2 7 [(2, 0), (7, 1)] = none) ∧
    compute_closest_subset 1 2 7 [(1, 2)] = some 1 := by
  have hgen : ∀ (a b : Int × Int) (w : Int), a.1 < w →
      ∀ fuel xi, compute_closest_subset fuel xi w [a, b] = none := by
    intro a b w h fuel xi
    unfold compute_closest_subset
    have hs : compute_closest_subset_search w [a, b] fuel 0
        ((([a, b] : List (Int × Int)).length : Int) - 1) (-1) = none :=
      compute_closest_subset_search_two a b w h fuel (-1)
    rw [hs]
    rfl
  exact ⟨hgen, fun fuel => hgen (2, 0) (7, 1) 7 (by decide) fuel 2, by decide⟩

/-! ## Bridging a read pair: the indices of `trace` -/

/-- Claim C36, evaluation at the failing input. The vector `trace` of `bridge_read` is
declared empty and never resized, so the write `trace[0] = -1` is at the index `0` of a
vector of size `0`. In the graph `0 -> 1 -> 3`, `0 -> 2 -> 3` of two partial exons
without an edge between their vertices `1` and `2`, the call `bridge_read(0, 1, v)` has
no defined result; and so has every call with `x < y` and no direct edge, although the
write `table[0] = 1` before it is inside `table`. -/
theorem bridge_read_trace_index :
    vec_set ([] : List Int) 0 (-1) = none ∧
    (mk_graph 4 [(0, 1, 10), (0, 2, 10), (1, 3, 10), (2, 3, 10)]).edge 1 2 = none ∧
    bundle.bridge_read
      { mk_locus 0 400 [] [] with
        gr := mk_graph 4 [(0, 1, 10), (0, 2, 10), (1, 3, 10), (2, 3, 10)] } 0 1 = none ∧
    ∀ (b : bundle) (x y : Int), x < y → y - x < 2147483647 →
      b.gr.edge (x + 1).toNat (y + 1).toNat = none →
      (vec_set (([] : List Int) ++
        List.replicate (wrap32 (wrap32 (y - x) + 1)).toNat (0 : Int)) 0 1).isSome ∧
      b.bridge_read x y = none := by
  refine ⟨by decide, by decide, by decide, ?_⟩
  intro b x y hxy hlt he
  have hw1 : wrap32 (y - x) = y - x := by
    unfold wrap32
    omega
  have hw2 : wrap32 (y - x + 1) = y - x + 1 := by
    unfold wrap32
    omega
  have hset : (vec_set (([] : List Int) ++
      List.replicate (wrap32 (wrap32 (y - x) + 1)).toNat (0 : Int)) 0 1).isSome := by
    unfold vec_set
    rw [hw1, hw2, if_pos]
    · rfl
    · refine ⟨le_refl _, ?_⟩
      simp only [List.nil_append, List.length_replicate, Int.toNat_zero]
      omega
  refine ⟨hset, ?_⟩
  unfold bundle.bridge_read
  have h1 : ¬ x ≥ y := by omega
  simp only [h1, if_false, he, ite_self, ne_eq, not_true_eq_false]
  cases vec_set ([] ++ List.replicate (wrap32 (wrap32 (y - x) + 1)).toNat (0 : Int)) 0 1 with
  | none => rfl
  | some table => rfl

/-! ## The order of the vertices under the mutations of `scallop3` -/

/-- A property of the state is kept by a fold over optional states when every step on an
element of the list that succeeds keeps it. -/
theorem foldl_option_invariant_mem {σ α : Type} (f : Option σ → α → Option σ)
    (P : σ → Prop) (hnone : ∀ x, f none x = none) (L : List α) :
    (∀ s x s1, x ∈ L → P s → f (some s) x = some s1 → P s1) →
    ∀ (s s1 : σ), P s → L.foldl f (some s) = some s1 → P s1 := by
  induction L with
  | nil =>
    intro _ s s1 hP h
    cases h
    exact hP
  | cons x L ih =>
    intro hstep s s1 hP h
    rw [List.foldl_cons] at h
    cases hs : f (some s) x with
    | none =>
      rw [hs] at h
      have hn : ∀ (M : List α), M.foldl f none = none := by
        intro M
        induction M with
        | nil => rfl
        | cons m M ihm => rw [List.foldl_cons, hnone]; exact ihm
      rw [hn] at h
      cases h
    | some s2 =>
      rw [hs] at h
      exact ih (fun a b c hb => hstep a b c (List.mem_cons_of_mem _ hb)) s2 s1
        (hstep s x s2 (List.mem_cons_self _ _) hP hs) h

/-- A graph that grows by edges to higher vertices keeps its edges ordered. -/
theorem ordered_grows (g g1 : splice_graph) (ps : List (Nat × Nat)) (hg : g.grows g1 ps)
    (ho : g.ordered) (hps : ∀ p ∈ ps, p.1 < p.2) : g1.ordered := by
  intro e he
  have hm : (e.s, e.t) ∈ g1.edge_pairs := List.mem_map.2 ⟨e, he, rfl⟩
  rw [hg.2.1, List.mem_append] at hm
  rcases hm with hm | hm
  · obtain ⟨e0, he0, h0⟩ := List.mem_map.1 hm
    have := ho e0 he0
    rw [Prod.mk.injEq] at h0
    rw [← h0.1, ← h0.2]
    exact this
  · exact hps _ hm

/-- The graph after an edge has been added and its weight and standard deviation set. -/
theorem grows_add_weight_stddev (g : splice_graph) (s t : Nat) (w a : ℚ) :
    g.grows (((g.add_edge s t).1.set_edge_weight (g.add_edge s t).2 w).set_edge_stddev
      (g.add_edge s t).2 a) [(s, t)] := by
  have h := grows_trans (grows_trans (grows_add_edge g s t)
    (grows_set_edge_weight (g.add_edge s t).1 (g.add_edge s t).2 w))
    (grows_set_edge_stddev ((g.add_edge s t).1.set_edge_weight (g.add_edge s t).2 w)
      (g.add_edge s t).2 a)
  simpa using h

/-- The body of the inner loop of `init_trivial_vertex`, when it succeeds, grows the
graph by the edge from the source of `e1` to the target of `e2`. -/
theorem init_trivial_vertex_pair_some (x : Nat) (e1 e2 : graph_edge) (sc sc1 : scallop3)
    (h : init_trivial_vertex_pair x e1 (some sc) e2 = some sc1) :
    sc.gr.grows sc1.gr [(e1.s, e2.t)] := by
  unfold init_trivial_vertex_pair at h
  simp only at h
  split at h
  · rename_i c1 c2 _ _
    have h2 := Option.some.inj h
    rw [← h2]
    exact grows_add_weight_stddev sc.gr e1.s e2.t _ _
  · cases h

/-- The method `init_trivial_vertex` keeps the edges ordered. -/
theorem init_trivial_vertex_ordered (sc : scallop3) (x : Nat) (sc1 : scallop3) (b : Bool)
    (ho : sc.gr.ordered) (h : sc.init_trivial_vertex x = some (sc1, b)) :
    sc1.gr.ordered := by
  unfold scallop3.init_trivial_vertex at h
  simp only at h
  split_ifs at h with h1 h2 hself
  · have h3 := congrArg Prod.fst (Option.some.inj h)
    simp only at h3
    rw [← h3]
    exact ho
  · have h3 := congrArg Prod.fst (Option.some.inj h)
    simp only at h3
    rw [← h3]
    exact ho
  · split at h
    · cases h
    · rename_i sc2 hfold
      have hinner : ∀ e1 ∈ sc.gr.in_edges x, ∀ (s s1 : scallop3), s.gr.ordered →
          (sc.gr.out_edges x).foldl (init_trivial_vertex_pair x e1) (some s) = some s1 →
          s1.gr.ordered := by
        intro e1 he1 s s1 hs hf
        obtain ⟨m1, t1⟩ := (mem_in_edges _ _ _).1 he1
        have a1 := ho e1 m1
        refine foldl_option_invariant_mem (init_trivial_vertex_pair x e1)
          (fun q => q.gr.ordered) (fun _ => rfl) (sc.gr.out_edges x) ?_ s s1 hs hf
        intro q e2 q1 he2 hq hstep
        obtain ⟨m2, t2⟩ := (mem_out_edges _ _ _).1 he2
        have a2 := ho e2 m2
        refine ordered_grows q.gr q1.gr _ (init_trivial_vertex_pair_some x e1 e2 q q1 hstep) hq ?_
        intro p hp
        rw [List.mem_singleton.mp hp]
        simp only
        omega
      have hnone : ∀ e1 : graph_edge,
          (sc.gr.out_edges x).foldl (init_trivial_vertex_pair x e1) none = none := by
        intro e1
        generalize sc.gr.out_edges x = O
        induction O with
        | nil => rfl
        | cons o O ih => rw [List.foldl_cons]; exact ih
      have hout : sc2.gr.ordered :=
        foldl_option_invariant_mem
          (fun st e1 => (sc.gr.out_edges x).foldl (init_trivial_vertex_pair x e1) st)
          (fun q => q.gr.ordered) hnone (sc.gr.in_edges x)
          (fun q e1 q1 he1 hq hstep => hinner e1 he1 q q1 hq hstep) sc sc2 ho hfold
      have h3 := congrArg Prod.fst (Option.some.inj h)
      simp only at h3
      rw [← h3]
      intro e he
      exact hout e (List.mem_of_mem_filter he)

/-- One iteration of the second loop of `split_edge`, when it succeeds, grows the graph
by an edge from `s` to `t`. -/
theorem split_edge_copy_grows (ex s t : Nat) (sc : scallop3) (v : List Nat) (k : Nat)
    (sc1 : scallop3) (v1 : List Nat)
    (h : split_edge_copy ex s t (some (sc, v)) k = some (sc1, v1)) :
    sc.gr.grows sc1.gr [(s, t)] := by
  unfold split_edge_copy at h
  simp only at h
  split_ifs at h with h1
  split at h
  · cases h
  · split at h
    · rename_i w0 w1 _ _
      have h2 := congrArg Prod.fst (Option.some.inj h)
      simp only at h2
      rw [← h2]
      exact grows_add_weight_stddev sc.gr s t w0 w1
    · cases h

/-- The method `split_edge` keeps the edges ordered. -/
theorem split_edge_ordered (SMIN : ℚ) (sc : scallop3) (ei : Nat) (sub : List Nat)
    (sc1 : scallop3) (v : List Nat) (ho : sc.gr.ordered)
    (h : sc.split_edge SMIN ei sub = some (sc1, v)) : sc1.gr.ordered := by
  unfold scallop3.split_edge at h
  simp only at h
  split at h
  · cases h
  · rename_i exd hex
    split_ifs at h with h1 h2
    split at h
    · rename_i w k0 hres hhead
      split_ifs at h with h3
      split at h
      · cases h
      · rename_i ey hey
        split at h
        · rename_i w0 w1 exo _ _ hfind
          have hexo : exo ∈ sc.gr.edges := by
            unfold splice_graph.find_edge at hfind
            exact List.mem_of_find?_eq_some hfind
          have hst := ho exo hexo
          have ho0 : (({ sc with
              gr := (sc.gr.set_edge_weight exd w0).set_edge_stddev exd w1,
              ds := sc.ds.union_set ei k0 } : scallop3), [] ++ [ei]).1.gr.ordered := by
            have hg := grows_trans (grows_set_edge_weight sc.gr exd w0)
              (grows_set_edge_stddev (sc.gr.set_edge_weight exd w0) exd w1)
            exact ordered_grows sc.gr _ _ hg ho (fun p hp => by simp at hp)
          exact foldl_option_invariant (split_edge_copy exd exo.s exo.t)
            (fun st => st.1.gr.ordered) (fun x => rfl)
            (fun st k st1 hP hs => by
              obtain ⟨q, qv⟩ := st
              obtain ⟨q1, qv1⟩ := st1
              refine ordered_grows q.gr q1.gr _
                (split_edge_copy_grows exd exo.s exo.t q qv k q1 qv1 hs) hP ?_
              intro p hp
              rw [List.mem_singleton.mp hp]
              exact hst)
            sub.tail _ (sc1, v) ho0 h
        · cases h
    · cases h

/-- The method `connect_adjacent_edges` keeps the edges ordered. -/
theorem connect_adjacent_edges_ordered (SMIN : ℚ) (fuel : Nat) (sc : scallop3) (x y : Nat)
    (sc1 : scallop3) (b : Bool) (ho : sc.gr.ordered)
    (h : sc.connect_adjacent_edges SMIN fuel x y = some (sc1, b)) : sc1.gr.ordered := by
  obtain ⟨_, hr⟩ := connect_adjacent_edges_cases SMIN fuel sc x y sc1 b h
  rcases hr with hr | ⟨x1, y1, ex, ey, _, hx1, hy1, hadj, _, hst⟩
  · rw [hr]
    exact ho
  · rw [hst]
    have hex := ho ex (edge_at_some sc x1 ex hx1).2.2.2
    have hey := ho ey (edge_at_some sc y1 ey hy1).2.2.2
    have hg := grows_add_weight_stddev sc.gr ex.s ey.t ex.weight ex.stddev
    have hord := ordered_grows sc.gr _ _ hg ho (fun p hp => by
      rw [List.mem_singleton.mp hp]
      simp only
      omega)
    intro e he
    unfold connect_adjacent_edges_state at he
    simp only [splice_graph.remove_edge] at he
    exact hord e (List.mem_of_mem_filter (List.mem_of_mem_filter he))

/-- Claim C31. The predicate "every edge `(s, t)` of the graph satisfies `s < t`" is kept
by `init_trivial_vertex`, by `split_edge` and by `connect_adjacent_edges`: whenever one
of them returns, on a state that satisfies the predicate, the new state satisfies
it. -/
theorem mutations_keep_order (SMIN : ℚ) (sc : scallop3) (ho : sc.gr.ordered) :
    (∀ x sc1 b, sc.init_trivial_vertex x = some (sc1, b) → sc1.gr.ordered) ∧
    (∀ ei sub sc1 v, sc.split_edge SMIN ei sub = some (sc1, v) → sc1.gr.ordered) ∧
    (∀ fuel x y sc1 b, sc.connect_adjacent_edges SMIN fuel x y = some (sc1, b) →
      sc1.gr.ordered) :=
  ⟨fun x sc1 b h => init_trivial_vertex_ordered sc x sc1 b ho h,
    fun ei sub sc1 v h => split_edge_ordered SMIN sc ei sub sc1 v ho h,
    fun fuel x y sc1 b h => connect_adjacent_edges_ordered SMIN fuel sc x y sc1 b ho h⟩

/-- Witness of `mutations_keep_order` (claim C31): the path `0 -> 1 -> 2` of two edges. -/
theorem mutations_keep_order_witness :
    adjacent_pair_state.gr.ordered ∧
    ((∀ x sc1 b, adjacent_pair_state.init_trivial_vertex x = some (sc1, b) →
        sc1.gr.ordered) ∧
      (∀ ei sub sc1 v, adjacent_pair_state.split_edge 0 ei sub = some (sc1, v) →
        sc1.gr.ordered) ∧
      (∀ fuel x y sc1 b,
        adjacent_pair_state.connect_adjacent_edges 0 fuel x y = some (sc1, b) →
        sc1.gr.ordered)) :=
  ⟨by unfold splice_graph.ordered; decide,
    mutations_keep_order 0 adjacent_pair_state (by unfold splice_graph.ordered; decide)⟩

/-- The three mutations on ordered graphs, evaluated: `init_trivial_vertex(1)` on the
path `0 -> 1 -> 2` leaves the edge `0 -> 2`; `connect_adjacent_edges(0, 1)` leaves the
edge `0 -> 2`; `split_edge(0, [1, 2, 1])` on three parallel edges `0 -> 1` leaves five
edges `0 -> 1`. -/
theorem mutations_on_ordered_graphs :
    (adjacent_pair_state.init_trivial_vertex 1).map
      (fun r => (r.1.gr.edge_pairs, r.2)) = some ([(0, 2)], true) ∧
    (adjacent_pair_state.connect_adjacent_edges 0 1 0 1).map
      (fun r => r.1.gr.edge_pairs) = some [(0, 2)] ∧
    (three_edge_state.split_edge 0 0 [1, 2, 1]).map
      (fun r => r.1.gr.edge_pairs) = some [(0, 1), (0, 1), (0, 1), (0, 1), (0, 1)] := by
  refine ⟨by with_unfolding_all rfl, by with_unfolding_all rfl, by with_unfolding_all rfl⟩

/-! ## The loops of `init_trivial_vertex` over the ranges of the graph -/

/-- The body of the inner loop of `init_trivial_vertex`, when it succeeds on a graph with
fresh descriptors, appends one edge, from the source of `e1` to the target of `e2`. -/
theorem init_trivial_vertex_pair_edges (x : Nat) (e1 e2 : graph_edge) (sc sc1 : scallop3)
    (hf : sc.gr.fresh) (h : init_trivial_vertex_pair x e1 (some sc) e2 = some sc1) :
    sc1.gr.fresh ∧ ∃ enew : graph_edge, enew.s = e1.s ∧ enew.t = e2.t ∧
      sc1.gr.edges = sc.gr.edges ++ [enew] := by
  have hg := init_trivial_vertex_pair_some x e1 e2 sc sc1 h
  refine ⟨hg.2.2 hf, ?_⟩
  unfold init_trivial_vertex_pair at h
  simp only at h
  split at h
  · have h2 := Option.some.inj h
    rw [← h2]
    have he := add_edge_set_weight_stddev sc.gr hf e1.s e2.t
      (if e1.weight < e2.weight then e1.weight else e2.weight)
      (if e1.weight < e2.weight then e1.stddev else e2.stddev)
    refine ⟨graph_edge.mk sc.gr.next e1.s e2.t
      (if e1.weight < e2.weight then e1.weight else e2.weight)
      (if e1.weight < e2.weight then e1.stddev else e2.stddev) {}, rfl, rfl, ?_⟩
    show (((sc.gr.add_edge e1.s e2.t).1.set_edge_weight sc.gr.next
      (if e1.weight < e2.weight then e1.weight else e2.weight)).set_edge_stddev sc.gr.next
      (if e1.weight < e2.weight then e1.stddev else e2.stddev)).edges = _
    rw [he]
  · cases h

/-- The inner loop of `init_trivial_vertex` that starts from a failure fails. -/
theorem init_trivial_vertex_pair_none (x : Nat) (e1 : graph_edge) (O : List graph_edge) :
    O.foldl (init_trivial_vertex_pair x e1) none = none := by
  induction O with
  | nil => rfl
  | cons o O ih => rw [List.foldl_cons]; exact ih

/-- The outer loop of `init_trivial_vertex` that starts from a failure fails. -/
theorem init_trivial_vertex_fold_none (x : Nat) (O I : List graph_edge) :
    I.foldl (fun st e1 => O.foldl (init_trivial_vertex_pair x e1) st) none = none := by
  induction I with
  | nil => rfl
  | cons e I ih => rw [List.foldl_cons, init_trivial_vertex_pair_none]; exact ih

/-- The body of the inner loop on an edge `e1` that does not start at `x` and an edge
`e2` that does not end at `x` leaves the edges into and out of `x` as they are. -/
theorem init_trivial_vertex_pair_frame (x : Nat) (e1 e2 : graph_edge) (sc sc1 : scallop3)
    (hf : sc.gr.fresh) (h1 : e1.s ≠ x) (h2 : e2.t ≠ x)
    (h : init_trivial_vertex_pair x e1 (some sc) e2 = some sc1) :
    sc1.gr.fresh ∧ sc1.gr.in_edges x = sc.gr.in_edges x ∧
      sc1.gr.out_edges x = sc.gr.out_edges x := by
  obtain ⟨hf1, enew, hs, ht, he⟩ := init_trivial_vertex_pair_edges x e1 e2 sc sc1 hf h
  refine ⟨hf1, ?_, ?_⟩
  · unfold splice_graph.in_edges
    rw [he, List.filter_append]
    have : ¬ enew.t = x := by rw [ht]; exact h2
    simp [this]
  · unfold splice_graph.out_edges
    rw [he, List.filter_append]
    have : ¬ enew.s = x := by rw [hs]; exact h1
    simp [this]

/-- The inner loop over the edges out of `x`, none of which ends at `x`, for an edge
`e1` that does not start at `x`, leaves the edges into and out of `x` as they are. -/
theorem init_trivial_vertex_inner_frame (x : Nat) (e1 : graph_edge) (h1 : e1.s ≠ x)
    (O : List graph_edge) (hO : ∀ e2 ∈ O, e2.t ≠ x) (sc sc1 : scallop3) (hf : sc.gr.fresh)
    (h : O.foldl (init_trivial_vertex_pair x e1) (some sc) = some sc1) :
    sc1.gr.fresh ∧ sc1.gr.in_edges x = sc.gr.in_edges x ∧
      sc1.gr.out_edges x = sc.gr.out_edges x := by
  refine foldl_option_invariant_mem (init_trivial_vertex_pair x e1)
    (fun q => q.gr.fresh ∧ q.gr.in_edges x = sc.gr.in_edges x ∧
      q.gr.out_edges x = sc.gr.out_edges x) (fun _ => rfl) O ?_ sc sc1 ⟨hf, rfl, rfl⟩ h
  intro q e2 q1 he2 hq hstep
  obtain ⟨a, b, c⟩ := init_trivial_vertex_pair_frame x e1 e2 q q1 hq.1 h1 (hO e2 he2) hstep
  exact ⟨a, b.trans hq.2.1, c.trans hq.2.2⟩

/-- Without an edge from `x` to `x`, the inner loop over the range of the edges out of
`x` is the fold over these edges as they are when the loop starts. -/
theorem init_trivial_vertex_inner_live_eq (x : Nat) (e1 : graph_edge) (h1 : e1.s ≠ x)
    (fuel : Nat) :
    ∀ (j : Nat) (sc : scallop3), sc.gr.fresh → (∀ e2 ∈ sc.gr.out_edges x, e2.t ≠ x) →
      j ≤ (sc.gr.out_edges x).length → (sc.gr.out_edges x).length < fuel + j →
      init_trivial_vertex_inner_live x e1 fuel j sc =
        ((sc.gr.out_edges x).drop j).foldl (init_trivial_vertex_pair x e1) (some sc) := by
  induction fuel with
  | zero =>
    intro j sc _ _ h1 h2
    omega
  | succ fuel ih =>
    intro j sc hf hO hj hfuel
    rw [init_trivial_vertex_inner_live]
    by_cases hlt : j < (sc.gr.out_edges x).length
    · rw [List.get?_eq_getElem?, List.getElem?_eq_getElem hlt]
      simp only
      rw [List.drop_eq_getElem_cons hlt, List.foldl_cons]
      cases hp : init_trivial_vertex_pair x e1 (some sc) (sc.gr.out_edges x)[j] with
      | none =>
        simp only
        rw [init_trivial_vertex_pair_none]
      | some sc1 =>
        simp only
        obtain ⟨hf1, _, hout⟩ := init_trivial_vertex_pair_frame x e1 _ sc sc1 hf h1
          (hO _ (List.getElem_mem _)) hp
        rw [ih (j + 1) sc1 hf1 (by rw [hout]; exact hO) (by rw [hout]; omega)
          (by rw [hout]; omega), hout]
    · have hge : (sc.gr.out_edges x).length ≤ j := by omega
      rw [List.get?_eq_getElem?, List.getElem?_eq_none hge, List.drop_eq_nil_of_le hge]
      rfl

/-- Without an edge from `x` to `x`, the outer loop over the range of the edges into `x`
is the fold over these edges as they are when the loop starts. -/
theorem init_trivial_vertex_outer_live_eq (x : Nat) (fuel : Nat) :
    ∀ (i : Nat) (sc : scallop3), sc.gr.fresh → (∀ e1 ∈ sc.gr.in_edges x, e1.s ≠ x) →
      (∀ e2 ∈ sc.gr.out_edges x, e2.t ≠ x) → i ≤ (sc.gr.in_edges x).length →
      (sc.gr.in_edges x).length + (sc.gr.out_edges x).length + 2 ≤ fuel + i →
      init_trivial_vertex_outer_live x fuel i sc =
        ((sc.gr.in_edges x).drop i).foldl
          (fun st e1 => (sc.gr.out_edges x).foldl (init_trivial_vertex_pair x e1) st)
          (some sc) := by
  induction fuel with
  | zero =>
    intro i sc _ _ _ h1 h2
    omega
  | succ fuel ih =>
    intro i sc hf hI hO hi hfuel
    rw [init_trivial_vertex_outer_live]
    by_cases hlt : i < (sc.gr.in_edges x).length
    · rw [List.get?_eq_getElem?, List.getElem?_eq_getElem hlt]
      simp only
      rw [List.drop_eq_getElem_cons hlt, List.foldl_cons]
      have h1 : (sc.gr.in_edges x)[i].s ≠ x := hI _ (List.getElem_mem _)
      rw [init_trivial_vertex_inner_live_eq x _ h1 fuel 0 sc hf hO (Nat.zero_le _)
        (by omega), List.drop_zero]
      cases hp : (sc.gr.out_edges x).foldl
          (init_trivial_vertex_pair x (sc.gr.in_edges x)[i]) (some sc) with
      | none =>
        simp only
        rw [init_trivial_vertex_fold_none]
      | some sc1 =>
        simp only
        obtain ⟨hf1, hin, hout⟩ := init_trivial_vertex_inner_frame x _ h1 _ hO sc sc1 hf hp
        rw [ih (i + 1) sc1 hf1 (by rw [hin]; exact hI) (by rw [hout]; exact hO)
          (by rw [hin]; omega) (by rw [hin, hout]; omega), hin, hout]
    · have hge : (sc.gr.in_edges x).length ≤ i := by omega
      rw [List.get?_eq_getElem?, List.getElem?_eq_none hge, List.drop_eq_nil_of_le hge]
      rfl

/-- On a graph with fresh descriptors and no edge from `x` to `x`, the method
`init_trivial_vertex` with its loops over the ranges of the graph as it is at each step
does what `scallop3.init_trivial_vertex` does, as soon as it may make two iterations
more than `x` has edges. -/
theorem init_trivial_vertex_live_eq (sc : scallop3) (x : Nat) (hf : sc.gr.fresh)
    (hno : ¬ ∃ e ∈ sc.gr.edges, e.s = x ∧ e.t = x) (fuel : Nat)
    (hfuel : sc.gr.in_degree x + sc.gr.out_degree x + 2 ≤ fuel) :
    sc.init_trivial_vertex_live fuel x = sc.init_trivial_vertex x := by
  unfold scallop3.init_trivial_vertex_live scallop3.init_trivial_vertex
  simp only
  by_cases h1 : sc.gr.in_degree x ≤ 0 ∨ sc.gr.out_degree x ≤ 0
  · rw [if_pos h1, if_pos h1]
  · rw [if_neg h1, if_neg h1]
    by_cases h2 : sc.gr.in_degree x ≥ 2 ∧ sc.gr.out_degree x ≥ 2
    · rw [if_pos h2, if_pos h2]
    · rw [if_neg h2, if_neg h2, if_neg hno]
      have hI : ∀ e1 ∈ sc.gr.in_edges x, e1.s ≠ x := by
        intro e he hs
        obtain ⟨m, t⟩ := (mem_in_edges _ _ _).1 he
        exact hno ⟨e, m, hs, t⟩
      have hO : ∀ e2 ∈ sc.gr.out_edges x, e2.t ≠ x := by
        intro e he ht
        obtain ⟨m, s⟩ := (mem_out_edges _ _ _).1 he
        exact hno ⟨e, m, s, ht⟩
      rw [init_trivial_vertex_outer_live_eq x fuel 0 sc hf hI hO (Nat.zero_le _)
        (by unfold splice_graph.in_degree splice_graph.out_degree at hfuel; omega),
        List.drop_zero]

/-- For an edge `e1` out of `x`, every iteration of the inner loop adds an edge to the
range that the loop iterates: the loop does not end, whatever the number of iterations
allowed. -/
theorem init_trivial_vertex_inner_live_loop (x : Nat) (e1 : graph_edge) (h1 : e1.s = x)
    (fuel : Nat) :
    ∀ (j : Nat) (sc : scallop3), sc.gr.fresh → j < (sc.gr.out_edges x).length →
      init_trivial_vertex_inner_live x e1 fuel j sc = none := by
  induction fuel with
  | zero =>
    intro j sc _ _
    rw [init_trivial_vertex_inner_live]
  | succ fuel ih =>
    intro j sc hf hj
    rw [init_trivial_vertex_inner_live, List.get?_eq_getElem?, List.getElem?_eq_getElem hj]
    simp only
    cases hp : init_trivial_vertex_pair x e1 (some sc) (sc.gr.out_edges x)[j] with
    | none => rfl
    | some sc1 =>
      simp only
      obtain ⟨hf1, enew, hs, _, he⟩ := init_trivial_vertex_pair_edges x e1 _ sc sc1 hf hp
      apply ih (j + 1) sc1 hf1
      have hlen : (sc1.gr.out_edges x).length = (sc.gr.out_edges x).length + 1 := by
        unfold splice_graph.out_edges
        rw [he, List.filter_append]
        have : enew.s = x := by rw [hs]; exact h1
        simp [this]
      omega

/-- The inner loop, when it ends, has only appended edges. -/
theorem init_trivial_vertex_inner_live_edges (x : Nat) (e1 : graph_edge) (fuel : Nat) :
    ∀ (j : Nat) (sc sc1 : scallop3), sc.gr.fresh →
      init_trivial_vertex_inner_live x e1 fuel j sc = some sc1 →
      sc1.gr.fresh ∧ ∃ added, sc1.gr.edges = sc.gr.edges ++ added := by
  induction fuel with
  | zero =>
    intro j sc sc1 _ h
    rw [init_trivial_vertex_inner_live] at h
    cases h
  | succ fuel ih =>
    intro j sc sc1 hf h
    rw [init_trivial_vertex_inner_live] at h
    cases hg : (sc.gr.out_edges x).get? j with
    | none =>
      rw [hg] at h
      rw [← Option.some.inj h]
      exact ⟨hf, [], by simp⟩
    | some e2 =>
      rw [hg] at h
      simp only at h
      cases hp : init_trivial_vertex_pair x e1 (some sc) e2 with
      | none =>
        rw [hp] at h
        cases h
      | some sc2 =>
        rw [hp] at h
        simp only at h
        obtain ⟨hf2, enew, _, _, he⟩ := init_trivial_vertex_pair_edges x e1 e2 sc sc2 hf hp
        obtain ⟨hf1, added, ha⟩ := ih (j + 1) sc2 sc1 hf2 h
        exact ⟨hf1, enew :: added, by rw [ha, he]; simp⟩

/-- The outer loop reaches an edge from `x` to `x` that is in the range of the edges
into `x`, and does not end. -/
theorem init_trivial_vertex_outer_live_loop (x : Nat) (e : graph_edge) (hs : e.s = x)
    (d : Nat) :
    ∀ (fuel i : Nat) (sc : scallop3), sc.gr.fresh →
      (sc.gr.in_edges x)[i + d]? = some e →
      init_trivial_vertex_outer_live x fuel i sc = none := by
  induction d with
  | zero =>
    intro fuel i sc hf hget
    cases fuel with
    | zero => rw [init_trivial_vertex_outer_live]
    | succ fuel =>
      rw [init_trivial_vertex_outer_live, List.get?_eq_getElem?]
      rw [Nat.add_zero] at hget
      rw [hget]
      simp only
      have hmem : e ∈ sc.gr.out_edges x :=
        (mem_out_edges _ _ _).2 ⟨((mem_in_edges _ _ _).1 (List.getElem?_mem hget)).1, hs⟩
      rw [init_trivial_vertex_inner_live_loop x e hs fuel 0 sc hf
        (List.length_pos_of_mem hmem)]
  | succ d ih =>
    intro fuel i sc hf hget
    cases fuel with
    | zero => rw [init_trivial_vertex_outer_live]
    | succ fuel =>
      rw [init_trivial_vertex_outer_live, List.get?_eq_getElem?]
      have hlen : i + (d + 1) < (sc.gr.in_edges x).length := lt_length_of_getElem? _ _ _ hget
      rw [List.getElem?_eq_getElem (show i < (sc.gr.in_edges x).length by omega)]
      simp only
      cases hp : init_trivial_vertex_inner_live x (sc.gr.in_edges x)[i] fuel 0 sc with
      | none => rfl
      | some sc1 =>
        simp only
        obtain ⟨hf1, added, ha⟩ := init_trivial_vertex_inner_live_edges x _ fuel 0 sc sc1 hf hp
        apply ih fuel (i + 1) sc1 hf1
        have hin : sc1.gr.in_edges x = sc.gr.in_edges x ++ added.filter (fun y => y.t = x) := by
          unfold splice_graph.in_edges
          rw [ha, List.filter_append]
        rw [hin, List.getElem?_append_left (by omega)]
        rw [← hget]
        congr 1
        omega

/-- On a graph with fresh descriptors and an edge from `x` to `x`, the method
`init_trivial_vertex` with its loops over the ranges of the graph as it is at each step
does what `scallop3.init_trivial_vertex` does, whatever the number of iterations
allowed: on a trivial vertex the loops do not end. -/
theorem init_trivial_vertex_live_loop (sc : scallop3) (x : Nat) (hf : sc.gr.fresh)
    (hloop : ∃ e ∈ sc.gr.edges, e.s = x ∧ e.t = x) (fuel : Nat) :
    sc.init_trivial_vertex_live fuel x = sc.init_trivial_vertex x := by
  unfold scallop3.init_trivial_vertex_live scallop3.init_trivial_vertex
  simp only
  by_cases h1 : sc.gr.in_degree x ≤ 0 ∨ sc.gr.out_degree x ≤ 0
  · rw [if_pos h1, if_pos h1]
  · rw [if_neg h1, if_neg h1]
    by_cases h2 : sc.gr.in_degree x ≥ 2 ∧ sc.gr.out_degree x ≥ 2
    · rw [if_pos h2, if_pos h2]
    · rw [if_neg h2, if_neg h2, if_pos hloop]
      obtain ⟨e, he, hs, ht⟩ := hloop
      have hmem : e ∈ sc.gr.in_edges x := (mem_in_edges _ _ _).2 ⟨he, ht⟩
      obtain ⟨k, hk⟩ := List.mem_iff_getElem?.1 hmem
      rw [init_trivial_vertex_outer_live_loop x e hs k fuel 0 sc hf (by rw [Nat.zero_add]; exact hk)]

/-! ## Termination of `reconstruct_splice_graph` -/

/-- What `init_trivial_vertex(x)` does on a graph with super-edges and no edge from `x`
to `x`: on a vertex that is not trivial it returns `false` and changes nothing; on a
trivial vertex it returns `true`, the super-edges and the vertices are kept, `x` is left
without edges, and the graph has exactly one edge less. -/
theorem init_trivial_vertex_general (sc : scallop3) (hc : sc.covered) (x : Nat)
    (hx : ¬ ∃ e ∈ sc.gr.edges, e.s = x ∧ e.t = x) :
    (¬ sc.trivial_vertex x ∧ sc.init_trivial_vertex x = some (sc, false)) ∨
    (sc.trivial_vertex x ∧ ∃ sc1, sc.init_trivial_vertex x = some (sc1, true) ∧
      sc1.covered ∧ sc1.gr.vertices = sc.gr.vertices ∧
      sc1.gr.in_degree x = 0 ∧ sc1.gr.out_degree x = 0 ∧
      sc1.gr.edges.length + 1 = sc.gr.edges.length) := by
  unfold scallop3.init_trivial_vertex
  by_cases h1 : sc.gr.in_degree x ≤ 0 ∨ sc.gr.out_degree x ≤ 0
  · left
    refine ⟨?_, by simp only [h1, if_true]⟩
    unfold scallop3.trivial_vertex
    omega
  · by_cases h2 : sc.gr.in_degree x ≥ 2 ∧ sc.gr.out_degree x ≥ 2
    · left
      refine ⟨?_, by simp only [h1, h2, if_true, if_false, and_self]⟩
      unfold scallop3.trivial_vertex
      omega
    · right
      have ht : sc.trivial_vertex x := by
        unfold scallop3.trivial_vertex
        omega
      refine ⟨ht, ?_⟩
      obtain ⟨sc1, hs, hg⟩ := init_trivial_vertex_outer x (sc.gr.out_edges x)
        (sc.gr.in_edges x) sc
        (fun e he => hc e ((mem_in_edges _ _ _).1 he).1)
        (fun e he => hc e ((mem_out_edges _ _ _).1 he).1)
      simp only [h1, h2, hx, if_false, hs]
      have hloop : ∀ e ∈ sc.gr.edges, ¬ (e.s = x ∧ e.t = x) :=
        fun e he hcon => hx ⟨e, he, hcon⟩
      have hi1 : (sc.gr.in_edges x).length = sc.gr.in_degree x := rfl
      have ho1 : (sc.gr.out_edges x).length = sc.gr.out_degree x := rfl
      have hcount : (sc1.gr.edges.filter (fun e => ¬ (e.s = x ∨ e.t = x))).length =
          (sc.gr.edges.filter (fun e => ¬ (e.s = x ∨ e.t = x))).length +
          (((sc.gr.in_edges x).flatMap
            (fun e1 => (sc.gr.out_edges x).map (fun e2 => (e1.s, e2.t)))).filter
            (fun p => ¬ (p.1 = x ∨ p.2 = x))).length := by
        rw [length_filter_pairs, length_filter_pairs sc.gr.edges]
        have hep : sc1.gr.edges.map (fun e => (e.s, e.t)) = sc1.gr.edge_pairs := rfl
        rw [hep, hg.2.1, List.filter_append, List.length_append]
        rfl
      have hexact : (sc1.gr.edges.filter (fun e => ¬ (e.s = x ∨ e.t = x))).length + 1 =
            sc.gr.edges.length := by
        have hkeep : ((sc.gr.in_edges x).flatMap
            (fun e1 => (sc.gr.out_edges x).map (fun e2 => (e1.s, e2.t)))).filter
            (fun p => ¬ (p.1 = x ∨ p.2 = x)) = (sc.gr.in_edges x).flatMap
            (fun e1 => (sc.gr.out_edges x).map (fun e2 => (e1.s, e2.t))) := by
          rw [List.filter_eq_self]
          intro p hp
          obtain ⟨e1, he1, hp1⟩ := List.mem_flatMap.1 hp
          obtain ⟨e2, he2, rfl⟩ := List.mem_map.1 hp1
          obtain ⟨m1, t1⟩ := (mem_in_edges _ _ _).1 he1
          obtain ⟨m2, t2⟩ := (mem_out_edges _ _ _).1 he2
          rw [decide_eq_true_eq]
          rintro (h | h)
          · exact hloop e1 m1 ⟨h, t1⟩
          · exact hloop e2 m2 ⟨t2, h⟩
        rw [hcount, hkeep, length_flatMap_map]
        have hsplit := length_split_at sc.gr.edges x hloop
        have hi : (sc.gr.edges.filter (fun e => e.t = x)).length = sc.gr.in_degree x := rfl
        have ho : (sc.gr.edges.filter (fun e => e.s = x)).length = sc.gr.out_degree x := rfl
        rw [hi, ho] at hsplit
        rw [hi1, ho1, hsplit]
        rcases ht.2.2 with h | h
        · rw [h]
          omega
        · rw [h]
          omega
      refine ⟨_, rfl, ?_, hg.1, ?_, ?_, hexact⟩
      · intro e he
        exact hg.2.2.2 hc e (List.mem_of_mem_filter he)
      · show ((sc1.gr.edges.filter (fun e => ¬ (e.s = x ∨ e.t = x))).filter
          (fun e => e.t = x)).length = 0
        rw [List.length_eq_zero, List.filter_eq_nil_iff]
        intro e he
        have hthis := (List.mem_filter.1 he).2
        simp only [decide_eq_true_eq, not_or] at hthis
        simpa using hthis.2
      · show ((sc1.gr.edges.filter (fun e => ¬ (e.s = x ∨ e.t = x))).filter
          (fun e => e.s = x)).length = 0
        rw [List.length_eq_zero, List.filter_eq_nil_iff]
        intro e he
        have hthis := (List.mem_filter.1 he).2
        simp only [decide_eq_true_eq, not_or] at hthis
        simpa using hthis.1

/-- A call of `init_trivial_vertex(x)` that returns `true` was made on a vertex without
an edge from `x` to `x`. -/
theorem init_trivial_vertex_true_no_loop (sc sc1 : scallop3) (x : Nat)
    (h : sc.init_trivial_vertex x = some (sc1, true)) :
    ¬ ∃ e ∈ sc.gr.edges, e.s = x ∧ e.t = x := by
  unfold scallop3.init_trivial_vertex at h
  simp only at h
  intro hloop
  by_cases h1 : sc.gr.in_degree x ≤ 0 ∨ sc.gr.out_degree x ≤ 0
  · rw [if_pos h1] at h
    have := congrArg Prod.snd (Option.some.inj h)
    simp at this
  · rw [if_neg h1] at h
    by_cases h2 : sc.gr.in_degree x ≥ 2 ∧ sc.gr.out_degree x ≥ 2
    · rw [if_pos h2] at h
      have := congrArg Prod.snd (Option.some.inj h)
      simp at this
    · rw [if_neg h2, if_pos hloop] at h
      cases h

/-- The `for` loop of `reconstruct_splice_graph` over a list of vertices, on a state of
a class `Inv` of states with super-edges and without self-loops that the successful
calls of `init_trivial_vertex` do not leave: the loop returns, and either the state is
unchanged or the flag is set and the graph has lost edges. -/
theorem reconstruct_pass_fold_inv (Inv : scallop3 → Prop)
    (hinv : ∀ s, Inv s → s.covered ∧ ∀ e ∈ s.gr.edges, e.s ≠ e.t)
    (hstep : ∀ s x s1, Inv s → s.init_trivial_vertex x = some (s1, true) → Inv s1)
    (L : List Nat) :
    ∀ (sc : scallop3) (flag : Bool), Inv sc →
      ∃ sc1 flag1,
        L.foldl (fun (st : Option (scallop3 × Bool)) (i : Nat) =>
            match st with
            | none => none
            | some (sc, flag) =>
              match sc.init_trivial_vertex i with
              | none => none
              | some (sc, b) => some (sc, if b = true then true else flag))
          (some (sc, flag)) = some (sc1, flag1) ∧
        Inv sc1 ∧
        ((flag1 = flag ∧ sc1 = sc) ∨
         (flag1 = true ∧ sc1.gr.edges.length < sc.gr.edges.length)) := by
  induction L with
  | nil =>
    intro sc flag hc
    exact ⟨sc, flag, rfl, hc, Or.inl ⟨rfl, rfl⟩⟩
  | cons i L ih =>
    intro sc flag hc
    have hx : ¬ ∃ e ∈ sc.gr.edges, e.s = i ∧ e.t = i := by
      rintro ⟨e, he, hs, ht⟩
      exact (hinv sc hc).2 e he (hs.trans ht.symm)
    rcases init_trivial_vertex_general sc (hinv sc hc).1 i hx with
      ⟨_, hi⟩ | ⟨_, sc2, hi, _, _, _, _, hlen⟩
    · obtain ⟨sc1, flag1, hf, hc1, hcase⟩ := ih sc flag hc
      refine ⟨sc1, flag1, ?_, hc1, hcase⟩
      rw [List.foldl_cons]
      simp only [hi]
      exact hf
    · obtain ⟨sc1, flag1, hf, hc1, hcase⟩ := ih sc2 true (hstep sc i sc2 hc hi)
      refine ⟨sc1, flag1, ?_, hc1, Or.inr ?_⟩
      · rw [List.foldl_cons]
        simp only [hi]
        exact hf
      · rcases hcase with ⟨h1, h2⟩ | ⟨h1, h2⟩
        · rw [h2]
          exact ⟨h1, by omega⟩
        · exact ⟨h1, by omega⟩

/-- With more passes than edges, `reconstruct_splice_graph` returns on every state of a
class of states with super-edges and without self-loops that the successful calls of
`init_trivial_vertex` do not leave. -/
theorem reconstruct_splice_graph_terminates (Inv : scallop3 → Prop)
    (hinv : ∀ s, Inv s → s.covered ∧ ∀ e ∈ s.gr.edges, e.s ≠ e.t)
    (hstep : ∀ s x s1, Inv s → s.init_trivial_vertex x = some (s1, true) → Inv s1)
    (fuel : Nat) :
    ∀ (sc : scallop3), Inv sc → sc.gr.edges.length < fuel →
      ∃ sc1, sc.reconstruct_splice_graph fuel = some sc1 := by
  induction fuel with
  | zero => intro sc _ h; omega
  | succ fuel ih =>
    intro sc hc hlen
    obtain ⟨sc1, flag1, hp, hc1, hcase⟩ :=
      reconstruct_pass_fold_inv Inv hinv hstep (List.range sc.gr.num_vertices) sc false hc
    have hp2 : sc.reconstruct_pass = some (sc1, flag1) := hp
    rcases hcase with ⟨h1, h2⟩ | ⟨h1, h2⟩
    · refine ⟨sc1, ?_⟩
      rw [scallop3.reconstruct_splice_graph, hp2]
      simp only [h1, if_true]
    · obtain ⟨sc2, hs2⟩ := ih sc1 hc1 (by omega)
      refine ⟨sc2, ?_⟩
      rw [scallop3.reconstruct_splice_graph, hp2]
      simp only [h1, Bool.true_eq_false, if_false]
      exact hs2

/-- Claim C33, counterexample. The graph with the cycle `0 -> 1 -> 0` and the edge
`1 -> 2` has no self-loop, and its edges have super-edges. The call
`init_trivial_vertex(0)` returns `true` and leaves the edges `1 -> 2` and `1 -> 1`. In
the next call, `init_trivial_vertex(1)`, the vertex has the edge `1 -> 1` into it and
two edges out of it, and the loops over its ranges do not end, whatever the number of
iterations allowed: `reconstruct_splice_graph` does not return, whatever the number of
passes allowed. -/
theorem reconstruct_splice_graph_cycle_counterexample :
    (∀ e ∈ two_cycle_state.gr.edges, e.s ≠ e.t) ∧ two_cycle_state.covered ∧
    two_cycle_state.init_trivial_vertex 0 = some (two_cycle_after, true) ∧
    two_cycle_after.gr.edge_pairs = [(1, 2), (1, 1)] ∧
    (∀ fuel, two_cycle_after.init_trivial_vertex_live fuel 1 = none) ∧
    two_cycle_after.init_trivial_vertex 1 = none ∧
    ∀ fuel, two_cycle_state.reconstruct_splice_graph fuel = none := by
  have h1 : two_cycle_after.init_trivial_vertex 1 = none := by with_unfolding_all rfl
  refine ⟨by decide, by unfold scallop3.covered; decide, by with_unfolding_all rfl,
    by with_unfolding_all rfl, ?_, h1, ?_⟩
  · intro fuel
    rw [init_trivial_vertex_live_loop two_cycle_after 1
      (by unfold splice_graph.fresh; decide) (by decide) fuel]
    exact h1
  · intro fuel
    have hp : two_cycle_state.reconstruct_pass = none := by with_unfolding_all rfl
    cases fuel with
    | zero => rfl
    | succ fuel => rw [scallop3.reconstruct_splice_graph, hp]

/-- Claim C33, amended. On a graph with super-edges, each successful
`init_trivial_vertex(x)` leaves `x` without edges and the graph with exactly one edge
less (`x` has in-degree 1 or out-degree 1, and in-degree * out-degree new edges replace
the in-degree + out-degree edges at `x`). The method `reconstruct_splice_graph` returns,
as soon as it is allowed more passes than the graph has edges, on every graph of a
class of graphs with super-edges and without self-loops that the successful calls do
not leave, and so on every acyclic graph (the edges ascend in a ranking `r` of the
vertices). -/
theorem init_trivial_vertex_decreases (sc : scallop3) (hc : sc.covered) :
    (∀ x sc1, sc.init_trivial_vertex x = some (sc1, true) →
      (sc.gr.in_degree x = 1 ∨ sc.gr.out_degree x = 1) ∧
      sc1.gr.in_degree x = 0 ∧ sc1.gr.out_degree x = 0 ∧
      sc1.gr.edges.length + sc.gr.in_degree x + sc.gr.out_degree x =
        sc.gr.edges.length + sc.gr.in_degree x * sc.gr.out_degree x ∧
      sc1.gr.edges.length + 1 = sc.gr.edges.length) ∧
    (∀ Inv : scallop3 → Prop,
      (∀ s, Inv s → s.covered ∧ ∀ e ∈ s.gr.edges, e.s ≠ e.t) →
      (∀ s x s1, Inv s → s.init_trivial_vertex x = some (s1, true) → Inv s1) →
      Inv sc → ∀ fuel, sc.gr.edges.length < fuel →
        ∃ sc2, sc.reconstruct_splice_graph fuel = some sc2) ∧
    (∀ r : Nat → Nat, (∀ e ∈ sc.gr.edges, r e.s < r e.t) →
      ∀ fuel, sc.gr.edges.length < fuel →
        ∃ sc2, sc.reconstruct_splice_graph fuel = some sc2) := by
  refine ⟨?_, ?_, ?_⟩
  · intro x sc1 h
    have hx := init_trivial_vertex_true_no_loop sc sc1 x h
    rcases init_trivial_vertex_general sc hc x hx with
      ⟨_, hi⟩ | ⟨ht, sc2, hi, _, _, hin, hout, hone⟩
    · rw [hi] at h
      have := congrArg Prod.snd (Option.some.inj h)
      simp at this
    · rw [hi] at h
      have h3 := congrArg Prod.fst (Option.some.inj h)
      simp only at h3
      rw [← h3]
      refine ⟨ht.2.2, hin, hout, ?_, hone⟩
      rcases ht.2.2 with h4 | h4
      · rw [h4]
        omega
      · rw [h4]
        omega
  · intro Inv hinv hstep hsc fuel hlen
    exact reconstruct_splice_graph_terminates Inv hinv hstep fuel sc hsc hlen
  · intro r hr fuel hlen
    obtain ⟨sc2, hs, _, _⟩ := reconstruct_splice_graph_returns r fuel sc ⟨hr, hc⟩ hlen
    exact ⟨sc2, hs⟩

/-- Witness of `init_trivial_vertex_decreases` (claim C33) on the chain
`0 -> 1 -> 2 -> 3` with the edge `0 -> 2`, whose edges have super-edges. -/
theorem init_trivial_vertex_decreases_witness :
    chain_state.covered ∧
    ((∀ x sc1, chain_state.init_trivial_vertex x = some (sc1, true) →
      (chain_state.gr.in_degree x = 1 ∨ chain_state.gr.out_degree x = 1) ∧
      sc1.gr.in_degree x = 0 ∧ sc1.gr.out_degree x = 0 ∧
      sc1.gr.edges.length + chain_state.gr.in_degree x + chain_state.gr.out_degree x =
        chain_state.gr.edges.length +
          chain_state.gr.in_degree x * chain_state.gr.out_degree x ∧
      sc1.gr.edges.length + 1 = chain_state.gr.edges.length) ∧
    (∀ Inv : scallop3 → Prop,
      (∀ s, Inv s → s.covered ∧ ∀ e ∈ s.gr.edges, e.s ≠ e.t) →
      (∀ s x s1, Inv s → s.init_trivial_vertex x = some (s1, true) → Inv s1) →
      Inv chain_state → ∀ fuel, chain_state.gr.edges.length < fuel →
        ∃ sc2, chain_state.reconstruct_splice_graph fuel = some sc2) ∧
    (∀ r : Nat → Nat, (∀ e ∈ chain_state.gr.edges, r e.s < r e.t) →
      ∀ fuel, chain_state.gr.edges.length < fuel →
        ∃ sc2, chain_state.reconstruct_splice_graph fuel = some sc2)) :=
  ⟨by unfold scallop3.covered; decide,
    init_trivial_vertex_decreases chain_state (by unfold scallop3.covered; decide)⟩

/-- The loops of `init_trivial_vertex` over the ranges of the graph, evaluated: on the
vertex `1` of the chain `0 -> 1 -> 2 -> 3` with the edge `0 -> 2` they do what the
method does, and leave the edges `2 -> 3`, `0 -> 2` and a new edge `0 -> 2`. -/
theorem init_trivial_vertex_live_chain :
    chain_state.init_trivial_vertex_live 5 1 = chain_state.init_trivial_vertex 1 ∧
    (chain_state.init_trivial_vertex 1).map (fun r => (r.1.gr.edge_pairs, r.2)) =
      some ([(2, 3), (0, 2), (0, 2)], true) := by
  refine ⟨by with_unfolding_all rfl, by with_unfolding_all rfl⟩


/-! ## Linkable edges (`scallop3::check_linkable`, `scallop3::build_adjacent_edges`) -/

/-- The labelled path has the length of the path. -/
theorem labelled_path_length (p0 : List Int) (a b : Nat) :
    (labelled_path p0 a b).length = p0.length := by
  unfold labelled_path
  simp

/-- The entries of the labelled path. -/
theorem labelled_path_get (p0 : List Int) (a b i : Nat) (hi : i < p0.length) :
    vec_get (labelled_path p0 a b) (i : Int) =
      some (if i < a ∨ b < i then - p0.getD i 0 else p0.getD i 0) := by
  unfold vec_get labelled_path
  rw [if_pos (Int.natCast_nonneg i), Int.toNat_natCast, List.get?_eq_getElem?,
    List.getElem?_map, List.getElem?_range hi]
  rfl

/-- The path without a negated entry. -/
theorem labelled_path_full (p0 : List Int) : labelled_path p0 0 (p0.length - 1) = p0 := by
  apply List.ext_getElem?
  intro i
  unfold labelled_path
  by_cases hi : i < p0.length
  · rw [List.getElem?_map, List.getElem?_range hi]
    have hn : ¬ (i < 0 ∨ p0.length - 1 < i) := by omega
    simp only [Option.map_some', if_neg hn]
    rw [List.getD_eq_getElem?_getD, List.getElem?_eq_getElem hi]
    rfl
  · rw [List.getElem?_eq_none (by simp; omega), List.getElem?_eq_none (by omega)]

/-- Negating the entry at the left end of the part that is not negated. -/
theorem labelled_path_set_left (p0 : List Int) (a b : Nat) (ha : a < p0.length) :
    vec_set (labelled_path p0 a b) (a : Int) (- p0.getD a 0) =
      some (labelled_path p0 (a + 1) b) := by
  unfold vec_set
  rw [if_pos ⟨Int.natCast_nonneg a, by rw [Int.toNat_natCast, labelled_path_length]; exact ha⟩,
    Int.toNat_natCast]
  congr 1
  apply List.ext_getElem?
  intro i
  rw [List.getElem?_set, labelled_path_length]
  unfold labelled_path
  by_cases hi : i < p0.length
  · rw [List.getElem?_map, List.getElem?_map, List.getElem?_range hi]
    simp only [Option.map_some']
    by_cases hai : a = i
    · rw [if_pos hai, if_pos ha, hai]
      have : i < i + 1 ∨ b < i := Or.inl (by omega)
      rw [if_pos this]
    · rw [if_neg hai]
      by_cases hc : i < a ∨ b < i
      · have hc2 : i < a + 1 ∨ b < i := by omega
        rw [if_pos hc, if_pos hc2]
      · have hc2 : ¬ (i < a + 1 ∨ b < i) := by omega
        rw [if_neg hc, if_neg hc2]
  · have hai : ¬ a = i := by omega
    rw [if_neg hai, List.getElem?_eq_none (by simp; omega),
      List.getElem?_eq_none (by simp; omega)]

/-- Negating the entry at the right end of the part that is not negated. -/
theorem labelled_path_set_right (p0 : List Int) (a b : Nat) (hb : b + 1 < p0.length) :
    vec_set (labelled_path p0 a (b + 1)) ((b + 1 : Nat) : Int) (- p0.getD (b + 1) 0) =
      some (labelled_path p0 a b) := by
  unfold vec_set
  rw [if_pos ⟨Int.natCast_nonneg _, by rw [Int.toNat_natCast, labelled_path_length]; exact hb⟩,
    Int.toNat_natCast]
  congr 1
  apply List.ext_getElem?
  intro i
  rw [List.getElem?_set, labelled_path_length]
  unfold labelled_path
  by_cases hi : i < p0.length
  · rw [List.getElem?_map, List.getElem?_map, List.getElem?_range hi]
    simp only [Option.map_some']
    by_cases hbi : b + 1 = i
    · rw [if_pos hbi, if_pos hb, hbi]
      have : i < a ∨ b < i := Or.inr (by omega)
      rw [if_pos this]
    · rw [if_neg hbi]
      by_cases hc : i < a ∨ b + 1 < i
      · have hc2 : i < a ∨ b < i := by omega
        rw [if_pos hc, if_pos hc2]
      · have hc2 : ¬ (i < a ∨ b < i) := by omega
        rw [if_neg hc, if_neg hc2]
  · have hbi : ¬ b + 1 = i := by omega
    rw [if_neg hbi, List.getElem?_eq_none (by simp; omega),
      List.getElem?_eq_none (by simp; omega)]

/-- An entry of a path of positive vertex indices. -/
theorem path_entry_pos (p0 : List Int) (hpos : ∀ v ∈ p0, 0 < v ∧ v < 2147483648) (i : Nat)
    (hi : i < p0.length) : 0 < p0.getD i 0 ∧ p0.getD i 0 < 2147483648 := by
  rw [List.getD_eq_getElem?_getD, List.getElem?_eq_getElem hi]
  exact hpos _ (List.getElem_mem _)

/-- The loop of `check_linkable` on a path of positive vertex indices in which the
entries before `a` and after `b` are negated: when it returns `true`, the entries
before and after one position `k` are negated, and the entry at `k` is not. -/
theorem check_linkable_loop_labels (env : linkable_env) (p0 : List Int)
    (hpos : ∀ v ∈ p0, 0 < v ∧ v < 2147483648) (fuel : Nat) :
    ∀ (a b : Nat) (pf : List Int), a ≤ b → b < p0.length →
      check_linkable_loop env fuel (labelled_path p0 a b) (a : Int) (b : Int) =
        some (true, pf) →
      ∃ k, a ≤ k ∧ k ≤ b ∧ pf = labelled_path p0 k k := by
  induction fuel with
  | zero =>
    intro a b pf _ _ h
    unfold check_linkable_loop at h
    cases h
  | succ fuel ih =>
    intro a b pf hab hb h
    unfold check_linkable_loop at h
    by_cases hlt : (a : Int) < (b : Int)
    · have hlt2 : a < b := by omega
      rw [if_neg (not_not.mpr hlt)] at h
      have e1 : ((a : Int) + 1) = ((a + 1 : Nat) : Int) := by simp
      have e2 : ((b : Int) - 1) = ((b - 1 : Nat) : Int) := by omega
      have g1 := labelled_path_get p0 a b a (by omega)
      have g2 := labelled_path_get p0 a b b hb
      have g3 := labelled_path_get p0 a b (a + 1) (by omega)
      have g4 := labelled_path_get p0 a b (b - 1) (by omega)
      rw [if_neg (by omega)] at g1 g2 g3 g4
      rw [e1, e2, g1, g2, g3, g4] at h
      simp only at h
      have hpa := path_entry_pos p0 hpos a (by omega)
      have hpb := path_entry_pos p0 hpos b hb
      have wa : wrap32 (0 - p0.getD a 0) = - p0.getD a 0 := by
        unfold wrap32
        omega
      have wb : wrap32 (0 - p0.getD b 0) = - p0.getD b 0 := by
        unfold wrap32
        omega
      by_cases c1 : env.compute_out_ancestor (p0.getD a 0) = p0.getD (a + 1) 0 ∧
          (env.compute_in_ancestor (p0.getD a 0), p0.getD a 0) ∉ env.sis
      · rw [if_pos c1, wa, labelled_path_set_left p0 a b (by omega)] at h
        simp only at h
        obtain ⟨k, hk1, hk2, hk3⟩ := ih (a + 1) b pf (by omega) hb h
        exact ⟨k, by omega, hk2, hk3⟩
      · rw [if_neg c1] at h
        by_cases c2 : env.compute_in_ancestor (p0.getD b 0) = p0.getD (b - 1) 0 ∧
            (p0.getD b 0, env.compute_out_ancestor (p0.getD b 0)) ∉ env.sis
        · rw [if_pos c2, wb] at h
          have hb1 : b = (b - 1) + 1 := by omega
          have hset := labelled_path_set_right p0 a (b - 1) (by omega)
          rw [← hb1] at hset
          rw [hset] at h
          simp only at h
          obtain ⟨k, hk1, hk2, hk3⟩ := ih a (b - 1) pf (by omega) (by omega) h
          exact ⟨k, hk1, by omega, hk3⟩
        · rw [if_neg c2] at h
          have := congrArg Prod.fst (Option.some.inj h)
          simp at this
    · rw [if_pos hlt] at h
      have hpf : labelled_path p0 a b = pf := congrArg Prod.snd (Option.some.inj h)
      have heq : a = b := by omega
      rw [← hpf, heq]
      exact ⟨b, by omega, le_refl _, rfl⟩

/-- The absolute value of a vertex index or of its negation, as `fabs` and the
conversion back to `int` compute it. -/
theorem int_fabs_of_pos (v : Int) (h : 0 < v ∧ v < 2147483648) :
    int_fabs v = some v ∧ int_fabs (- v) = some v := by
  have h1 : |(v : ℚ)| = ((v : Int) : ℚ) := abs_of_pos (by exact_mod_cast h.1)
  have h2 : |(((- v : Int)) : ℚ)| = ((v : Int) : ℚ) := by
    rw [Int.cast_neg, abs_neg]
    exact h1
  unfold int_fabs
  rw [h1, h2]
  unfold double_to_int
  simp only [Int.floor_intCast, Int.ceil_intCast]
  split_ifs <;> first | exact ⟨rfl, rfl⟩ | omega

/-- One iteration of the loop of `build_adjacent_edges`. -/
theorem build_adjacent_edges_loop_succ (p : List Int) (fuel : Nat) (li ri l0 r0 : Int)
    (calls : List (Int × Int × Int)) :
    build_adjacent_edges_loop p (fuel + 1) li ri l0 r0 calls =
      if ¬ (li < ri) then some calls
      else
        match vec_get p li, vec_get p ri, vec_get p (li + 1), vec_get p (ri - 1) with
        | some pl, some pr, some pl2, some pr2 =>
          match int_fabs pl, int_fabs pr, int_fabs pl2, int_fabs pr2 with
          | some l1, some r1, some l2, some r2 =>
            if pl < 0 then
              build_adjacent_edges_loop p fuel (li + 1) ri l1 r0 (calls ++ [(l0, l1, l2)])
            else if pr < 0 then
              build_adjacent_edges_loop p fuel li (ri - 1) l0 r1 (calls ++ [(r2, r1, r0)])
            else none
          | _, _, _, _ => none
        | _, _, _, _ => none := rfl

/-- The loop of `build_adjacent_edges` on a path labelled around the position `k`: from
the ends `li` and `ri` it makes `ri - li` calls of `exchange` and does not reach the
failing assertion. -/
theorem build_adjacent_edges_loop_labelled (p0 : List Int)
    (hpos : ∀ v ∈ p0, 0 < v ∧ v < 2147483648) (k : Nat) (d : Nat) :
    ∀ (fuel a b : Nat) (l0 r0 : Int) (calls : List (Int × Int × Int)),
      a ≤ k → k ≤ b → b < p0.length → b - a = d → d < fuel →
      ∃ t, build_adjacent_edges_loop (labelled_path p0 k k) fuel (a : Int) (b : Int)
          l0 r0 calls = some (calls ++ t) ∧ t.length = d := by
  induction d with
  | zero =>
    intro fuel a b l0 r0 calls ha hk hb hd hf
    obtain ⟨f, rfl⟩ : ∃ f, fuel = f + 1 := ⟨fuel - 1, by omega⟩
    have hn : ¬ ((a : Int) < (b : Int)) := by omega
    rw [build_adjacent_edges_loop_succ, if_pos hn]
    exact ⟨[], by simp, rfl⟩
  | succ d ih =>
    intro fuel a b l0 r0 calls ha hk hb hd hf
    obtain ⟨f, rfl⟩ : ∃ f, fuel = f + 1 := ⟨fuel - 1, by omega⟩
    have hlt : (a : Int) < (b : Int) := by omega
    have e1 : ((a : Int) + 1) = ((a + 1 : Nat) : Int) := by simp
    have e2 : ((b : Int) - 1) = ((b - 1 : Nat) : Int) := by omega
    have g1 := labelled_path_get p0 k k a (by omega)
    have g2 := labelled_path_get p0 k k b hb
    have g3 := labelled_path_get p0 k k (a + 1) (by omega)
    have g4 := labelled_path_get p0 k k (b - 1) (by omega)
    have hpa := path_entry_pos p0 hpos a (by omega)
    have hpb := path_entry_pos p0 hpos b hb
    have hpa2 := path_entry_pos p0 hpos (a + 1) (by omega)
    have hpb2 := path_entry_pos p0 hpos (b - 1) (by omega)
    have f1 := int_fabs_of_pos _ hpa
    have f2 := int_fabs_of_pos _ hpb
    have f3 := int_fabs_of_pos _ hpa2
    have f4 := int_fabs_of_pos _ hpb2
    have f1x : int_fabs (if a < k ∨ k < a then - p0.getD a 0
        else p0.getD a 0) = some (p0.getD a 0) := by
      split_ifs
      · exact f1.2
      · exact f1.1
    have f2x : int_fabs (if b < k ∨ k < b then - p0.getD b 0
        else p0.getD b 0) = some (p0.getD b 0) := by
      split_ifs
      · exact f2.2
      · exact f2.1
    have f3x : int_fabs (if a + 1 < k ∨ k < a + 1 then - p0.getD (a + 1) 0
        else p0.getD (a + 1) 0) = some (p0.getD (a + 1) 0) := by
      split_ifs
      · exact f3.2
      · exact f3.1
    have f4x : int_fabs (if b - 1 < k ∨ k < b - 1 then - p0.getD (b - 1) 0
        else p0.getD (b - 1) 0) = some (p0.getD (b - 1) 0) := by
      split_ifs
      · exact f4.2
      · exact f4.1
    rw [build_adjacent_edges_loop_succ, if_neg (not_not.mpr hlt), e1, e2, g1, g2, g3, g4]
    simp only
    rw [f1x, f2x, f3x, f4x]
    simp only
    by_cases hak : a < k
    · have hneg : (if a < k ∨ k < a then - p0.getD a 0 else p0.getD a 0) < 0 := by
        rw [if_pos (Or.inl hak)]
        omega
      rw [if_pos hneg]
      obtain ⟨t, ht1, ht2⟩ := ih f (a + 1) b (p0.getD a 0) r0
        (calls ++ [(l0, p0.getD a 0, p0.getD (a + 1) 0)]) (by omega) hk hb (by omega)
        (by omega)
      refine ⟨(l0, p0.getD a 0, p0.getD (a + 1) 0) :: t, ?_, by simp [ht2]⟩
      rw [ht1]
      simp
    · have hnk : ¬ (a < k ∨ k < a) := by omega
      have hbk : b < k ∨ k < b := by omega
      have hnn : ¬ ((if a < k ∨ k < a then - p0.getD a 0 else p0.getD a 0) < 0) := by
        rw [if_neg hnk]
        omega
      have hneg : (if b < k ∨ k < b then - p0.getD b 0 else p0.getD b 0) < 0 := by
        rw [if_pos hbk]
        omega
      rw [if_neg hnn, if_pos hneg]
      obtain ⟨t, ht1, ht2⟩ := ih f a (b - 1) l0 (p0.getD b 0)
        (calls ++ [(p0.getD (b - 1) 0, p0.getD b 0, r0)]) ha (by omega) (by omega)
        (by omega) (by omega)
      refine ⟨(p0.getD (b - 1) 0, p0.getD b 0, r0) :: t, ?_, by simp [ht2]⟩
      rw [ht1]
      simp

/-- The call of `check_linkable` that returns `true`: a shortest path was found, and
either it is a single vertex or the loop accepted it. -/
theorem check_linkable_true (env : linkable_env) (sc : scallop3) (pin pf : List Int)
    (fuel : Nat) :
    ∀ (ex ey : Nat), sc.check_linkable env fuel ex ey pin = some (true, pf) →
      ∃ xx yy f, (env.compute_shortest_path xx yy pin).1 = true ∧
        (((env.compute_shortest_path xx yy pin).2.length = 1 ∧
            pf = (env.compute_shortest_path xx yy pin).2) ∨
          (2 ≤ (env.compute_shortest_path xx yy pin).2.length ∧
            check_linkable_loop env f (env.compute_shortest_path xx yy pin).2 0
              (((env.compute_shortest_path xx yy pin).2.length : Int) - 1) =
              some (true, pf))) := by
  induction fuel with
  | zero =>
    intro ex ey h
    unfold scallop3.check_linkable at h
    cases h
  | succ fuel ih =>
    intro ex ey h
    unfold scallop3.check_linkable at h
    split at h
    · rename_i xx yy _ _
      simp only at h
      split_ifs at h with c1 c2 c3 c4 c5 c6 c7
      · have := congrArg Prod.fst (Option.some.inj h)
        simp at this
      · exact ih ey ex h
      · have := congrArg Prod.fst (Option.some.inj h)
        simp at this
      · have hpf := congrArg Prod.snd (Option.some.inj h)
        simp only at hpf
        refine ⟨xx, yy, 0, ?_, Or.inl ⟨c6, hpf.symm⟩⟩
        simpa using c4
      · have := congrArg Prod.fst (Option.some.inj h)
        simp at this
      · refine ⟨xx, yy, fuel, ?_, Or.inr ⟨by omega, h⟩⟩
        simpa using c4
    · cases h

/-- The number of negated entries of a path labelled around the position `k`. -/
theorem labelled_path_negated (p0 : List Int) (hpos : ∀ v ∈ p0, 0 < v ∧ v < 2147483648)
    (k : Nat) (hk : k < p0.length) :
    ((labelled_path p0 k k).filter (fun v => decide (v < 0))).length = p0.length - 1 := by
  rw [← List.countP_eq_length_filter]
  unfold labelled_path
  rw [List.countP_map]
  have h1 : List.countP ((fun v => decide (v < 0)) ∘
      (fun i => if i < k ∨ k < i then - p0.getD i 0 else p0.getD i 0))
      (List.range p0.length) =
      List.countP (fun i => ! decide (i = k)) (List.range p0.length) := by
    apply List.countP_congr
    intro i hi
    have hi2 : i < p0.length := List.mem_range.mp hi
    have hp := path_entry_pos p0 hpos i hi2
    rw [List.getD_eq_getElem?_getD] at hp
    by_cases hik : i = k
    · have hn : ¬ (i < k ∨ k < i) := by omega
      simp only [Function.comp, if_neg hn]
      simp [hik]
      rw [← hik]
      omega
    · have hn : i < k ∨ k < i := by omega
      simp only [Function.comp, if_pos hn]
      simp [hik]
      omega
  rw [h1]
  have h2 := List.length_eq_countP_add_countP (fun i => decide (i = k)) (List.range p0.length)
  have h3 : List.countP (fun i => decide (i = k)) (List.range p0.length) = 1 := by
    have := List.count_eq_one_of_mem (List.nodup_range p0.length) (List.mem_range.mpr hk)
    rw [List.count] at this
    rw [← this]
    apply List.countP_congr
    intro i _
    by_cases hik : i = k
    · simp [hik]
    · have hki : ¬ k = i := fun h => hik h.symm
      simp [hik, hki]
  rw [List.length_range, h3] at h2
  have h4 : List.countP (fun i => ! decide (i = k)) (List.range p0.length) =
      List.countP (fun a => decide ¬ (decide (a = k)) = true) (List.range p0.length) := by
    apply List.countP_congr
    intro i _
    simp
  rw [h4]
  omega

/-- Claim C34. When `scallop3::check_linkable` returns `true`, a shortest path `p0` was
found; when that path has at least two entries, all of them positive vertex indices,
the returned vector is `p0` with every entry negated except the one at a single
position `k`: the negated entries are those before `k` and those after `k`, and there
are `n - 1` of them. On that labelled vector `scallop3::build_adjacent_edges`, given
two live edges and at least `n` iterations, returns after exactly `n - 1` calls of
`exchange`, without reaching `assert(false)`. -/
theorem check_linkable_labels (env : linkable_env) (sc : scallop3) (fuel ex ey : Nat)
    (pin pf : List Int)
    (h : sc.check_linkable env fuel ex ey pin = some (true, pf)) :
    ∃ xx yy, (env.compute_shortest_path xx yy pin).1 = true ∧
      (2 ≤ (env.compute_shortest_path xx yy pin).2.length →
        (∀ v ∈ (env.compute_shortest_path xx yy pin).2, 0 < v ∧ v < 2147483648) →
        ∃ k, k < (env.compute_shortest_path xx yy pin).2.length ∧
          pf = labelled_path (env.compute_shortest_path xx yy pin).2 k k ∧
          (pf.filter (fun v => decide (v < 0))).length =
            (env.compute_shortest_path xx yy pin).2.length - 1 ∧
          ∀ (sc2 : scallop3) (ex2 ey2 fuel2 : Nat),
            (sc2.edge_at ex2).isSome = true → (sc2.edge_at ey2).isSome = true →
            (env.compute_shortest_path xx yy pin).2.length ≤ fuel2 →
            ∃ calls, sc2.build_adjacent_edges fuel2 ex2 ey2 pf = some calls ∧
              calls.length = (env.compute_shortest_path xx yy pin).2.length - 1) := by
  obtain ⟨xx, yy, f, h1, h2⟩ := check_linkable_true env sc pin pf fuel ex ey h
  refine ⟨xx, yy, h1, ?_⟩
  generalize (env.compute_shortest_path xx yy pin).2 = p0 at h2 ⊢
  intro hlen hpos
  rcases h2 with ⟨h3, _⟩ | ⟨_, h3⟩
  · omega
  · have hfull := labelled_path_full p0
    have e0 : (0 : Int) = ((0 : Nat) : Int) := rfl
    have e1 : ((p0.length : Int) - 1) = ((p0.length - 1 : Nat) : Int) := by omega
    have h4 : check_linkable_loop env f (labelled_path p0 0 (p0.length - 1))
        ((0 : Nat) : Int) ((p0.length - 1 : Nat) : Int) = some (true, pf) := by
      rw [hfull, ← e1]
      exact h3
    obtain ⟨k, _, hk2, hk3⟩ := check_linkable_loop_labels env p0 hpos f 0 (p0.length - 1) pf
      (Nat.zero_le _) (by omega) h4
    have hk : k < p0.length := by omega
    refine ⟨k, hk, hk3, ?_, ?_⟩
    · rw [hk3]
      exact labelled_path_negated p0 hpos k hk
    · intro sc2 ex2 ey2 fuel2 hx hy hf
      obtain ⟨el, hel⟩ := Option.isSome_iff_exists.mp hx
      obtain ⟨er, her⟩ := Option.isSome_iff_exists.mp hy
      obtain ⟨t, ht1, ht2⟩ := build_adjacent_edges_loop_labelled p0 hpos k (p0.length - 1)
        fuel2 0 (p0.length - 1) (el.s : Int) (er.t : Int) [] (Nat.zero_le _) (by omega)
        (by omega) (by omega) (by omega)
      refine ⟨t, ?_, ht2⟩
      unfold scallop3.build_adjacent_edges
      rw [hel, her, hk3, labelled_path_length]
      simp only
      rw [e1]
      exact ht1

/-- Claim C34 on the path `1, 2, 3` between two adjacent edges: the call satisfies the
hypothesis and the conclusion holds for it. -/
theorem check_linkable_labels_witness :
    adjacent_pair_state.check_linkable chain_env 5 0 1 [] = some (true, [-1, -2, 3]) ∧
    ∃ xx yy, (chain_env.compute_shortest_path xx yy []).1 = true ∧
      (2 ≤ (chain_env.compute_shortest_path xx yy []).2.length →
        (∀ v ∈ (chain_env.compute_shortest_path xx yy []).2, 0 < v ∧ v < 2147483648) →
        ∃ k, k < (chain_env.compute_shortest_path xx yy []).2.length ∧
          [-1, -2, 3] = labelled_path (chain_env.compute_shortest_path xx yy []).2 k k ∧
          (([-1, -2, 3] : List Int).filter (fun v => decide (v < 0))).length =
            (chain_env.compute_shortest_path xx yy []).2.length - 1 ∧
          ∀ (sc2 : scallop3) (ex2 ey2 fuel2 : Nat),
            (sc2.edge_at ex2).isSome = true → (sc2.edge_at ey2).isSome = true →
            (chain_env.compute_shortest_path xx yy []).2.length ≤ fuel2 →
            ∃ calls, sc2.build_adjacent_edges fuel2 ex2 ey2 [-1, -2, 3] = some calls ∧
              calls.length = (chain_env.compute_shortest_path xx yy []).2.length - 1) :=
  ⟨by with_unfolding_all rfl,
    check_linkable_labels chain_env adjacent_pair_state 5 0 1 [] [-1, -2, 3]
      (by with_unfolding_all rfl)⟩

/-- The two functions on the path `1, 2, 3` between the adjacent edges `0 -> 1` and
`1 -> 2`: `check_linkable` returns `true` and negates the first two entries, in either
order of the two edges, and `build_adjacent_edges` then makes two calls of `exchange`;
on the unlabelled path it reaches the failing assertion. -/
theorem check_linkable_path :
    adjacent_pair_state.check_linkable chain_env 5 0 1 [] = some (true, [-1, -2, 3]) ∧
    adjacent_pair_state.check_linkable chain_env 5 1 0 [] = some (true, [-1, -2, 3]) ∧
    adjacent_pair_state.build_adjacent_edges 5 0 1 [-1, -2, 3] =
      some [(0, 1, 2), (1, 2, 3)] ∧
    adjacent_pair_state.build_adjacent_edges 5 0 1 [1, 2, 3] = none :=
  ⟨by with_unfolding_all rfl, by with_unfolding_all rfl, by with_unfolding_all rfl,
    by with_unfolding_all rfl⟩

/-! ## Edge weights of the splice graph (`bundle::build_splice_graph` and the isolated
boundaries) -/

/-- The graph of `faint_end_locus`: `build_splice_graph` makes the junction edge
`1 -> 2` of weight `1`, the edge `0 -> 1` of weight `10` and the edge `2 -> 3` of weight
`1`, and `extend_isolated_end_boundaries` adds the edge `1 -> 3` of weight `9`. -/
theorem build_extend_faint_end :
    (faint_end_locus.build_splice_graph).map (fun b =>
      (b.gr.edges.map (fun e => (e.s, e.t, e.weight)),
       b.extend_isolated_start_boundaries.extend_isolated_end_boundaries.gr.edges.map
        (fun e => (e.s, e.t, e.weight)))) =
    some ([(1, 2, 1), (0, 1, 10), (2, 3, 1)],
      [(1, 2, 1), (0, 1, 10), (2, 3, 1), (1, 3, 9)]) := by
  with_unfolding_all rfl

end Scallop
